import Mathlib

/-!
# Sankey layout

A shallow embedding of `src/echarts/chart/sankey/sankeyLayout.js` and theorems about it.

Conventions of the embedding.

* Numbers are JavaScript numbers under exact arithmetic: a finite rational, `+Infinity`,
  `-Infinity` or `NaN` (type `JSNum`).  There is no rounding, no overflow and no underflow.
  The sign of zero is not tracked: the only divisors of the program that can be zero are
  `x - 1` (an integer difference, `+0`), and sums that start from the literal `0`
  (`+0 + -0 = +0`), so every zero divisor is `+0` and `a / 0` follows the sign of `a`.
* A layout field that was never written (`undefined`) is `NaN`: the program only uses such
  fields in arithmetic and comparisons, where `undefined` behaves as `NaN`.
* Nodes and edges are referred to by their index in `graph.nodes` and `graph.edges`
  (`nodes.indexOf(node)`, `edges.indexOf(edge)`); `node.inEdges` and `node.outEdges` are lists
  of edge indices.
* `Array.prototype.sort(cmp)` is a stable sort; a comparator result that is `NaN` counts as
  `0`.  It is modelled by stable insertion sort (`jsSort`).
* The two branches `orient === 'vertical'` / otherwise of every function differ only in the
  fields they read and write.  The accessors `primaryCoord`, `secondaryCoord`, ... carry that
  branch.
-/

namespace Sankey

/-! ## Numbers -/

/-- A JavaScript number under exact arithmetic. -/
inductive JSNum where
  | fin (q : ℚ)
  | pinf
  | ninf
  | nan
  deriving DecidableEq

namespace JSNum

/-- The global function isNaN on numbers. -/
def isNaN : JSNum → Bool
  | nan => true
  | _ => false

/-- Unary minus. -/
def neg : JSNum → JSNum
  | fin a => fin (-a)
  | pinf => ninf
  | ninf => pinf
  | nan => nan

/-- The operator `+` on numbers. -/
def add : JSNum → JSNum → JSNum
  | fin a, fin b => fin (a + b)
  | fin _, pinf => pinf
  | fin _, ninf => ninf
  | pinf, fin _ => pinf
  | pinf, pinf => pinf
  | pinf, ninf => nan
  | ninf, fin _ => ninf
  | ninf, pinf => nan
  | ninf, ninf => ninf
  | nan, _ => nan
  | _, nan => nan

/-- The operator `-` on numbers: IEEE subtraction is addition of the negation. -/
def sub (a b : JSNum) : JSNum := add a (neg b)

/-- The product of a finite number with `+Infinity`. -/
def signedInf (q : ℚ) : JSNum :=
  if 0 < q then pinf else if q < 0 then ninf else nan

/-- The operator `*` on numbers. -/
def mul : JSNum → JSNum → JSNum
  | fin a, fin b => fin (a * b)
  | fin a, pinf => signedInf a
  | fin a, ninf => signedInf (-a)
  | pinf, fin b => signedInf b
  | ninf, fin b => signedInf (-b)
  | pinf, pinf => pinf
  | pinf, ninf => ninf
  | ninf, pinf => ninf
  | ninf, ninf => pinf
  | nan, _ => nan
  | _, nan => nan

/-- The operator `/` on numbers; a zero divisor is `+0`. -/
def div : JSNum → JSNum → JSNum
  | fin a, fin b => if b = 0 then signedInf a else fin (a / b)
  | fin _, pinf => fin 0
  | fin _, ninf => fin 0
  | pinf, fin b => if b < 0 then ninf else pinf
  | ninf, fin b => if b < 0 then pinf else ninf
  | pinf, pinf => nan
  | pinf, ninf => nan
  | ninf, pinf => nan
  | ninf, ninf => nan
  | nan, _ => nan
  | _, nan => nan

/-- The operator `>` on numbers (false as soon as one side is `NaN`). -/
def gt : JSNum → JSNum → Bool
  | fin a, fin b => decide (b < a)
  | fin _, ninf => true
  | pinf, fin _ => true
  | pinf, ninf => true
  | _, _ => false

/-- The operator `>=` on numbers (false as soon as one side is `NaN`). -/
def ge : JSNum → JSNum → Bool
  | fin a, fin b => decide (b ≤ a)
  | fin _, ninf => true
  | pinf, fin _ => true
  | pinf, ninf => true
  | pinf, pinf => true
  | ninf, ninf => true
  | _, _ => false

/-- The function `Math.max` on two numbers. -/
def max : JSNum → JSNum → JSNum
  | fin a, fin b => fin (Max.max a b)
  | fin _, pinf => pinf
  | fin a, ninf => fin a
  | pinf, fin _ => pinf
  | pinf, pinf => pinf
  | pinf, ninf => pinf
  | ninf, fin b => fin b
  | ninf, pinf => pinf
  | ninf, ninf => ninf
  | nan, _ => nan
  | _, nan => nan

/-- A number that is neither an infinity nor `NaN`. -/
def isFinite : JSNum → Bool
  | fin _ => true
  | _ => false

/-- The rational value of a finite number (and `0` for the others). -/
def toRat : JSNum → ℚ
  | fin q => q
  | _ => 0

end JSNum

/-- Stable sort of `Array.prototype.sort(cmp)`: `a` stays before `b` unless `cmp(a, b) > 0`. -/
def jsSort {α : Type} (cmp : α → α → JSNum) (l : List α) : List α :=
  l.insertionSort (fun a b => (cmp a b).gt (JSNum.fin 0) = false)

/-! ## Data model -/

/-- The flag `orient`. -/
inductive Orient where
  | horizontal
  | vertical
  deriving DecidableEq

/-- The layout fields of a node (`node.getLayout()`). -/
structure NodeLayout where
  x : JSNum
  y : JSNum
  dx : JSNum
  dy : JSNum
  value : JSNum
  deriving DecidableEq

/-- A node of the graph: its edge lists (edge indices) and its layout. -/
structure Node where
  inEdges : List Nat
  outEdges : List Nat
  layout : NodeLayout
  deriving DecidableEq

/-- The layout fields of an edge (`edge.getLayout()`). -/
structure EdgeLayout where
  dy : JSNum
  sy : JSNum
  ty : JSNum
  deriving DecidableEq

/-- An edge: `node1` is the source, `node2` the target, `value` is `+edge.getValue()`. -/
structure Edge where
  node1 : Nat
  node2 : Nat
  value : JSNum
  layout : EdgeLayout
  deriving DecidableEq

/-- The graph handed to the layout: `graph.nodes` and `graph.edges`. -/
structure Graph where
  nodes : List Node
  edges : List Edge
  deriving DecidableEq

/-- A layout with every field unwritten. -/
def NodeLayout.blank : NodeLayout :=
  ⟨JSNum.nan, JSNum.nan, JSNum.nan, JSNum.nan, JSNum.nan⟩

/-- The layout of node `v` (`nodes[v].getLayout()`). -/
def nodeLayout (nodes : List Node) (v : Nat) : NodeLayout :=
  match nodes[v]? with
  | some nd => nd.layout
  | none => NodeLayout.blank

/-- The list `nodes[v].outEdges`. -/
def nodeOutEdges (nodes : List Node) (v : Nat) : List Nat :=
  match nodes[v]? with
  | some nd => nd.outEdges
  | none => []

/-- The list `nodes[v].inEdges`. -/
def nodeInEdges (nodes : List Node) (v : Nat) : List Nat :=
  match nodes[v]? with
  | some nd => nd.inEdges
  | none => []

/-- The call `nodes[v].setLayout(..., true)`: the layout of node `v` is changed by `f`. -/
def setNodeLayout (nodes : List Node) (v : Nat) (f : NodeLayout → NodeLayout) : List Node :=
  nodes.modify (fun nd => { nd with layout := f nd.layout }) v

/-- The coordinate along the breadth axis: `y` when vertical, `x` otherwise. -/
def primaryCoord (orient : Orient) (l : NodeLayout) : JSNum :=
  match orient with
  | Orient.vertical => l.y
  | Orient.horizontal => l.x

/-- The size along the breadth axis: `dy` when vertical, `dx` otherwise. -/
def primarySize (orient : Orient) (l : NodeLayout) : JSNum :=
  match orient with
  | Orient.vertical => l.dy
  | Orient.horizontal => l.dx

/-- The coordinate along the depth axis: `x` when vertical, `y` otherwise. -/
def secondaryCoord (orient : Orient) (l : NodeLayout) : JSNum :=
  match orient with
  | Orient.vertical => l.x
  | Orient.horizontal => l.y

/-- The size along the depth axis: `dx` when vertical, `dy` otherwise. -/
def secondarySize (orient : Orient) (l : NodeLayout) : JSNum :=
  match orient with
  | Orient.vertical => l.dx
  | Orient.horizontal => l.dy

/-- Write the breadth coordinate. -/
def setPrimaryCoord (orient : Orient) (v : JSNum) (l : NodeLayout) : NodeLayout :=
  match orient with
  | Orient.vertical => { l with y := v }
  | Orient.horizontal => { l with x := v }

/-- Write the breadth size. -/
def setPrimarySize (orient : Orient) (v : JSNum) (l : NodeLayout) : NodeLayout :=
  match orient with
  | Orient.vertical => { l with dy := v }
  | Orient.horizontal => { l with dx := v }

/-- Write the depth coordinate. -/
def setSecondaryCoord (orient : Orient) (v : JSNum) (l : NodeLayout) : NodeLayout :=
  match orient with
  | Orient.vertical => { l with x := v }
  | Orient.horizontal => { l with y := v }

/-- Write the depth size. -/
def setSecondarySize (orient : Orient) (v : JSNum) (l : NodeLayout) : NodeLayout :=
  match orient with
  | Orient.vertical => { l with dx := v }
  | Orient.horizontal => { l with dy := v }

/-- The extent of the breadth axis: `height` when vertical, `width` otherwise. -/
def primaryExtent (orient : Orient) (width height : JSNum) : JSNum :=
  match orient with
  | Orient.vertical => height
  | Orient.horizontal => width

/-- The extent of the depth axis: `width` when vertical, `height` otherwise. -/
def secondaryExtent (orient : Orient) (width height : JSNum) : JSNum :=
  match orient with
  | Orient.vertical => width
  | Orient.horizontal => height

/-! ## Helpers of the source file -/

/-- The function `getEdgeValue`: the weight of edge `e`. -/
def getEdgeValue (edges : List Edge) (e : Nat) : JSNum :=
  match edges[e]? with
  | some ed => ed.value
  | none => JSNum.nan

/-- The function `sum`: a running total from `0` that skips every `NaN` term. -/
def sum {α : Type} (array : List α) (f : α → JSNum) : JSNum :=
  array.foldl (fun s a => if (f a).isNaN then s else s.add (f a)) (JSNum.fin 0)

/-- The function `center`: coordinate plus half the size, on the depth axis. -/
def center (orient : Orient) (nodes : List Node) (v : Nat) : JSNum :=
  (secondaryCoord orient (nodeLayout nodes v)).add
    ((secondarySize orient (nodeLayout nodes v)).div (JSNum.fin 2))

/-- The function `weightedTarget`: centre of the target times the weight. -/
def weightedTarget (orient : Orient) (nodes : List Node) (edges : List Edge) (e : Nat) : JSNum :=
  match edges[e]? with
  | some ed => (center orient nodes ed.node2).mul ed.value
  | none => JSNum.nan

/-- The function `weightedSource`: centre of the source times the weight. -/
def weightedSource (orient : Orient) (nodes : List Node) (edges : List Edge) (e : Nat) : JSNum :=
  match edges[e]? with
  | some ed => (center orient nodes ed.node1).mul ed.value
  | none => JSNum.nan

/-! ## computeNodeValues -/

/-- The function `computeNodeValues`. -/
def computeNodeValues (g : Graph) : Graph :=
  { g with
    nodes := g.nodes.map (fun node =>
      let value1 := sum node.outEdges (getEdgeValue g.edges)
      let value2 := sum node.inEdges (getEdgeValue g.edges)
      { node with layout := { node.layout with value := JSNum.max value1 value2 } }) }

/-! ## computeNodeBreadths -/

/-- The mutable variables of the Kahn loop of `computeNodeBreadths`. -/
structure KahnState where
  remainEdges : List Nat
  indegreeArr : List Int
  nextNode : List Nat
  nodes : List Node
  deriving DecidableEq

/-- The body of the loop over `node.outEdges`: mark the edge, decrement the in-degree of its
target and push the target when the in-degree reaches zero. -/
def kahnEdge (edges : List Edge) (st : KahnState) (e : Nat) : KahnState :=
  match edges[e]? with
  | none => st
  | some edge =>
    let st1 := { st with remainEdges := st.remainEdges.set e 0 }
    let nodeIndex := edge.node2
    match st1.indegreeArr[nodeIndex]? with
    | none => st1
    | some d =>
      let st2 := { st1 with indegreeArr := st1.indegreeArr.set nodeIndex (d - 1) }
      if d - 1 = 0 then { st2 with nextNode := st2.nextNode ++ [nodeIndex] } else st2

/-- The body of the loop over `zeroIndegrees`: write the level `x` and the node width, then
walk the outgoing edges. -/
def kahnNode (edges : List Edge) (orient : Orient) (nodeWidth : JSNum) (x : Nat)
    (st : KahnState) (v : Nat) : KahnState :=
  let st1 := { st with
    nodes := setNodeLayout st.nodes v (fun l =>
      setPrimarySize orient nodeWidth (setPrimaryCoord orient (JSNum.fin x) l)) }
  (nodeOutEdges st.nodes v).foldl (kahnEdge edges) st1

/-- The loop `while (zeroIndegrees.length)`, with a bound on the number of rounds; the result
is the final value of `x` and the final state. -/
def kahnLoop (edges : List Edge) (orient : Orient) (nodeWidth : JSNum) :
    Nat → Nat → List Nat → KahnState → Option (Nat × KahnState)
  | _, x, [], st => some (x, st)
  | 0, _, _ :: _, _ => none
  | fuel + 1, x, v :: vs, st =>
    let st1 := (v :: vs).foldl (kahnNode edges orient nodeWidth x) { st with nextNode := [] }
    kahnLoop edges orient nodeWidth fuel (x + 1) st1.nextNode { st1 with nextNode := [] }

/-- The state before the loop: every edge remains, the in-degrees are the lengths of the
`inEdges` lists. -/
def kahnInit (g : Graph) : KahnState :=
  { remainEdges := g.edges.map (fun _ => 1)
    indegreeArr := g.nodes.map (fun node => (node.inEdges.length : Int))
    nextNode := []
    nodes := g.nodes }

/-- The initial frontier: the nodes without incoming edges, in node order. -/
def initialZeroIndegrees (g : Graph) : List Nat :=
  (List.range g.nodes.length).filter (fun i => (nodeInEdges g.nodes i).length = 0)

/-- The function `moveSinksRight`. -/
def moveSinksRight (nodes : List Node) (x : Nat) (orient : Orient) : List Node :=
  nodes.map (fun node =>
    if node.outEdges.length = 0 then
      { node with layout := setPrimaryCoord orient (JSNum.fin ((x : ℚ) - 1)) node.layout }
    else node)

/-- The function `scaleNodeBreadths`. -/
def scaleNodeBreadths (nodes : List Node) (kx : JSNum) (orient : Orient) : List Node :=
  nodes.map (fun node =>
    { node with
      layout := setPrimaryCoord orient ((primaryCoord orient node.layout).mul kx) node.layout })

/-- The first part of `computeNodeBreadths`, up to and including `moveSinksRight`: the number
of levels `x` and the nodes with their levels, before scaling.  The loop is given
`nodes.length + 1` rounds. -/
def computeNodeLevels (g : Graph) (nodeWidth : JSNum) (orient : Orient) :
    Option (Nat × List Node) :=
  match kahnLoop g.edges orient nodeWidth (g.nodes.length + 1) 0 (initialZeroIndegrees g)
      (kahnInit g) with
  | none => none
  | some (x, st) => some (x, moveSinksRight st.nodes x orient)

/-- The scale `kx` of `computeNodeBreadths`. -/
def breadthScale (nodeWidth width height : JSNum) (orient : Orient) (x : Nat) : JSNum :=
  ((primaryExtent orient width height).sub nodeWidth).div (JSNum.fin ((x : ℚ) - 1))

/-- The function `computeNodeBreadths`. -/
def computeNodeBreadths (g : Graph) (nodeWidth width height : JSNum) (orient : Orient) :
    Option Graph :=
  match computeNodeLevels g nodeWidth orient with
  | none => none
  | some (x, nodes) =>
    some { g with nodes := scaleNodeBreadths nodes (breadthScale nodeWidth width height orient x)
                    orient }

/-! ## computeNodeDepths -/

/-- Modelled from the spec: the helper groupData of util/model is imported by the source file
and is not part of the sources at hand.  It partitions the array by key: the keys are listed
in order of first occurrence, and the bucket of a key holds the items with that key, in array
order. -/
def groupData (array : List Nat) (getKey : Nat → JSNum) : List JSNum × (JSNum → List Nat) :=
  (array.foldl (fun keys a => if getKey a ∈ keys then keys else keys ++ [getKey a]) [],
   fun key => array.filter (fun a => getKey a = key))

/-- The function `prepareNodesByBreadth`: the nodes grouped by breadth coordinate, the groups
in ascending order of the coordinate. -/
def prepareNodesByBreadth (nodes : List Node) (orient : Orient) : List (List Nat) :=
  let groupResult := groupData (List.range nodes.length)
    (fun v => primaryCoord orient (nodeLayout nodes v))
  let keys := jsSort (fun a b => a.sub b) groupResult.1
  keys.map groupResult.2

/-- The candidate scale of one group in `initializeNodeDepth`. -/
def groupKy (nodes : List Node) (secExtent nodeGap : JSNum) (grp : List Nat) : JSNum :=
  let n := grp.length
  let sum := grp.foldl (fun s v => s.add (nodeLayout nodes v).value) (JSNum.fin 0)
  (secExtent.sub ((JSNum.fin ((n : ℚ) - 1)).mul nodeGap)).div sum

/-- The shared scale `ky0` of `initializeNodeDepth`: the first element of the sorted array of
candidate scales (`undefined` for an empty array). -/
def sharedKy (nodes : List Node) (nodesByBreadth : List (List Nat)) (secExtent nodeGap : JSNum) :
    JSNum :=
  match jsSort (fun a b => a.sub b) (nodesByBreadth.map (groupKy nodes secExtent nodeGap)) with
  | [] => JSNum.nan
  | ky0 :: _ => ky0

/-- The body of the second loop of `initializeNodeDepth` for the node `iv.2` at index `iv.1`
of its group: the depth coordinate is the index, the depth size is the value times `ky0`. -/
def placeNode (orient : Orient) (ky0 : JSNum) (nodes : List Node) (iv : Nat × Nat) :
    List Node :=
  let nodeDy := (nodeLayout nodes iv.2).value.mul ky0
  setNodeLayout nodes iv.2 (fun l =>
    setSecondarySize orient nodeDy (setSecondaryCoord orient (JSNum.fin iv.1) l))

/-- The second loop of `initializeNodeDepth` over one group. -/
def placeGroup (orient : Orient) (ky0 : JSNum) (nodes : List Node) (grp : List Nat) :
    List Node :=
  grp.enum.foldl (placeNode orient ky0) nodes

/-- The function `initializeNodeDepth`. -/
def initializeNodeDepth (g : Graph) (nodesByBreadth : List (List Nat))
    (height width nodeGap : JSNum) (orient : Orient) : Graph :=
  let ky0 := sharedKy g.nodes nodesByBreadth (secondaryExtent orient width height) nodeGap
  let nodes1 := nodesByBreadth.foldl (placeGroup orient ky0) g.nodes
  let edges1 := g.edges.map (fun edge =>
    { edge with layout := { edge.layout with dy := edge.value.mul ky0 } })
  { nodes := nodes1, edges := edges1 }

/-- The depth coordinate of node `v`. -/
def coordOf (orient : Orient) (nodes : List Node) (v : Nat) : JSNum :=
  secondaryCoord orient (nodeLayout nodes v)

/-- The depth size of node `v`. -/
def sizeOf (orient : Orient) (nodes : List Node) (v : Nat) : JSNum :=
  secondarySize orient (nodeLayout nodes v)

/-- Write the depth coordinate of node `v`. -/
def setCoord (orient : Orient) (nodes : List Node) (v : Nat) (c : JSNum) : List Node :=
  setNodeLayout nodes v (setSecondaryCoord orient c)

/-- One step of the first loop of `resolveCollisions`: push node `v` down to the floor `y0`
when it lies above it, and move the floor below the node. -/
def pushDown (orient : Orient) (nodeGap : JSNum) (st : List Node × JSNum) (v : Nat) :
    List Node × JSNum :=
  let dy := st.2.sub (coordOf orient st.1 v)
  let nodes1 := if dy.gt (JSNum.fin 0) then
      setCoord orient st.1 v ((coordOf orient st.1 v).add dy)
    else st.1
  (nodes1, ((coordOf orient nodes1 v).add (sizeOf orient nodes1 v)).add nodeGap)

/-- One step of the second loop of `resolveCollisions`: pull node `v` up so that it ends
above `y0`, and move `y0` to the node. -/
def pushUp (orient : Orient) (nodeGap : JSNum) (st : List Node × JSNum) (v : Nat) :
    List Node × JSNum :=
  let dy := (((coordOf orient st.1 v).add (sizeOf orient st.1 v)).add nodeGap).sub st.2
  let nodes1 := if dy.gt (JSNum.fin 0) then
      setCoord orient st.1 v ((coordOf orient st.1 v).sub dy)
    else st.1
  (nodes1, coordOf orient nodes1 v)

/-- The body of `resolveCollisions` for one group: sort the group by depth coordinate, sweep
forward, and sweep back when the last node leaves the extent.  The result is the sorted group
and the nodes; there is no result when the source would read the last node of an empty
group. -/
def resolveGroup (orient : Orient) (nodeGap secExtent : JSNum) (nodes : List Node)
    (grp : List Nat) : Option (List Nat × List Node) :=
  let sorted := jsSort (fun a b => (coordOf orient nodes a).sub (coordOf orient nodes b)) grp
  let fwd := sorted.foldl (pushDown orient nodeGap) (nodes, JSNum.fin 0)
  let dy := (fwd.2.sub nodeGap).sub secExtent
  if dy.gt (JSNum.fin 0) then
    match sorted.reverse with
    | [] => none
    | last :: rest =>
      let nodeY := (coordOf orient fwd.1 last).sub dy
      let nodes2 := setCoord orient fwd.1 last nodeY
      some (sorted, (rest.foldl (pushUp orient nodeGap) (nodes2, nodeY)).1)
  else some (sorted, fwd.1)

/-- The loop of `resolveCollisions` over the groups: the groups already done (sorted in
place), then the nodes. -/
def resolveGroups (orient : Orient) (nodeGap secExtent : JSNum) :
    List (List Nat) → List Node → Option (List (List Nat) × List Node)
  | [], nodes => some ([], nodes)
  | grp :: rest, nodes =>
    match resolveGroup orient nodeGap secExtent nodes grp with
    | none => none
    | some (sorted, nodes1) =>
      match resolveGroups orient nodeGap secExtent rest nodes1 with
      | none => none
      | some (rest1, nodes2) => some (sorted :: rest1, nodes2)

/-- The function `resolveCollisions`. -/
def resolveCollisions (nodesByBreadth : List (List Nat)) (nodes : List Node)
    (nodeGap height width : JSNum) (orient : Orient) : Option (List (List Nat) × List Node) :=
  resolveGroups orient nodeGap (secondaryExtent orient width height) nodesByBreadth nodes

/-- The body of `relaxRightToLeft` for one node. -/
def relaxNodeRight (orient : Orient) (edges : List Edge) (alpha : JSNum) (nodes : List Node)
    (v : Nat) : List Node :=
  if (nodeOutEdges nodes v).length ≠ 0 then
    let y := (sum (nodeOutEdges nodes v) (weightedTarget orient nodes edges)).div
      (sum (nodeOutEdges nodes v) (getEdgeValue edges))
    setCoord orient nodes v ((coordOf orient nodes v).add ((y.sub (center orient nodes v)).mul alpha))
  else nodes

/-- The function `relaxRightToLeft`: the groups are visited last to first. -/
def relaxRightToLeft (nodesByBreadth : List (List Nat)) (nodes : List Node) (edges : List Edge)
    (alpha : JSNum) (orient : Orient) : List Node :=
  nodesByBreadth.reverse.foldl (fun acc grp => grp.foldl (relaxNodeRight orient edges alpha) acc)
    nodes

/-- The body of `relaxLeftToRight` for one node. -/
def relaxNodeLeft (orient : Orient) (edges : List Edge) (alpha : JSNum) (nodes : List Node)
    (v : Nat) : List Node :=
  if (nodeInEdges nodes v).length ≠ 0 then
    let y := (sum (nodeInEdges nodes v) (weightedSource orient nodes edges)).div
      (sum (nodeInEdges nodes v) (getEdgeValue edges))
    setCoord orient nodes v ((coordOf orient nodes v).add ((y.sub (center orient nodes v)).mul alpha))
  else nodes

/-- The function `relaxLeftToRight`: the groups are visited first to last. -/
def relaxLeftToRight (nodesByBreadth : List (List Nat)) (nodes : List Node) (edges : List Edge)
    (alpha : JSNum) (orient : Orient) : List Node :=
  nodesByBreadth.foldl (fun acc grp => grp.foldl (relaxNodeLeft orient edges alpha) acc) nodes

/-- The loop of `computeNodeDepths`: `iterations` rounds, the coefficient `alpha` is
multiplied by 0.99 at the start of each round. -/
def relaxLoop (edges : List Edge) (nodeGap height width : JSNum) (orient : Orient) :
    Nat → JSNum → List (List Nat) → List Node → Option (List (List Nat) × List Node)
  | 0, _, nodesByBreadth, nodes => some (nodesByBreadth, nodes)
  | iterations + 1, alpha, nodesByBreadth, nodes =>
    let alpha1 := alpha.mul (JSNum.fin (99 / 100))
    let nodes1 := relaxRightToLeft nodesByBreadth nodes edges alpha1 orient
    match resolveCollisions nodesByBreadth nodes1 nodeGap height width orient with
    | none => none
    | some (nodesByBreadth2, nodes2) =>
      let nodes3 := relaxLeftToRight nodesByBreadth2 nodes2 edges alpha1 orient
      match resolveCollisions nodesByBreadth2 nodes3 nodeGap height width orient with
      | none => none
      | some (nodesByBreadth4, nodes4) =>
        relaxLoop edges nodeGap height width orient iterations alpha1 nodesByBreadth4 nodes4

/-- The function `computeNodeDepths`. -/
def computeNodeDepths (g : Graph) (height width nodeGap : JSNum) (iterations : Nat)
    (orient : Orient) : Option Graph :=
  let nodesByBreadth := prepareNodesByBreadth g.nodes orient
  let g1 := initializeNodeDepth g nodesByBreadth height width nodeGap orient
  match resolveCollisions nodesByBreadth g1.nodes nodeGap height width orient with
  | none => none
  | some (nodesByBreadth1, nodes1) =>
    match relaxLoop g1.edges nodeGap height width orient iterations (JSNum.fin 1)
        nodesByBreadth1 nodes1 with
    | none => none
    | some (_, nodes2) => some { g1 with nodes := nodes2 }

/-! ## computeEdgeDepths -/

/-- The depth coordinate of the target of edge `e` (`e.node2.getLayout()`). -/
def targetCoord (orient : Orient) (nodes : List Node) (edges : List Edge) (e : Nat) : JSNum :=
  match edges[e]? with
  | some ed => coordOf orient nodes ed.node2
  | none => JSNum.nan

/-- The depth coordinate of the source of edge `e` (`e.node1.getLayout()`). -/
def sourceCoord (orient : Orient) (nodes : List Node) (edges : List Edge) (e : Nat) : JSNum :=
  match edges[e]? with
  | some ed => coordOf orient nodes ed.node1
  | none => JSNum.nan

/-- The thickness `dy` of edge `e`. -/
def edgeDy (edges : List Edge) (e : Nat) : JSNum :=
  match edges[e]? with
  | some ed => ed.layout.dy
  | none => JSNum.nan

/-- The first loop of `computeEdgeDepths`: both edge lists of every node are sorted by the
depth coordinate of the node at the other end. -/
def sortEdgeLists (g : Graph) (orient : Orient) : List Node :=
  g.nodes.map (fun node =>
    { node with
      outEdges := jsSort (fun a b =>
        (targetCoord orient g.nodes g.edges a).sub (targetCoord orient g.nodes g.edges b))
        node.outEdges
      inEdges := jsSort (fun a b =>
        (sourceCoord orient g.nodes g.edges a).sub (sourceCoord orient g.nodes g.edges b))
        node.inEdges })

/-- One step over `node.outEdges` in the second loop: write `sy`, then advance it by `dy`. -/
def stackSource (st : List Edge × JSNum) (e : Nat) : List Edge × JSNum :=
  let edges1 := st.1.modify (fun ed => { ed with layout := { ed.layout with sy := st.2 } }) e
  (edges1, st.2.add (edgeDy edges1 e))

/-- One step over `node.inEdges` in the second loop: write `ty`, then advance it by `dy`. -/
def stackTarget (st : List Edge × JSNum) (e : Nat) : List Edge × JSNum :=
  let edges1 := st.1.modify (fun ed => { ed with layout := { ed.layout with ty := st.2 } }) e
  (edges1, st.2.add (edgeDy edges1 e))

/-- The body of the second loop of `computeEdgeDepths` for one node. -/
def stackNode (edges : List Edge) (node : Node) : List Edge :=
  let edges1 := (node.outEdges.foldl stackSource (edges, JSNum.fin 0)).1
  (node.inEdges.foldl stackTarget (edges1, JSNum.fin 0)).1

/-- The function `computeEdgeDepths`. -/
def computeEdgeDepths (g : Graph) (orient : Orient) : Graph :=
  let nodes1 := sortEdgeLists g orient
  { nodes := nodes1, edges := nodes1.foldl stackNode g.edges }

/-! ## The pipeline -/

/-- The function `layoutSankey`. -/
def layoutSankey (g : Graph) (nodeWidth nodeGap width height : JSNum) (iterations : Nat)
    (orient : Orient) : Option Graph :=
  match computeNodeBreadths g nodeWidth width height orient with
  | none => none
  | some g1 =>
    match computeNodeDepths g1 height width nodeGap iterations orient with
    | none => none
    | some g2 => some (computeEdgeDepths g2 orient)

/-- The default export for one series: `computeNodeValues`, the choice of the iteration
count (no relaxation as soon as one node has value `0`), then `layoutSankey`. -/
def sankeyLayout (g : Graph) (nodeWidth nodeGap width height : JSNum) (layoutIterations : Nat)
    (orient : Orient) : Option Graph :=
  let g1 := computeNodeValues g
  let filteredNodes := g1.nodes.filter (fun node => node.layout.value = JSNum.fin 0)
  let iterations := if filteredNodes.length ≠ 0 then 0 else layoutIterations
  layoutSankey g1 nodeWidth nodeGap width height iterations orient

/-! ## Well-formed and acyclic graphs -/

/-- The edge relation of the graph: some edge of `graph.edges` goes from `u` to `v`. -/
def edgeRel (g : Graph) (u v : Nat) : Prop :=
  ∃ ed ∈ g.edges, ed.node1 = u ∧ ed.node2 = v

/-- The graph has no directed cycle. -/
def Acyclic (g : Graph) : Prop :=
  ∀ v, ¬ Relation.TransGen (edgeRel g) v v

/-- The indices of the edges of `edges` that leave node `v`, in ascending order. -/
def edgesFrom (edges : List Edge) (v : Nat) : List Nat :=
  (List.range edges.length).filter (fun e =>
    decide ((edges[e]?).map (fun ed => ed.node1) = some v))

/-- The indices of the edges of `edges` that enter node `v`, in ascending order. -/
def edgesInto (edges : List Edge) (v : Nat) : List Nat :=
  (List.range edges.length).filter (fun e =>
    decide ((edges[e]?).map (fun ed => ed.node2) = some v))

/-- A well-formed graph: the end points of every edge are nodes, and the `outEdges`
(`inEdges`) of every node hold exactly the edges that leave (enter) it, each once, in any
order. -/
structure WellFormed (g : Graph) : Prop where
  node1_lt : ∀ ed ∈ g.edges, ed.node1 < g.nodes.length
  node2_lt : ∀ ed ∈ g.edges, ed.node2 < g.nodes.length
  outEdges_perm : ∀ v, v < g.nodes.length → (nodeOutEdges g.nodes v).Perm (edgesFrom g.edges v)
  inEdges_perm : ∀ v, v < g.nodes.length → (nodeInEdges g.nodes v).Perm (edgesInto g.edges v)

/-! ## Specification-side definitions -/

/-- What a weight contributes to a sum, in the words of the specification: a weight that is
`NaN` (non-numeric) contributes `0`, any other weight contributes itself. -/
def specContribution (w : JSNum) : JSNum :=
  if w.isNaN then JSNum.fin 0 else w

/-- The sum of the weights of a list of edges, in the words of the specification: the sum of
the contributions of the edges. -/
def specWeightSum (edges : List Edge) (es : List Nat) : JSNum :=
  (es.map (fun e => specContribution (getEdgeValue edges e))).foldr JSNum.add (JSNum.fin 0)

/-! ## Auxiliary definitions of the proofs -/

/-- The number of positive residual in-degrees. -/
def positives (indeg : List Int) : Nat := indeg.countP (fun d => decide (0 < d))

/-- The edge lists of the nodes, without the layouts. -/
def edgeLists (nodes : List Node) : List (List Nat × List Nat) :=
  nodes.map (fun nd => (nd.inEdges, nd.outEdges))

/-- The layout change of the Kahn loop at level `k`. -/
def levelField (orient : Orient) (nodeWidth : JSNum) (k : Nat) (l : NodeLayout) : NodeLayout :=
  setPrimarySize orient nodeWidth (setPrimaryCoord orient (JSNum.fin k) l)

/-- The effect of one edge of the Kahn loop on the in-degrees and on the next frontier, as a
function of the target of the edge. -/
def decr (p : List Int × List Nat) (t : Nat) : List Int × List Nat :=
  match p.1[t]? with
  | none => p
  | some d => (p.1.set t (d - 1), if d - 1 = 0 then p.2 ++ [t] else p.2)

/-- The targets of a list of edge indices. -/
def edgeTargets (edges : List Edge) (es : List Nat) : List Nat :=
  es.filterMap (fun e => (edges[e]?).map (fun ed => ed.node2))

/-- The residual in-degree of node `t` once the nodes of `done` are removed: the number of
edges into `t` whose source is not in `done`. -/
def residual (edges : List Edge) (done : List Nat) (t : Nat) : Nat :=
  edges.countP (fun ed => decide (ed.node2 = t ∧ ed.node1 ∉ done))

/-- The frontier of a levelling round, in the words of the specification: the nodes not yet
levelled whose residual in-degree is zero. -/
def specFrontier (n : Nat) (edges : List Edge) (done : List Nat) : List Nat :=
  (List.range n).filter (fun v => decide (v ∉ done ∧ residual edges done v = 0))

/-- The nodes levelled before round `k`, in the words of the specification. -/
def specDone (n : Nat) (edges : List Edge) : Nat → List Nat
  | 0 => []
  | k + 1 => specDone n edges k ++ specFrontier n edges (specDone n edges k)

/-- The targets of the edges walked in one round of the Kahn loop over the frontier `zs`. -/
def roundTargets (edges : List Edge) (nodes : List Node) (zs : List Nat) : List Nat :=
  zs.flatMap (fun v => edgeTargets edges (nodeOutEdges nodes v))

/-- The nodes after the layout `f` is applied at every node of `zs`. -/
def setLayouts (nodes : List Node) (zs : List Nat) (f : NodeLayout → NodeLayout) : List Node :=
  zs.foldl (fun ns v => setNodeLayout ns v f) nodes

/-- The invariant of the Kahn loop of a well-formed graph at the head of round `k`, with
frontier `zs` and state `st`. -/
structure KahnInv (g : Graph) (orient : Orient) (nodeWidth : JSNum) (k : Nat) (zs : List Nat)
    (st : KahnState) : Prop where
  lists : edgeLists st.nodes = edgeLists g.nodes
  indeg_length : st.indegreeArr.length = g.nodes.length
  indeg : ∀ t, t < g.nodes.length →
    st.indegreeArr[t]? = some (residual g.edges (specDone g.nodes.length g.edges k) t : Int)
  frontier : ∀ v, v ∈ zs ↔ v ∈ specFrontier g.nodes.length g.edges
    (specDone g.nodes.length g.edges k)
  nodup : zs.Nodup
  levelled : ∀ j, j < k → ∀ v ∈ specFrontier g.nodes.length g.edges
    (specDone g.nodes.length g.edges j),
    nodeLayout st.nodes v = levelField orient nodeWidth j (nodeLayout g.nodes v)
  untouched : ∀ v, v ∉ specDone g.nodes.length g.edges k →
    nodeLayout st.nodes v = nodeLayout g.nodes v

/-- The source offset `sy` of edge `e`. -/
def edgeSy (edges : List Edge) (e : Nat) : JSNum :=
  match edges[e]? with
  | some ed => ed.layout.sy
  | none => JSNum.nan

/-- The target offset `ty` of edge `e`. -/
def edgeTy (edges : List Edge) (e : Nat) : JSNum :=
  match edges[e]? with
  | some ed => ed.layout.ty
  | none => JSNum.nan

/-- The running offset before the `k`-th edge of the list `es`: the sum, from `s0`, of the
thicknesses of the edges before it. -/
def offsetAt (dy : Nat → JSNum) (es : List Nat) (s0 : JSNum) (k : Nat) : JSNum :=
  ((es.take k).map dy).foldl JSNum.add s0

/-- The edges without their layouts. -/
def edgeEnds (edges : List Edge) : List (Nat × Nat × JSNum) :=
  edges.map (fun ed => (ed.node1, ed.node2, ed.value))

/-- Node `b` starts at or after the end of node `a` plus the gap:
`coord(b) >= coord(a) + size(a) + gap`, as the program would evaluate it. -/
def Separated (orient : Orient) (gap : JSNum) (nodes : List Node) (a b : Nat) : Prop :=
  (coordOf orient nodes b).ge
    (((coordOf orient nodes a).add (sizeOf orient nodes a)).add gap) = true

/-- Node `b` is not before node `a`: `coord(b) >= coord(a)`, as the program would evaluate
it. -/
def Ascending (orient : Orient) (nodes : List Node) (a b : Nat) : Prop :=
  (coordOf orient nodes b).ge (coordOf orient nodes a) = true

/-- The rational form of `Separated` for nodes of sizes `s`. -/
def SepQ (orient : Orient) (gap : ℚ) (s : Nat → ℚ) (nodes : List Node) (a b : Nat) : Prop :=
  ∃ ca cb, coordOf orient nodes a = JSNum.fin ca ∧ coordOf orient nodes b = JSNum.fin cb ∧
    ca + s a + gap ≤ cb

/-- Two node lists with the same number of nodes whose edge lists are permutations of each
other, node by node. -/
def ListsEquiv (ns ns' : List Node) : Prop :=
  ns.length = ns'.length ∧
    ∀ v, (nodeOutEdges ns v).Perm (nodeOutEdges ns' v) ∧
      (nodeInEdges ns v).Perm (nodeInEdges ns' v)

/-- Two node lists that agree on every layout and whose edge lists are permutations of each
other. -/
def NodesEquiv (ns ns' : List Node) : Prop :=
  ListsEquiv ns ns' ∧ ∀ v, nodeLayout ns v = nodeLayout ns' v

/-- Two node lists that agree on the breadth coordinate, the breadth size and the value of
every node. -/
def PrimaryAgree (orient : Orient) (ns ns' : List Node) : Prop :=
  ∀ v, primaryCoord orient (nodeLayout ns v) = primaryCoord orient (nodeLayout ns' v) ∧
    primarySize orient (nodeLayout ns v) = primarySize orient (nodeLayout ns' v) ∧
    (nodeLayout ns v).value = (nodeLayout ns' v).value

/-- Two graphs with the same edges (end points and weights) and node lists whose edge lists
are permutations of each other; the layouts are not compared. -/
def GraphEquiv (g g' : Graph) : Prop :=
  edgeEnds g.edges = edgeEnds g'.edges ∧ ListsEquiv g.nodes g'.nodes

/-- Two results of the collision or of the relaxation code that agree: both are missing, or
both are there with the same groups and with equivalent nodes. -/
def ResEquiv {α : Type} (r r' : Option (α × List Node)) : Prop :=
  match r, r' with
  | some a, some b => a.1 = b.1 ∧ NodesEquiv a.2 b.2
  | none, none => True
  | _, _ => False

/-- The relation between two runs of the second loop of `initializeNodeDepth`: the edge lists
are permutations of each other, the breadth fields and the values agree, and the nodes of `P`
(the nodes placed so far) have the same layout. -/
def InitRel (orient : Orient) (P : Nat → Prop) (ns ns' : List Node) : Prop :=
  ListsEquiv ns ns' ∧ PrimaryAgree orient ns ns' ∧
    ∀ v, P v → nodeLayout ns v = nodeLayout ns' v
/-! ## Example graphs -/

/-- An edge layout with every field unwritten. -/
def EdgeLayout.blank : EdgeLayout :=
  ⟨JSNum.nan, JSNum.nan, JSNum.nan⟩

/-- Scenario A of the specification: nodes A, B, C (0, 1, 2) and the edges A -> B and
B -> C, both of weight 2. -/
def chainGraph : Graph :=
  { nodes := [⟨[], [0], NodeLayout.blank⟩, ⟨[0], [1], NodeLayout.blank⟩,
      ⟨[1], [], NodeLayout.blank⟩]
    edges := [⟨0, 1, JSNum.fin 2, EdgeLayout.blank⟩, ⟨1, 2, JSNum.fin 2, EdgeLayout.blank⟩] }

/-- Scenario B of the specification: the sources A (0) and B (1) both flow into C (2), with
weights 1 and 3. -/
def mergeGraph : Graph :=
  { nodes := [⟨[], [0], NodeLayout.blank⟩, ⟨[], [1], NodeLayout.blank⟩,
      ⟨[0, 1], [], NodeLayout.blank⟩]
    edges := [⟨0, 2, JSNum.fin 1, EdgeLayout.blank⟩, ⟨1, 2, JSNum.fin 3, EdgeLayout.blank⟩] }

/-- A graph with one node and no edge. -/
def singleNodeGraph : Graph :=
  { nodes := [⟨[], [], NodeLayout.blank⟩]
    edges := [] }

/-- A graph with a zero-weight edge: X (0), A (1), T (2) and the edges X -> A of weight 1,
A -> T of weight 0 and X -> T of weight 1.  Every node has a positive value, and the
outgoing weights of A sum to 0. -/
def zeroFlowGraph : Graph :=
  { nodes := [⟨[], [0, 2], NodeLayout.blank⟩, ⟨[0], [1], NodeLayout.blank⟩,
      ⟨[1, 2], [], NodeLayout.blank⟩]
    edges := [⟨0, 1, JSNum.fin 1, EdgeLayout.blank⟩, ⟨1, 2, JSNum.fin 0, EdgeLayout.blank⟩,
      ⟨0, 2, JSNum.fin 1, EdgeLayout.blank⟩] }

/-- The mirror image of `zeroFlowGraph`: S (0), A (1), Y (2) and the edges S -> A of weight 0,
A -> Y of weight 1 and S -> Y of weight 1.  The incoming weights of A sum to 0. -/
def zeroInflowGraph : Graph :=
  { nodes := [⟨[], [0, 2], NodeLayout.blank⟩, ⟨[0], [1], NodeLayout.blank⟩,
      ⟨[1, 2], [], NodeLayout.blank⟩]
    edges := [⟨0, 1, JSNum.fin 0, EdgeLayout.blank⟩, ⟨1, 2, JSNum.fin 1, EdgeLayout.blank⟩,
      ⟨0, 2, JSNum.fin 1, EdgeLayout.blank⟩] }

/-- A graph with a node of value 0: X (0), A (1), T (2) and the edges X -> A of weight 0,
A -> T of weight 0 and X -> T of weight 1. -/
def zeroValueGraph : Graph :=
  { nodes := [⟨[], [0, 2], NodeLayout.blank⟩, ⟨[0], [1], NodeLayout.blank⟩,
      ⟨[1, 2], [], NodeLayout.blank⟩]
    edges := [⟨0, 1, JSNum.fin 0, EdgeLayout.blank⟩, ⟨1, 2, JSNum.fin 0, EdgeLayout.blank⟩,
      ⟨0, 2, JSNum.fin 1, EdgeLayout.blank⟩] }

/-- Scenario B after `computeNodeBreadths` and `computeNodeDepths` with extent 300 by 200,
node width 20, gap 8 and no iteration: the graph handed to `computeEdgeDepths`. -/
def mergeLaidOut : Graph :=
  { nodes := [⟨[], [0], ⟨JSNum.fin 0, JSNum.fin 0, JSNum.fin 20, JSNum.fin 48, JSNum.fin 1⟩⟩,
      ⟨[], [1], ⟨JSNum.fin 0, JSNum.fin 56, JSNum.fin 20, JSNum.fin 144, JSNum.fin 3⟩⟩,
      ⟨[0, 1], [], ⟨JSNum.fin 280, JSNum.fin 0, JSNum.fin 20, JSNum.fin 192, JSNum.fin 4⟩⟩]
    edges := [⟨0, 2, JSNum.fin 1, ⟨JSNum.fin 48, JSNum.nan, JSNum.nan⟩⟩,
      ⟨1, 2, JSNum.fin 3, ⟨JSNum.fin 144, JSNum.nan, JSNum.nan⟩⟩] }

/-- Three overlapping nodes of one level: depth coordinates 5, 0 and 3, depth sizes 10. -/
def overlapNodes : List Node :=
  [⟨[], [], ⟨JSNum.fin 0, JSNum.fin 5, JSNum.fin 20, JSNum.fin 10, JSNum.fin 1⟩⟩,
    ⟨[], [], ⟨JSNum.fin 0, JSNum.fin 0, JSNum.fin 20, JSNum.fin 10, JSNum.fin 1⟩⟩,
    ⟨[], [], ⟨JSNum.fin 0, JSNum.fin 3, JSNum.fin 20, JSNum.fin 10, JSNum.fin 1⟩⟩]


/-- A graph whose first node lists its edges against the order of the layout: A (0), B (1),
C (2) and the edges A -> C of weight 1 and A -> B of weight 2, listed in that order by A, while
B comes to lie above C. -/
def crossGraph : Graph :=
  { nodes := [⟨[], [0, 1], NodeLayout.blank⟩, ⟨[1], [], NodeLayout.blank⟩,
      ⟨[0], [], NodeLayout.blank⟩]
    edges := [⟨0, 2, JSNum.fin 1, EdgeLayout.blank⟩, ⟨0, 1, JSNum.fin 2, EdgeLayout.blank⟩] }
/-! ## Further example graphs -/

/-- The graph `crossGraph` carrying layout fields from elsewhere: every node and every edge
has arbitrary numbers in its layout. -/
def crossGraphStale : Graph :=
  { nodes := [⟨[], [0, 1], ⟨JSNum.fin 7, JSNum.fin 3, JSNum.fin 1, JSNum.fin 9, JSNum.fin 5⟩⟩,
      ⟨[1], [], ⟨JSNum.fin 2, JSNum.fin 8, JSNum.fin 4, JSNum.fin 6, JSNum.fin 11⟩⟩,
      ⟨[0], [], ⟨JSNum.fin 13, JSNum.fin 0, JSNum.fin 12, JSNum.fin 10, JSNum.fin 14⟩⟩]
    edges := [⟨0, 2, JSNum.fin 1, ⟨JSNum.fin 15, JSNum.fin 16, JSNum.fin 17⟩⟩,
      ⟨0, 1, JSNum.fin 2, ⟨JSNum.fin 18, JSNum.fin 19, JSNum.fin 20⟩⟩] }

/-- A cyclic graph: A (0) and B (1) with the edges A -> B and B -> A of weight 1; both nodes
carry the layout `l`. -/
def cycleGraph (l : NodeLayout) : Graph :=
  { nodes := [⟨[1], [0], l⟩, ⟨[0], [1], l⟩]
    edges := [⟨0, 1, JSNum.fin 1, EdgeLayout.blank⟩, ⟨1, 0, JSNum.fin 1, EdgeLayout.blank⟩] }

/-! ## Exchange of the two axes -/

/-- The other orientation. -/
def Orient.flip : Orient → Orient
  | Orient.vertical => Orient.horizontal
  | Orient.horizontal => Orient.vertical

/-- The layout with the two axes exchanged: `x` with `y` and `dx` with `dy`. -/
def transposeLayout (l : NodeLayout) : NodeLayout :=
  ⟨l.y, l.x, l.dy, l.dx, l.value⟩

/-- The nodes with the two axes of every layout exchanged. -/
def transposeNodes (nodes : List Node) : List Node :=
  nodes.map (fun nd => { nd with layout := transposeLayout nd.layout })

/-- The graph with the two axes of every node layout exchanged; the edges are kept. -/
def transposeGraph (g : Graph) : Graph :=
  { g with nodes := transposeNodes g.nodes }

/-- The state of the Kahn loop with the two axes of every node layout exchanged. -/
def transposeState (st : KahnState) : KahnState :=
  { st with nodes := transposeNodes st.nodes }

/-! ## Examples for single-node groups -/

/-- One node above the axis: depth coordinate `-1`, depth size `10`. -/
def aboveAxisNodes : List Node :=
  [⟨[], [], ⟨JSNum.fin 0, JSNum.fin (-1), JSNum.fin 20, JSNum.fin 10, JSNum.fin 1⟩⟩]

/-- A chain with unequal weights: X (0), Y (1), Z (2) and the edges X -> Y of weight 1 and
Y -> Z of weight 5; every level holds one node. -/
def unevenChain : Graph :=
  { nodes := [⟨[], [0], NodeLayout.blank⟩, ⟨[0], [1], NodeLayout.blank⟩,
      ⟨[1], [], NodeLayout.blank⟩]
    edges := [⟨0, 1, JSNum.fin 1, EdgeLayout.blank⟩, ⟨1, 2, JSNum.fin 5, EdgeLayout.blank⟩] }

/-! ## Specification-side definitions for the relaxation -/

/-- The weighted average centre, in the words of the specification: the sum over the edges
`es` of the centre `ct e` of the node at the other end times the weight `w e`, divided by the
sum of the weights. -/
def weightedCenter (w ct : Nat → ℚ) (es : List Nat) : ℚ :=
  (es.map (fun e => ct e * w e)).sum / (es.map w).sum

/-! ## Specification-side definitions for the levels -/

/-- Node `v` is on a directed cycle of the graph, or can be reached from a node on one. -/
def BelowCycle (g : Graph) (v : Nat) : Prop :=
  ∃ c, Relation.TransGen (edgeRel g) c c ∧ Relation.ReflTransGen (edgeRel g) c v

/-- There is a directed path with `k` edges that ends at node `v`. -/
inductive PathTo (g : Graph) : Nat → Nat → Prop
  | start (v : Nat) (hv : v < g.nodes.length) : PathTo g v 0
  | step (u v k : Nat) (hp : PathTo g u k) (he : edgeRel g u v) : PathTo g v (k + 1)

/-- A cycle with a tail: A (0) and B (1) with the edges A -> B and B -> A, the edge B -> C to
the sink C (2), and the source D (3) with the edge D -> C. -/
def tailedCycle : Graph :=
  { nodes := [⟨[1], [0], NodeLayout.blank⟩, ⟨[0], [1, 2], NodeLayout.blank⟩,
      ⟨[2, 3], [], NodeLayout.blank⟩, ⟨[], [3], NodeLayout.blank⟩]
    edges := [⟨0, 1, JSNum.fin 1, EdgeLayout.blank⟩, ⟨1, 0, JSNum.fin 1, EdgeLayout.blank⟩,
      ⟨1, 2, JSNum.fin 1, EdgeLayout.blank⟩, ⟨3, 2, JSNum.fin 1, EdgeLayout.blank⟩] }

/-- Three nodes of one level beyond a short axis: depth coordinates 50, 60 and 70, depth
sizes 10. -/
def farNodes : List Node :=
  [⟨[], [], ⟨JSNum.fin 0, JSNum.fin 50, JSNum.fin 20, JSNum.fin 10, JSNum.fin 1⟩⟩,
    ⟨[], [], ⟨JSNum.fin 0, JSNum.fin 60, JSNum.fin 20, JSNum.fin 10, JSNum.fin 1⟩⟩,
    ⟨[], [], ⟨JSNum.fin 0, JSNum.fin 70, JSNum.fin 20, JSNum.fin 10, JSNum.fin 1⟩⟩]

/-! ## The rounds of the Kahn loop -/

/-- The successive values of `zeroIndegrees` at the head of the rounds that the Kahn loop
executes (the empty one that ends the loop is left out); the loop is the one of `kahnLoop`. -/
def kahnFrontiers (edges : List Edge) (orient : Orient) (nodeWidth : JSNum) :
    Nat → Nat → List Nat → KahnState → List (List Nat)
  | _, _, [], _ => []
  | 0, _, _ :: _, _ => []
  | fuel + 1, x, v :: vs, st =>
    let st1 := (v :: vs).foldl (kahnNode edges orient nodeWidth x) { st with nextNode := [] }
    (v :: vs) ::
      kahnFrontiers edges orient nodeWidth fuel (x + 1) st1.nextNode { st1 with nextNode := [] }

/-! # Theorems -/

/-! ## Arithmetic of `JSNum` -/

theorem jsAdd_comm (a b : JSNum) : a.add b = b.add a := by
  cases a <;> cases b <;> simp [JSNum.add, add_comm]

theorem jsAdd_assoc (a b c : JSNum) : (a.add b).add c = a.add (b.add c) := by
  cases a <;> cases b <;> cases c <;> simp [JSNum.add, add_assoc]

theorem jsAdd_zero (a : JSNum) : a.add (JSNum.fin 0) = a := by
  cases a <;> simp [JSNum.add]

theorem jsZero_add (a : JSNum) : (JSNum.fin 0).add a = a := by
  cases a <;> simp [JSNum.add]

theorem jsMax_comm (a b : JSNum) : a.max b = b.max a := by
  cases a <;> cases b <;> simp [JSNum.max, max_comm]

/-! ## computeNodeValues -/

theorem sum_step (s w : JSNum) :
    (if w.isNaN then s else s.add w) = s.add (specContribution w) := by
  unfold specContribution
  split
  · rw [jsAdd_zero]
  · rfl

theorem sum_eq_foldl {α : Type} (array : List α) (f : α → JSNum) :
    sum array f = (array.map (fun a => specContribution (f a))).foldl JSNum.add (JSNum.fin 0) := by
  unfold sum
  rw [List.foldl_map]
  congr 1
  funext s a
  exact sum_step s (f a)

theorem sum_eq_specWeightSum (edges : List Edge) (es : List Nat) :
    sum es (getEdgeValue edges) = specWeightSum edges es := by
  haveI : Std.Commutative JSNum.add := ⟨jsAdd_comm⟩
  haveI : Std.Associative JSNum.add := ⟨jsAdd_assoc⟩
  rw [sum_eq_foldl, List.foldl_eq_foldr]
  rfl

/-- The function `sum` does not depend on the order of the array. -/
theorem sum_perm {α : Type} (f : α → JSNum) {l₁ l₂ : List α} (h : l₁.Perm l₂) :
    sum l₁ f = sum l₂ f := by
  haveI : Std.Commutative JSNum.add := ⟨jsAdd_comm⟩
  haveI : Std.Associative JSNum.add := ⟨jsAdd_assoc⟩
  haveI : LeftCommutative JSNum.add := ⟨fun a b c => by
    rw [← jsAdd_assoc, jsAdd_comm a b, jsAdd_assoc]⟩
  rw [sum_eq_foldl, sum_eq_foldl, List.foldl_eq_foldr, List.foldl_eq_foldr]
  exact (h.map _).foldr_eq _

/-- C3: for every node, `computeNodeValues` sets `value` to the maximum (`Math.max`) of the
sum of the weights of its incoming edges and the sum of the weights of its outgoing edges,
where an edge whose weight is `NaN` contributes `0` to its sum; nothing else changes. -/
theorem computeNodeValues_value (g : Graph) :
    (computeNodeValues g).nodes =
      g.nodes.map (fun node =>
        { node with
          layout := { node.layout with
            value := JSNum.max (specWeightSum g.edges node.inEdges)
              (specWeightSum g.edges node.outEdges) } }) ∧
    (computeNodeValues g).edges = g.edges := by
  refine ⟨?_, rfl⟩
  unfold computeNodeValues
  simp only
  apply List.map_congr_left
  intro node _
  rw [sum_eq_specWeightSum, sum_eq_specWeightSum, jsMax_comm]

/-! ## Reading and writing layouts -/

theorem length_setNodeLayout (nodes : List Node) (v : Nat) (f : NodeLayout → NodeLayout) :
    (setNodeLayout nodes v f).length = nodes.length := by
  simp [setNodeLayout]

theorem getElem?_setNodeLayout (nodes : List Node) (v w : Nat) (f : NodeLayout → NodeLayout) :
    (setNodeLayout nodes v f)[w]? =
      (nodes[w]?).map (fun nd => if v = w then { nd with layout := f nd.layout } else nd) := by
  simp [setNodeLayout, List.getElem?_modify]

theorem nodeLayout_setNodeLayout (nodes : List Node) (v w : Nat) (f : NodeLayout → NodeLayout) :
    nodeLayout (setNodeLayout nodes v f) w =
      if v = w ∧ w < nodes.length then f (nodeLayout nodes w) else nodeLayout nodes w := by
  unfold nodeLayout
  rw [getElem?_setNodeLayout]
  cases h : nodes[w]? with
  | none =>
    have : ¬ w < nodes.length := by
      intro hw
      rw [List.getElem?_eq_getElem hw] at h
      cases h
    simp [this]
  | some nd =>
    have : w < nodes.length := by
      by_contra hw
      rw [List.getElem?_eq_none (Nat.le_of_not_lt hw)] at h
      cases h
    by_cases hv : v = w <;> simp [hv, this]

theorem nodeOutEdges_setNodeLayout (nodes : List Node) (v w : Nat)
    (f : NodeLayout → NodeLayout) :
    nodeOutEdges (setNodeLayout nodes v f) w = nodeOutEdges nodes w := by
  unfold nodeOutEdges
  rw [getElem?_setNodeLayout]
  cases nodes[w]? with
  | none => rfl
  | some nd => by_cases hv : v = w <;> simp [hv]

theorem nodeInEdges_setNodeLayout (nodes : List Node) (v w : Nat)
    (f : NodeLayout → NodeLayout) :
    nodeInEdges (setNodeLayout nodes v f) w = nodeInEdges nodes w := by
  unfold nodeInEdges
  rw [getElem?_setNodeLayout]
  cases nodes[w]? with
  | none => rfl
  | some nd => by_cases hv : v = w <;> simp [hv]

theorem edgeLists_setNodeLayout (nodes : List Node) (v : Nat) (f : NodeLayout → NodeLayout) :
    edgeLists (setNodeLayout nodes v f) = edgeLists nodes := by
  apply List.ext_getElem?
  intro w
  simp only [edgeLists, List.getElem?_map, getElem?_setNodeLayout]
  cases nodes[w]? with
  | none => rfl
  | some nd => by_cases hv : v = w <;> simp [hv]

theorem edgeLists_length {nodes nodes' : List Node} (h : edgeLists nodes = edgeLists nodes') :
    nodes.length = nodes'.length := by
  have := congrArg List.length h
  simpa [edgeLists] using this

theorem edgeLists_getElem? {nodes nodes' : List Node} (h : edgeLists nodes = edgeLists nodes')
    (v : Nat) :
    (nodes[v]?).map (fun nd => (nd.inEdges, nd.outEdges)) =
      (nodes'[v]?).map (fun nd => (nd.inEdges, nd.outEdges)) := by
  have := congrArg (fun l => l[v]?) h
  simpa [edgeLists] using this

theorem nodeOutEdges_of_edgeLists {nodes nodes' : List Node}
    (h : edgeLists nodes = edgeLists nodes') (v : Nat) :
    nodeOutEdges nodes v = nodeOutEdges nodes' v := by
  have := edgeLists_getElem? h v
  unfold nodeOutEdges
  cases h1 : nodes[v]? <;> cases h2 : nodes'[v]? <;> simp [h1, h2] at this ⊢
  exact this.2

theorem nodeInEdges_of_edgeLists {nodes nodes' : List Node}
    (h : edgeLists nodes = edgeLists nodes') (v : Nat) :
    nodeInEdges nodes v = nodeInEdges nodes' v := by
  have := edgeLists_getElem? h v
  unfold nodeInEdges
  cases h1 : nodes[v]? <;> cases h2 : nodes'[v]? <;> simp [h1, h2] at this ⊢
  exact this.1

/-! ## Termination of the Kahn loop -/

theorem positives_set (l : List Int) (i : Nat) (d : Int) (h : l[i]? = some d) :
    positives (l.set i (d - 1)) + (if d - 1 = 0 then 1 else 0) ≤ positives l := by
  induction l generalizing i with
  | nil => simp at h
  | cons a l ih =>
    cases i with
    | zero =>
      simp only [List.getElem?_cons_zero, Option.some.injEq] at h
      subst h
      simp only [positives, List.set_cons_zero, List.countP_cons, decide_eq_true_eq]
      split_ifs <;> omega
    | succ j =>
      simp only [List.getElem?_cons_succ] at h
      have := ih j h
      simp only [positives, List.set_cons_succ, List.countP_cons] at this ⊢
      omega

theorem kahnEdge_measure (edges : List Edge) (st : KahnState) (e : Nat) :
    positives (kahnEdge edges st e).indegreeArr + (kahnEdge edges st e).nextNode.length ≤
      positives st.indegreeArr + st.nextNode.length := by
  unfold kahnEdge
  split
  · exact le_rfl
  · rename_i edge _
    simp only
    split
    · exact le_rfl
    · rename_i d hd
      have := positives_set st.indegreeArr edge.node2 d hd
      split_ifs with h0
      · simp only [List.length_append, List.length_singleton]
        rw [if_pos h0] at this
        omega
      · simp only
        rw [if_neg h0] at this
        omega

theorem kahnEdge_nodes (edges : List Edge) (st : KahnState) (e : Nat) :
    (kahnEdge edges st e).nodes = st.nodes := by
  unfold kahnEdge
  split
  · rfl
  · simp only
    split
    · rfl
    · split_ifs <;> rfl

theorem foldl_kahnEdge_measure (edges : List Edge) (es : List Nat) (st : KahnState) :
    positives (es.foldl (kahnEdge edges) st).indegreeArr +
        (es.foldl (kahnEdge edges) st).nextNode.length ≤
      positives st.indegreeArr + st.nextNode.length := by
  induction es generalizing st with
  | nil => exact le_rfl
  | cons e es ih =>
    simp only [List.foldl_cons]
    exact (ih _).trans (kahnEdge_measure edges st e)

theorem foldl_kahnEdge_nodes (edges : List Edge) (es : List Nat) (st : KahnState) :
    (es.foldl (kahnEdge edges) st).nodes = st.nodes := by
  induction es generalizing st with
  | nil => rfl
  | cons e es ih =>
    simp only [List.foldl_cons]
    rw [ih, kahnEdge_nodes]

theorem kahnNode_measure (edges : List Edge) (orient : Orient) (nodeWidth : JSNum) (x : Nat)
    (st : KahnState) (v : Nat) :
    positives (kahnNode edges orient nodeWidth x st v).indegreeArr +
        (kahnNode edges orient nodeWidth x st v).nextNode.length ≤
      positives st.indegreeArr + st.nextNode.length := by
  unfold kahnNode
  exact foldl_kahnEdge_measure edges _ _

theorem foldl_kahnNode_measure (edges : List Edge) (orient : Orient) (nodeWidth : JSNum)
    (x : Nat) (zs : List Nat) (st : KahnState) :
    positives (zs.foldl (kahnNode edges orient nodeWidth x) st).indegreeArr +
        (zs.foldl (kahnNode edges orient nodeWidth x) st).nextNode.length ≤
      positives st.indegreeArr + st.nextNode.length := by
  induction zs generalizing st with
  | nil => exact le_rfl
  | cons v vs ih =>
    simp only [List.foldl_cons]
    exact (ih _).trans (kahnNode_measure edges orient nodeWidth x st v)

/-- The Kahn loop returns as soon as it is given more rounds than there are positive
in-degrees. -/
theorem kahnLoop_isSome (edges : List Edge) (orient : Orient) (nodeWidth : JSNum) :
    ∀ (fuel x : Nat) (zs : List Nat) (st : KahnState), positives st.indegreeArr < fuel →
      ∃ r, kahnLoop edges orient nodeWidth fuel x zs st = some r := by
  intro fuel
  induction fuel with
  | zero => intro x zs st h; omega
  | succ fuel ih =>
    intro x zs st h
    cases zs with
    | nil => exact ⟨_, rfl⟩
    | cons v vs =>
      simp only [kahnLoop]
      have hm := foldl_kahnNode_measure edges orient nodeWidth x (v :: vs)
        { st with nextNode := [] }
      simp only [List.length_nil, Nat.add_zero] at hm
      generalize (v :: vs).foldl (kahnNode edges orient nodeWidth x)
        { st with nextNode := [] } = st1 at hm
      cases hn : st1.nextNode with
      | nil => cases fuel <;> exact ⟨_, rfl⟩
      | cons w ws =>
        rw [hn] at hm
        simp only [List.length_cons] at hm
        exact ih _ _ _ (by simp only; omega)

theorem computeNodeLevels_isSome (g : Graph) (nodeWidth : JSNum) (orient : Orient) :
    ∃ x st, kahnLoop g.edges orient nodeWidth (g.nodes.length + 1) 0 (initialZeroIndegrees g)
        (kahnInit g) = some (x, st) ∧
      computeNodeLevels g nodeWidth orient = some (x, moveSinksRight st.nodes x orient) := by
  have h : positives (kahnInit g).indegreeArr < g.nodes.length + 1 := by
    have := List.countP_le_length (fun d : Int => decide (0 < d))
      (l := (kahnInit g).indegreeArr)
    simp only [kahnInit, List.length_map] at this
    simp only [positives, kahnInit]
    omega
  obtain ⟨⟨x, st⟩, hr⟩ := kahnLoop_isSome g.edges orient nodeWidth _ 0 (initialZeroIndegrees g)
    (kahnInit g) h
  refine ⟨x, st, hr, ?_⟩
  unfold computeNodeLevels
  rw [hr]

/-! ## One round of the Kahn loop -/

theorem kahnEdge_decr (edges : List Edge) (st : KahnState) (e : Nat) :
    ((kahnEdge edges st e).indegreeArr, (kahnEdge edges st e).nextNode) =
      (edgeTargets edges [e]).foldl decr (st.indegreeArr, st.nextNode) := by
  unfold kahnEdge edgeTargets
  cases he : edges[e]? with
  | none => simp [he]
  | some ed =>
    simp only [he, List.filterMap_cons, Option.map_some', List.filterMap_nil, List.foldl_cons,
      List.foldl_nil, decr]
    cases hd : st.indegreeArr[ed.node2]? with
    | none => simp
    | some d =>
      simp only
      split_ifs <;> rfl

theorem edgeTargets_cons (edges : List Edge) (e : Nat) (es : List Nat) :
    edgeTargets edges (e :: es) = edgeTargets edges [e] ++ edgeTargets edges es := by
  unfold edgeTargets
  cases h : edges[e]? <;> simp [List.filterMap_cons, h]

theorem foldl_kahnEdge_decr (edges : List Edge) (es : List Nat) (st : KahnState) :
    ((es.foldl (kahnEdge edges) st).indegreeArr, (es.foldl (kahnEdge edges) st).nextNode) =
      (edgeTargets edges es).foldl decr (st.indegreeArr, st.nextNode) := by
  induction es generalizing st with
  | nil => rfl
  | cons e es ih =>
    rw [List.foldl_cons, ih, edgeTargets_cons, List.foldl_append, kahnEdge_decr]

theorem decr_length (p : List Int × List Nat) (t : Nat) : (decr p t).1.length = p.1.length := by
  unfold decr
  split <;> simp

theorem foldl_decr_length (ts : List Nat) (p : List Int × List Nat) :
    (ts.foldl decr p).1.length = p.1.length := by
  induction ts generalizing p with
  | nil => rfl
  | cons t ts ih => rw [List.foldl_cons, ih, decr_length]

theorem decr_getElem? (p : List Int × List Nat) (t u : Nat) :
    (decr p t).1[u]? = (p.1[u]?).map (fun d => d - (if t = u then 1 else 0)) := by
  unfold decr
  cases hd : p.1[t]? with
  | none =>
    simp only
    by_cases h : t = u
    · subst h; simp [hd]
    · simp [h]
  | some d =>
    simp only
    by_cases h : t = u
    · subst h
      have ht : t < p.1.length := by
        by_contra hw
        rw [List.getElem?_eq_none (Nat.le_of_not_lt hw)] at hd
        cases hd
      simp [List.getElem?_set_self ht, hd]
    · simp [List.getElem?_set_ne h, h]

theorem foldl_decr_getElem? (ts : List Nat) (p : List Int × List Nat) (u : Nat) :
    (ts.foldl decr p).1[u]? = (p.1[u]?).map (fun d => d - (ts.count u : Int)) := by
  induction ts generalizing p with
  | nil => simp
  | cons t ts ih =>
    rw [List.foldl_cons, ih, decr_getElem?]
    cases p.1[u]? with
    | none => rfl
    | some d =>
      simp only [Option.map_some', Option.some.injEq, List.count_cons, beq_iff_eq]
      by_cases h : t = u
      · simp [h]; ring
      · simp [h]

theorem foldl_decr_pushed (ts : List Nat) (p : List Int × List Nat) :
    ∃ pushed, (ts.foldl decr p).2 = p.2 ++ pushed ∧ pushed.Nodup ∧
      ∀ u, u ∈ pushed ↔ ∃ d, p.1[u]? = some d ∧ 0 < d ∧ d ≤ (ts.count u : Int) := by
  induction ts generalizing p with
  | nil =>
    refine ⟨[], by simp, List.nodup_nil, ?_⟩
    intro u
    simp only [List.not_mem_nil, List.count_nil, Nat.cast_zero, false_iff, not_exists, not_and]
    intro d _ h1 h2
    omega
  | cons t ts ih =>
    obtain ⟨pushed, h1, h2, h3⟩ := ih (decr p t)
    rw [List.foldl_cons, h1]
    cases hd : p.1[t]? with
    | none =>
      have hdec : decr p t = p := by unfold decr; simp [hd]
      rw [hdec] at h3 ⊢
      refine ⟨pushed, rfl, h2, ?_⟩
      intro u
      rw [h3]
      by_cases h : t = u
      · subst h; simp [hd]
      · simp [List.count_cons, h]
    | some d =>
      have hget : ∀ u, (decr p t).1[u]? = (p.1[u]?).map (fun d => d - (if t = u then 1 else 0)) :=
        decr_getElem? p t
      have hnext : (decr p t).2 = p.2 ++ (if d - 1 = 0 then [t] else []) := by
        unfold decr
        simp only [hd]
        split_ifs <;> simp
      rw [hnext, List.append_assoc]
      refine ⟨_, rfl, ?_, ?_⟩
      · split_ifs with h0
        · rw [List.singleton_append, List.nodup_cons]
          refine ⟨?_, h2⟩
          rw [h3, hget]
          simp only [hd, Option.map_some', if_true, Option.some.injEq, not_exists, not_and]
          intro d1 hd1 hpos
          omega
        · simpa using h2
      · intro u
        rw [List.mem_append, h3, hget]
        by_cases h : t = u
        · subst h
          simp only [hd, Option.map_some', if_true, Option.some.injEq, List.count_cons_self,
            Nat.cast_add, Nat.cast_one]
          constructor
          · rintro (hm | ⟨d1, hd1, hpos, hle⟩)
            · split_ifs at hm with h0
              · refine ⟨d, rfl, by omega, ?_⟩
                have : (0 : Int) ≤ (List.count t ts : Int) := Int.natCast_nonneg _
                omega
              · simp at hm
            · exact ⟨d, rfl, by omega, by omega⟩
          · rintro ⟨d1, hd1, hpos, hle⟩
            subst hd1
            by_cases h0 : d - 1 = 0
            · left; simp [h0]
            · right; exact ⟨d - 1, rfl, by omega, by omega⟩
        · have hu : u ∉ (if d - 1 = 0 then [t] else []) := by
            split_ifs
            · simp [Ne.symm h]
            · simp
          simp only [hu, false_or, List.count_cons, beq_iff_eq, h, if_false, Nat.add_zero]
          cases p.1[u]? <;> simp

theorem kahnNode_nodes (edges : List Edge) (orient : Orient) (nodeWidth : JSNum) (x : Nat)
    (st : KahnState) (v : Nat) :
    (kahnNode edges orient nodeWidth x st v).nodes =
      setNodeLayout st.nodes v (levelField orient nodeWidth x) := by
  unfold kahnNode
  rw [foldl_kahnEdge_nodes]
  rfl

theorem kahnNode_decr (edges : List Edge) (orient : Orient) (nodeWidth : JSNum) (x : Nat)
    (st : KahnState) (v : Nat) :
    ((kahnNode edges orient nodeWidth x st v).indegreeArr,
        (kahnNode edges orient nodeWidth x st v).nextNode) =
      (edgeTargets edges (nodeOutEdges st.nodes v)).foldl decr (st.indegreeArr, st.nextNode) := by
  unfold kahnNode
  rw [foldl_kahnEdge_decr]

theorem setLayouts_cons (nodes : List Node) (v : Nat) (zs : List Nat)
    (f : NodeLayout → NodeLayout) :
    setLayouts nodes (v :: zs) f = setLayouts (setNodeLayout nodes v f) zs f := rfl

theorem edgeLists_setLayouts (nodes : List Node) (zs : List Nat) (f : NodeLayout → NodeLayout) :
    edgeLists (setLayouts nodes zs f) = edgeLists nodes := by
  induction zs generalizing nodes with
  | nil => rfl
  | cons v zs ih => rw [setLayouts_cons, ih, edgeLists_setNodeLayout]

theorem roundTargets_congr (edges : List Edge) {nodes nodes' : List Node}
    (h : edgeLists nodes = edgeLists nodes') (zs : List Nat) :
    roundTargets edges nodes zs = roundTargets edges nodes' zs := by
  unfold roundTargets
  congr 1
  funext v
  rw [nodeOutEdges_of_edgeLists h]

theorem foldl_kahnNode_nodes (edges : List Edge) (orient : Orient) (nodeWidth : JSNum)
    (x : Nat) (zs : List Nat) (st : KahnState) :
    (zs.foldl (kahnNode edges orient nodeWidth x) st).nodes =
      setLayouts st.nodes zs (levelField orient nodeWidth x) := by
  induction zs generalizing st with
  | nil => rfl
  | cons v zs ih => rw [List.foldl_cons, ih, kahnNode_nodes, setLayouts_cons]

theorem foldl_kahnNode_decr (edges : List Edge) (orient : Orient) (nodeWidth : JSNum)
    (x : Nat) (zs : List Nat) (st : KahnState) :
    ((zs.foldl (kahnNode edges orient nodeWidth x) st).indegreeArr,
        (zs.foldl (kahnNode edges orient nodeWidth x) st).nextNode) =
      (roundTargets edges st.nodes zs).foldl decr (st.indegreeArr, st.nextNode) := by
  induction zs generalizing st with
  | nil => rfl
  | cons v zs ih =>
    rw [List.foldl_cons, ih, kahnNode_decr]
    have h : edgeLists (kahnNode edges orient nodeWidth x st v).nodes = edgeLists st.nodes := by
      rw [kahnNode_nodes, edgeLists_setNodeLayout]
    rw [roundTargets_congr edges h]
    simp only [roundTargets, List.flatMap_cons, List.foldl_append]

/-- After a layout change that is idempotent is applied at the nodes of `zs`, the layout of
a node of `zs` is changed once and every other layout is as before. -/
theorem nodeLayout_setLayouts (f : NodeLayout → NodeLayout) (hf : ∀ l, f (f l) = f l)
    (zs : List Nat) (nodes : List Node) (w : Nat) :
    nodeLayout (setLayouts nodes zs f) w =
      if w ∈ zs ∧ w < nodes.length then f (nodeLayout nodes w) else nodeLayout nodes w := by
  induction zs generalizing nodes with
  | nil => simp [setLayouts]
  | cons v zs ih =>
    rw [setLayouts_cons, ih, length_setNodeLayout, nodeLayout_setNodeLayout]
    by_cases hw : w < nodes.length
    · by_cases hv : v = w
      · subst hv
        by_cases hz : v ∈ zs <;> simp [hz, hw, hf]
      · have : ¬ w = v := fun h => hv h.symm
        simp [hv, this, hw]
    · simp [hw]

theorem levelField_idem (orient : Orient) (nodeWidth : JSNum) (x : Nat) (l : NodeLayout) :
    levelField orient nodeWidth x (levelField orient nodeWidth x l) =
      levelField orient nodeWidth x l := by
  cases orient <;> rfl

theorem primaryCoord_levelField (orient : Orient) (nodeWidth : JSNum) (x : Nat)
    (l : NodeLayout) : primaryCoord orient (levelField orient nodeWidth x l) = JSNum.fin x := by
  cases orient <;> rfl

theorem primarySize_levelField (orient : Orient) (nodeWidth : JSNum) (x : Nat)
    (l : NodeLayout) : primarySize orient (levelField orient nodeWidth x l) = nodeWidth := by
  cases orient <;> rfl

theorem value_levelField (orient : Orient) (nodeWidth : JSNum) (x : Nat) (l : NodeLayout) :
    (levelField orient nodeWidth x l).value = l.value := by
  cases orient <;> rfl

theorem secondaryCoord_levelField (orient : Orient) (nodeWidth : JSNum) (x : Nat)
    (l : NodeLayout) :
    secondaryCoord orient (levelField orient nodeWidth x l) = secondaryCoord orient l := by
  cases orient <;> rfl

theorem secondarySize_levelField (orient : Orient) (nodeWidth : JSNum) (x : Nat)
    (l : NodeLayout) :
    secondarySize orient (levelField orient nodeWidth x l) = secondarySize orient l := by
  cases orient <;> rfl

/-! ## Counting the edges walked in a round -/

theorem countP_add_of_disjoint {α : Type} (p q r : α → Bool) (l : List α)
    (h : ∀ a ∈ l, r a = (p a || q a)) (hd : ∀ a ∈ l, ¬ (p a = true ∧ q a = true)) :
    l.countP r = l.countP p + l.countP q := by
  induction l with
  | nil => rfl
  | cons a l ih =>
    have h1 := ih (fun b hb => h b (List.mem_cons_of_mem a hb))
      (fun b hb => hd b (List.mem_cons_of_mem a hb))
    have ha := h a (List.mem_cons_self a l)
    have hda := hd a (List.mem_cons_self a l)
    simp only [List.countP_cons, h1, ha]
    cases hp : p a <;> cases hq : q a <;> simp_all <;> omega

theorem filterMap_range_getElem? {α β : Type} (k : α → Nat) (v : Nat) (f : α → β)
    (l : List α) :
    ((List.range l.length).filter (fun i => decide ((l[i]?).map k = some v))).filterMap
        (fun i => (l[i]?).map f) =
      (l.filter (fun a => decide (k a = v))).map f := by
  induction l using List.reverseRecOn with
  | nil => rfl
  | append_singleton l a ih =>
    rw [List.length_append, List.length_singleton, List.range_succ, List.filter_append,
      List.filterMap_append, List.filter_append, List.map_append]
    congr 1
    · rw [← ih]
      have h1 : (List.range l.length).filter
            (fun i => decide (((l ++ [a])[i]?).map k = some v)) =
          (List.range l.length).filter (fun i => decide ((l[i]?).map k = some v)) := by
        apply List.filter_congr
        intro i hi
        rw [List.mem_range] at hi
        rw [List.getElem?_append_left hi]
      rw [h1]
      apply List.filterMap_congr
      intro i hi
      have hi2 := (List.mem_filter.mp hi).1
      rw [List.mem_range] at hi2
      rw [List.getElem?_append_left hi2]
    · have hlast : (l ++ [a])[l.length]? = some a := by
        rw [List.getElem?_append_right (le_refl _)]
        simp
      by_cases hp : k a = v <;> simp [List.filter_cons, hlast, hp]

theorem edgeTargets_edgesFrom (edges : List Edge) (v : Nat) :
    edgeTargets edges (edgesFrom edges v) =
      (edges.filter (fun ed => decide (ed.node1 = v))).map (fun ed => ed.node2) := by
  unfold edgeTargets edgesFrom
  exact filterMap_range_getElem? (fun ed => ed.node1) v (fun ed => ed.node2) edges

theorem count_edgeTargets_edgesFrom (edges : List Edge) (v t : Nat) :
    (edgeTargets edges (edgesFrom edges v)).count t =
      edges.countP (fun ed => decide (ed.node2 = t) && decide (ed.node1 = v)) := by
  rw [edgeTargets_edgesFrom, List.count, List.countP_map, List.countP_filter]
  apply List.countP_congr
  intro ed _
  simp only [Function.comp_apply, beq_iff_eq, Bool.and_eq_true, decide_eq_true_eq]

theorem count_roundTargets (g : Graph) (hwf : WellFormed g) (zs : List Nat) (hz : zs.Nodup)
    (hlt : ∀ v ∈ zs, v < g.nodes.length) (t : Nat) :
    (roundTargets g.edges g.nodes zs).count t =
      g.edges.countP (fun ed => decide (ed.node2 = t) && decide (ed.node1 ∈ zs)) := by
  induction zs with
  | nil => simp [roundTargets]
  | cons v zs ih =>
    rw [List.nodup_cons] at hz
    have h1 := ih hz.2 (fun w hw => hlt w (List.mem_cons_of_mem v hw))
    have hperm := hwf.outEdges_perm v (hlt v (List.mem_cons_self v zs))
    have h2 : (edgeTargets g.edges (nodeOutEdges g.nodes v)).count t =
        g.edges.countP (fun ed => decide (ed.node2 = t) && decide (ed.node1 = v)) := by
      rw [← count_edgeTargets_edgesFrom]
      exact (hperm.filterMap _).count_eq t
    have h3 : roundTargets g.edges g.nodes (v :: zs) =
        edgeTargets g.edges (nodeOutEdges g.nodes v) ++ roundTargets g.edges g.nodes zs := by
      simp [roundTargets]
    rw [h3, List.count_append, h1, h2]
    symm
    apply countP_add_of_disjoint
    · intro ed _
      by_cases ha : ed.node2 = t <;> by_cases hb : ed.node1 = v <;>
        by_cases hc : ed.node1 ∈ zs <;> simp [ha, hb, hc]
    · intro ed _ ⟨hp, hq⟩
      simp only [Bool.and_eq_true, decide_eq_true_eq] at hp hq
      exact hz.1 (hp.2 ▸ hq.2)

/-- Removing the frontier `zs` lowers the residual in-degree of `t` by the number of edges
from `zs` to `t`. -/
theorem residual_append (edges : List Edge) (done zs : List Nat)
    (hdisj : ∀ v ∈ zs, v ∉ done) (t : Nat) :
    residual edges done t =
      residual edges (done ++ zs) t +
        edges.countP (fun ed => decide (ed.node2 = t) && decide (ed.node1 ∈ zs)) := by
  unfold residual
  apply countP_add_of_disjoint
  · intro ed _
    by_cases ha : ed.node2 = t <;> by_cases hb : ed.node1 ∈ done <;>
      by_cases hc : ed.node1 ∈ zs <;> simp [ha, hb, hc]
    exact hdisj _ hc hb
  · intro ed _ ⟨hp, hq⟩
    simp only [Bool.and_eq_true, decide_eq_true_eq, List.mem_append, not_or] at hp hq
    exact hp.2.2 hq.2

theorem residual_congr (edges : List Edge) {done done' : List Nat}
    (h : ∀ v, v ∈ done ↔ v ∈ done') (t : Nat) :
    residual edges done t = residual edges done' t := by
  unfold residual
  apply List.countP_congr
  intro ed _
  simp [h]

/-! ## Levelling by rounds, specification side -/

theorem mem_specFrontier (n : Nat) (edges : List Edge) (done : List Nat) (v : Nat) :
    v ∈ specFrontier n edges done ↔ v < n ∧ v ∉ done ∧ residual edges done v = 0 := by
  simp [specFrontier, List.mem_filter]

theorem nodup_specFrontier (n : Nat) (edges : List Edge) (done : List Nat) :
    (specFrontier n edges done).Nodup :=
  (List.nodup_range n).filter _

theorem specDone_succ (n : Nat) (edges : List Edge) (k : Nat) :
    specDone n edges (k + 1) =
      specDone n edges k ++ specFrontier n edges (specDone n edges k) := rfl

theorem mem_specDone (n : Nat) (edges : List Edge) (k v : Nat) :
    v ∈ specDone n edges k ↔ ∃ j, j < k ∧ v ∈ specFrontier n edges (specDone n edges j) := by
  induction k with
  | zero => simp [specDone]
  | succ k ih =>
    rw [specDone_succ, List.mem_append, ih]
    constructor
    · rintro (⟨j, hj, hv⟩ | hv)
      · exact ⟨j, by omega, hv⟩
      · exact ⟨k, by omega, hv⟩
    · rintro ⟨j, hj, hv⟩
      by_cases h : j = k
      · right; exact h ▸ hv
      · left; exact ⟨j, by omega, hv⟩

theorem specDone_mono (n : Nat) (edges : List Edge) {j k : Nat} (h : j ≤ k) {v : Nat}
    (hv : v ∈ specDone n edges j) : v ∈ specDone n edges k := by
  rw [mem_specDone] at hv ⊢
  obtain ⟨i, hi, hv⟩ := hv
  exact ⟨i, by omega, hv⟩

theorem specDone_lt (n : Nat) (edges : List Edge) {k v : Nat} (hv : v ∈ specDone n edges k) :
    v < n := by
  rw [mem_specDone] at hv
  obtain ⟨j, _, hv⟩ := hv
  exact ((mem_specFrontier n edges _ v).mp hv).1

theorem nodup_specDone (n : Nat) (edges : List Edge) (k : Nat) : (specDone n edges k).Nodup := by
  induction k with
  | zero => exact List.nodup_nil
  | succ k ih =>
    rw [specDone_succ, List.nodup_append]
    refine ⟨ih, nodup_specFrontier n edges _, ?_⟩
    intro v hv hv2
    exact ((mem_specFrontier n edges _ v).mp hv2).2.1 hv

theorem residual_eq_zero (edges : List Edge) (done : List Nat) (t : Nat) :
    residual edges done t = 0 ↔ ∀ ed ∈ edges, ed.node2 = t → ed.node1 ∈ done := by
  unfold residual
  rw [List.countP_eq_zero]
  constructor
  · intro h ed hed h2
    by_contra h1
    exact h ed hed (by simp [h2, h1])
  · intro h ed hed hp
    simp only [decide_eq_true_eq] at hp
    exact hp.2 (h ed hed hp.1)

/-- The source of an edge into a node of the frontier of round `j` was levelled before
round `j`. -/
theorem source_mem_specDone (n : Nat) (edges : List Edge) {j : Nat} {ed : Edge}
    (hed : ed ∈ edges) (hv : ed.node2 ∈ specFrontier n edges (specDone n edges j)) :
    ed.node1 ∈ specDone n edges j :=
  (residual_eq_zero edges _ _).mp ((mem_specFrontier n edges _ _).mp hv).2.2 ed hed rfl

theorem specDone_closed (n : Nat) (edges : List Edge) {k : Nat} {ed : Edge} (hed : ed ∈ edges)
    (hv : ed.node2 ∈ specDone n edges k) : ed.node1 ∈ specDone n edges k := by
  rw [mem_specDone] at hv
  obtain ⟨j, hj, hv⟩ := hv
  exact specDone_mono n edges (Nat.le_of_lt hj) (source_mem_specDone n edges hed hv)

theorem residual_specDone_of_mem (n : Nat) (edges : List Edge) {k v : Nat}
    (hv : v ∈ specDone n edges k) : residual edges (specDone n edges k) v = 0 := by
  rw [residual_eq_zero]
  intro ed hed h2
  exact specDone_closed n edges hed (h2 ▸ hv)

/-- The frontiers of two different rounds are disjoint. -/
theorem specFrontier_round_unique (n : Nat) (edges : List Edge) {i j v : Nat}
    (hi : v ∈ specFrontier n edges (specDone n edges i))
    (hj : v ∈ specFrontier n edges (specDone n edges j)) : i = j := by
  by_contra h
  rcases Nat.lt_or_gt_of_ne h with h | h
  · exact ((mem_specFrontier n edges _ v).mp hj).2.1
      ((mem_specDone n edges j v).mpr ⟨i, h, hi⟩)
  · exact ((mem_specFrontier n edges _ v).mp hi).2.1
      ((mem_specDone n edges i v).mpr ⟨j, h, hj⟩)

/-! ## The invariant of the Kahn loop -/

theorem length_filter_range_getElem? {α : Type} (k : α → Nat) (v : Nat) (l : List α) :
    ((List.range l.length).filter (fun i => decide ((l[i]?).map k = some v))).length =
      l.countP (fun a => decide (k a = v)) := by
  have h := congrArg List.length (filterMap_range_getElem? k v k l)
  rw [List.length_map, ← List.countP_eq_length_filter] at h
  rw [← h]
  symm
  have hm : ((List.range l.length).filter (fun i => decide ((l[i]?).map k = some v))).filterMap
      (fun i => (l[i]?).map k) =
      ((List.range l.length).filter (fun i => decide ((l[i]?).map k = some v))).map
        (fun _ => v) := by
    rw [List.filterMap_eq_map_iff_forall_eq_some]
    intro i hi
    have := (List.mem_filter.mp hi).2
    simpa using this
  rw [hm, List.length_map]

theorem length_edgesInto (edges : List Edge) (t : Nat) :
    (edgesInto edges t).length = residual edges [] t := by
  unfold edgesInto residual
  rw [length_filter_range_getElem? (fun ed => ed.node2) t edges]
  apply List.countP_congr
  intro ed _
  simp

theorem length_nodeInEdges (g : Graph) (hwf : WellFormed g) {t : Nat}
    (ht : t < g.nodes.length) : (nodeInEdges g.nodes t).length = residual g.edges [] t := by
  rw [(hwf.inEdges_perm t ht).length_eq, length_edgesInto]

theorem kahnInv_init (g : Graph) (hwf : WellFormed g) (orient : Orient) (nodeWidth : JSNum) :
    KahnInv g orient nodeWidth 0 (initialZeroIndegrees g) (kahnInit g) where
  lists := rfl
  indeg_length := by simp [kahnInit]
  indeg := by
    intro t ht
    simp only [kahnInit, List.getElem?_map, specDone]
    rw [List.getElem?_eq_getElem ht]
    simp only [Option.map_some', Option.some.injEq, Nat.cast_inj]
    rw [← length_nodeInEdges g hwf ht]
    simp [nodeInEdges, List.getElem?_eq_getElem ht]
  frontier := by
    intro v
    rw [mem_specFrontier]
    simp only [initialZeroIndegrees, List.mem_filter, List.mem_range, decide_eq_true_eq,
      specDone, List.not_mem_nil, not_false_eq_true, true_and]
    constructor
    · rintro ⟨hv, h0⟩
      exact ⟨hv, by rw [← length_nodeInEdges g hwf hv]; exact h0⟩
    · rintro ⟨hv, h0⟩
      exact ⟨hv, by rw [length_nodeInEdges g hwf hv]; exact h0⟩
  nodup := (List.nodup_range _).filter _
  levelled := by intro j hj; omega
  untouched := by intro v _; rfl

theorem kahnInv_step (g : Graph) (hwf : WellFormed g) (orient : Orient) (nodeWidth : JSNum)
    (k : Nat) (zs : List Nat) (st : KahnState) (h : KahnInv g orient nodeWidth k zs st) :
    KahnInv g orient nodeWidth (k + 1)
      (zs.foldl (kahnNode g.edges orient nodeWidth k) { st with nextNode := [] }).nextNode
      { zs.foldl (kahnNode g.edges orient nodeWidth k) { st with nextNode := [] } with
        nextNode := [] } := by
  have hn : st.nodes.length = g.nodes.length := edgeLists_length h.lists
  have hzlt : ∀ v ∈ zs, v < g.nodes.length := fun v hv =>
    ((mem_specFrontier _ _ _ v).mp ((h.frontier v).mp hv)).1
  have hzdone : ∀ v ∈ zs, v ∉ specDone g.nodes.length g.edges k := fun v hv =>
    ((mem_specFrontier _ _ _ v).mp ((h.frontier v).mp hv)).2.1
  have hdec := foldl_kahnNode_decr g.edges orient nodeWidth k zs { st with nextNode := [] }
  have hnodes := foldl_kahnNode_nodes g.edges orient nodeWidth k zs { st with nextNode := [] }
  generalize zs.foldl (kahnNode g.edges orient nodeWidth k) { st with nextNode := [] } = st1
    at hdec hnodes
  simp only at hdec hnodes
  rw [roundTargets_congr g.edges h.lists] at hdec
  have hindeg1 : st1.indegreeArr = ((roundTargets g.edges g.nodes zs).foldl decr
      (st.indegreeArr, [])).1 := by rw [← hdec]
  have hnext1 : st1.nextNode = ((roundTargets g.edges g.nodes zs).foldl decr
      (st.indegreeArr, [])).2 := by rw [← hdec]
  have hcount : ∀ t, ((roundTargets g.edges g.nodes zs).count t : Int) +
      (residual g.edges (specDone g.nodes.length g.edges (k + 1)) t : Int) =
      (residual g.edges (specDone g.nodes.length g.edges k) t : Int) := by
    intro t
    rw [count_roundTargets g hwf zs h.nodup hzlt t,
      residual_append g.edges (specDone g.nodes.length g.edges k) zs hzdone t]
    have : residual g.edges (specDone g.nodes.length g.edges k ++ zs) t =
        residual g.edges (specDone g.nodes.length g.edges (k + 1)) t := by
      apply residual_congr
      intro v
      rw [specDone_succ, List.mem_append, List.mem_append, h.frontier]
    rw [this]
    push_cast
    ring
  have hindeg : ∀ t, t < g.nodes.length → st1.indegreeArr[t]? =
      some (residual g.edges (specDone g.nodes.length g.edges (k + 1)) t : Int) := by
    intro t ht
    rw [hindeg1, foldl_decr_getElem?, h.indeg t ht]
    simp only [Option.map_some', Option.some.injEq]
    have := hcount t
    omega
  refine ⟨?_, ?_, hindeg, ?_, ?_, ?_, ?_⟩
  · show edgeLists st1.nodes = edgeLists g.nodes
    rw [hnodes, edgeLists_setLayouts]
    exact h.lists
  · show st1.indegreeArr.length = g.nodes.length
    rw [hindeg1, foldl_decr_length]
    exact h.indeg_length
  · intro u
    obtain ⟨pushed, hp1, _, hp3⟩ := foldl_decr_pushed (roundTargets g.edges g.nodes zs)
      (st.indegreeArr, [])
    rw [hnext1, hp1, List.nil_append, hp3, mem_specFrontier]
    have hc := hcount u
    constructor
    · rintro ⟨d, hd, hpos, hle⟩
      have hu : u < g.nodes.length := by
        by_contra hw
        simp only at hd
        rw [List.getElem?_eq_none (by rw [h.indeg_length]; omega)] at hd
        cases hd
      simp only at hd
      rw [h.indeg u hu] at hd
      simp only [Option.some.injEq] at hd
      have hnd : u ∉ specDone g.nodes.length g.edges k := by
        intro hmem
        have := residual_specDone_of_mem _ _ hmem
        omega
      have hnz : u ∉ zs := by
        intro hmem
        have := ((mem_specFrontier _ _ _ u).mp ((h.frontier u).mp hmem)).2.2
        omega
      refine ⟨hu, ?_, by omega⟩
      rw [specDone_succ, List.mem_append, ← h.frontier]
      exact fun hor => hor.elim hnd hnz
    · rintro ⟨hu, hnd, hres⟩
      rw [specDone_succ, List.mem_append, not_or] at hnd
      refine ⟨_, h.indeg u hu, ?_, by omega⟩
      have hne : residual g.edges (specDone g.nodes.length g.edges k) u ≠ 0 := by
        intro h0
        exact hnd.2 ((mem_specFrontier _ _ _ u).mpr ⟨hu, hnd.1, h0⟩)
      omega
  · obtain ⟨pushed, hp1, hp2, _⟩ := foldl_decr_pushed (roundTargets g.edges g.nodes zs)
      (st.indegreeArr, [])
    rw [hnext1, hp1, List.nil_append]
    exact hp2
  · intro j hj v hv
    show nodeLayout st1.nodes v = _
    rw [hnodes, nodeLayout_setLayouts _ (levelField_idem orient nodeWidth k)]
    by_cases hjk : j = k
    · subst hjk
      have hvz : v ∈ zs := (h.frontier v).mpr hv
      rw [if_pos ⟨hvz, by rw [hn]; exact hzlt v hvz⟩, h.untouched v (hzdone v hvz)]
    · have hvd : v ∈ specDone g.nodes.length g.edges k :=
        (mem_specDone _ _ _ _).mpr ⟨j, by omega, hv⟩
      have hvz : v ∉ zs := fun hmem => hzdone v hmem hvd
      rw [if_neg (fun hc => hvz hc.1)]
      exact h.levelled j (by omega) v hv
  · intro v hv
    show nodeLayout st1.nodes v = _
    rw [specDone_succ, List.mem_append, not_or] at hv
    rw [hnodes, nodeLayout_setLayouts _ (levelField_idem orient nodeWidth k),
      if_neg (fun hc => hv.2 ((h.frontier v).mp hc.1))]
    exact h.untouched v hv.1

/-! ## The result of the Kahn loop -/

theorem kahnLoop_nil (edges : List Edge) (orient : Orient) (nodeWidth : JSNum) (fuel x : Nat)
    (st : KahnState) : kahnLoop edges orient nodeWidth fuel x [] st = some (x, st) := by
  cases fuel <;> rfl

theorem kahnLoop_inv (g : Graph) (hwf : WellFormed g) (orient : Orient) (nodeWidth : JSNum) :
    ∀ (fuel k : Nat) (zs : List Nat) (st : KahnState) (L : Nat) (st' : KahnState),
      KahnInv g orient nodeWidth k zs st →
      kahnLoop g.edges orient nodeWidth fuel k zs st = some (L, st') →
      k ≤ L ∧ KahnInv g orient nodeWidth L [] st' ∧
        ∀ j, k ≤ j → j < L →
          specFrontier g.nodes.length g.edges (specDone g.nodes.length g.edges j) ≠ [] := by
  intro fuel
  induction fuel with
  | zero =>
    intro k zs st L st' hinv hrun
    cases zs with
    | nil =>
      rw [kahnLoop_nil] at hrun
      cases hrun
      exact ⟨le_rfl, hinv, fun j h1 h2 => by omega⟩
    | cons v vs => simp [kahnLoop] at hrun
  | succ fuel ih =>
    intro k zs st L st' hinv hrun
    cases zs with
    | nil =>
      rw [kahnLoop_nil] at hrun
      cases hrun
      exact ⟨le_rfl, hinv, fun j h1 h2 => by omega⟩
    | cons v vs =>
      simp only [kahnLoop] at hrun
      have hstep := kahnInv_step g hwf orient nodeWidth k (v :: vs) st hinv
      obtain ⟨h1, h2, h3⟩ := ih _ _ _ _ _ hstep hrun
      refine ⟨by omega, h2, ?_⟩
      intro j hj1 hj2
      by_cases hjk : j = k
      · subst hjk
        intro hempty
        have := (hinv.frontier v).mp (List.mem_cons_self v vs)
        rw [hempty] at this
        cases this
      · exact h3 j (by omega) hj2

theorem specFrontier_eq_nil_of_inv {g : Graph} {orient : Orient} {nodeWidth : JSNum} {L : Nat}
    {st : KahnState} (h : KahnInv g orient nodeWidth L [] st) :
    specFrontier g.nodes.length g.edges (specDone g.nodes.length g.edges L) = [] := by
  apply List.eq_nil_iff_forall_not_mem.mpr
  intro v hv
  have := (h.frontier v).mpr hv
  cases this

/-- In an acyclic well-formed graph, once a round has an empty frontier every node has been
levelled. -/
theorem mem_specDone_of_acyclic (g : Graph) (hwf : WellFormed g) (hac : Acyclic g) (L : Nat)
    (hempty : specFrontier g.nodes.length g.edges (specDone g.nodes.length g.edges L) = [])
    (v : Nat) (hv : v < g.nodes.length) : v ∈ specDone g.nodes.length g.edges L := by
  by_contra hnot
  let R : Fin g.nodes.length → Fin g.nodes.length → Prop :=
    fun a b => Relation.TransGen (edgeRel g) a.val b.val
  haveI : IsTrans (Fin g.nodes.length) R := ⟨fun a b c hab hbc => Relation.TransGen.trans hab hbc⟩
  haveI : IsIrrefl (Fin g.nodes.length) R := ⟨fun a => hac a.val⟩
  have hwfR : WellFounded R := Finite.wellFounded_of_trans_of_irrefl R
  let S : Set (Fin g.nodes.length) := {a | a.val ∉ specDone g.nodes.length g.edges L}
  obtain ⟨m, hmS, hmin⟩ := hwfR.has_min S ⟨⟨v, hv⟩, hnot⟩
  have hres : residual g.edges (specDone g.nodes.length g.edges L) m.val = 0 := by
    rw [residual_eq_zero]
    intro ed hed h2
    by_contra h1
    have hlt := hwf.node1_lt ed hed
    exact hmin ⟨ed.node1, hlt⟩ h1 (Relation.TransGen.single ⟨ed, hed, rfl, h2⟩)
  have : m.val ∈ specFrontier g.nodes.length g.edges (specDone g.nodes.length g.edges L) :=
    (mem_specFrontier _ _ _ _).mpr ⟨m.isLt, hmS, hres⟩
  rw [hempty] at this
  cases this

/-- The number of levels `L` of a well-formed graph and the state the Kahn loop ends in: the
frontier of round `L` is empty, the frontiers of the rounds before are not, and the loop has
written level `j` to exactly the nodes of the frontier of round `j`. -/
theorem kahnLoop_result (g : Graph) (hwf : WellFormed g) (orient : Orient) (nodeWidth : JSNum) :
    ∃ L st, kahnLoop g.edges orient nodeWidth (g.nodes.length + 1) 0 (initialZeroIndegrees g)
        (kahnInit g) = some (L, st) ∧
      computeNodeLevels g nodeWidth orient = some (L, moveSinksRight st.nodes L orient) ∧
      KahnInv g orient nodeWidth L [] st ∧
      specFrontier g.nodes.length g.edges (specDone g.nodes.length g.edges L) = [] ∧
      ∀ j, j < L →
        specFrontier g.nodes.length g.edges (specDone g.nodes.length g.edges j) ≠ [] := by
  obtain ⟨L, st, hrun, hlev⟩ := computeNodeLevels_isSome g nodeWidth orient
  obtain ⟨_, hinv, hne⟩ := kahnLoop_inv g hwf orient nodeWidth _ 0 _ _ L st
    (kahnInv_init g hwf orient nodeWidth) hrun
  exact ⟨L, st, hrun, hlev, hinv, specFrontier_eq_nil_of_inv hinv,
    fun j hj => hne j (Nat.zero_le j) hj⟩

/-! ## moveSinksRight and scaleNodeBreadths -/

theorem kahnLoop_edgeLists (edges : List Edge) (orient : Orient) (nodeWidth : JSNum) :
    ∀ (fuel k : Nat) (zs : List Nat) (st : KahnState) (L : Nat) (st' : KahnState),
      kahnLoop edges orient nodeWidth fuel k zs st = some (L, st') →
      edgeLists st'.nodes = edgeLists st.nodes := by
  intro fuel
  induction fuel with
  | zero =>
    intro k zs st L st' hrun
    cases zs with
    | nil => rw [kahnLoop_nil] at hrun; cases hrun; rfl
    | cons v vs => simp [kahnLoop] at hrun
  | succ fuel ih =>
    intro k zs st L st' hrun
    cases zs with
    | nil => rw [kahnLoop_nil] at hrun; cases hrun; rfl
    | cons v vs =>
      simp only [kahnLoop] at hrun
      rw [ih _ _ _ _ _ hrun]
      show edgeLists ((v :: vs).foldl (kahnNode edges orient nodeWidth k)
        { st with nextNode := [] }).nodes = _
      rw [foldl_kahnNode_nodes, edgeLists_setLayouts]

theorem edgeLists_moveSinksRight (nodes : List Node) (x : Nat) (orient : Orient) :
    edgeLists (moveSinksRight nodes x orient) = edgeLists nodes := by
  unfold edgeLists moveSinksRight
  rw [List.map_map]
  apply List.map_congr_left
  intro nd _
  simp only [Function.comp_apply]
  split_ifs <;> rfl

theorem nodeLayout_moveSinksRight (nodes : List Node) (x : Nat) (orient : Orient) (v : Nat) :
    nodeLayout (moveSinksRight nodes x orient) v =
      if v < nodes.length ∧ (nodeOutEdges nodes v).length = 0 then
        setPrimaryCoord orient (JSNum.fin ((x : ℚ) - 1)) (nodeLayout nodes v)
      else nodeLayout nodes v := by
  unfold nodeLayout nodeOutEdges moveSinksRight
  rw [List.getElem?_map]
  cases h : nodes[v]? with
  | none =>
    have : ¬ v < nodes.length := by
      intro hw
      rw [List.getElem?_eq_getElem hw] at h
      cases h
    simp [this]
  | some nd =>
    have : v < nodes.length := by
      by_contra hw
      rw [List.getElem?_eq_none (Nat.le_of_not_lt hw)] at h
      cases h
    simp only [Option.map_some', this, true_and]
    split_ifs <;> rfl

theorem edgeLists_scaleNodeBreadths (nodes : List Node) (kx : JSNum) (orient : Orient) :
    edgeLists (scaleNodeBreadths nodes kx orient) = edgeLists nodes := by
  unfold edgeLists scaleNodeBreadths
  rw [List.map_map]
  rfl

theorem nodeLayout_scaleNodeBreadths (nodes : List Node) (kx : JSNum) (orient : Orient)
    (v : Nat) (hv : v < nodes.length) :
    nodeLayout (scaleNodeBreadths nodes kx orient) v =
      setPrimaryCoord orient ((primaryCoord orient (nodeLayout nodes v)).mul kx)
        (nodeLayout nodes v) := by
  unfold nodeLayout scaleNodeBreadths
  rw [List.getElem?_map, List.getElem?_eq_getElem hv]
  rfl

theorem primaryCoord_setPrimaryCoord (orient : Orient) (c : JSNum) (l : NodeLayout) :
    primaryCoord orient (setPrimaryCoord orient c l) = c := by
  cases orient <;> rfl

theorem primarySize_setPrimaryCoord (orient : Orient) (c : JSNum) (l : NodeLayout) :
    primarySize orient (setPrimaryCoord orient c l) = primarySize orient l := by
  cases orient <;> rfl

theorem value_setPrimaryCoord (orient : Orient) (c : JSNum) (l : NodeLayout) :
    (setPrimaryCoord orient c l).value = l.value := by
  cases orient <;> rfl

/-- C8: every node with no outgoing edges ends at the last level: after `computeNodeBreadths`
up to and including `moveSinksRight` (before scaling) its level is `L - 1`, where `L` is the
number of levels the Kahn loop produced, whatever the loop itself wrote.  This holds for every
graph, and the loop always returns. -/
theorem sinks_at_last_level (g : Graph) (nodeWidth : JSNum) (orient : Orient) :
    ∃ L st nodes,
      kahnLoop g.edges orient nodeWidth (g.nodes.length + 1) 0 (initialZeroIndegrees g)
        (kahnInit g) = some (L, st) ∧
      computeNodeLevels g nodeWidth orient = some (L, nodes) ∧
      ∀ v, v < g.nodes.length → (nodeOutEdges g.nodes v).length = 0 →
        primaryCoord orient (nodeLayout nodes v) = JSNum.fin ((L : ℚ) - 1) := by
  obtain ⟨L, st, hrun, hlev⟩ := computeNodeLevels_isSome g nodeWidth orient
  refine ⟨L, st, _, hrun, hlev, ?_⟩
  intro v hv hout
  have hl : edgeLists st.nodes = edgeLists g.nodes := by
    rw [kahnLoop_edgeLists _ _ _ _ _ _ _ _ _ hrun]
    rfl
  rw [nodeLayout_moveSinksRight, if_pos, primaryCoord_setPrimaryCoord]
  exact ⟨by rw [edgeLists_length hl]; exact hv, by rw [nodeOutEdges_of_edgeLists hl]; exact hout⟩

/-! ## Levels of acyclic well-formed graphs -/

theorem wellFormed_chainGraph : WellFormed chainGraph :=
  ⟨by decide, by decide, by decide, by decide⟩

theorem wellFormed_mergeGraph : WellFormed mergeGraph :=
  ⟨by decide, by decide, by decide, by decide⟩

theorem wellFormed_singleNodeGraph : WellFormed singleNodeGraph :=
  ⟨by decide, by decide, by decide, by decide⟩

/-- A graph whose edges all go up along a ranking of the nodes is acyclic. -/
theorem acyclic_of_rank (g : Graph) (rank : Nat → Nat)
    (h : ∀ ed ∈ g.edges, rank ed.node1 < rank ed.node2) : Acyclic g := by
  have key : ∀ u v, Relation.TransGen (edgeRel g) u v → rank u < rank v := by
    intro u v huv
    induction huv with
    | single h1 =>
      obtain ⟨ed, hed, h1, h2⟩ := h1
      subst h1; subst h2
      exact h ed hed
    | tail _ h2 ih =>
      obtain ⟨ed, hed, h1, h2⟩ := h2
      subst h1; subst h2
      exact lt_trans ih (h ed hed)
  intro v hv
  exact lt_irrefl _ (key v v hv)

theorem acyclic_chainGraph : Acyclic chainGraph :=
  acyclic_of_rank chainGraph id (by decide)

theorem acyclic_mergeGraph : Acyclic mergeGraph :=
  acyclic_of_rank mergeGraph id (by decide)

theorem acyclic_singleNodeGraph : Acyclic singleNodeGraph :=
  acyclic_of_rank singleNodeGraph id (by decide)

/-- The Kahn loop on an acyclic well-formed graph: it returns, every node is in the frontier
of exactly one round `j < L`, and the loop has written `j` and the node width to its layout
and nothing else. -/
theorem kahnLoop_acyclic (g : Graph) (hwf : WellFormed g) (hac : Acyclic g) (orient : Orient)
    (nodeWidth : JSNum) :
    ∃ L st, kahnLoop g.edges orient nodeWidth (g.nodes.length + 1) 0 (initialZeroIndegrees g)
        (kahnInit g) = some (L, st) ∧
      computeNodeLevels g nodeWidth orient = some (L, moveSinksRight st.nodes L orient) ∧
      edgeLists st.nodes = edgeLists g.nodes ∧
      specFrontier g.nodes.length g.edges (specDone g.nodes.length g.edges L) = [] ∧
      (∀ j, j < L →
        specFrontier g.nodes.length g.edges (specDone g.nodes.length g.edges j) ≠ []) ∧
      ∀ v, v < g.nodes.length → ∃ j, j < L ∧
        v ∈ specFrontier g.nodes.length g.edges (specDone g.nodes.length g.edges j) ∧
        nodeLayout st.nodes v = levelField orient nodeWidth j (nodeLayout g.nodes v) := by
  obtain ⟨L, st, hrun, hlev, hinv, hempty, hne⟩ := kahnLoop_result g hwf orient nodeWidth
  refine ⟨L, st, hrun, hlev, hinv.lists, hempty, hne, ?_⟩
  intro v hv
  have hmem := mem_specDone_of_acyclic g hwf hac L hempty v hv
  obtain ⟨j, hj, hvj⟩ := (mem_specDone _ _ _ _).mp hmem
  exact ⟨j, hj, hvj, hinv.levelled j hj v hvj⟩

theorem nodeOutEdges_ne_nil_of_edge (g : Graph) (hwf : WellFormed g) {ed : Edge}
    (hed : ed ∈ g.edges) : (nodeOutEdges g.nodes ed.node1).length ≠ 0 := by
  obtain ⟨e, he, hget⟩ := List.getElem_of_mem hed
  have hmem : e ∈ edgesFrom g.edges ed.node1 := by
    unfold edgesFrom
    rw [List.mem_filter, List.mem_range]
    refine ⟨he, ?_⟩
    rw [List.getElem?_eq_getElem he, hget]
    simp
  have := (hwf.outEdges_perm ed.node1 (hwf.node1_lt ed hed)).mem_iff.mpr hmem
  intro h0
  rw [List.length_eq_zero] at h0
  rw [h0] at this
  cases this

/-- The levels of an acyclic well-formed graph after `moveSinksRight`: every node has a
natural number `k < L` as its level, the node width as its breadth size, and every edge goes
from a lower level to a strictly higher one. -/
theorem computeNodeLevels_acyclic (g : Graph) (hwf : WellFormed g) (hac : Acyclic g)
    (orient : Orient) (nodeWidth : JSNum) :
    ∃ (L : Nat) (nodes : List Node) (lvl : Nat → Nat), computeNodeLevels g nodeWidth orient = some (L, nodes) ∧
      edgeLists nodes = edgeLists g.nodes ∧
      (∀ v, v < g.nodes.length → lvl v < L ∧
        primaryCoord orient (nodeLayout nodes v) = JSNum.fin (lvl v) ∧
        primarySize orient (nodeLayout nodes v) = nodeWidth ∧
        (nodeLayout nodes v).value = (nodeLayout g.nodes v).value) ∧
      ∀ ed ∈ g.edges, lvl ed.node1 < lvl ed.node2 := by
  obtain ⟨L, st, _, hlev, hlists, _, _, hall⟩ := kahnLoop_acyclic g hwf hac orient nodeWidth
  choose! rnd hrnd using hall
  have hn : st.nodes.length = g.nodes.length := edgeLists_length hlists
  refine ⟨L, _, fun v => if (nodeOutEdges g.nodes v).length = 0 then L - 1 else rnd v, hlev,
    ?_, ?_, ?_⟩
  · rw [edgeLists_moveSinksRight, hlists]
  · intro v hv
    obtain ⟨h1, h2, h3⟩ := hrnd v hv
    rw [nodeLayout_moveSinksRight, hn, nodeOutEdges_of_edgeLists hlists]
    show (if (nodeOutEdges g.nodes v).length = 0 then L - 1 else rnd v) < L ∧
      primaryCoord orient _ =
        JSNum.fin ((if (nodeOutEdges g.nodes v).length = 0 then L - 1 else rnd v : Nat) : ℚ) ∧ _
    by_cases hs : (nodeOutEdges g.nodes v).length = 0
    · have hc : v < g.nodes.length ∧ (nodeOutEdges g.nodes v).length = 0 := ⟨hv, hs⟩
      rw [if_pos hc, if_pos hs, primaryCoord_setPrimaryCoord, primarySize_setPrimaryCoord,
        value_setPrimaryCoord, h3, primarySize_levelField, value_levelField]
      refine ⟨by omega, ?_, rfl, rfl⟩
      congr 1
      rw [Nat.cast_sub (by omega)]
      simp
    · have hc : ¬ (v < g.nodes.length ∧ (nodeOutEdges g.nodes v).length = 0) :=
        fun hc => hs hc.2
      rw [if_neg hc, if_neg hs, h3, primaryCoord_levelField,
        primarySize_levelField, value_levelField]
      exact ⟨h1, rfl, rfl, rfl⟩
  · intro ed hed
    have hu := hwf.node1_lt ed hed
    have hv := hwf.node2_lt ed hed
    obtain ⟨hu1, hu2, _⟩ := hrnd ed.node1 hu
    obtain ⟨hv1, hv2, _⟩ := hrnd ed.node2 hv
    have hsrc := source_mem_specDone _ _ hed hv2
    obtain ⟨i, hi, hui⟩ := (mem_specDone _ _ _ _).mp hsrc
    have hiu : i = rnd ed.node1 := specFrontier_round_unique _ _ hui hu2
    have hlt : rnd ed.node1 < rnd ed.node2 := hiu ▸ hi
    simp only
    rw [if_neg (nodeOutEdges_ne_nil_of_edge g hwf hed)]
    split_ifs
    · omega
    · exact hlt

/-- C1: for every acyclic well-formed graph, after `computeNodeBreadths` up to and including
`moveSinksRight` (Kahn levelling and sink correction, before scaling) every edge goes from a
node at a strictly lower level to a node at a strictly higher level. -/
theorem levels_increase_along_edges (g : Graph) (hwf : WellFormed g) (hac : Acyclic g)
    (nodeWidth : JSNum) (orient : Orient) :
    ∃ L nodes, computeNodeLevels g nodeWidth orient = some (L, nodes) ∧
      ∀ ed ∈ g.edges, ∃ i j : Nat,
        primaryCoord orient (nodeLayout nodes ed.node1) = JSNum.fin i ∧
        primaryCoord orient (nodeLayout nodes ed.node2) = JSNum.fin j ∧ i < j := by
  obtain ⟨L, nodes, lvl, hlev, _, hall, hedge⟩ :=
    computeNodeLevels_acyclic g hwf hac orient nodeWidth
  refine ⟨L, nodes, hlev, ?_⟩
  intro ed hed
  exact ⟨lvl ed.node1, lvl ed.node2, (hall _ (hwf.node1_lt ed hed)).2.1,
    (hall _ (hwf.node2_lt ed hed)).2.1, hedge ed hed⟩

theorem levels_increase_along_edges_witness :
    WellFormed chainGraph ∧ Acyclic chainGraph ∧
    ∃ L nodes, computeNodeLevels chainGraph (JSNum.fin 20) Orient.horizontal = some (L, nodes) ∧
      ∀ ed ∈ chainGraph.edges, ∃ i j : Nat,
        primaryCoord Orient.horizontal (nodeLayout nodes ed.node1) = JSNum.fin i ∧
        primaryCoord Orient.horizontal (nodeLayout nodes ed.node2) = JSNum.fin j ∧ i < j :=
  ⟨wellFormed_chainGraph, acyclic_chainGraph,
    levels_increase_along_edges chainGraph wellFormed_chainGraph acyclic_chainGraph
      (JSNum.fin 20) Orient.horizontal⟩

/-! ## computeNodeBreadths -/

theorem computeNodeBreadths_eq (g : Graph) (nodeWidth width height : JSNum) (orient : Orient)
    {L : Nat} {nodes : List Node} (h : computeNodeLevels g nodeWidth orient = some (L, nodes)) :
    computeNodeBreadths g nodeWidth width height orient =
      some { g with
        nodes := scaleNodeBreadths nodes (breadthScale nodeWidth width height orient L) orient } := by
  unfold computeNodeBreadths
  rw [h]

theorem primarySize_scaled (nodes : List Node) (kx : JSNum) (orient : Orient) (v : Nat)
    (hv : v < nodes.length) :
    primarySize orient (nodeLayout (scaleNodeBreadths nodes kx orient) v) =
      primarySize orient (nodeLayout nodes v) := by
  rw [nodeLayout_scaleNodeBreadths nodes kx orient v hv, primarySize_setPrimaryCoord]

theorem primaryCoord_scaled (nodes : List Node) (kx : JSNum) (orient : Orient) (v : Nat)
    (hv : v < nodes.length) :
    primaryCoord orient (nodeLayout (scaleNodeBreadths nodes kx orient) v) =
      (primaryCoord orient (nodeLayout nodes v)).mul kx := by
  rw [nodeLayout_scaleNodeBreadths nodes kx orient v hv, primaryCoord_setPrimaryCoord]

/-- C5: for every acyclic well-formed graph, `computeNodeBreadths` sets the breadth coordinate
of every node to its level (after sink correction) times the scale
`(primaryExtent - nodeThickness) / (L - 1)` and its breadth size to `nodeThickness`; when the
levelling produces `L >= 2` levels and the extent and the thickness are finite, that is the
number `level * (primaryExtent - nodeThickness) / (L - 1)`. -/
theorem computeNodeBreadths_scaled (g : Graph) (hwf : WellFormed g) (hac : Acyclic g)
    (nodeWidth width height : JSNum) (orient : Orient) :
    ∃ L nodes g', computeNodeLevels g nodeWidth orient = some (L, nodes) ∧
      computeNodeBreadths g nodeWidth width height orient = some g' ∧
      ∀ v, v < g.nodes.length → ∃ k : Nat,
        primaryCoord orient (nodeLayout nodes v) = JSNum.fin k ∧
        primaryCoord orient (nodeLayout g'.nodes v) =
          (JSNum.fin k).mul
            (((primaryExtent orient width height).sub nodeWidth).div (JSNum.fin ((L : ℚ) - 1))) ∧
        primarySize orient (nodeLayout g'.nodes v) = nodeWidth ∧
        ∀ e w : ℚ, 2 ≤ L → primaryExtent orient width height = JSNum.fin e →
          nodeWidth = JSNum.fin w →
          primaryCoord orient (nodeLayout g'.nodes v) = JSNum.fin (k * (e - w) / ((L : ℚ) - 1)) := by
  obtain ⟨L, nodes, lvl, hlev, hlists, hall, _⟩ :=
    computeNodeLevels_acyclic g hwf hac orient nodeWidth
  refine ⟨L, nodes, _, hlev, computeNodeBreadths_eq g nodeWidth width height orient hlev, ?_⟩
  intro v hv
  have hv' : v < nodes.length := by rw [edgeLists_length hlists]; exact hv
  obtain ⟨_, h2, h3, _⟩ := hall v hv
  have hc : primaryCoord orient (nodeLayout (scaleNodeBreadths nodes
      (breadthScale nodeWidth width height orient L) orient) v) =
      (JSNum.fin (lvl v)).mul
        (((primaryExtent orient width height).sub nodeWidth).div (JSNum.fin ((L : ℚ) - 1))) := by
    rw [primaryCoord_scaled _ _ _ _ hv', h2]
    rfl
  refine ⟨lvl v, h2, hc, ?_, ?_⟩
  · show primarySize orient (nodeLayout (scaleNodeBreadths nodes _ orient) v) = nodeWidth
    rw [primarySize_scaled _ _ _ _ hv', h3]
  · intro e w hL he hw
    show primaryCoord orient (nodeLayout (scaleNodeBreadths nodes _ orient) v) = _
    rw [hc, he, hw]
    have hne : (L : ℚ) - 1 ≠ 0 := by
      have : (2 : ℚ) ≤ (L : ℚ) := by exact_mod_cast hL
      linarith
    simp only [JSNum.sub, JSNum.neg, JSNum.add, JSNum.div, if_neg hne, JSNum.mul]
    congr 1
    ring

theorem computeNodeBreadths_scaled_witness :
    WellFormed chainGraph ∧ Acyclic chainGraph ∧
    ∃ L nodes g', computeNodeLevels chainGraph (JSNum.fin 20) Orient.horizontal =
        some (L, nodes) ∧
      computeNodeBreadths chainGraph (JSNum.fin 20) (JSNum.fin 300) (JSNum.fin 200)
        Orient.horizontal = some g' ∧
      ∀ v, v < chainGraph.nodes.length → ∃ k : Nat,
        primaryCoord Orient.horizontal (nodeLayout nodes v) = JSNum.fin k ∧
        primaryCoord Orient.horizontal (nodeLayout g'.nodes v) =
          (JSNum.fin k).mul
            (((primaryExtent Orient.horizontal (JSNum.fin 300) (JSNum.fin 200)).sub
              (JSNum.fin 20)).div (JSNum.fin ((L : ℚ) - 1))) ∧
        primarySize Orient.horizontal (nodeLayout g'.nodes v) = JSNum.fin 20 ∧
        ∀ e w : ℚ, 2 ≤ L →
          primaryExtent Orient.horizontal (JSNum.fin 300) (JSNum.fin 200) = JSNum.fin e →
          JSNum.fin 20 = JSNum.fin w →
          primaryCoord Orient.horizontal (nodeLayout g'.nodes v) =
            JSNum.fin (k * (e - w) / ((L : ℚ) - 1)) :=
  ⟨wellFormed_chainGraph, acyclic_chainGraph,
    computeNodeBreadths_scaled chainGraph wellFormed_chainGraph acyclic_chainGraph
      (JSNum.fin 20) (JSNum.fin 300) (JSNum.fin 200) Orient.horizontal⟩

/-- Scenario A of the specification, evaluated: three levels, scale 140 and the breadth
coordinates 0, 140 and 280. -/
theorem scenarioA_breadths :
    (computeNodeLevels chainGraph (JSNum.fin 20) Orient.horizontal).map Prod.fst = some 3 ∧
    breadthScale (JSNum.fin 20) (JSNum.fin 300) (JSNum.fin 200) Orient.horizontal 3 =
      JSNum.fin 140 ∧
    (computeNodeBreadths chainGraph (JSNum.fin 20) (JSNum.fin 300) (JSNum.fin 200)
      Orient.horizontal).map (fun g' => g'.nodes.map (fun nd => nd.layout.x)) =
      some [JSNum.fin 0, JSNum.fin 140, JSNum.fin 280] := by
  decide!

theorem jsDiv_zero_isFinite (a : JSNum) : (a.div (JSNum.fin 0)).isFinite = false := by
  cases a <;> simp [JSNum.div, JSNum.isFinite, JSNum.signedInf]
  split_ifs <;> rfl

theorem jsDiv_zero_ne_zero (a : JSNum) : a.div (JSNum.fin 0) ≠ JSNum.fin 0 := by
  intro h
  have := jsDiv_zero_isFinite a
  rw [h] at this
  cases this

theorem jsZero_mul_of_not_finite (b : JSNum) (h : b.isFinite = false) :
    (JSNum.fin 0).mul b = JSNum.nan := by
  cases b <;> simp [JSNum.mul, JSNum.isFinite, JSNum.signedInf] at h ⊢

/-- C6, the claim fails: on the graph with one node and no edge, with extent 300 and node
thickness 20, the levelling produces one level, the breadth scale is `+Infinity` and not `0`,
and the breadth coordinate of the node is `NaN` and not `0`. -/
theorem single_level_not_guarded :
    (computeNodeLevels singleNodeGraph (JSNum.fin 20) Orient.horizontal).map Prod.fst = some 1 ∧
    breadthScale (JSNum.fin 20) (JSNum.fin 300) (JSNum.fin 200) Orient.horizontal 1 =
      JSNum.pinf ∧
    breadthScale (JSNum.fin 20) (JSNum.fin 300) (JSNum.fin 200) Orient.horizontal 1 ≠
      JSNum.fin 0 ∧
    (computeNodeBreadths singleNodeGraph (JSNum.fin 20) (JSNum.fin 300) (JSNum.fin 200)
      Orient.horizontal).map (fun g' => g'.nodes.map (fun nd => nd.layout.x)) =
      some [JSNum.nan] ∧
    (computeNodeBreadths singleNodeGraph (JSNum.fin 20) (JSNum.fin 300) (JSNum.fin 200)
      Orient.horizontal).map (fun g' => g'.nodes.map (fun nd => nd.layout.x)) ≠
      some [JSNum.fin 0] := by
  decide!

/-- C6, amended: when the levelling of an acyclic well-formed graph produces exactly one
level, `computeNodeBreadths` divides by zero: the breadth scale
`(primaryExtent - nodeThickness) / 0` is an infinity or `NaN`, never `0`, and the breadth
coordinate of every node is `0 * scale = NaN`. -/
theorem single_level_scale (g : Graph) (hwf : WellFormed g) (hac : Acyclic g)
    (nodeWidth width height : JSNum) (orient : Orient) :
    ∃ L nodes g', computeNodeLevels g nodeWidth orient = some (L, nodes) ∧
      computeNodeBreadths g nodeWidth width height orient = some g' ∧
      (L = 1 →
        (breadthScale nodeWidth width height orient L).isFinite = false ∧
        breadthScale nodeWidth width height orient L ≠ JSNum.fin 0 ∧
        ∀ v, v < g.nodes.length →
          primaryCoord orient (nodeLayout nodes v) = JSNum.fin 0 ∧
          primaryCoord orient (nodeLayout g'.nodes v) = JSNum.nan) := by
  obtain ⟨L, nodes, lvl, hlev, hlists, hall, _⟩ :=
    computeNodeLevels_acyclic g hwf hac orient nodeWidth
  refine ⟨L, nodes, _, hlev, computeNodeBreadths_eq g nodeWidth width height orient hlev, ?_⟩
  intro hL
  subst hL
  have hk : breadthScale nodeWidth width height orient 1 =
      ((primaryExtent orient width height).sub nodeWidth).div (JSNum.fin 0) := by
    unfold breadthScale
    norm_num
  refine ⟨by rw [hk]; exact jsDiv_zero_isFinite _, by rw [hk]; exact jsDiv_zero_ne_zero _, ?_⟩
  intro v hv
  have hv' : v < nodes.length := by rw [edgeLists_length hlists]; exact hv
  obtain ⟨h1, h2, _, _⟩ := hall v hv
  have h0 : lvl v = 0 := by omega
  rw [h0] at h2
  refine ⟨by simpa using h2, ?_⟩
  show primaryCoord orient (nodeLayout (scaleNodeBreadths nodes _ orient) v) = _
  rw [primaryCoord_scaled _ _ _ _ hv', h2, hk]
  simpa using jsZero_mul_of_not_finite _ (jsDiv_zero_isFinite _)

theorem single_level_scale_witness :
    WellFormed singleNodeGraph ∧ Acyclic singleNodeGraph ∧
    ∃ L nodes g', computeNodeLevels singleNodeGraph (JSNum.fin 20) Orient.horizontal =
        some (L, nodes) ∧
      computeNodeBreadths singleNodeGraph (JSNum.fin 20) (JSNum.fin 300) (JSNum.fin 200)
        Orient.horizontal = some g' ∧
      (L = 1 →
        (breadthScale (JSNum.fin 20) (JSNum.fin 300) (JSNum.fin 200) Orient.horizontal
          L).isFinite = false ∧
        breadthScale (JSNum.fin 20) (JSNum.fin 300) (JSNum.fin 200) Orient.horizontal L ≠
          JSNum.fin 0 ∧
        ∀ v, v < singleNodeGraph.nodes.length →
          primaryCoord Orient.horizontal (nodeLayout nodes v) = JSNum.fin 0 ∧
          primaryCoord Orient.horizontal (nodeLayout g'.nodes v) = JSNum.nan) :=
  ⟨wellFormed_singleNodeGraph, acyclic_singleNodeGraph,
    single_level_scale singleNodeGraph wellFormed_singleNodeGraph acyclic_singleNodeGraph
      (JSNum.fin 20) (JSNum.fin 300) (JSNum.fin 200) Orient.horizontal⟩

/-! ## Sorting -/

theorem jsSub_fin (a b : ℚ) : (JSNum.fin a).sub (JSNum.fin b) = JSNum.fin (a - b) := by
  simp [JSNum.sub, JSNum.neg, JSNum.add, sub_eq_add_neg]

theorem jsAdd_fin (a b : ℚ) : (JSNum.fin a).add (JSNum.fin b) = JSNum.fin (a + b) := rfl

theorem jsMul_fin (a b : ℚ) : (JSNum.fin a).mul (JSNum.fin b) = JSNum.fin (a * b) := rfl

theorem jsDiv_fin (a b : ℚ) (hb : b ≠ 0) :
    (JSNum.fin a).div (JSNum.fin b) = JSNum.fin (a / b) := by
  simp [JSNum.div, hb]

theorem jsGt_fin (a b : ℚ) : (JSNum.fin a).gt (JSNum.fin b) = decide (b < a) := rfl

theorem jsSort_perm {α : Type} (cmp : α → α → JSNum) (l : List α) : (jsSort cmp l).Perm l :=
  List.perm_insertionSort _ l

theorem mem_jsSort {α : Type} (cmp : α → α → JSNum) (l : List α) (a : α) :
    a ∈ jsSort cmp l ↔ a ∈ l :=
  (jsSort_perm cmp l).mem_iff

theorem length_jsSort {α : Type} (cmp : α → α → JSNum) (l : List α) :
    (jsSort cmp l).length = l.length :=
  (jsSort_perm cmp l).length_eq

/-- On a list whose keys are all finite, sorting by the comparator `key a - key b` is the
stable insertion sort by the order of the keys. -/
theorem jsSort_eq_of_finite {α : Type} (key : α → JSNum) (q : α → ℚ) (l : List α)
    (h : ∀ a ∈ l, key a = JSNum.fin (q a)) :
    jsSort (fun a b => (key a).sub (key b)) l = l.insertionSort (fun a b => q a ≤ q b) := by
  have := List.map_insertionSort (fun a b => ((key a).sub (key b)).gt (JSNum.fin 0) = false)
    (fun a b => q a ≤ q b) (id : α → α) l (by
      intro a ha b hb
      show ((key a).sub (key b)).gt (JSNum.fin 0) = false ↔ q a ≤ q b
      rw [h a ha, h b hb, jsSub_fin, jsGt_fin]
      simp)
  simpa [jsSort] using this

theorem sorted_insertionSort_key {α : Type} (q : α → ℚ) (l : List α) :
    (l.insertionSort (fun a b => q a ≤ q b)).Sorted (fun a b => q a ≤ q b) := by
  haveI : IsTotal α (fun a b => q a ≤ q b) := ⟨fun a b => le_total (q a) (q b)⟩
  haveI : IsTrans α (fun a b => q a ≤ q b) := ⟨fun a b c hab hbc => le_trans hab hbc⟩
  exact List.sorted_insertionSort _ l

/-- A list whose keys are all finite is sorted by key after `jsSort`. -/
theorem jsSort_sorted_of_finite {α : Type} (key : α → JSNum) (q : α → ℚ) (l : List α)
    (h : ∀ a ∈ l, key a = JSNum.fin (q a)) :
    (jsSort (fun a b => (key a).sub (key b)) l).Sorted (fun a b => q a ≤ q b) := by
  rw [jsSort_eq_of_finite key q l h]
  exact sorted_insertionSort_key q l

/-- The comparator `key a - key b` never puts `a` after `b` and `b` after `a`. -/
theorem jsSort_rel_total (a b : JSNum) :
    (a.sub b).gt (JSNum.fin 0) = false ∨ (b.sub a).gt (JSNum.fin 0) = false := by
  cases a <;> cases b <;> simp [JSNum.sub, JSNum.neg, JSNum.add, JSNum.gt]
  rename_i x y
  by_cases h : x ≤ y
  · left; linarith
  · right; linarith

theorem head?_orderedInsert {α : Type} (r : α → α → Prop) [DecidableRel r] (a : α)
    (l : List α) (x : α) (hx : x ∈ (l.orderedInsert r a).head?) : x = a ∨ x ∈ l.head? := by
  cases l with
  | nil => simp at hx; exact Or.inl hx.symm
  | cons b l =>
    rw [List.orderedInsert] at hx
    split_ifs at hx
    · simp at hx; exact Or.inl hx.symm
    · right; simpa using hx

theorem chain'_orderedInsert {α : Type} (r : α → α → Prop) [DecidableRel r]
    (htot : ∀ a b, r a b ∨ r b a) (a : α) (l : List α) (hl : l.Chain' r) :
    (l.orderedInsert r a).Chain' r := by
  induction l with
  | nil => simp
  | cons b l ih =>
    rw [List.orderedInsert]
    split_ifs with hab
    · exact List.Chain'.cons hab hl
    · have hba : r b a := (htot a b).resolve_left hab
      rw [List.chain'_cons'] at hl ⊢
      refine ⟨?_, ih hl.2⟩
      intro x hx
      rcases head?_orderedInsert r a l x hx with h | h
      · exact h ▸ hba
      · exact hl.1 x h

theorem chain'_insertionSort {α : Type} (r : α → α → Prop) [DecidableRel r]
    (htot : ∀ a b, r a b ∨ r b a) (l : List α) : (l.insertionSort r).Chain' r := by
  induction l with
  | nil => simp
  | cons a l ih => exact chain'_orderedInsert r htot a _ ih

theorem insertionSort_eq_of_chain' {α : Type} (r : α → α → Prop) [DecidableRel r]
    (l : List α) (hl : l.Chain' r) : l.insertionSort r = l := by
  induction l with
  | nil => rfl
  | cons a l ih =>
    rw [List.chain'_cons'] at hl
    rw [List.insertionSort, ih hl.2]
    cases l with
    | nil => rfl
    | cons b l =>
      rw [List.orderedInsert, if_pos (hl.1 b (by simp))]

/-- Sorting a second time with the same keys changes nothing, whatever the keys are. -/
theorem jsSort_idem {α : Type} (key : α → JSNum) (l : List α) :
    jsSort (fun a b => (key a).sub (key b)) (jsSort (fun a b => (key a).sub (key b)) l) =
      jsSort (fun a b => (key a).sub (key b)) l := by
  unfold jsSort
  apply insertionSort_eq_of_chain'
  apply chain'_insertionSort
  intro a b
  exact jsSort_rel_total (key a) (key b)

theorem jsSort_congr {α : Type} (cmp cmp' : α → α → JSNum) (l : List α)
    (h : ∀ a ∈ l, ∀ b ∈ l, cmp a b = cmp' a b) : jsSort cmp l = jsSort cmp' l := by
  have := List.map_insertionSort (fun a b => (cmp a b).gt (JSNum.fin 0) = false)
    (fun a b => (cmp' a b).gt (JSNum.fin 0) = false) (id : α → α) l (by
      intro a ha b hb
      show (cmp a b).gt (JSNum.fin 0) = false ↔ (cmp' a b).gt (JSNum.fin 0) = false
      rw [h a ha b hb])
  simpa [jsSort] using this

/-! ## The relaxation sweeps and zero weight sums -/

theorem jsSub_not_finite (a b : JSNum) (h : a.isFinite = false) :
    (a.sub b).isFinite = false := by
  cases a <;> cases b <;> simp [JSNum.sub, JSNum.neg, JSNum.add, JSNum.isFinite] at h ⊢

theorem jsMul_not_finite (a b : JSNum) (h : a.isFinite = false) :
    (a.mul b).isFinite = false := by
  cases a <;> cases b <;> simp [JSNum.mul, JSNum.isFinite, JSNum.signedInf] at h ⊢ <;>
    split_ifs <;> rfl

theorem jsAdd_not_finite (a b : JSNum) (h : b.isFinite = false) :
    (a.add b).isFinite = false := by
  cases a <;> cases b <;> simp [JSNum.add, JSNum.isFinite] at h ⊢

theorem length_setCoord (orient : Orient) (nodes : List Node) (v : Nat) (c : JSNum) :
    (setCoord orient nodes v c).length = nodes.length :=
  length_setNodeLayout nodes v _

theorem edgeLists_setCoord (orient : Orient) (nodes : List Node) (v : Nat) (c : JSNum) :
    edgeLists (setCoord orient nodes v c) = edgeLists nodes :=
  edgeLists_setNodeLayout nodes v _

theorem secondaryCoord_setSecondaryCoord (orient : Orient) (c : JSNum) (l : NodeLayout) :
    secondaryCoord orient (setSecondaryCoord orient c l) = c := by
  cases orient <;> rfl

theorem secondarySize_setSecondaryCoord (orient : Orient) (c : JSNum) (l : NodeLayout) :
    secondarySize orient (setSecondaryCoord orient c l) = secondarySize orient l := by
  cases orient <;> rfl

theorem coordOf_setCoord (orient : Orient) (nodes : List Node) (v w : Nat) (c : JSNum) :
    coordOf orient (setCoord orient nodes v c) w =
      if v = w ∧ w < nodes.length then c else coordOf orient nodes w := by
  unfold coordOf setCoord
  rw [nodeLayout_setNodeLayout]
  split_ifs
  · exact secondaryCoord_setSecondaryCoord orient c _
  · rfl

theorem sizeOf_setCoord (orient : Orient) (nodes : List Node) (v w : Nat) (c : JSNum) :
    sizeOf orient (setCoord orient nodes v c) w = sizeOf orient nodes w := by
  unfold sizeOf setCoord
  rw [nodeLayout_setNodeLayout]
  split_ifs
  · exact secondarySize_setSecondaryCoord orient c _
  · rfl

theorem edgeLists_relaxNodeRight (orient : Orient) (edges : List Edge) (alpha : JSNum)
    (nodes : List Node) (w : Nat) :
    edgeLists (relaxNodeRight orient edges alpha nodes w) = edgeLists nodes := by
  unfold relaxNodeRight
  split_ifs
  · exact edgeLists_setCoord _ _ _ _
  · rfl

theorem edgeLists_relaxNodeLeft (orient : Orient) (edges : List Edge) (alpha : JSNum)
    (nodes : List Node) (w : Nat) :
    edgeLists (relaxNodeLeft orient edges alpha nodes w) = edgeLists nodes := by
  unfold relaxNodeLeft
  split_ifs
  · exact edgeLists_setCoord _ _ _ _
  · rfl

theorem edgeLists_foldl_relaxNodeRight (orient : Orient) (edges : List Edge) (alpha : JSNum)
    (grp : List Nat) (nodes : List Node) :
    edgeLists (grp.foldl (relaxNodeRight orient edges alpha) nodes) = edgeLists nodes := by
  induction grp generalizing nodes with
  | nil => rfl
  | cons b grp ih => rw [List.foldl_cons, ih, edgeLists_relaxNodeRight]

theorem edgeLists_foldl_relaxNodeLeft (orient : Orient) (edges : List Edge) (alpha : JSNum)
    (grp : List Nat) (nodes : List Node) :
    edgeLists (grp.foldl (relaxNodeLeft orient edges alpha) nodes) = edgeLists nodes := by
  induction grp generalizing nodes with
  | nil => rfl
  | cons b grp ih => rw [List.foldl_cons, ih, edgeLists_relaxNodeLeft]

/-- A property that one step of a loop establishes and every step keeps holds after the loop
as soon as the loop takes that step. -/
theorem foldl_establish {α σ : Type} (f : σ → α → σ) (I P : σ → Prop) (a : α)
    (hI : ∀ s b, I s → I (f s b)) (hest : ∀ s, I s → P (f s a))
    (hpres : ∀ s b, I s → P s → P (f s b)) (l : List α) (s : σ) (hs : I s)
    (h : a ∈ l ∨ P s) : I (l.foldl f s) ∧ P (l.foldl f s) := by
  induction l generalizing s with
  | nil =>
    rcases h with h | h
    · cases h
    · exact ⟨hs, h⟩
  | cons b l ih =>
    rw [List.foldl_cons]
    apply ih _ (hI s b hs)
    rcases h with h | h
    · rcases List.mem_cons.mp h with h | h
      · right; exact h ▸ hest s hs
      · left; exact h
    · right; exact hpres s b hs h

theorem relaxNodeRight_not_finite (orient : Orient) (edges : List Edge) (alpha : JSNum)
    (nodes : List Node) (v : Nat) (hv : v < nodes.length)
    (hout : (nodeOutEdges nodes v).length ≠ 0)
    (hsum : sum (nodeOutEdges nodes v) (getEdgeValue edges) = JSNum.fin 0) :
    (coordOf orient (relaxNodeRight orient edges alpha nodes v) v).isFinite = false := by
  unfold relaxNodeRight
  rw [if_pos hout, coordOf_setCoord, if_pos ⟨rfl, hv⟩, hsum]
  exact jsAdd_not_finite _ _ (jsMul_not_finite _ _ (jsSub_not_finite _ _ (jsDiv_zero_isFinite _)))

theorem relaxNodeLeft_not_finite (orient : Orient) (edges : List Edge) (alpha : JSNum)
    (nodes : List Node) (v : Nat) (hv : v < nodes.length)
    (hin : (nodeInEdges nodes v).length ≠ 0)
    (hsum : sum (nodeInEdges nodes v) (getEdgeValue edges) = JSNum.fin 0) :
    (coordOf orient (relaxNodeLeft orient edges alpha nodes v) v).isFinite = false := by
  unfold relaxNodeLeft
  rw [if_pos hin, coordOf_setCoord, if_pos ⟨rfl, hv⟩, hsum]
  exact jsAdd_not_finite _ _ (jsMul_not_finite _ _ (jsSub_not_finite _ _ (jsDiv_zero_isFinite _)))

theorem coordOf_relaxNodeRight_of_ne (orient : Orient) (edges : List Edge) (alpha : JSNum)
    (nodes : List Node) {v w : Nat} (h : w ≠ v) :
    coordOf orient (relaxNodeRight orient edges alpha nodes w) v = coordOf orient nodes v := by
  unfold relaxNodeRight
  split_ifs
  · rw [coordOf_setCoord, if_neg (fun hc => h hc.1)]
  · rfl

theorem coordOf_relaxNodeLeft_of_ne (orient : Orient) (edges : List Edge) (alpha : JSNum)
    (nodes : List Node) {v w : Nat} (h : w ≠ v) :
    coordOf orient (relaxNodeLeft orient edges alpha nodes w) v = coordOf orient nodes v := by
  unfold relaxNodeLeft
  split_ifs
  · rw [coordOf_setCoord, if_neg (fun hc => h hc.1)]
  · rfl

theorem relaxRight_groups_not_finite (orient : Orient) (edges : List Edge) (alpha : JSNum)
    (nodes0 : List Node) (v : Nat) (hv : v < nodes0.length)
    (hout : (nodeOutEdges nodes0 v).length ≠ 0)
    (hsum : sum (nodeOutEdges nodes0 v) (getEdgeValue edges) = JSNum.fin 0)
    (groups : List (List Nat)) (nodes : List Node) (hl : edgeLists nodes = edgeLists nodes0)
    (h : (∃ grp ∈ groups, v ∈ grp) ∨ (coordOf orient nodes v).isFinite = false) :
    edgeLists (groups.foldl
        (fun acc grp => grp.foldl (relaxNodeRight orient edges alpha) acc) nodes) =
        edgeLists nodes0 ∧
      (coordOf orient (groups.foldl
        (fun acc grp => grp.foldl (relaxNodeRight orient edges alpha) acc) nodes) v).isFinite =
        false := by
  have inner : ∀ (grp : List Nat) (s : List Node), edgeLists s = edgeLists nodes0 →
      (v ∈ grp ∨ (coordOf orient s v).isFinite = false) →
      edgeLists (grp.foldl (relaxNodeRight orient edges alpha) s) = edgeLists nodes0 ∧
        (coordOf orient (grp.foldl (relaxNodeRight orient edges alpha) s) v).isFinite =
          false := by
    intro grp s hs hor
    refine foldl_establish (relaxNodeRight orient edges alpha)
      (fun s => edgeLists s = edgeLists nodes0)
      (fun s => (coordOf orient s v).isFinite = false) v ?_ ?_ ?_ grp s hs hor
    · intro s b hs
      rw [edgeLists_relaxNodeRight]; exact hs
    · intro s hs
      apply relaxNodeRight_not_finite
      · rw [edgeLists_length hs]; exact hv
      · rw [nodeOutEdges_of_edgeLists hs]; exact hout
      · rw [nodeOutEdges_of_edgeLists hs]; exact hsum
    · intro s b hs hp
      by_cases hb : b = v
      · subst hb
        apply relaxNodeRight_not_finite
        · rw [edgeLists_length hs]; exact hv
        · rw [nodeOutEdges_of_edgeLists hs]; exact hout
        · rw [nodeOutEdges_of_edgeLists hs]; exact hsum
      · rw [coordOf_relaxNodeRight_of_ne _ _ _ _ hb]; exact hp
  induction groups generalizing nodes with
  | nil =>
    rcases h with ⟨grp, hg, _⟩ | h
    · cases hg
    · exact ⟨hl, h⟩
  | cons grp groups ih =>
    rw [List.foldl_cons]
    have hstep := inner grp nodes hl
    rcases h with ⟨grp', hg, hvg⟩ | h
    · rcases List.mem_cons.mp hg with hg | hg
      · subst hg
        obtain ⟨h1, h2⟩ := hstep (Or.inl hvg)
        exact ih _ h1 (Or.inr h2)
      · by_cases hvin : v ∈ grp
        · obtain ⟨h1, h2⟩ := hstep (Or.inl hvin)
          exact ih _ h1 (Or.inr h2)
        · have h1 : edgeLists (grp.foldl (relaxNodeRight orient edges alpha) nodes) =
              edgeLists nodes0 := by
            rw [edgeLists_foldl_relaxNodeRight]; exact hl
          exact ih _ h1 (Or.inl ⟨grp', hg, hvg⟩)
    · obtain ⟨h1, h2⟩ := hstep (Or.inr h)
      exact ih _ h1 (Or.inr h2)

theorem relaxLeft_groups_not_finite (orient : Orient) (edges : List Edge) (alpha : JSNum)
    (nodes0 : List Node) (v : Nat) (hv : v < nodes0.length)
    (hin : (nodeInEdges nodes0 v).length ≠ 0)
    (hsum : sum (nodeInEdges nodes0 v) (getEdgeValue edges) = JSNum.fin 0)
    (groups : List (List Nat)) (nodes : List Node) (hl : edgeLists nodes = edgeLists nodes0)
    (h : (∃ grp ∈ groups, v ∈ grp) ∨ (coordOf orient nodes v).isFinite = false) :
    edgeLists (groups.foldl
        (fun acc grp => grp.foldl (relaxNodeLeft orient edges alpha) acc) nodes) =
        edgeLists nodes0 ∧
      (coordOf orient (groups.foldl
        (fun acc grp => grp.foldl (relaxNodeLeft orient edges alpha) acc) nodes) v).isFinite =
        false := by
  have inner : ∀ (grp : List Nat) (s : List Node), edgeLists s = edgeLists nodes0 →
      (v ∈ grp ∨ (coordOf orient s v).isFinite = false) →
      edgeLists (grp.foldl (relaxNodeLeft orient edges alpha) s) = edgeLists nodes0 ∧
        (coordOf orient (grp.foldl (relaxNodeLeft orient edges alpha) s) v).isFinite =
          false := by
    intro grp s hs hor
    refine foldl_establish (relaxNodeLeft orient edges alpha)
      (fun s => edgeLists s = edgeLists nodes0)
      (fun s => (coordOf orient s v).isFinite = false) v ?_ ?_ ?_ grp s hs hor
    · intro s b hs
      rw [edgeLists_relaxNodeLeft]; exact hs
    · intro s hs
      apply relaxNodeLeft_not_finite
      · rw [edgeLists_length hs]; exact hv
      · rw [nodeInEdges_of_edgeLists hs]; exact hin
      · rw [nodeInEdges_of_edgeLists hs]; exact hsum
    · intro s b hs hp
      by_cases hb : b = v
      · subst hb
        apply relaxNodeLeft_not_finite
        · rw [edgeLists_length hs]; exact hv
        · rw [nodeInEdges_of_edgeLists hs]; exact hin
        · rw [nodeInEdges_of_edgeLists hs]; exact hsum
      · rw [coordOf_relaxNodeLeft_of_ne _ _ _ _ hb]; exact hp
  induction groups generalizing nodes with
  | nil =>
    rcases h with ⟨grp, hg, _⟩ | h
    · cases hg
    · exact ⟨hl, h⟩
  | cons grp groups ih =>
    rw [List.foldl_cons]
    have hstep := inner grp nodes hl
    rcases h with ⟨grp', hg, hvg⟩ | h
    · rcases List.mem_cons.mp hg with hg | hg
      · subst hg
        obtain ⟨h1, h2⟩ := hstep (Or.inl hvg)
        exact ih _ h1 (Or.inr h2)
      · by_cases hvin : v ∈ grp
        · obtain ⟨h1, h2⟩ := hstep (Or.inl hvin)
          exact ih _ h1 (Or.inr h2)
        · have h1 : edgeLists (grp.foldl (relaxNodeLeft orient edges alpha) nodes) =
              edgeLists nodes0 := by
            rw [edgeLists_foldl_relaxNodeLeft]; exact hl
          exact ih _ h1 (Or.inl ⟨grp', hg, hvg⟩)
    · obtain ⟨h1, h2⟩ := hstep (Or.inr h)
      exact ih _ h1 (Or.inr h2)


/-- C7, the claim fails: in the layout of `zeroFlowGraph` (extent 300 by 200, node width 20,
gap 8) node A has one outgoing edge, of weight 0, and the coordinate 0 when the first
right-to-left sweep starts; after the sweep its coordinate is `NaN`.  The same happens to
node A of `zeroInflowGraph` in a left-to-right sweep, and the whole layout of `zeroFlowGraph`
with one iteration ends with `NaN` as the coordinate of A. -/
theorem relax_zero_sum_not_skipped :
    ((computeNodeBreadths (computeNodeValues zeroFlowGraph) (JSNum.fin 20) (JSNum.fin 300)
        (JSNum.fin 200) Orient.horizontal).bind (fun g1 =>
      (resolveCollisions (prepareNodesByBreadth g1.nodes Orient.horizontal)
        (initializeNodeDepth g1 (prepareNodesByBreadth g1.nodes Orient.horizontal)
          (JSNum.fin 200) (JSNum.fin 300) (JSNum.fin 8) Orient.horizontal).nodes
        (JSNum.fin 8) (JSNum.fin 200) (JSNum.fin 300) Orient.horizontal).map (fun r =>
          ((nodeOutEdges r.2 1).length, sum (nodeOutEdges r.2 1) (getEdgeValue g1.edges),
            coordOf Orient.horizontal r.2 1,
            coordOf Orient.horizontal
              (relaxRightToLeft r.1 r.2 g1.edges (JSNum.fin (99 / 100)) Orient.horizontal) 1))) =
      some (1, JSNum.fin 0, JSNum.fin 0, JSNum.nan)) ∧
    ((computeNodeBreadths (computeNodeValues zeroInflowGraph) (JSNum.fin 20) (JSNum.fin 300)
        (JSNum.fin 200) Orient.horizontal).bind (fun g1 =>
      (resolveCollisions (prepareNodesByBreadth g1.nodes Orient.horizontal)
        (initializeNodeDepth g1 (prepareNodesByBreadth g1.nodes Orient.horizontal)
          (JSNum.fin 200) (JSNum.fin 300) (JSNum.fin 8) Orient.horizontal).nodes
        (JSNum.fin 8) (JSNum.fin 200) (JSNum.fin 300) Orient.horizontal).map (fun r =>
          ((nodeInEdges r.2 1).length, sum (nodeInEdges r.2 1) (getEdgeValue g1.edges),
            coordOf Orient.horizontal r.2 1,
            coordOf Orient.horizontal
              (relaxLeftToRight r.1 r.2 g1.edges (JSNum.fin (99 / 100)) Orient.horizontal) 1))) =
      some (1, JSNum.fin 0, JSNum.fin 0, JSNum.nan)) ∧
    (sankeyLayout zeroFlowGraph (JSNum.fin 20) (JSNum.fin 8) (JSNum.fin 300) (JSNum.fin 200) 1
        Orient.horizontal).map (fun g => g.nodes.map (fun nd => nd.layout.y)) =
      some [JSNum.fin 0, JSNum.nan, JSNum.fin (99 / 2)] := by
  decide!

/-- C7, amended: the sweeps do not skip the update of a node whose weights sum to 0.  In
`relaxRightToLeft`, a node of some group that has at least one outgoing edge and whose
outgoing edge weights sum to 0 is divided by zero: after the sweep its depth coordinate is an
infinity or `NaN`.  The same holds in `relaxLeftToRight` for a node whose incoming edge
weights sum to 0. -/
theorem relax_zero_sum_not_finite (nodesByBreadth : List (List Nat)) (nodes : List Node)
    (edges : List Edge) (alpha : JSNum) (orient : Orient) (v : Nat)
    (hmem : ∃ grp ∈ nodesByBreadth, v ∈ grp) (hv : v < nodes.length) :
    ((nodeOutEdges nodes v).length ≠ 0 →
      sum (nodeOutEdges nodes v) (getEdgeValue edges) = JSNum.fin 0 →
      (coordOf orient (relaxRightToLeft nodesByBreadth nodes edges alpha orient) v).isFinite =
        false) ∧
    ((nodeInEdges nodes v).length ≠ 0 →
      sum (nodeInEdges nodes v) (getEdgeValue edges) = JSNum.fin 0 →
      (coordOf orient (relaxLeftToRight nodesByBreadth nodes edges alpha orient) v).isFinite =
        false) := by
  constructor
  · intro hout hsum
    unfold relaxRightToLeft
    refine (relaxRight_groups_not_finite orient edges alpha nodes v hv hout hsum
      nodesByBreadth.reverse nodes rfl (Or.inl ?_)).2
    obtain ⟨grp, hg, hvg⟩ := hmem
    exact ⟨grp, List.mem_reverse.mpr hg, hvg⟩
  · intro hin hsum
    unfold relaxLeftToRight
    exact (relaxLeft_groups_not_finite orient edges alpha nodes v hv hin hsum
      nodesByBreadth nodes rfl (Or.inl hmem)).2

theorem relax_zero_sum_not_finite_witness :
    ((nodeOutEdges zeroFlowGraph.nodes 1).length ≠ 0 ∧
      sum (nodeOutEdges zeroFlowGraph.nodes 1) (getEdgeValue zeroFlowGraph.edges) =
        JSNum.fin 0 ∧
      (coordOf Orient.horizontal (relaxRightToLeft [[0], [1], [2]] zeroFlowGraph.nodes
        zeroFlowGraph.edges (JSNum.fin (99 / 100)) Orient.horizontal) 1).isFinite = false) ∧
    ((nodeInEdges zeroInflowGraph.nodes 1).length ≠ 0 ∧
      sum (nodeInEdges zeroInflowGraph.nodes 1) (getEdgeValue zeroInflowGraph.edges) =
        JSNum.fin 0 ∧
      (coordOf Orient.horizontal (relaxLeftToRight [[0], [1], [2]] zeroInflowGraph.nodes
        zeroInflowGraph.edges (JSNum.fin (99 / 100)) Orient.horizontal) 1).isFinite = false) :=
  ⟨⟨by decide, by decide!,
      (relax_zero_sum_not_finite [[0], [1], [2]] zeroFlowGraph.nodes zeroFlowGraph.edges
        (JSNum.fin (99 / 100)) Orient.horizontal 1 ⟨[1], by decide, by decide⟩ (by decide)).1
        (by decide) (by decide!)⟩,
    ⟨by decide, by decide!,
      (relax_zero_sum_not_finite [[0], [1], [2]] zeroInflowGraph.nodes zeroInflowGraph.edges
        (JSNum.fin (99 / 100)) Orient.horizontal 1 ⟨[1], by decide, by decide⟩ (by decide)).2
        (by decide) (by decide!)⟩⟩

/-! ## The gate on the iteration count -/

theorem computeNodeDepths_zero (g : Graph) (height width nodeGap : JSNum) (orient : Orient) :
    computeNodeDepths g height width nodeGap 0 orient =
      (resolveCollisions (prepareNodesByBreadth g.nodes orient)
        (initializeNodeDepth g (prepareNodesByBreadth g.nodes orient) height width nodeGap
          orient).nodes nodeGap height width orient).map (fun r =>
        { initializeNodeDepth g (prepareNodesByBreadth g.nodes orient) height width nodeGap
            orient with nodes := r.2 }) := by
  unfold computeNodeDepths
  simp only
  cases resolveCollisions (prepareNodesByBreadth g.nodes orient)
    (initializeNodeDepth g (prepareNodesByBreadth g.nodes orient) height width nodeGap
      orient).nodes nodeGap height width orient with
  | none => rfl
  | some r => rfl

/-- C7, amended: the sweeps have no test for a zero weight sum; the guard is in the default
export.  As soon as some node has value 0 (the maximum of its outgoing and incoming weight
sums is 0), the layout runs with zero iterations, whatever iteration count is configured:
neither `relaxRightToLeft` nor `relaxLeftToRight` is executed, and no coordinate is
updated by a sweep. -/
theorem relaxation_gated (g : Graph) (nodeWidth nodeGap width height : JSNum)
    (layoutIterations : Nat) (orient : Orient) (node : Node) (hnode : node ∈ g.nodes)
    (hval : JSNum.max (sum node.outEdges (getEdgeValue g.edges))
      (sum node.inEdges (getEdgeValue g.edges)) = JSNum.fin 0) :
    sankeyLayout g nodeWidth nodeGap width height layoutIterations orient =
      layoutSankey (computeNodeValues g) nodeWidth nodeGap width height 0 orient := by
  unfold sankeyLayout
  simp only
  rw [if_pos]
  intro h0
  rw [List.length_eq_zero, List.filter_eq_nil_iff] at h0
  have hmem : ({ node with layout := { node.layout with
      value := JSNum.max (sum node.outEdges (getEdgeValue g.edges))
        (sum node.inEdges (getEdgeValue g.edges)) } } : Node) ∈ (computeNodeValues g).nodes := by
    unfold computeNodeValues
    exact List.mem_map.mpr ⟨node, hnode, rfl⟩
  have := h0 _ hmem
  simp only [decide_eq_true_eq] at this
  exact this hval

theorem relaxation_gated_witness :
    (⟨[0], [1], NodeLayout.blank⟩ : Node) ∈ zeroValueGraph.nodes ∧
    JSNum.max (sum [1] (getEdgeValue zeroValueGraph.edges))
      (sum [0] (getEdgeValue zeroValueGraph.edges)) = JSNum.fin 0 ∧
    sankeyLayout zeroValueGraph (JSNum.fin 20) (JSNum.fin 8) (JSNum.fin 300) (JSNum.fin 200) 32
        Orient.horizontal =
      layoutSankey (computeNodeValues zeroValueGraph) (JSNum.fin 20) (JSNum.fin 8)
        (JSNum.fin 300) (JSNum.fin 200) 0 Orient.horizontal :=
  ⟨by decide, by decide!,
    relaxation_gated zeroValueGraph (JSNum.fin 20) (JSNum.fin 8) (JSNum.fin 300)
      (JSNum.fin 200) 32 Orient.horizontal ⟨[0], [1], NodeLayout.blank⟩ (by decide)
      (by decide!)⟩

/-! ## initializeNodeDepth -/

theorem foldl_add_values (nodes : List Node) (val : Nat → ℚ) (grp : List Nat) (a : ℚ)
    (h : ∀ v ∈ grp, (nodeLayout nodes v).value = JSNum.fin (val v)) :
    grp.foldl (fun s v => s.add (nodeLayout nodes v).value) (JSNum.fin a) =
      JSNum.fin (a + (grp.map val).sum) := by
  induction grp generalizing a with
  | nil => simp
  | cons v grp ih =>
    rw [List.foldl_cons, h v (List.mem_cons_self v grp), jsAdd_fin,
      ih _ (fun w hw => h w (List.mem_cons_of_mem v hw))]
    simp [add_assoc]

theorem groupKy_eq (nodes : List Node) (val : Nat → ℚ) (E γ : ℚ) (grp : List Nat)
    (h : ∀ v ∈ grp, (nodeLayout nodes v).value = JSNum.fin (val v))
    (hpos : 0 < (grp.map val).sum) :
    groupKy nodes (JSNum.fin E) (JSNum.fin γ) grp =
      JSNum.fin ((E - ((grp.length : ℚ) - 1) * γ) / (grp.map val).sum) := by
  unfold groupKy
  simp only
  rw [foldl_add_values nodes val grp 0 h, jsMul_fin, jsSub_fin, zero_add,
    jsDiv_fin _ _ (ne_of_gt hpos)]

/-- The first element of a sorted list of finite numbers is the least of them. -/
theorem jsSort_head_min (l : List JSNum) (hfin : ∀ a ∈ l, a = JSNum.fin a.toRat)
    (hne : l ≠ []) :
    ∃ m rest, jsSort (fun a b => a.sub b) l = m :: rest ∧ m ∈ l ∧
      ∀ a ∈ l, m.toRat ≤ a.toRat := by
  have hs := jsSort_sorted_of_finite (fun a : JSNum => a) JSNum.toRat l hfin
  have hp := jsSort_perm (fun a b : JSNum => a.sub b) l
  cases hsort : jsSort (fun a b : JSNum => a.sub b) l with
  | nil =>
    rw [hsort] at hp
    exact absurd (List.Perm.eq_nil hp.symm) hne
  | cons m rest =>
    rw [hsort] at hp
    have hs' : (m :: rest).Sorted (fun a b => a.toRat ≤ b.toRat) := hsort ▸ hs
    refine ⟨m, rest, rfl, hp.mem_iff.mp (List.mem_cons_self m rest), ?_⟩
    intro a ha
    rcases List.mem_cons.mp (hp.mem_iff.mpr ha) with h | h
    · rw [h]
    · exact List.rel_of_sorted_cons hs' a h

/-- A property that every step of a loop keeps holds after the loop. -/
theorem foldl_invariant {α σ : Type} (f : σ → α → σ) (I : σ → Prop)
    (hI : ∀ s b, I s → I (f s b)) (l : List α) (s : σ) (hs : I s) : I (l.foldl f s) := by
  induction l generalizing s with
  | nil => exact hs
  | cons b l ih => exact ih _ (hI s b hs)

theorem length_placeNode (orient : Orient) (ky0 : JSNum) (nodes : List Node) (iv : Nat × Nat) :
    (placeNode orient ky0 nodes iv).length = nodes.length := by
  unfold placeNode
  exact length_setNodeLayout _ _ _

theorem edgeLists_placeNode (orient : Orient) (ky0 : JSNum) (nodes : List Node)
    (iv : Nat × Nat) : edgeLists (placeNode orient ky0 nodes iv) = edgeLists nodes := by
  unfold placeNode
  exact edgeLists_setNodeLayout _ _ _

theorem nodeLayout_placeNode (orient : Orient) (ky0 : JSNum) (nodes : List Node)
    (iv : Nat × Nat) (w : Nat) :
    nodeLayout (placeNode orient ky0 nodes iv) w =
      if iv.2 = w ∧ w < nodes.length then
        setSecondarySize orient ((nodeLayout nodes w).value.mul ky0)
          (setSecondaryCoord orient (JSNum.fin iv.1) (nodeLayout nodes w))
      else nodeLayout nodes w := by
  unfold placeNode
  simp only
  rw [nodeLayout_setNodeLayout]
  split_ifs with h
  · rw [h.1]
  · rfl

theorem value_setSecondary (orient : Orient) (c s : JSNum) (l : NodeLayout) :
    (setSecondarySize orient s (setSecondaryCoord orient c l)).value = l.value := by
  cases orient <;> rfl

theorem primaryCoord_setSecondary (orient : Orient) (c s : JSNum) (l : NodeLayout) :
    primaryCoord orient (setSecondarySize orient s (setSecondaryCoord orient c l)) =
      primaryCoord orient l := by
  cases orient <;> rfl

theorem primarySize_setSecondary (orient : Orient) (c s : JSNum) (l : NodeLayout) :
    primarySize orient (setSecondarySize orient s (setSecondaryCoord orient c l)) =
      primarySize orient l := by
  cases orient <;> rfl

theorem secondarySize_setSecondary (orient : Orient) (c s : JSNum) (l : NodeLayout) :
    secondarySize orient (setSecondarySize orient s (setSecondaryCoord orient c l)) = s := by
  cases orient <;> rfl

theorem secondaryCoord_setSecondary (orient : Orient) (c s : JSNum) (l : NodeLayout) :
    secondaryCoord orient (setSecondarySize orient s (setSecondaryCoord orient c l)) = c := by
  cases orient <;> rfl

theorem value_placeNode (orient : Orient) (ky0 : JSNum) (nodes : List Node) (iv : Nat × Nat)
    (w : Nat) :
    (nodeLayout (placeNode orient ky0 nodes iv) w).value = (nodeLayout nodes w).value := by
  rw [nodeLayout_placeNode]
  split_ifs
  · exact value_setSecondary _ _ _ _
  · rfl

/-- After the second loop of `initializeNodeDepth`, the depth size of every node of a group
is its value times the shared scale. -/
theorem secondarySize_placeGroups (orient : Orient) (ky0 : JSNum) (nodes0 : List Node)
    (groups : List (List Nat)) (v : Nat) (hv : v < nodes0.length)
    (hmem : ∃ grp ∈ groups, v ∈ grp) :
    secondarySize orient (nodeLayout (groups.foldl (placeGroup orient ky0) nodes0) v) =
      (nodeLayout nodes0 v).value.mul ky0 := by
  let I : List Node → Prop := fun s =>
    s.length = nodes0.length ∧ ∀ w, (nodeLayout s w).value = (nodeLayout nodes0 w).value
  let P : List Node → Prop := fun s =>
    secondarySize orient (nodeLayout s v) = (nodeLayout nodes0 v).value.mul ky0
  have hI1 : ∀ s iv, I s → I (placeNode orient ky0 s iv) := by
    intro s iv hs
    exact ⟨by rw [length_placeNode]; exact hs.1, fun w => by rw [value_placeNode]; exact hs.2 w⟩
  have hest1 : ∀ i s, I s → P (placeNode orient ky0 s (i, v)) := by
    intro i s hs
    show secondarySize orient (nodeLayout (placeNode orient ky0 s (i, v)) v) = _
    rw [nodeLayout_placeNode, if_pos ⟨rfl, by rw [hs.1]; exact hv⟩, secondarySize_setSecondary,
      hs.2 v]
  have hpres1 : ∀ s iv, I s → P s → P (placeNode orient ky0 s iv) := by
    intro s iv hs hp
    by_cases h : iv.2 = v
    · have : iv = (iv.1, v) := by rw [← h]
      rw [this]
      exact hest1 iv.1 s hs
    · show secondarySize orient (nodeLayout (placeNode orient ky0 s iv) v) = _
      rw [nodeLayout_placeNode, if_neg (fun hc => h hc.1)]
      exact hp
  have inner : ∀ grp s, I s → (v ∈ grp ∨ P s) →
      I (placeGroup orient ky0 s grp) ∧ P (placeGroup orient ky0 s grp) := by
    intro grp s hs hor
    rcases hor with hvg | hp
    · obtain ⟨i, hi, hget⟩ := List.getElem_of_mem hvg
      have hmem : (i, v) ∈ grp.enum := by
        rw [List.mk_mem_enum_iff_getElem?, List.getElem?_eq_getElem hi, hget]
      exact foldl_establish (placeNode orient ky0) I P (i, v) hI1 (hest1 i) hpres1 grp.enum s hs
        (Or.inl hmem)
    · exact foldl_establish (placeNode orient ky0) I P (0, v) hI1 (hest1 0) hpres1 grp.enum s hs
        (Or.inr hp)
  have hIg : ∀ s b, I s → I (placeGroup orient ky0 s b) := fun s b hs =>
    foldl_invariant (placeNode orient ky0) I hI1 b.enum s hs
  obtain ⟨grp, hg, hvg⟩ := hmem
  exact (foldl_establish (placeGroup orient ky0) I P grp hIg
    (fun s hs => (inner grp s hs (Or.inl hvg)).2)
    (fun s b hs hp => (inner b s hs (Or.inr hp)).2) groups nodes0 ⟨rfl, fun _ => rfl⟩
    (Or.inl hg)).2

/-- C9: `initializeNodeDepth` uses one shared scale `ky`, the minimum over all level groups
of `(secondaryExtent - (size - 1) * gap) / (sum of the values of the group)`, and sets the
depth size of every node of a group to `value * ky` and the thickness of every edge to
`weight * ky`, when every group has a positive value sum (the extent, the gap and the values
being finite numbers and there being at least one group). -/
theorem initializeNodeDepth_shared_scale (g : Graph) (nodesByBreadth : List (List Nat))
    (height width : JSNum) (orient : Orient) (val : Nat → ℚ) (E γ : ℚ)
    (hne : nodesByBreadth ≠ [])
    (hE : secondaryExtent orient width height = JSNum.fin E)
    (hval : ∀ grp ∈ nodesByBreadth, ∀ v ∈ grp, (nodeLayout g.nodes v).value = JSNum.fin (val v))
    (hpos : ∀ grp ∈ nodesByBreadth, 0 < (grp.map val).sum) :
    ∃ ky : ℚ,
      sharedKy g.nodes nodesByBreadth (secondaryExtent orient width height) (JSNum.fin γ) =
        JSNum.fin ky ∧
      (∃ grp ∈ nodesByBreadth, ky = (E - ((grp.length : ℚ) - 1) * γ) / (grp.map val).sum) ∧
      (∀ grp ∈ nodesByBreadth, ky ≤ (E - ((grp.length : ℚ) - 1) * γ) / (grp.map val).sum) ∧
      (∀ grp ∈ nodesByBreadth, ∀ v ∈ grp, v < g.nodes.length →
        secondarySize orient (nodeLayout
          (initializeNodeDepth g nodesByBreadth height width (JSNum.fin γ) orient).nodes v) =
          JSNum.fin (val v * ky)) ∧
      (initializeNodeDepth g nodesByBreadth height width (JSNum.fin γ) orient).edges =
        g.edges.map (fun ed =>
          { ed with layout := { ed.layout with dy := ed.value.mul (JSNum.fin ky) } }) := by
  have hky : ∀ grp ∈ nodesByBreadth,
      groupKy g.nodes (secondaryExtent orient width height) (JSNum.fin γ) grp =
        JSNum.fin ((E - ((grp.length : ℚ) - 1) * γ) / (grp.map val).sum) := by
    intro grp hg
    rw [hE]
    exact groupKy_eq g.nodes val E γ grp (hval grp hg) (hpos grp hg)
  have hfin : ∀ a ∈ nodesByBreadth.map
      (groupKy g.nodes (secondaryExtent orient width height) (JSNum.fin γ)),
      a = JSNum.fin a.toRat := by
    intro a ha
    obtain ⟨grp, hg, rfl⟩ := List.mem_map.mp ha
    rw [hky grp hg]
    rfl
  obtain ⟨m, rest, hsort, hm, hmin⟩ := jsSort_head_min _ hfin (by simpa using hne)
  have hshared : sharedKy g.nodes nodesByBreadth (secondaryExtent orient width height)
      (JSNum.fin γ) = JSNum.fin m.toRat := by
    unfold sharedKy
    rw [hsort]
    exact hfin m hm
  refine ⟨m.toRat, hshared, ?_, ?_, ?_, ?_⟩
  · obtain ⟨grp, hg, hgm⟩ := List.mem_map.mp hm
    refine ⟨grp, hg, ?_⟩
    rw [← hgm, hky grp hg]
    rfl
  · intro grp hg
    have := hmin _ (List.mem_map.mpr ⟨grp, hg, rfl⟩)
    rw [hky grp hg] at this
    exact this
  · intro grp hg v hvg hv
    unfold initializeNodeDepth
    simp only
    rw [secondarySize_placeGroups orient _ g.nodes nodesByBreadth v hv ⟨grp, hg, hvg⟩, hshared,
      hval grp hg v hvg, jsMul_fin]
  · unfold initializeNodeDepth
    simp only
    rw [hshared]

theorem initializeNodeDepth_shared_scale_witness :
    ∃ ky : ℚ,
      sharedKy (computeNodeValues mergeGraph).nodes [[0, 1], [2]]
        (secondaryExtent Orient.horizontal (JSNum.fin 300) (JSNum.fin 200)) (JSNum.fin 8) =
        JSNum.fin ky ∧
      (∃ grp ∈ [[0, 1], [2]], ky = ((200 : ℚ) - ((grp.length : ℚ) - 1) * 8) /
        (grp.map (fun v => if v = 2 then (4 : ℚ) else if v = 1 then 3 else 1)).sum) ∧
      (∀ grp ∈ [[0, 1], [2]], ky ≤ ((200 : ℚ) - ((grp.length : ℚ) - 1) * 8) /
        (grp.map (fun v => if v = 2 then (4 : ℚ) else if v = 1 then 3 else 1)).sum) ∧
      (∀ grp ∈ [[0, 1], [2]], ∀ v ∈ grp, v < (computeNodeValues mergeGraph).nodes.length →
        secondarySize Orient.horizontal (nodeLayout
          (initializeNodeDepth (computeNodeValues mergeGraph) [[0, 1], [2]] (JSNum.fin 200)
            (JSNum.fin 300) (JSNum.fin 8) Orient.horizontal).nodes v) =
          JSNum.fin ((if v = 2 then (4 : ℚ) else if v = 1 then 3 else 1) * ky)) ∧
      (initializeNodeDepth (computeNodeValues mergeGraph) [[0, 1], [2]] (JSNum.fin 200)
          (JSNum.fin 300) (JSNum.fin 8) Orient.horizontal).edges =
        (computeNodeValues mergeGraph).edges.map (fun ed =>
          { ed with layout := { ed.layout with dy := ed.value.mul (JSNum.fin ky) } }) :=
  initializeNodeDepth_shared_scale (computeNodeValues mergeGraph) [[0, 1], [2]] (JSNum.fin 200)
    (JSNum.fin 300) Orient.horizontal (fun v => if v = 2 then (4 : ℚ) else if v = 1 then 3 else 1)
    200 8 (by decide) rfl (by decide!) (by decide!)

/-- Scenario B of the specification, evaluated: the two groups give the candidate scales
`(200 - 8) / 4 = 48` and `200 / 4 = 50`, the shared scale is 48, the depth sizes are 48, 144
and 192 and the thicknesses of the two edges 48 and 144. -/
theorem scenarioB_scale :
    sharedKy (computeNodeValues mergeGraph).nodes [[0, 1], [2]] (JSNum.fin 200) (JSNum.fin 8) =
      JSNum.fin 48 ∧
    (initializeNodeDepth (computeNodeValues mergeGraph) [[0, 1], [2]] (JSNum.fin 200)
        (JSNum.fin 300) (JSNum.fin 8) Orient.horizontal).nodes.map (fun nd => nd.layout.dy) =
      [JSNum.fin 48, JSNum.fin 144, JSNum.fin 192] ∧
    (initializeNodeDepth (computeNodeValues mergeGraph) [[0, 1], [2]] (JSNum.fin 200)
        (JSNum.fin 300) (JSNum.fin 8) Orient.horizontal).edges.map (fun ed => ed.layout.dy) =
      [JSNum.fin 48, JSNum.fin 144] := by
  decide!

/-! ## computeEdgeDepths -/

theorem getElem?_modify_edge (edges : List Edge) (f : Edge → Edge) (e e' : Nat) :
    (edges.modify f e)[e']? = (edges[e']?).map (fun ed => if e = e' then f ed else ed) := by
  rw [List.getElem?_modify]
  rfl

theorem stackSource_fst (st : List Edge × JSNum) (e : Nat) :
    (stackSource st e).1 =
      st.1.modify (fun ed => { ed with layout := { ed.layout with sy := st.2 } }) e := rfl

theorem stackTarget_fst (st : List Edge × JSNum) (e : Nat) :
    (stackTarget st e).1 =
      st.1.modify (fun ed => { ed with layout := { ed.layout with ty := st.2 } }) e := rfl

theorem edgeDy_stackSource (st : List Edge × JSNum) (e e' : Nat) :
    edgeDy (stackSource st e).1 e' = edgeDy st.1 e' := by
  rw [stackSource_fst]
  unfold edgeDy
  rw [getElem?_modify_edge]
  cases st.1[e']? with
  | none => rfl
  | some ed => by_cases h : e = e' <;> simp [h]

theorem edgeDy_stackTarget (st : List Edge × JSNum) (e e' : Nat) :
    edgeDy (stackTarget st e).1 e' = edgeDy st.1 e' := by
  rw [stackTarget_fst]
  unfold edgeDy
  rw [getElem?_modify_edge]
  cases st.1[e']? with
  | none => rfl
  | some ed => by_cases h : e = e' <;> simp [h]

theorem edgeTy_stackSource (st : List Edge × JSNum) (e e' : Nat) :
    edgeTy (stackSource st e).1 e' = edgeTy st.1 e' := by
  rw [stackSource_fst]
  unfold edgeTy
  rw [getElem?_modify_edge]
  cases st.1[e']? with
  | none => rfl
  | some ed => by_cases h : e = e' <;> simp [h]

theorem edgeSy_stackTarget (st : List Edge × JSNum) (e e' : Nat) :
    edgeSy (stackTarget st e).1 e' = edgeSy st.1 e' := by
  rw [stackTarget_fst]
  unfold edgeSy
  rw [getElem?_modify_edge]
  cases st.1[e']? with
  | none => rfl
  | some ed => by_cases h : e = e' <;> simp [h]

theorem edgeSy_stackSource (st : List Edge × JSNum) (e e' : Nat) :
    edgeSy (stackSource st e).1 e' =
      if e = e' ∧ e' < st.1.length then st.2 else edgeSy st.1 e' := by
  rw [stackSource_fst]
  unfold edgeSy
  rw [getElem?_modify_edge]
  cases h : st.1[e']? with
  | none =>
    have : ¬ e' < st.1.length := by
      intro hw
      rw [List.getElem?_eq_getElem hw] at h
      cases h
    simp [this]
  | some ed =>
    have : e' < st.1.length := by
      by_contra hw
      rw [List.getElem?_eq_none (Nat.le_of_not_lt hw)] at h
      cases h
    by_cases he : e = e' <;> simp [he, this]

theorem edgeTy_stackTarget (st : List Edge × JSNum) (e e' : Nat) :
    edgeTy (stackTarget st e).1 e' =
      if e = e' ∧ e' < st.1.length then st.2 else edgeTy st.1 e' := by
  rw [stackTarget_fst]
  unfold edgeTy
  rw [getElem?_modify_edge]
  cases h : st.1[e']? with
  | none =>
    have : ¬ e' < st.1.length := by
      intro hw
      rw [List.getElem?_eq_getElem hw] at h
      cases h
    simp [this]
  | some ed =>
    have : e' < st.1.length := by
      by_contra hw
      rw [List.getElem?_eq_none (Nat.le_of_not_lt hw)] at h
      cases h
    by_cases he : e = e' <;> simp [he, this]

theorem length_stackSource (st : List Edge × JSNum) (e : Nat) :
    (stackSource st e).1.length = st.1.length := by
  rw [stackSource_fst, List.length_modify]

theorem length_stackTarget (st : List Edge × JSNum) (e : Nat) :
    (stackTarget st e).1.length = st.1.length := by
  rw [stackTarget_fst, List.length_modify]

theorem edgeEnds_stackSource (st : List Edge × JSNum) (e : Nat) :
    edgeEnds (stackSource st e).1 = edgeEnds st.1 := by
  rw [stackSource_fst]
  apply List.ext_getElem?
  intro i
  simp only [edgeEnds, List.getElem?_map, getElem?_modify_edge]
  cases st.1[i]? with
  | none => rfl
  | some ed => by_cases h : e = i <;> simp [h]

theorem edgeEnds_stackTarget (st : List Edge × JSNum) (e : Nat) :
    edgeEnds (stackTarget st e).1 = edgeEnds st.1 := by
  rw [stackTarget_fst]
  apply List.ext_getElem?
  intro i
  simp only [edgeEnds, List.getElem?_map, getElem?_modify_edge]
  cases st.1[i]? with
  | none => rfl
  | some ed => by_cases h : e = i <;> simp [h]

theorem stackSource_snd (st : List Edge × JSNum) (e : Nat) :
    (stackSource st e).2 = st.2.add (edgeDy st.1 e) := by
  show st.2.add (edgeDy (stackSource st e).1 e) = _
  rw [edgeDy_stackSource]

theorem stackTarget_snd (st : List Edge × JSNum) (e : Nat) :
    (stackTarget st e).2 = st.2.add (edgeDy st.1 e) := by
  show st.2.add (edgeDy (stackTarget st e).1 e) = _
  rw [edgeDy_stackTarget]

theorem offsetAt_zero (dy : Nat → JSNum) (es : List Nat) (s0 : JSNum) :
    offsetAt dy es s0 0 = s0 := by
  simp [offsetAt]

theorem offsetAt_cons_succ (dy : Nat → JSNum) (a : Nat) (es : List Nat) (s0 : JSNum)
    (k : Nat) : offsetAt dy (a :: es) s0 (k + 1) = offsetAt dy es (s0.add (dy a)) k := by
  simp [offsetAt]

/-- The loop over `node.outEdges`: every edge of the list gets as `sy` the running offset,
nothing else changes. -/
theorem foldl_stackSource (l : List Nat) (es : List Edge) (s0 : JSNum) :
    (l.foldl stackSource (es, s0)).1.length = es.length ∧
    edgeEnds (l.foldl stackSource (es, s0)).1 = edgeEnds es ∧
    (∀ e, edgeDy (l.foldl stackSource (es, s0)).1 e = edgeDy es e) ∧
    (∀ e, edgeTy (l.foldl stackSource (es, s0)).1 e = edgeTy es e) ∧
    (∀ e, e ∉ l → edgeSy (l.foldl stackSource (es, s0)).1 e = edgeSy es e) ∧
    (l.Nodup → ∀ k e, l[k]? = some e → e < es.length →
      edgeSy (l.foldl stackSource (es, s0)).1 e = offsetAt (edgeDy es) l s0 k) := by
  induction l generalizing es s0 with
  | nil =>
    refine ⟨rfl, rfl, fun _ => rfl, fun _ => rfl, fun _ _ => rfl, ?_⟩
    intro _ k e hk
    simp at hk
  | cons a l ih =>
    rw [List.foldl_cons]
    have hst : stackSource (es, s0) a = ((stackSource (es, s0) a).1, s0.add (edgeDy es a)) :=
      Prod.ext rfl (stackSource_snd (es, s0) a)
    rw [hst]
    obtain ⟨h1, h2, h3, h4, h5, h6⟩ := ih (stackSource (es, s0) a).1 (s0.add (edgeDy es a))
    have hdy : edgeDy (stackSource (es, s0) a).1 = edgeDy es :=
      funext (fun e => edgeDy_stackSource (es, s0) a e)
    refine ⟨?_, ?_, ?_, ?_, ?_, ?_⟩
    · rw [h1, length_stackSource]
    · rw [h2, edgeEnds_stackSource]
    · intro e; rw [h3, edgeDy_stackSource]
    · intro e; rw [h4, edgeTy_stackSource]
    · intro e he
      rw [List.mem_cons, not_or] at he
      rw [h5 e he.2, edgeSy_stackSource, if_neg (fun hc => he.1 hc.1.symm)]
    · intro hnd k e hk he
      rw [List.nodup_cons] at hnd
      cases k with
      | zero =>
        simp only [List.getElem?_cons_zero, Option.some.injEq] at hk
        subst hk
        rw [h5 a hnd.1, edgeSy_stackSource, if_pos ⟨rfl, he⟩, offsetAt_zero]
      | succ k =>
        simp only [List.getElem?_cons_succ] at hk
        rw [h6 hnd.2 k e hk (by rw [length_stackSource]; exact he), hdy, offsetAt_cons_succ]

/-- The loop over `node.inEdges`: every edge of the list gets as `ty` the running offset,
nothing else changes. -/
theorem foldl_stackTarget (l : List Nat) (es : List Edge) (s0 : JSNum) :
    (l.foldl stackTarget (es, s0)).1.length = es.length ∧
    edgeEnds (l.foldl stackTarget (es, s0)).1 = edgeEnds es ∧
    (∀ e, edgeDy (l.foldl stackTarget (es, s0)).1 e = edgeDy es e) ∧
    (∀ e, edgeSy (l.foldl stackTarget (es, s0)).1 e = edgeSy es e) ∧
    (∀ e, e ∉ l → edgeTy (l.foldl stackTarget (es, s0)).1 e = edgeTy es e) ∧
    (l.Nodup → ∀ k e, l[k]? = some e → e < es.length →
      edgeTy (l.foldl stackTarget (es, s0)).1 e = offsetAt (edgeDy es) l s0 k) := by
  induction l generalizing es s0 with
  | nil =>
    refine ⟨rfl, rfl, fun _ => rfl, fun _ => rfl, fun _ _ => rfl, ?_⟩
    intro _ k e hk
    simp at hk
  | cons a l ih =>
    rw [List.foldl_cons]
    have hst : stackTarget (es, s0) a = ((stackTarget (es, s0) a).1, s0.add (edgeDy es a)) :=
      Prod.ext rfl (stackTarget_snd (es, s0) a)
    rw [hst]
    obtain ⟨h1, h2, h3, h4, h5, h6⟩ := ih (stackTarget (es, s0) a).1 (s0.add (edgeDy es a))
    have hdy : edgeDy (stackTarget (es, s0) a).1 = edgeDy es :=
      funext (fun e => edgeDy_stackTarget (es, s0) a e)
    refine ⟨?_, ?_, ?_, ?_, ?_, ?_⟩
    · rw [h1, length_stackTarget]
    · rw [h2, edgeEnds_stackTarget]
    · intro e; rw [h3, edgeDy_stackTarget]
    · intro e; rw [h4, edgeSy_stackTarget]
    · intro e he
      rw [List.mem_cons, not_or] at he
      rw [h5 e he.2, edgeTy_stackTarget, if_neg (fun hc => he.1 hc.1.symm)]
    · intro hnd k e hk he
      rw [List.nodup_cons] at hnd
      cases k with
      | zero =>
        simp only [List.getElem?_cons_zero, Option.some.injEq] at hk
        subst hk
        rw [h5 a hnd.1, edgeTy_stackTarget, if_pos ⟨rfl, he⟩, offsetAt_zero]
      | succ k =>
        simp only [List.getElem?_cons_succ] at hk
        rw [h6 hnd.2 k e hk (by rw [length_stackTarget]; exact he), hdy, offsetAt_cons_succ]

/-- The body of the second loop of `computeEdgeDepths` for one node. -/
theorem stackNode_spec (es : List Edge) (nd : Node) :
    (stackNode es nd).length = es.length ∧
    edgeEnds (stackNode es nd) = edgeEnds es ∧
    (∀ e, edgeDy (stackNode es nd) e = edgeDy es e) ∧
    (∀ e, e ∉ nd.outEdges → edgeSy (stackNode es nd) e = edgeSy es e) ∧
    (∀ e, e ∉ nd.inEdges → edgeTy (stackNode es nd) e = edgeTy es e) ∧
    (nd.outEdges.Nodup → ∀ k e, nd.outEdges[k]? = some e → e < es.length →
      edgeSy (stackNode es nd) e = offsetAt (edgeDy es) nd.outEdges (JSNum.fin 0) k) ∧
    (nd.inEdges.Nodup → ∀ k e, nd.inEdges[k]? = some e → e < es.length →
      edgeTy (stackNode es nd) e = offsetAt (edgeDy es) nd.inEdges (JSNum.fin 0) k) := by
  obtain ⟨a1, a2, a3, a4, a5, a6⟩ := foldl_stackSource nd.outEdges es (JSNum.fin 0)
  obtain ⟨b1, b2, b3, b4, b5, b6⟩ := foldl_stackTarget nd.inEdges
    (nd.outEdges.foldl stackSource (es, JSNum.fin 0)).1 (JSNum.fin 0)
  have hdy : edgeDy (nd.outEdges.foldl stackSource (es, JSNum.fin 0)).1 = edgeDy es :=
    funext a3
  unfold stackNode
  simp only
  refine ⟨by rw [b1, a1], by rw [b2, a2], fun e => by rw [b3, a3], ?_, ?_, ?_, ?_⟩
  · intro e he; rw [b4, a5 e he]
  · intro e he; rw [b5 e he, a4]
  · intro hnd k e hk he; rw [b4, a6 hnd k e hk he]
  · intro hnd k e hk he; rw [b6 hnd k e hk (by rw [a1]; exact he), hdy]

/-- The second loop of `computeEdgeDepths` over nodes whose edge lists have no repetition and
are pairwise disjoint. -/
theorem foldl_stackNode (ns : List Node) (es : List Edge)
    (hnd : ∀ nd ∈ ns, nd.outEdges.Nodup ∧ nd.inEdges.Nodup)
    (hpo : ns.Pairwise (fun a b => ∀ e, e ∈ a.outEdges → e ∉ b.outEdges))
    (hpi : ns.Pairwise (fun a b => ∀ e, e ∈ a.inEdges → e ∉ b.inEdges)) :
    (ns.foldl stackNode es).length = es.length ∧
    edgeEnds (ns.foldl stackNode es) = edgeEnds es ∧
    (∀ e, edgeDy (ns.foldl stackNode es) e = edgeDy es e) ∧
    (∀ e, (∀ nd ∈ ns, e ∉ nd.outEdges) → edgeSy (ns.foldl stackNode es) e = edgeSy es e) ∧
    (∀ e, (∀ nd ∈ ns, e ∉ nd.inEdges) → edgeTy (ns.foldl stackNode es) e = edgeTy es e) ∧
    (∀ nd ∈ ns, ∀ k e, nd.outEdges[k]? = some e → e < es.length →
      edgeSy (ns.foldl stackNode es) e = offsetAt (edgeDy es) nd.outEdges (JSNum.fin 0) k) ∧
    (∀ nd ∈ ns, ∀ k e, nd.inEdges[k]? = some e → e < es.length →
      edgeTy (ns.foldl stackNode es) e = offsetAt (edgeDy es) nd.inEdges (JSNum.fin 0) k) := by
  induction ns generalizing es with
  | nil =>
    refine ⟨rfl, rfl, fun _ => rfl, fun _ _ => rfl, fun _ _ => rfl, ?_, ?_⟩ <;>
      intro nd hnd <;> simp at hnd
  | cons a ns ih =>
    rw [List.foldl_cons]
    rw [List.pairwise_cons] at hpo hpi
    obtain ⟨s1, s2, s3, s4, s5, s6, s7⟩ := stackNode_spec es a
    obtain ⟨h1, h2, h3, h4, h5, h6, h7⟩ := ih (stackNode es a)
      (fun nd h => hnd nd (List.mem_cons_of_mem a h)) hpo.2 hpi.2
    have hdy : edgeDy (stackNode es a) = edgeDy es := funext s3
    have hna := hnd a (List.mem_cons_self a ns)
    refine ⟨by rw [h1, s1], by rw [h2, s2], fun e => by rw [h3, s3], ?_, ?_, ?_, ?_⟩
    · intro e he
      rw [h4 e (fun nd h => he nd (List.mem_cons_of_mem a h)),
        s4 e (he a (List.mem_cons_self a ns))]
    · intro e he
      rw [h5 e (fun nd h => he nd (List.mem_cons_of_mem a h)),
        s5 e (he a (List.mem_cons_self a ns))]
    · intro nd hmem k e hk he
      rcases List.mem_cons.mp hmem with heq | hmem'
      · subst heq
        have hin : e ∈ nd.outEdges := List.mem_iff_getElem?.mpr ⟨k, hk⟩
        rw [h4 e (fun nd' h' => hpo.1 nd' h' e hin), s6 hna.1 k e hk he]
      · rw [h6 nd hmem' k e hk (by rw [s1]; exact he), hdy]
    · intro nd hmem k e hk he
      rcases List.mem_cons.mp hmem with heq | hmem'
      · subst heq
        have hin : e ∈ nd.inEdges := List.mem_iff_getElem?.mpr ⟨k, hk⟩
        rw [h5 e (fun nd' h' => hpi.1 nd' h' e hin), s7 hna.2 k e hk he]
      · rw [h7 nd hmem' k e hk (by rw [s1]; exact he), hdy]

theorem mem_edgesFrom (edges : List Edge) (v e : Nat) :
    e ∈ edgesFrom edges v ↔ e < edges.length ∧ (edges[e]?).map (fun ed => ed.node1) = some v := by
  simp [edgesFrom, List.mem_filter]

theorem mem_edgesInto (edges : List Edge) (v e : Nat) :
    e ∈ edgesInto edges v ↔ e < edges.length ∧ (edges[e]?).map (fun ed => ed.node2) = some v := by
  simp [edgesInto, List.mem_filter]

theorem nodup_edgesFrom (edges : List Edge) (v : Nat) : (edgesFrom edges v).Nodup :=
  (List.nodup_range _).filter _

theorem nodup_edgesInto (edges : List Edge) (v : Nat) : (edgesInto edges v).Nodup :=
  (List.nodup_range _).filter _

theorem nodeOutEdges_eq_of_getElem? {nodes : List Node} {v : Nat} {nd : Node}
    (h : nodes[v]? = some nd) : nodeOutEdges nodes v = nd.outEdges := by
  unfold nodeOutEdges
  rw [h]

theorem nodeInEdges_eq_of_getElem? {nodes : List Node} {v : Nat} {nd : Node}
    (h : nodes[v]? = some nd) : nodeInEdges nodes v = nd.inEdges := by
  unfold nodeInEdges
  rw [h]

theorem nodeLayout_eq_of_getElem? {nodes : List Node} {v : Nat} {nd : Node}
    (h : nodes[v]? = some nd) : nodeLayout nodes v = nd.layout := by
  unfold nodeLayout
  rw [h]

/-- In a well-formed graph the edge lists of the nodes have no repetition, hold valid edge
indices and are pairwise disjoint. -/
theorem wellFormed_lists (g : Graph) (hwf : WellFormed g) :
    (∀ v, (nodeOutEdges g.nodes v).Nodup ∧ (nodeInEdges g.nodes v).Nodup) ∧
    (∀ v e, e ∈ nodeOutEdges g.nodes v → e < g.edges.length) ∧
    (∀ v e, e ∈ nodeInEdges g.nodes v → e < g.edges.length) ∧
    (∀ v w e, e ∈ nodeOutEdges g.nodes v → e ∈ nodeOutEdges g.nodes w → v = w) ∧
    (∀ v w e, e ∈ nodeInEdges g.nodes v → e ∈ nodeInEdges g.nodes w → v = w) := by
  have hlt : ∀ v, ¬ v < g.nodes.length → nodeOutEdges g.nodes v = [] ∧
      nodeInEdges g.nodes v = [] := by
    intro v hv
    unfold nodeOutEdges nodeInEdges
    rw [List.getElem?_eq_none (Nat.le_of_not_lt hv)]
    exact ⟨rfl, rfl⟩
  have hout : ∀ v e, e ∈ nodeOutEdges g.nodes v → v < g.nodes.length ∧
      e ∈ edgesFrom g.edges v := by
    intro v e he
    by_cases hv : v < g.nodes.length
    · exact ⟨hv, (hwf.outEdges_perm v hv).mem_iff.mp he⟩
    · rw [(hlt v hv).1] at he; cases he
  have hin : ∀ v e, e ∈ nodeInEdges g.nodes v → v < g.nodes.length ∧
      e ∈ edgesInto g.edges v := by
    intro v e he
    by_cases hv : v < g.nodes.length
    · exact ⟨hv, (hwf.inEdges_perm v hv).mem_iff.mp he⟩
    · rw [(hlt v hv).2] at he; cases he
  refine ⟨?_, ?_, ?_, ?_, ?_⟩
  · intro v
    by_cases hv : v < g.nodes.length
    · exact ⟨(hwf.outEdges_perm v hv).nodup_iff.mpr (nodup_edgesFrom _ _),
        (hwf.inEdges_perm v hv).nodup_iff.mpr (nodup_edgesInto _ _)⟩
    · rw [(hlt v hv).1, (hlt v hv).2]; exact ⟨List.nodup_nil, List.nodup_nil⟩
  · intro v e he
    exact ((mem_edgesFrom _ _ _).mp (hout v e he).2).1
  · intro v e he
    exact ((mem_edgesInto _ _ _).mp (hin v e he).2).1
  · intro v w e hv hw
    have h1 := ((mem_edgesFrom _ _ _).mp (hout v e hv).2).2
    have h2 := ((mem_edgesFrom _ _ _).mp (hout w e hw).2).2
    rw [h1] at h2
    exact Option.some.inj h2
  · intro v w e hv hw
    have h1 := ((mem_edgesInto _ _ _).mp (hin v e hv).2).2
    have h2 := ((mem_edgesInto _ _ _).mp (hin w e hw).2).2
    rw [h1] at h2
    exact Option.some.inj h2

theorem length_sortEdgeLists (g : Graph) (orient : Orient) :
    (sortEdgeLists g orient).length = g.nodes.length := by
  simp [sortEdgeLists]

theorem nodeLayout_sortEdgeLists (g : Graph) (orient : Orient) (v : Nat) :
    nodeLayout (sortEdgeLists g orient) v = nodeLayout g.nodes v := by
  unfold nodeLayout sortEdgeLists
  rw [List.getElem?_map]
  cases g.nodes[v]? <;> rfl

theorem nodeOutEdges_sortEdgeLists (g : Graph) (orient : Orient) (v : Nat) :
    nodeOutEdges (sortEdgeLists g orient) v =
      jsSort (fun a b => (targetCoord orient g.nodes g.edges a).sub
        (targetCoord orient g.nodes g.edges b)) (nodeOutEdges g.nodes v) := by
  unfold nodeOutEdges sortEdgeLists
  rw [List.getElem?_map]
  cases g.nodes[v]? <;> rfl

theorem nodeInEdges_sortEdgeLists (g : Graph) (orient : Orient) (v : Nat) :
    nodeInEdges (sortEdgeLists g orient) v =
      jsSort (fun a b => (sourceCoord orient g.nodes g.edges a).sub
        (sourceCoord orient g.nodes g.edges b)) (nodeInEdges g.nodes v) := by
  unfold nodeInEdges sortEdgeLists
  rw [List.getElem?_map]
  cases g.nodes[v]? <;> rfl

theorem mem_nodeOutEdges_sortEdgeLists (g : Graph) (orient : Orient) (v e : Nat) :
    e ∈ nodeOutEdges (sortEdgeLists g orient) v ↔ e ∈ nodeOutEdges g.nodes v := by
  rw [nodeOutEdges_sortEdgeLists, mem_jsSort]

theorem mem_nodeInEdges_sortEdgeLists (g : Graph) (orient : Orient) (v e : Nat) :
    e ∈ nodeInEdges (sortEdgeLists g orient) v ↔ e ∈ nodeInEdges g.nodes v := by
  rw [nodeInEdges_sortEdgeLists, mem_jsSort]

/-- The hypotheses of `foldl_stackNode` hold for the sorted edge lists of a well-formed
graph. -/
theorem sortEdgeLists_lists (g : Graph) (hwf : WellFormed g) (orient : Orient) :
    (∀ nd ∈ sortEdgeLists g orient, nd.outEdges.Nodup ∧ nd.inEdges.Nodup) ∧
    (sortEdgeLists g orient).Pairwise (fun a b => ∀ e, e ∈ a.outEdges → e ∉ b.outEdges) ∧
    (sortEdgeLists g orient).Pairwise (fun a b => ∀ e, e ∈ a.inEdges → e ∉ b.inEdges) := by
  obtain ⟨hnd, _, _, hdo, hdi⟩ := wellFormed_lists g hwf
  refine ⟨?_, ?_, ?_⟩
  · intro nd hmem
    obtain ⟨v, hv⟩ := List.mem_iff_getElem?.mp hmem
    have ho := nodeOutEdges_sortEdgeLists g orient v
    have hi := nodeInEdges_sortEdgeLists g orient v
    rw [nodeOutEdges_eq_of_getElem? hv] at ho
    rw [nodeInEdges_eq_of_getElem? hv] at hi
    rw [ho, hi]
    exact ⟨(jsSort_perm _ _).nodup_iff.mpr (hnd v).1, (jsSort_perm _ _).nodup_iff.mpr (hnd v).2⟩
  · rw [List.pairwise_iff_getElem]
    intro i j hi hj hij e he he'
    have h1 : e ∈ nodeOutEdges (sortEdgeLists g orient) i := by
      rw [nodeOutEdges_eq_of_getElem? (List.getElem?_eq_getElem hi)]; exact he
    have h2 : e ∈ nodeOutEdges (sortEdgeLists g orient) j := by
      rw [nodeOutEdges_eq_of_getElem? (List.getElem?_eq_getElem hj)]; exact he'
    rw [mem_nodeOutEdges_sortEdgeLists] at h1 h2
    have := hdo i j e h1 h2
    omega
  · rw [List.pairwise_iff_getElem]
    intro i j hi hj hij e he he'
    have h1 : e ∈ nodeInEdges (sortEdgeLists g orient) i := by
      rw [nodeInEdges_eq_of_getElem? (List.getElem?_eq_getElem hi)]; exact he
    have h2 : e ∈ nodeInEdges (sortEdgeLists g orient) j := by
      rw [nodeInEdges_eq_of_getElem? (List.getElem?_eq_getElem hj)]; exact he'
    rw [mem_nodeInEdges_sortEdgeLists] at h1 h2
    have := hdi i j e h1 h2
    omega

theorem eq_fin_toRat_of_isFinite (a : JSNum) (h : a.isFinite = true) :
    a = JSNum.fin a.toRat := by
  cases a <;> simp [JSNum.isFinite] at h
  rfl

theorem edgeEnds_getElem? {es es' : List Edge} (h : edgeEnds es = edgeEnds es') (e : Nat) :
    (es[e]?).map (fun ed => (ed.node1, ed.node2, ed.value)) =
      (es'[e]?).map (fun ed => (ed.node1, ed.node2, ed.value)) := by
  have := congrArg (fun l => l[e]?) h
  simpa [edgeEnds] using this

theorem edgeEnds_length {es es' : List Edge} (h : edgeEnds es = edgeEnds es') :
    es.length = es'.length := by
  have := congrArg List.length h
  simpa [edgeEnds] using this

theorem targetCoord_congr (orient : Orient) {nodes nodes' : List Node} {es es' : List Edge}
    (hn : ∀ v, nodeLayout nodes v = nodeLayout nodes' v) (he : edgeEnds es = edgeEnds es')
    (e : Nat) : targetCoord orient nodes es e = targetCoord orient nodes' es' e := by
  have := edgeEnds_getElem? he e
  unfold targetCoord coordOf
  cases h1 : es[e]? <;> cases h2 : es'[e]? <;> simp [h1, h2] at this ⊢
  rw [this.2.1, hn]

theorem sourceCoord_congr (orient : Orient) {nodes nodes' : List Node} {es es' : List Edge}
    (hn : ∀ v, nodeLayout nodes v = nodeLayout nodes' v) (he : edgeEnds es = edgeEnds es')
    (e : Nat) : sourceCoord orient nodes es e = sourceCoord orient nodes' es' e := by
  have := edgeEnds_getElem? he e
  unfold sourceCoord coordOf
  cases h1 : es[e]? <;> cases h2 : es'[e]? <;> simp [h1, h2] at this ⊢
  rw [this.1, hn]

theorem getEdgeValue_congr {es es' : List Edge} (he : edgeEnds es = edgeEnds es') (e : Nat) :
    getEdgeValue es e = getEdgeValue es' e := by
  have := edgeEnds_getElem? he e
  unfold getEdgeValue
  cases h1 : es[e]? <;> cases h2 : es'[e]? <;> simp [h1, h2] at this ⊢
  exact this.2.2

/-- The result of `computeEdgeDepths` on a well-formed graph, in terms of the graph it is
given. -/
theorem computeEdgeDepths_spec (g : Graph) (hwf : WellFormed g) (orient : Orient) :
    (computeEdgeDepths g orient).nodes = sortEdgeLists g orient ∧
    edgeEnds (computeEdgeDepths g orient).edges = edgeEnds g.edges ∧
    (∀ e, edgeDy (computeEdgeDepths g orient).edges e = edgeDy g.edges e) ∧
    (∀ v k e, (nodeOutEdges (sortEdgeLists g orient) v)[k]? = some e →
      edgeSy (computeEdgeDepths g orient).edges e =
        offsetAt (edgeDy g.edges) (nodeOutEdges (sortEdgeLists g orient) v) (JSNum.fin 0) k) ∧
    (∀ v k e, (nodeInEdges (sortEdgeLists g orient) v)[k]? = some e →
      edgeTy (computeEdgeDepths g orient).edges e =
        offsetAt (edgeDy g.edges) (nodeInEdges (sortEdgeLists g orient) v) (JSNum.fin 0) k) := by
  obtain ⟨h1, h2, h3⟩ := sortEdgeLists_lists g hwf orient
  obtain ⟨_, f2, f3, _, _, f6, f7⟩ := foldl_stackNode (sortEdgeLists g orient) g.edges h1 h2 h3
  obtain ⟨_, hlo, hli, _, _⟩ := wellFormed_lists g hwf
  refine ⟨rfl, f2, f3, ?_, ?_⟩
  · intro v k e hk
    cases hnd : (sortEdgeLists g orient)[v]? with
    | none =>
      unfold nodeOutEdges at hk
      rw [hnd] at hk
      simp at hk
    | some nd =>
      rw [nodeOutEdges_eq_of_getElem? hnd] at hk ⊢
      have hmem : e ∈ nodeOutEdges (sortEdgeLists g orient) v := by
        rw [nodeOutEdges_eq_of_getElem? hnd]; exact List.getElem?_mem hk
      rw [mem_nodeOutEdges_sortEdgeLists] at hmem
      exact f6 nd (List.getElem?_mem hnd) k e hk (hlo v e hmem)
  · intro v k e hk
    cases hnd : (sortEdgeLists g orient)[v]? with
    | none =>
      unfold nodeInEdges at hk
      rw [hnd] at hk
      simp at hk
    | some nd =>
      rw [nodeInEdges_eq_of_getElem? hnd] at hk ⊢
      have hmem : e ∈ nodeInEdges (sortEdgeLists g orient) v := by
        rw [nodeInEdges_eq_of_getElem? hnd]; exact List.getElem?_mem hk
      rw [mem_nodeInEdges_sortEdgeLists] at hmem
      exact f7 nd (List.getElem?_mem hnd) k e hk (hli v e hmem)

/-- C4: for every node of a well-formed graph, after `computeEdgeDepths` its `outEdges` list
is a permutation of the original list, sorted ascending by the depth coordinate of each
edge's target (no consecutive pair is out of order, and the list is sorted as soon as these
coordinates are finite), and the source offset `sy` of the `k`-th edge in that order is the
sum of the thicknesses `dy` of the edges before it (so the first offset is 0 and each next one
is the previous offset plus the previous thickness); the same holds for `inEdges`, sorted by
the coordinate of the source, with the target offset `ty`. -/
theorem computeEdgeDepths_stack (g : Graph) (hwf : WellFormed g) (orient : Orient) (v : Nat) :
    ((nodeOutEdges (computeEdgeDepths g orient).nodes v).Perm (nodeOutEdges g.nodes v) ∧
      (nodeOutEdges (computeEdgeDepths g orient).nodes v).Chain' (fun a b =>
        ((targetCoord orient (computeEdgeDepths g orient).nodes
            (computeEdgeDepths g orient).edges a).sub
          (targetCoord orient (computeEdgeDepths g orient).nodes
            (computeEdgeDepths g orient).edges b)).gt (JSNum.fin 0) = false) ∧
      ((∀ e ∈ nodeOutEdges g.nodes v, (targetCoord orient (computeEdgeDepths g orient).nodes
          (computeEdgeDepths g orient).edges e).isFinite = true) →
        (nodeOutEdges (computeEdgeDepths g orient).nodes v).Sorted (fun a b =>
          (targetCoord orient (computeEdgeDepths g orient).nodes
              (computeEdgeDepths g orient).edges a).toRat ≤
            (targetCoord orient (computeEdgeDepths g orient).nodes
              (computeEdgeDepths g orient).edges b).toRat)) ∧
      ∀ k e, (nodeOutEdges (computeEdgeDepths g orient).nodes v)[k]? = some e →
        edgeSy (computeEdgeDepths g orient).edges e =
          offsetAt (edgeDy (computeEdgeDepths g orient).edges)
            (nodeOutEdges (computeEdgeDepths g orient).nodes v) (JSNum.fin 0) k) ∧
    ((nodeInEdges (computeEdgeDepths g orient).nodes v).Perm (nodeInEdges g.nodes v) ∧
      (nodeInEdges (computeEdgeDepths g orient).nodes v).Chain' (fun a b =>
        ((sourceCoord orient (computeEdgeDepths g orient).nodes
            (computeEdgeDepths g orient).edges a).sub
          (sourceCoord orient (computeEdgeDepths g orient).nodes
            (computeEdgeDepths g orient).edges b)).gt (JSNum.fin 0) = false) ∧
      ((∀ e ∈ nodeInEdges g.nodes v, (sourceCoord orient (computeEdgeDepths g orient).nodes
          (computeEdgeDepths g orient).edges e).isFinite = true) →
        (nodeInEdges (computeEdgeDepths g orient).nodes v).Sorted (fun a b =>
          (sourceCoord orient (computeEdgeDepths g orient).nodes
              (computeEdgeDepths g orient).edges a).toRat ≤
            (sourceCoord orient (computeEdgeDepths g orient).nodes
              (computeEdgeDepths g orient).edges b).toRat)) ∧
      ∀ k e, (nodeInEdges (computeEdgeDepths g orient).nodes v)[k]? = some e →
        edgeTy (computeEdgeDepths g orient).edges e =
          offsetAt (edgeDy (computeEdgeDepths g orient).edges)
            (nodeInEdges (computeEdgeDepths g orient).nodes v) (JSNum.fin 0) k) := by
  obtain ⟨hn, he, hdy, hsy, hty⟩ := computeEdgeDepths_spec g hwf orient
  have htc : targetCoord orient (computeEdgeDepths g orient).nodes
      (computeEdgeDepths g orient).edges = targetCoord orient g.nodes g.edges :=
    funext (fun e => targetCoord_congr orient
      (fun w => by rw [hn, nodeLayout_sortEdgeLists]) he e)
  have hsc : sourceCoord orient (computeEdgeDepths g orient).nodes
      (computeEdgeDepths g orient).edges = sourceCoord orient g.nodes g.edges :=
    funext (fun e => sourceCoord_congr orient
      (fun w => by rw [hn, nodeLayout_sortEdgeLists]) he e)
  have hdy' : edgeDy (computeEdgeDepths g orient).edges = edgeDy g.edges := funext hdy
  rw [htc, hsc, hdy', hn]
  refine ⟨⟨?_, ?_, ?_, hsy v⟩, ⟨?_, ?_, ?_, hty v⟩⟩
  · rw [nodeOutEdges_sortEdgeLists]; exact jsSort_perm _ _
  · rw [nodeOutEdges_sortEdgeLists]
    exact chain'_insertionSort _ (fun a b => jsSort_rel_total _ _) _
  · intro hfin
    rw [nodeOutEdges_sortEdgeLists]
    exact jsSort_sorted_of_finite (targetCoord orient g.nodes g.edges)
      (fun e => (targetCoord orient g.nodes g.edges e).toRat) _
      (fun e he' => eq_fin_toRat_of_isFinite _ (hfin e he'))
  · rw [nodeInEdges_sortEdgeLists]; exact jsSort_perm _ _
  · rw [nodeInEdges_sortEdgeLists]
    exact chain'_insertionSort _ (fun a b => jsSort_rel_total _ _) _
  · intro hfin
    rw [nodeInEdges_sortEdgeLists]
    exact jsSort_sorted_of_finite (sourceCoord orient g.nodes g.edges)
      (fun e => (sourceCoord orient g.nodes g.edges e).toRat) _
      (fun e he' => eq_fin_toRat_of_isFinite _ (hfin e he'))

theorem wellFormed_mergeLaidOut : WellFormed mergeLaidOut :=
  ⟨by decide, by decide, by decide, by decide⟩

theorem computeEdgeDepths_stack_witness :
    WellFormed mergeLaidOut ∧
    (((nodeOutEdges (computeEdgeDepths mergeLaidOut Orient.horizontal).nodes 2).Perm (nodeOutEdges mergeLaidOut.nodes 2) ∧
      (nodeOutEdges (computeEdgeDepths mergeLaidOut Orient.horizontal).nodes 2).Chain' (fun a b =>
        ((targetCoord Orient.horizontal (computeEdgeDepths mergeLaidOut Orient.horizontal).nodes
            (computeEdgeDepths mergeLaidOut Orient.horizontal).edges a).sub
          (targetCoord Orient.horizontal (computeEdgeDepths mergeLaidOut Orient.horizontal).nodes
            (computeEdgeDepths mergeLaidOut Orient.horizontal).edges b)).gt (JSNum.fin 0) = false) ∧
      ((∀ e ∈ nodeOutEdges mergeLaidOut.nodes 2, (targetCoord Orient.horizontal (computeEdgeDepths mergeLaidOut Orient.horizontal).nodes
          (computeEdgeDepths mergeLaidOut Orient.horizontal).edges e).isFinite = true) →
        (nodeOutEdges (computeEdgeDepths mergeLaidOut Orient.horizontal).nodes 2).Sorted (fun a b =>
          (targetCoord Orient.horizontal (computeEdgeDepths mergeLaidOut Orient.horizontal).nodes
              (computeEdgeDepths mergeLaidOut Orient.horizontal).edges a).toRat ≤
            (targetCoord Orient.horizontal (computeEdgeDepths mergeLaidOut Orient.horizontal).nodes
              (computeEdgeDepths mergeLaidOut Orient.horizontal).edges b).toRat)) ∧
      ∀ k e, (nodeOutEdges (computeEdgeDepths mergeLaidOut Orient.horizontal).nodes 2)[k]? = some e →
        edgeSy (computeEdgeDepths mergeLaidOut Orient.horizontal).edges e =
          offsetAt (edgeDy (computeEdgeDepths mergeLaidOut Orient.horizontal).edges)
            (nodeOutEdges (computeEdgeDepths mergeLaidOut Orient.horizontal).nodes 2) (JSNum.fin 0) k) ∧
    ((nodeInEdges (computeEdgeDepths mergeLaidOut Orient.horizontal).nodes 2).Perm (nodeInEdges mergeLaidOut.nodes 2) ∧
      (nodeInEdges (computeEdgeDepths mergeLaidOut Orient.horizontal).nodes 2).Chain' (fun a b =>
        ((sourceCoord Orient.horizontal (computeEdgeDepths mergeLaidOut Orient.horizontal).nodes
            (computeEdgeDepths mergeLaidOut Orient.horizontal).edges a).sub
          (sourceCoord Orient.horizontal (computeEdgeDepths mergeLaidOut Orient.horizontal).nodes
            (computeEdgeDepths mergeLaidOut Orient.horizontal).edges b)).gt (JSNum.fin 0) = false) ∧
      ((∀ e ∈ nodeInEdges mergeLaidOut.nodes 2, (sourceCoord Orient.horizontal (computeEdgeDepths mergeLaidOut Orient.horizontal).nodes
          (computeEdgeDepths mergeLaidOut Orient.horizontal).edges e).isFinite = true) →
        (nodeInEdges (computeEdgeDepths mergeLaidOut Orient.horizontal).nodes 2).Sorted (fun a b =>
          (sourceCoord Orient.horizontal (computeEdgeDepths mergeLaidOut Orient.horizontal).nodes
              (computeEdgeDepths mergeLaidOut Orient.horizontal).edges a).toRat ≤
            (sourceCoord Orient.horizontal (computeEdgeDepths mergeLaidOut Orient.horizontal).nodes
              (computeEdgeDepths mergeLaidOut Orient.horizontal).edges b).toRat)) ∧
      ∀ k e, (nodeInEdges (computeEdgeDepths mergeLaidOut Orient.horizontal).nodes 2)[k]? = some e →
        edgeTy (computeEdgeDepths mergeLaidOut Orient.horizontal).edges e =
          offsetAt (edgeDy (computeEdgeDepths mergeLaidOut Orient.horizontal).edges)
            (nodeInEdges (computeEdgeDepths mergeLaidOut Orient.horizontal).nodes 2) (JSNum.fin 0) k)) :=
  ⟨wellFormed_mergeLaidOut,
    computeEdgeDepths_stack mergeLaidOut wellFormed_mergeLaidOut Orient.horizontal 2⟩

/-- Scenario B of the specification, evaluated: `mergeLaidOut` is the graph the pipeline hands
to `computeEdgeDepths`; on the `inEdges` of C, sorted by the coordinate of the source, the
target offset of the first edge is 0 and that of the second edge is 48, the thickness of the
first edge. -/
theorem scenarioB_offsets :
    (computeNodeBreadths (computeNodeValues mergeGraph) (JSNum.fin 20) (JSNum.fin 300)
        (JSNum.fin 200) Orient.horizontal).bind (fun g1 =>
      computeNodeDepths g1 (JSNum.fin 200) (JSNum.fin 300) (JSNum.fin 8) 0
        Orient.horizontal) = some mergeLaidOut ∧
    nodeInEdges (computeEdgeDepths mergeLaidOut Orient.horizontal).nodes 2 = [0, 1] ∧
    (computeEdgeDepths mergeLaidOut Orient.horizontal).edges.map
        (fun ed => (ed.layout.dy, ed.layout.ty)) =
      [(JSNum.fin 48, JSNum.fin 0), (JSNum.fin 144, JSNum.fin 48)] := by
  decide!

/-! ## resolveCollisions -/

theorem jsGe_fin (a b : ℚ) : (JSNum.fin a).ge (JSNum.fin b) = decide (b ≤ a) := rfl

theorem pushDown_eq (orient : Orient) (γ y0 y sv : ℚ) (nodes : List Node) (v : Nat)
    (hv : v < nodes.length) (hy : coordOf orient nodes v = JSNum.fin y)
    (hs : sizeOf orient nodes v = JSNum.fin sv) :
    ∃ nodes1, pushDown orient (JSNum.fin γ) (nodes, JSNum.fin y0) v =
        (nodes1, JSNum.fin (max y y0 + sv + γ)) ∧
      nodes1.length = nodes.length ∧
      (∀ w, sizeOf orient nodes1 w = sizeOf orient nodes w) ∧
      (∀ w, w ≠ v → coordOf orient nodes1 w = coordOf orient nodes w) ∧
      coordOf orient nodes1 v = JSNum.fin (max y y0) := by
  unfold pushDown
  simp only [hy, jsSub_fin, jsGt_fin, jsAdd_fin]
  by_cases h : 0 < y0 - y
  · rw [if_pos (by simpa using h)]
    have hmax : max y y0 = y0 := max_eq_right (by linarith)
    have hc : coordOf orient (setCoord orient nodes v (JSNum.fin (y + (y0 - y)))) v =
        JSNum.fin y0 := by
      rw [coordOf_setCoord, if_pos ⟨rfl, hv⟩]
      congr 1
      ring
    refine ⟨setCoord orient nodes v (JSNum.fin (y + (y0 - y))), ?_, length_setCoord _ _ _ _,
      fun w => sizeOf_setCoord _ _ _ _ _, ?_, ?_⟩
    · rw [hc, sizeOf_setCoord, hs, hmax]
      rfl
    · intro w hw
      rw [coordOf_setCoord, if_neg (fun hc => hw hc.1.symm)]
    · rw [hc, hmax]
  · rw [if_neg (by simpa using h)]
    have hmax : max y y0 = y := max_eq_left (by linarith)
    refine ⟨nodes, ?_, rfl, fun w => rfl, fun w _ => rfl, ?_⟩
    · rw [hy, hs, hmax]
      rfl
    · rw [hy, hmax]

theorem pushUp_eq (orient : Orient) (γ y0 y sv : ℚ) (nodes : List Node) (v : Nat)
    (hv : v < nodes.length) (hy : coordOf orient nodes v = JSNum.fin y)
    (hs : sizeOf orient nodes v = JSNum.fin sv) :
    ∃ nodes1, pushUp orient (JSNum.fin γ) (nodes, JSNum.fin y0) v =
        (nodes1, JSNum.fin (min y (y0 - sv - γ))) ∧
      nodes1.length = nodes.length ∧
      (∀ w, sizeOf orient nodes1 w = sizeOf orient nodes w) ∧
      (∀ w, w ≠ v → coordOf orient nodes1 w = coordOf orient nodes w) ∧
      coordOf orient nodes1 v = JSNum.fin (min y (y0 - sv - γ)) := by
  unfold pushUp
  simp only [hy, hs, jsSub_fin, jsGt_fin, jsAdd_fin]
  by_cases h : 0 < y + sv + γ - y0
  · rw [if_pos (by simpa using h)]
    have hmin : min y (y0 - sv - γ) = y0 - sv - γ := min_eq_right (by linarith)
    have hc : coordOf orient (setCoord orient nodes v (JSNum.fin (y - (y + sv + γ - y0)))) v =
        JSNum.fin (y0 - sv - γ) := by
      rw [coordOf_setCoord, if_pos ⟨rfl, hv⟩]
      congr 1
      ring
    refine ⟨setCoord orient nodes v (JSNum.fin (y - (y + sv + γ - y0))), ?_,
      length_setCoord _ _ _ _, fun w => sizeOf_setCoord _ _ _ _ _, ?_, ?_⟩
    · rw [hc, hmin]
    · intro w hw
      rw [coordOf_setCoord, if_neg (fun hc => hw hc.1.symm)]
    · rw [hc, hmin]
  · rw [if_neg (by simpa using h)]
    have hmin : min y (y0 - sv - γ) = y := min_eq_left (by linarith)
    refine ⟨nodes, ?_, rfl, fun w => rfl, fun w _ => rfl, ?_⟩
    · rw [hy, hmin]
    · rw [hy, hmin]

/-- The first loop of `resolveCollisions` over distinct nodes with finite coordinates and
non-negative finite sizes: consecutive nodes end up separated, no node lies above the initial
floor, and the final floor is the end of the last node plus the gap. -/
theorem pushDown_fold (orient : Orient) (γ : ℚ) (hγ : 0 ≤ γ) (s : Nat → ℚ) (l : List Nat) :
    ∀ (nodes : List Node) (y0 : ℚ), l.Nodup → (∀ v ∈ l, v < nodes.length) →
      (∀ v ∈ l, ∃ y, coordOf orient nodes v = JSNum.fin y) →
      (∀ v ∈ l, sizeOf orient nodes v = JSNum.fin (s v) ∧ 0 ≤ s v) →
      ∃ nodes' Y, l.foldl (pushDown orient (JSNum.fin γ)) (nodes, JSNum.fin y0) =
          (nodes', JSNum.fin Y) ∧
        nodes'.length = nodes.length ∧
        (∀ w, sizeOf orient nodes' w = sizeOf orient nodes w) ∧
        (∀ w, w ∉ l → coordOf orient nodes' w = coordOf orient nodes w) ∧
        (l = [] → Y = y0) ∧
        (∀ v ∈ l, ∃ c, coordOf orient nodes' v = JSNum.fin c ∧ y0 ≤ c) ∧
        (∀ v, l.getLast? = some v → ∃ c, coordOf orient nodes' v = JSNum.fin c ∧
          Y = c + s v + γ) ∧
        l.Chain' (SepQ orient γ s nodes') := by
  induction l with
  | nil =>
    intro nodes y0 _ _ _ _
    refine ⟨nodes, y0, rfl, rfl, fun _ => rfl, fun _ _ => rfl, fun _ => rfl, ?_, ?_,
      List.chain'_nil⟩
    · intro v hv; cases hv
    · intro v hv; cases hv
  | cons v l ih =>
    intro nodes y0 hnd hlt hfin hsz
    rw [List.nodup_cons] at hnd
    obtain ⟨y, hy⟩ := hfin v (List.mem_cons_self v l)
    have hsv := hsz v (List.mem_cons_self v l)
    obtain ⟨nodes1, hstep, hlen1, hsz1, hco1, hcv1⟩ := pushDown_eq orient γ y0 y (s v) nodes v
      (hlt v (List.mem_cons_self v l)) hy hsv.1
    have hne : ∀ w ∈ l, w ≠ v := fun w hw hwv => hnd.1 (hwv ▸ hw)
    obtain ⟨nodes', Y, hfold, hlen, hsz', hco', hnil, hge, hlast, hchain⟩ :=
      ih nodes1 (max y y0 + s v + γ) hnd.2
        (fun w hw => by rw [hlen1]; exact hlt w (List.mem_cons_of_mem v hw))
        (fun w hw => by rw [hco1 w (hne w hw)]; exact hfin w (List.mem_cons_of_mem v hw))
        (fun w hw => by rw [hsz1]; exact hsz w (List.mem_cons_of_mem v hw))
    have hcv : coordOf orient nodes' v = JSNum.fin (max y y0) := by
      rw [hco' v hnd.1, hcv1]
    have hmax : y0 ≤ max y y0 := le_max_right _ _
    refine ⟨nodes', Y, ?_, ?_, ?_, ?_, ?_, ?_, ?_, ?_⟩
    · rw [List.foldl_cons, hstep, hfold]
    · rw [hlen, hlen1]
    · intro w; rw [hsz', hsz1]
    · intro w hw
      rw [List.mem_cons, not_or] at hw
      rw [hco' w hw.2, hco1 w hw.1]
    · intro h; cases h
    · intro w hw
      rcases List.mem_cons.mp hw with h | h
      · subst h
        exact ⟨_, hcv, hmax⟩
      · obtain ⟨c, hc, hle⟩ := hge w h
        exact ⟨c, hc, by linarith [hsv.2]⟩
    · intro w hw
      cases l with
      | nil =>
        simp only [List.getLast?_singleton, Option.some.injEq] at hw
        subst hw
        exact ⟨_, hcv, hnil rfl⟩
      | cons a l =>
        rw [List.getLast?_cons_cons] at hw
        exact hlast w hw
    · rw [List.chain'_cons']
      refine ⟨?_, hchain⟩
      intro x hx
      have hxl : x ∈ l := List.mem_of_mem_head? hx
      obtain ⟨c, hc, hle⟩ := hge x hxl
      exact ⟨_, c, hcv, hc, hle⟩

/-- The second loop of `resolveCollisions` over distinct nodes with finite coordinates and
non-negative finite sizes: every node ends before the initial ceiling, and consecutive nodes
(walked from the last to the first) end up separated. -/
theorem pushUp_fold (orient : Orient) (γ : ℚ) (hγ : 0 ≤ γ) (s : Nat → ℚ) (l : List Nat) :
    ∀ (nodes : List Node) (y0 : ℚ), l.Nodup → (∀ v ∈ l, v < nodes.length) →
      (∀ v ∈ l, ∃ y, coordOf orient nodes v = JSNum.fin y) →
      (∀ v ∈ l, sizeOf orient nodes v = JSNum.fin (s v) ∧ 0 ≤ s v) →
      ∃ nodes' Y, l.foldl (pushUp orient (JSNum.fin γ)) (nodes, JSNum.fin y0) =
          (nodes', JSNum.fin Y) ∧
        nodes'.length = nodes.length ∧
        (∀ w, sizeOf orient nodes' w = sizeOf orient nodes w) ∧
        (∀ w, w ∉ l → coordOf orient nodes' w = coordOf orient nodes w) ∧
        (∀ v ∈ l, ∃ c, coordOf orient nodes' v = JSNum.fin c ∧ c + s v + γ ≤ y0) ∧
        l.Chain' (fun a b => SepQ orient γ s nodes' b a) := by
  induction l with
  | nil =>
    intro nodes y0 _ _ _ _
    refine ⟨nodes, y0, rfl, rfl, fun _ => rfl, fun _ _ => rfl, ?_, List.chain'_nil⟩
    intro v hv; cases hv
  | cons v l ih =>
    intro nodes y0 hnd hlt hfin hsz
    rw [List.nodup_cons] at hnd
    obtain ⟨y, hy⟩ := hfin v (List.mem_cons_self v l)
    have hsv := hsz v (List.mem_cons_self v l)
    obtain ⟨nodes1, hstep, hlen1, hsz1, hco1, hcv1⟩ := pushUp_eq orient γ y0 y (s v) nodes v
      (hlt v (List.mem_cons_self v l)) hy hsv.1
    have hne : ∀ w ∈ l, w ≠ v := fun w hw hwv => hnd.1 (hwv ▸ hw)
    obtain ⟨nodes', Y, hfold, hlen, hsz', hco', hle, hchain⟩ :=
      ih nodes1 (min y (y0 - s v - γ)) hnd.2
        (fun w hw => by rw [hlen1]; exact hlt w (List.mem_cons_of_mem v hw))
        (fun w hw => by rw [hco1 w (hne w hw)]; exact hfin w (List.mem_cons_of_mem v hw))
        (fun w hw => by rw [hsz1]; exact hsz w (List.mem_cons_of_mem v hw))
    have hcv : coordOf orient nodes' v = JSNum.fin (min y (y0 - s v - γ)) := by
      rw [hco' v hnd.1, hcv1]
    have hmin : min y (y0 - s v - γ) ≤ y0 - s v - γ := min_le_right _ _
    refine ⟨nodes', Y, ?_, ?_, ?_, ?_, ?_, ?_⟩
    · rw [List.foldl_cons, hstep, hfold]
    · rw [hlen, hlen1]
    · intro w; rw [hsz', hsz1]
    · intro w hw
      rw [List.mem_cons, not_or] at hw
      rw [hco' w hw.2, hco1 w hw.1]
    · intro w hw
      rcases List.mem_cons.mp hw with h | h
      · subst h
        exact ⟨_, hcv, by linarith⟩
      · obtain ⟨c, hc, hle'⟩ := hle w h
        exact ⟨c, hc, by linarith [hsv.2]⟩
    · rw [List.chain'_cons']
      refine ⟨?_, hchain⟩
      intro x hx
      have hxl : x ∈ l := List.mem_of_mem_head? hx
      obtain ⟨c, hc, hle'⟩ := hle x hxl
      exact ⟨c, _, hc, hcv, hle'⟩

/-- The body of `resolveCollisions` for one group of distinct nodes with finite coordinates
and non-negative finite sizes: the group is sorted, and consecutive nodes of the sorted group
end up separated by at least the gap. -/
theorem resolveGroup_spec (orient : Orient) (γ E : ℚ) (hγ : 0 ≤ γ) (s : Nat → ℚ)
    (nodes : List Node) (grp : List Nat) (hnd : grp.Nodup) (hlt : ∀ v ∈ grp, v < nodes.length)
    (hfin : ∀ v ∈ grp, ∃ y, coordOf orient nodes v = JSNum.fin y)
    (hsz : ∀ v ∈ grp, sizeOf orient nodes v = JSNum.fin (s v) ∧ 0 ≤ s v)
    (hsome : grp = [] → 0 ≤ γ + E) :
    ∃ nodes', resolveGroup orient (JSNum.fin γ) (JSNum.fin E) nodes grp =
        some (jsSort (fun a b => (coordOf orient nodes a).sub (coordOf orient nodes b)) grp,
          nodes') ∧
      nodes'.length = nodes.length ∧
      (∀ w, sizeOf orient nodes' w = sizeOf orient nodes w) ∧
      (∀ w, w ∉ grp → coordOf orient nodes' w = coordOf orient nodes w) ∧
      (∀ v ∈ grp, ∃ c, coordOf orient nodes' v = JSNum.fin c) ∧
      (jsSort (fun a b => (coordOf orient nodes a).sub (coordOf orient nodes b)) grp).Chain'
        (SepQ orient γ s nodes') := by
  have hperm := jsSort_perm (fun a b => (coordOf orient nodes a).sub (coordOf orient nodes b)) grp
  unfold resolveGroup
  simp only
  generalize jsSort (fun a b => (coordOf orient nodes a).sub (coordOf orient nodes b)) grp =
    sorted at hperm ⊢
  have hmem : ∀ v, v ∈ sorted ↔ v ∈ grp := fun v => hperm.mem_iff
  obtain ⟨nodes1, Y, hfold, hlen1, hsz1, hco1, hnil1, hge1, hlast1, hchain1⟩ :=
    pushDown_fold orient γ hγ s sorted nodes 0 (hperm.nodup_iff.mpr hnd)
      (fun v hv => hlt v ((hmem v).mp hv)) (fun v hv => hfin v ((hmem v).mp hv))
      (fun v hv => hsz v ((hmem v).mp hv))
  rw [hfold]
  simp only [jsSub_fin, jsGt_fin]
  by_cases hdy : 0 < Y - γ - E
  · rw [if_pos (by simpa using hdy)]
    cases hrev : sorted.reverse with
    | nil =>
      have hs0 : sorted = [] := by simpa using hrev
      have hg0 : grp = [] := by
        have := hperm.symm
        rw [hs0] at this
        exact List.Perm.eq_nil this
      have := hnil1 hs0
      have := hsome hg0
      linarith
    | cons last rest =>
      simp only
      have hnd' : (last :: rest).Nodup := by
        rw [← hrev, List.nodup_reverse]
        exact hperm.nodup_iff.mpr hnd
      rw [List.nodup_cons] at hnd'
      have hmem' : ∀ v, v ∈ last :: rest ↔ v ∈ grp := by
        intro v
        rw [← hrev, List.mem_reverse]
        exact hmem v
      have hlastg : last ∈ grp := (hmem' last).mp (List.mem_cons_self _ _)
      have hrestg : ∀ v ∈ rest, v ∈ grp := fun v hv => (hmem' v).mp (List.mem_cons_of_mem _ hv)
      obtain ⟨cl, hcl, _⟩ := hge1 last ((hmem last).mpr hlastg)
      rw [hcl, jsSub_fin]
      have hlen2 : (setCoord orient nodes1 last (JSNum.fin (cl - (Y - γ - E)))).length =
          nodes.length := by rw [length_setCoord, hlen1]
      have hne : ∀ w ∈ rest, w ≠ last := fun w hw hwl => hnd'.1 (hwl ▸ hw)
      obtain ⟨nodes', Y', hfold2, hlen', hsz', hco', hle', hchain'⟩ :=
        pushUp_fold orient γ hγ s rest
          (setCoord orient nodes1 last (JSNum.fin (cl - (Y - γ - E)))) (cl - (Y - γ - E)) hnd'.2
          (fun v hv => by rw [hlen2]; exact hlt v (hrestg v hv))
          (fun v hv => by
            rw [coordOf_setCoord, if_neg (fun hc => hne v hv hc.1.symm)]
            obtain ⟨c, hc, _⟩ := hge1 v ((hmem v).mpr (hrestg v hv))
            exact ⟨c, hc⟩)
          (fun v hv => by
            rw [sizeOf_setCoord, hsz1]
            exact hsz v (hrestg v hv))
      rw [hfold2]
      have hclast : coordOf orient nodes' last = JSNum.fin (cl - (Y - γ - E)) := by
        rw [hco' last hnd'.1, coordOf_setCoord, if_pos ⟨rfl, by
          rw [hlen1]; exact hlt last hlastg⟩]
      refine ⟨nodes', rfl, by rw [hlen', hlen2], ?_, ?_, ?_, ?_⟩
      · intro w; rw [hsz', sizeOf_setCoord, hsz1]
      · intro w hw
        have hwl : w ≠ last := fun h => hw (h ▸ hlastg)
        have hwr : w ∉ rest := fun h => hw (hrestg w h)
        rw [hco' w hwr, coordOf_setCoord, if_neg (fun hc => hwl hc.1.symm),
          hco1 w (fun h => hw ((hmem w).mp h))]
      · intro v hv
        rcases List.mem_cons.mp ((hmem' v).mpr hv) with h | h
        · subst h; exact ⟨_, hclast⟩
        · obtain ⟨c, hc, _⟩ := hle' v h
          exact ⟨c, hc⟩
      · have hc : (last :: rest).Chain' (fun a b => SepQ orient γ s nodes' b a) := by
          rw [List.chain'_cons']
          refine ⟨?_, hchain'⟩
          intro x hx
          obtain ⟨c, hc, hle⟩ := hle' x (List.mem_of_mem_head? hx)
          exact ⟨c, _, hc, hclast, hle⟩
        rw [← hrev, List.chain'_reverse] at hc
        exact hc
  · rw [if_neg (by simpa using hdy)]
    refine ⟨nodes1, rfl, hlen1, hsz1, ?_, ?_, hchain1⟩
    · intro w hw
      exact hco1 w (fun h => hw ((hmem w).mp h))
    · intro v hv
      obtain ⟨c, hc, _⟩ := hge1 v ((hmem v).mpr hv)
      exact ⟨c, hc⟩

/-- The loop of `resolveCollisions` over pairwise disjoint groups of distinct nodes with
finite coordinates and non-negative finite sizes: every group is sorted in place and its
consecutive nodes end up separated by at least the gap. -/
theorem resolveGroups_spec (orient : Orient) (γ E : ℚ) (hγ : 0 ≤ γ) (hE : 0 ≤ γ + E)
    (s : Nat → ℚ) (groups : List (List Nat)) :
    ∀ (nodes : List Node), groups.Pairwise List.Disjoint → (∀ grp ∈ groups, grp.Nodup) →
      (∀ grp ∈ groups, ∀ v ∈ grp, v < nodes.length) →
      (∀ grp ∈ groups, ∀ v ∈ grp, ∃ y, coordOf orient nodes v = JSNum.fin y) →
      (∀ grp ∈ groups, ∀ v ∈ grp, sizeOf orient nodes v = JSNum.fin (s v) ∧ 0 ≤ s v) →
      ∃ groups' nodes', resolveGroups orient (JSNum.fin γ) (JSNum.fin E) groups nodes =
          some (groups', nodes') ∧
        nodes'.length = nodes.length ∧
        (∀ w, sizeOf orient nodes' w = sizeOf orient nodes w) ∧
        (∀ w, (∀ grp ∈ groups, w ∉ grp) → coordOf orient nodes' w = coordOf orient nodes w) ∧
        (∀ grp ∈ groups, ∀ v ∈ grp, ∃ c, coordOf orient nodes' v = JSNum.fin c) ∧
        ∀ (i : Nat) (grp : List Nat), groups[i]? = some grp →
          ∃ grp' : List Nat, groups'[i]? = some grp' ∧ grp'.Perm grp ∧
          grp'.Chain' (SepQ orient γ s nodes') := by
  induction groups with
  | nil =>
    intro nodes _ _ _ _ _
    refine ⟨[], nodes, rfl, rfl, fun _ => rfl, fun _ _ => rfl, ?_, ?_⟩
    · intro grp hg; cases hg
    · intro i grp hi; cases hi
  | cons grp rest ih =>
    intro nodes hdisj hnd hlt hfin hsz
    rw [List.pairwise_cons] at hdisj
    have hg : grp ∈ grp :: rest := List.mem_cons_self _ _
    obtain ⟨nodes1, hres, hlen1, hsz1, hco1, hfin1, hchain1⟩ :=
      resolveGroup_spec orient γ E hγ s nodes grp (hnd grp hg) (hlt grp hg) (hfin grp hg)
        (hsz grp hg) (fun _ => hE)
    have hout : ∀ g ∈ rest, ∀ v ∈ g, v ∉ grp := fun g hgr v hv hvg =>
      hdisj.1 g hgr hvg hv
    obtain ⟨groups', nodes', hrest, hlen', hsz', hco', hfin', hchain'⟩ :=
      ih nodes1 hdisj.2 (fun g h => hnd g (List.mem_cons_of_mem _ h))
        (fun g h v hv => by rw [hlen1]; exact hlt g (List.mem_cons_of_mem _ h) v hv)
        (fun g h v hv => by
          rw [hco1 v (hout g h v hv)]; exact hfin g (List.mem_cons_of_mem _ h) v hv)
        (fun g h v hv => by rw [hsz1]; exact hsz g (List.mem_cons_of_mem _ h) v hv)
    have hkeep : ∀ v ∈ grp, coordOf orient nodes' v = coordOf orient nodes1 v := fun v hv =>
      hco' v (fun g h hvg => hout g h v hvg hv)
    refine ⟨jsSort (fun a b => (coordOf orient nodes a).sub (coordOf orient nodes b)) grp ::
      groups', nodes', ?_, by rw [hlen', hlen1], fun w => by rw [hsz', hsz1], ?_, ?_, ?_⟩
    · unfold resolveGroups
      rw [hres]
      simp only
      rw [hrest]
    · intro w hw
      rw [hco' w (fun g h => hw g (List.mem_cons_of_mem _ h)), hco1 w (hw grp hg)]
    · intro g h v hv
      rcases List.mem_cons.mp h with h | h
      · subst h
        rw [hkeep v hv]
        exact hfin1 v hv
      · exact hfin' g h v hv
    · intro i g hi
      cases i with
      | zero =>
        simp only [List.getElem?_cons_zero, Option.some.injEq] at hi
        subst hi
        refine ⟨_, List.getElem?_cons_zero, jsSort_perm _ _, ?_⟩
        rw [List.Chain'.iff_mem] at hchain1
        refine hchain1.imp ?_
        rintro a b ⟨ha, hb, ca, cb, hca, hcb, hle⟩
        rw [mem_jsSort] at ha hb
        exact ⟨ca, cb, by rw [hkeep a ha]; exact hca, by rw [hkeep b hb]; exact hcb, hle⟩
      | succ i =>
        simp only [List.getElem?_cons_succ] at hi ⊢
        exact hchain' i g hi

theorem ascending_of_sepQ (orient : Orient) (γ : ℚ) (hγ : 0 ≤ γ) (s : Nat → ℚ)
    (nodes : List Node) (l : List Nat) (hs : ∀ v ∈ l, 0 ≤ s v)
    (h : l.Chain' (SepQ orient γ s nodes)) : l.Pairwise (Ascending orient nodes) := by
  let R : Nat → Nat → Prop := fun a b =>
    ∃ ca cb, coordOf orient nodes a = JSNum.fin ca ∧ coordOf orient nodes b = JSNum.fin cb ∧
      ca ≤ cb
  haveI : IsTrans Nat R := ⟨by
    rintro a b c ⟨ca, cb, h1, h2, h3⟩ ⟨cb', cc, h4, h5, h6⟩
    rw [h2] at h4
    cases h4
    exact ⟨ca, cc, h1, h5, le_trans h3 h6⟩⟩
  have hR : l.Chain' R := by
    rw [List.Chain'.iff_mem] at h
    refine h.imp ?_
    rintro a b ⟨ha, _, ca, cb, h1, h2, h3⟩
    exact ⟨ca, cb, h1, h2, by linarith [hs a ha]⟩
  rw [List.chain'_iff_pairwise] at hR
  refine hR.imp ?_
  rintro a b ⟨ca, cb, h1, h2, h3⟩
  unfold Ascending
  rw [h1, h2, jsGe_fin]
  simpa using h3

theorem separated_of_sepQ (orient : Orient) (γ : ℚ) (s : Nat → ℚ) (nodes : List Node)
    (l : List Nat) (hs : ∀ v ∈ l, sizeOf orient nodes v = JSNum.fin (s v))
    (h : l.Chain' (SepQ orient γ s nodes)) :
    l.Chain' (Separated orient (JSNum.fin γ) nodes) := by
  rw [List.Chain'.iff_mem] at h
  refine h.imp ?_
  rintro a b ⟨ha, _, ca, cb, h1, h2, h3⟩
  unfold Separated
  rw [h1, h2, hs a ha, jsAdd_fin, jsAdd_fin, jsGe_fin]
  simpa using h3

/-- C2: for pairwise disjoint groups of distinct nodes, every gap `>= 0` and every assignment
of non-negative finite sizes and arbitrary finite starting coordinates, if the total required
extent of a group (sum of sizes + (n - 1) * gap) does not exceed the available extent, then
`resolveCollisions` returns, the group has been sorted in place (a permutation), it is ordered
ascending by depth coordinate, and every consecutive pair satisfies
`coord(next) >= coord(prev) + size(prev) + gap`. -/
theorem resolveCollisions_separated (nodesByBreadth : List (List Nat)) (nodes : List Node)
    (height width : JSNum) (orient : Orient) (γ E : ℚ) (y s : Nat → ℚ) (i : Nat)
    (grp : List Nat)
    (hE : secondaryExtent orient width height = JSNum.fin E) (hγ : 0 ≤ γ)
    (hdisj : nodesByBreadth.Pairwise (fun a b => ∀ v ∈ a, v ∉ b))
    (hnd : ∀ g ∈ nodesByBreadth, g.Nodup)
    (hlt : ∀ g ∈ nodesByBreadth, ∀ v ∈ g, v < nodes.length)
    (hfin : ∀ g ∈ nodesByBreadth, ∀ v ∈ g, coordOf orient nodes v = JSNum.fin (y v))
    (hsz : ∀ g ∈ nodesByBreadth, ∀ v ∈ g, sizeOf orient nodes v = JSNum.fin (s v) ∧ 0 ≤ s v)
    (hi : nodesByBreadth[i]? = some grp)
    (hfit : (grp.map s).sum + ((grp.length : ℚ) - 1) * γ ≤ E) :
    ∃ (groups' : List (List Nat)) (nodes' : List Node) (grp' : List Nat),
      resolveCollisions nodesByBreadth nodes (JSNum.fin γ) height width orient =
        some (groups', nodes') ∧
      groups'[i]? = some grp' ∧ grp'.Perm grp ∧
      grp'.Pairwise (Ascending orient nodes') ∧
      grp'.Chain' (Separated orient (JSNum.fin γ) nodes') := by
  have hgm : grp ∈ nodesByBreadth := List.getElem?_mem hi
  have hsum : 0 ≤ (grp.map s).sum := by
    apply List.sum_nonneg
    intro x hx
    obtain ⟨v, hv, rfl⟩ := List.mem_map.mp hx
    exact (hsz grp hgm v hv).2
  have hEγ : 0 ≤ γ + E := by
    have hn : (0 : ℚ) ≤ (grp.length : ℚ) * γ := mul_nonneg (Nat.cast_nonneg _) hγ
    nlinarith
  obtain ⟨groups', nodes', hres, _, hsz', _, _, hchain⟩ :=
    resolveGroups_spec orient γ E hγ hEγ s nodesByBreadth nodes
      (hdisj.imp (fun h => List.disjoint_left.mpr (fun {v} hv => h v hv))) hnd hlt
      (fun g hg v hv => ⟨y v, hfin g hg v hv⟩) hsz
  obtain ⟨grp', hget, hperm, hsep⟩ := hchain i grp hi
  refine ⟨groups', nodes', grp', ?_, hget, hperm, ?_, ?_⟩
  · unfold resolveCollisions
    rw [hE]
    exact hres
  · exact ascending_of_sepQ orient γ hγ s nodes' grp'
      (fun v hv => (hsz grp hgm v (hperm.mem_iff.mp hv)).2) hsep
  · exact separated_of_sepQ orient γ s nodes' grp'
      (fun v hv => by rw [hsz']; exact (hsz grp hgm v (hperm.mem_iff.mp hv)).1) hsep

theorem resolveCollisions_separated_witness :
    ∃ (groups' : List (List Nat)) (nodes' : List Node) (grp' : List Nat),
      resolveCollisions [[0, 1, 2]] overlapNodes (JSNum.fin 8) (JSNum.fin 200) (JSNum.fin 300)
        Orient.horizontal = some (groups', nodes') ∧
      groups'[0]? = some grp' ∧ grp'.Perm [0, 1, 2] ∧
      grp'.Pairwise (Ascending Orient.horizontal nodes') ∧
      grp'.Chain' (Separated Orient.horizontal (JSNum.fin 8) nodes') :=
  resolveCollisions_separated [[0, 1, 2]] overlapNodes (JSNum.fin 200) (JSNum.fin 300)
    Orient.horizontal 8 200 (fun v => if v = 0 then 5 else if v = 1 then 0 else 3)
    (fun _ => 10) 0 [0, 1, 2] rfl (by norm_num) (by decide) (by decide) (by decide)
    (by decide!) (by decide!) rfl (by norm_num)

/-- The example evaluated: the group is sorted to 1, 2, 0 and the nodes are pushed to the
coordinates 0, 18 and 36; with an extent of 40 the second loop pulls them back to -6, 12 and
30, still separated. -/
theorem resolveCollisions_example :
    (resolveCollisions [[0, 1, 2]] overlapNodes (JSNum.fin 8) (JSNum.fin 200) (JSNum.fin 300)
      Orient.horizontal).map (fun r => (r.1, r.2.map (fun nd => nd.layout.y))) =
      some ([[1, 2, 0]], [JSNum.fin 36, JSNum.fin 0, JSNum.fin 18]) ∧
    (resolveCollisions [[0, 1, 2]] overlapNodes (JSNum.fin 8) (JSNum.fin 40) (JSNum.fin 300)
      Orient.horizontal).map (fun r => (r.1, r.2.map (fun nd => nd.layout.y))) =
      some ([[1, 2, 0]], [JSNum.fin 30, JSNum.fin (-6), JSNum.fin 12]) := by
  decide!

/-! ## prepareNodesByBreadth -/

theorem mem_groupKeys (getKey : Nat → JSNum) (array : List Nat) (acc : List JSNum)
    (key : JSNum) :
    key ∈ array.foldl (fun keys a => if getKey a ∈ keys then keys else keys ++ [getKey a]) acc ↔
      key ∈ acc ∨ ∃ a ∈ array, getKey a = key := by
  induction array generalizing acc with
  | nil => simp
  | cons a array ih =>
    rw [List.foldl_cons, ih]
    by_cases h : getKey a ∈ acc
    · rw [if_pos h]
      constructor
      · rintro (h1 | ⟨b, hb, hk⟩)
        · exact Or.inl h1
        · exact Or.inr ⟨b, List.mem_cons_of_mem _ hb, hk⟩
      · rintro (h1 | ⟨b, hb, hk⟩)
        · exact Or.inl h1
        · rcases List.mem_cons.mp hb with hb | hb
          · left; rw [← hk, hb]; exact h
          · exact Or.inr ⟨b, hb, hk⟩
    · rw [if_neg h]
      constructor
      · rintro (h1 | ⟨b, hb, hk⟩)
        · rcases List.mem_append.mp h1 with h1 | h1
          · exact Or.inl h1
          · right
            refine ⟨a, List.mem_cons_self _ _, ?_⟩
            exact (List.mem_singleton.mp h1).symm
        · exact Or.inr ⟨b, List.mem_cons_of_mem _ hb, hk⟩
      · rintro (h1 | ⟨b, hb, hk⟩)
        · exact Or.inl (List.mem_append_left _ h1)
        · rcases List.mem_cons.mp hb with hb | hb
          · left
            rw [← hk, hb]
            exact List.mem_append_right _ (List.mem_singleton_self _)
          · exact Or.inr ⟨b, hb, hk⟩

theorem mem_groupData_keys (array : List Nat) (getKey : Nat → JSNum) (key : JSNum) :
    key ∈ (groupData array getKey).1 ↔ ∃ a ∈ array, getKey a = key := by
  unfold groupData
  simp only
  rw [mem_groupKeys]
  simp

theorem mem_prepareNodesByBreadth (nodes : List Node) (orient : Orient) (grp : List Nat) :
    grp ∈ prepareNodesByBreadth nodes orient ↔
      ∃ w, w < nodes.length ∧ grp = (List.range nodes.length).filter (fun a =>
        decide (primaryCoord orient (nodeLayout nodes a) =
          primaryCoord orient (nodeLayout nodes w))) := by
  unfold prepareNodesByBreadth
  simp only [List.mem_map, mem_jsSort, mem_groupData_keys, List.mem_range]
  constructor
  · rintro ⟨key, ⟨w, hw, hk⟩, hg⟩
    refine ⟨w, hw, ?_⟩
    rw [← hg, hk]
    rfl
  · rintro ⟨w, hw, hg⟩
    exact ⟨_, ⟨w, hw, rfl⟩, hg.symm⟩

/-- Every node is in some group of `prepareNodesByBreadth`. -/
theorem exists_group_of_lt (nodes : List Node) (orient : Orient) (v : Nat)
    (hv : v < nodes.length) : ∃ grp ∈ prepareNodesByBreadth nodes orient, v ∈ grp := by
  refine ⟨_, (mem_prepareNodesByBreadth nodes orient _).mpr ⟨v, hv, rfl⟩, ?_⟩
  simp [List.mem_filter, hv]

/-- The groups of `prepareNodesByBreadth` are not empty and hold nodes of the graph. -/
theorem group_of_prepareNodesByBreadth (nodes : List Node) (orient : Orient) (grp : List Nat)
    (h : grp ∈ prepareNodesByBreadth nodes orient) :
    grp ≠ [] ∧ ∀ v ∈ grp, v < nodes.length := by
  obtain ⟨w, hw, hg⟩ := (mem_prepareNodesByBreadth nodes orient grp).mp h
  subst hg
  constructor
  · intro h0
    have : w ∈ (List.range nodes.length).filter (fun a =>
        decide (primaryCoord orient (nodeLayout nodes a) =
          primaryCoord orient (nodeLayout nodes w))) := by
      simp [List.mem_filter, hw]
    rw [h0] at this
    cases this
  · intro v hv
    exact List.mem_range.mp (List.mem_filter.mp hv).1

/-- The groups only depend on the number of nodes and on their breadth coordinates. -/
theorem prepareNodesByBreadth_congr (orient : Orient) {nodes nodes' : List Node}
    (hlen : nodes.length = nodes'.length)
    (h : ∀ v, primaryCoord orient (nodeLayout nodes v) =
      primaryCoord orient (nodeLayout nodes' v)) :
    prepareNodesByBreadth nodes orient = prepareNodesByBreadth nodes' orient := by
  unfold prepareNodesByBreadth
  rw [hlen, funext h]

/-! ## The depth stage returns and keeps the edge lists -/

theorem edgeLists_pushDown (orient : Orient) (gap : JSNum) (st : List Node × JSNum) (v : Nat) :
    edgeLists (pushDown orient gap st v).1 = edgeLists st.1 := by
  unfold pushDown
  simp only
  split_ifs
  · exact edgeLists_setCoord _ _ _ _
  · rfl

theorem edgeLists_pushUp (orient : Orient) (gap : JSNum) (st : List Node × JSNum) (v : Nat) :
    edgeLists (pushUp orient gap st v).1 = edgeLists st.1 := by
  unfold pushUp
  simp only
  split_ifs
  · exact edgeLists_setCoord _ _ _ _
  · rfl

theorem edgeLists_foldl_pushDown (orient : Orient) (gap : JSNum) (l : List Nat)
    (st : List Node × JSNum) :
    edgeLists (l.foldl (pushDown orient gap) st).1 = edgeLists st.1 := by
  induction l generalizing st with
  | nil => rfl
  | cons v l ih => rw [List.foldl_cons, ih, edgeLists_pushDown]

theorem edgeLists_foldl_pushUp (orient : Orient) (gap : JSNum) (l : List Nat)
    (st : List Node × JSNum) :
    edgeLists (l.foldl (pushUp orient gap) st).1 = edgeLists st.1 := by
  induction l generalizing st with
  | nil => rfl
  | cons v l ih => rw [List.foldl_cons, ih, edgeLists_pushUp]

theorem resolveGroup_frame (orient : Orient) (gap secExtent : JSNum) (nodes : List Node)
    (grp : List Nat) (r : List Nat × List Node)
    (h : resolveGroup orient gap secExtent nodes grp = some r) :
    r.1.Perm grp ∧ edgeLists r.2 = edgeLists nodes := by
  unfold resolveGroup at h
  simp only at h
  split_ifs at h
  · split at h
    · cases h
    · cases h
      refine ⟨jsSort_perm _ _, ?_⟩
      rw [edgeLists_foldl_pushUp, edgeLists_setCoord, edgeLists_foldl_pushDown]
  · cases h
    exact ⟨jsSort_perm _ _, edgeLists_foldl_pushDown _ _ _ _⟩

theorem resolveGroup_isSome (orient : Orient) (gap secExtent : JSNum) (nodes : List Node)
    (grp : List Nat) (hne : grp ≠ []) :
    ∃ r, resolveGroup orient gap secExtent nodes grp = some r := by
  unfold resolveGroup
  simp only
  split_ifs
  · split
    · rename_i hrev
      have h0 : jsSort (fun a b => (coordOf orient nodes a).sub (coordOf orient nodes b)) grp =
          [] := by simpa using hrev
      have := (jsSort_perm (fun a b => (coordOf orient nodes a).sub (coordOf orient nodes b))
        grp).symm
      rw [h0] at this
      exact absurd (List.Perm.eq_nil this) hne
    · exact ⟨_, rfl⟩
  · exact ⟨_, rfl⟩

theorem resolveGroups_frame (orient : Orient) (gap secExtent : JSNum)
    (groups : List (List Nat)) :
    ∀ (nodes : List Node) (r : List (List Nat) × List Node),
      resolveGroups orient gap secExtent groups nodes = some r →
      edgeLists r.2 = edgeLists nodes ∧ ((∀ g ∈ groups, g ≠ []) → ∀ g ∈ r.1, g ≠ []) := by
  induction groups with
  | nil =>
    intro nodes r h
    simp only [resolveGroups, Option.some.injEq] at h
    subst h
    exact ⟨rfl, fun _ g hg => by cases hg⟩
  | cons grp rest ih =>
    intro nodes r h
    unfold resolveGroups at h
    cases h1 : resolveGroup orient gap secExtent nodes grp with
    | none => rw [h1] at h; cases h
    | some r1 =>
      rw [h1] at h
      simp only at h
      cases h2 : resolveGroups orient gap secExtent rest r1.2 with
      | none => rw [h2] at h; cases h
      | some r2 =>
        rw [h2] at h
        simp only [Option.some.injEq] at h
        subst h
        obtain ⟨hp, hl⟩ := resolveGroup_frame orient gap secExtent nodes grp r1 h1
        obtain ⟨hl2, hne2⟩ := ih r1.2 r2 h2
        refine ⟨by rw [hl2, hl], ?_⟩
        intro hne g hg
        rcases List.mem_cons.mp hg with hg | hg
        · subst hg
          intro h0
          rw [h0] at hp
          exact hne grp (List.mem_cons_self _ _) (List.Perm.eq_nil hp.symm)
        · exact hne2 (fun g' hg' => hne g' (List.mem_cons_of_mem _ hg')) g hg

theorem resolveGroups_isSome (orient : Orient) (gap secExtent : JSNum)
    (groups : List (List Nat)) :
    ∀ (nodes : List Node), (∀ g ∈ groups, g ≠ []) →
      ∃ r, resolveGroups orient gap secExtent groups nodes = some r := by
  induction groups with
  | nil => intro nodes _; exact ⟨_, rfl⟩
  | cons grp rest ih =>
    intro nodes hne
    obtain ⟨r1, h1⟩ := resolveGroup_isSome orient gap secExtent nodes grp
      (hne grp (List.mem_cons_self _ _))
    obtain ⟨r2, h2⟩ := ih r1.2 (fun g hg => hne g (List.mem_cons_of_mem _ hg))
    unfold resolveGroups
    rw [h1]
    simp only
    rw [h2]
    exact ⟨_, rfl⟩

theorem edgeLists_relaxRightToLeft (nodesByBreadth : List (List Nat)) (nodes : List Node)
    (edges : List Edge) (alpha : JSNum) (orient : Orient) :
    edgeLists (relaxRightToLeft nodesByBreadth nodes edges alpha orient) = edgeLists nodes := by
  unfold relaxRightToLeft
  exact foldl_invariant _ (fun s => edgeLists s = edgeLists nodes)
    (fun s b hs => by show edgeLists _ = _; rw [edgeLists_foldl_relaxNodeRight]; exact hs) _ nodes rfl

theorem edgeLists_relaxLeftToRight (nodesByBreadth : List (List Nat)) (nodes : List Node)
    (edges : List Edge) (alpha : JSNum) (orient : Orient) :
    edgeLists (relaxLeftToRight nodesByBreadth nodes edges alpha orient) = edgeLists nodes := by
  unfold relaxLeftToRight
  exact foldl_invariant _ (fun s => edgeLists s = edgeLists nodes)
    (fun s b hs => by show edgeLists _ = _; rw [edgeLists_foldl_relaxNodeLeft]; exact hs) _ nodes rfl

theorem relaxLoop_frame (edges : List Edge) (nodeGap height width : JSNum) (orient : Orient)
    (iterations : Nat) :
    ∀ (alpha : JSNum) (groups : List (List Nat)) (nodes : List Node),
      (∀ g ∈ groups, g ≠ []) →
      ∃ r, relaxLoop edges nodeGap height width orient iterations alpha groups nodes = some r ∧
        edgeLists r.2 = edgeLists nodes := by
  induction iterations with
  | zero => intro alpha groups nodes _; exact ⟨_, rfl, rfl⟩
  | succ k ih =>
    intro alpha groups nodes hne
    unfold relaxLoop
    simp only
    obtain ⟨r1, h1⟩ := resolveGroups_isSome orient nodeGap (secondaryExtent orient width height)
      groups (relaxRightToLeft groups nodes edges (alpha.mul (JSNum.fin (99 / 100))) orient) hne
    obtain ⟨hl1, hne1⟩ := resolveGroups_frame _ _ _ _ _ _ h1
    obtain ⟨r2, h2⟩ := resolveGroups_isSome orient nodeGap (secondaryExtent orient width height)
      r1.1 (relaxLeftToRight r1.1 r1.2 edges (alpha.mul (JSNum.fin (99 / 100))) orient)
      (hne1 hne)
    obtain ⟨hl2, hne2⟩ := resolveGroups_frame _ _ _ _ _ _ h2
    obtain ⟨r3, h3, hl3⟩ := ih (alpha.mul (JSNum.fin (99 / 100))) r2.1 r2.2 (hne2 (hne1 hne))
    unfold resolveCollisions
    rw [h1]
    simp only
    rw [h2]
    simp only
    refine ⟨r3, h3, ?_⟩
    rw [hl3, hl2, edgeLists_relaxLeftToRight, hl1, edgeLists_relaxRightToLeft]

theorem edgeLists_placeGroups (orient : Orient) (ky0 : JSNum) (groups : List (List Nat))
    (nodes : List Node) :
    edgeLists (groups.foldl (placeGroup orient ky0) nodes) = edgeLists nodes := by
  refine foldl_invariant _ (fun s => edgeLists s = edgeLists nodes) ?_ _ nodes rfl
  intro s grp hs
  exact foldl_invariant _ (fun s => edgeLists s = edgeLists nodes)
    (fun s iv hs => by show edgeLists _ = _; rw [edgeLists_placeNode]; exact hs) _ s hs

theorem edgeEnds_initializeNodeDepth (g : Graph) (nodesByBreadth : List (List Nat))
    (height width nodeGap : JSNum) (orient : Orient) :
    edgeEnds (initializeNodeDepth g nodesByBreadth height width nodeGap orient).edges =
      edgeEnds g.edges := by
  unfold initializeNodeDepth edgeEnds
  simp only [List.map_map]
  rfl

theorem edgeLists_initializeNodeDepth (g : Graph) (nodesByBreadth : List (List Nat))
    (height width nodeGap : JSNum) (orient : Orient) :
    edgeLists (initializeNodeDepth g nodesByBreadth height width nodeGap orient).nodes =
      edgeLists g.nodes := by
  unfold initializeNodeDepth
  exact edgeLists_placeGroups _ _ _ _

/-- The function `computeNodeDepths` returns on every graph; it keeps the edge lists of the
nodes, and it keeps the edges up to their layout. -/
theorem computeNodeDepths_frame (g : Graph) (height width nodeGap : JSNum) (iterations : Nat)
    (orient : Orient) :
    ∃ g', computeNodeDepths g height width nodeGap iterations orient = some g' ∧
      edgeLists g'.nodes = edgeLists g.nodes ∧
      g'.edges = (initializeNodeDepth g (prepareNodesByBreadth g.nodes orient) height width
        nodeGap orient).edges := by
  have hne : ∀ grp ∈ prepareNodesByBreadth g.nodes orient, grp ≠ [] := fun grp h =>
    (group_of_prepareNodesByBreadth g.nodes orient grp h).1
  obtain ⟨r1, h1⟩ := resolveGroups_isSome orient nodeGap (secondaryExtent orient width height)
    (prepareNodesByBreadth g.nodes orient)
    (initializeNodeDepth g (prepareNodesByBreadth g.nodes orient) height width nodeGap
      orient).nodes hne
  obtain ⟨hl1, hne1⟩ := resolveGroups_frame _ _ _ _ _ _ h1
  obtain ⟨r2, h2, hl2⟩ := relaxLoop_frame
    (initializeNodeDepth g (prepareNodesByBreadth g.nodes orient) height width nodeGap
      orient).edges nodeGap height width orient iterations (JSNum.fin 1) r1.1 r1.2 (hne1 hne)
  unfold computeNodeDepths resolveCollisions
  simp only
  rw [h1]
  simp only
  rw [h2]
  refine ⟨_, rfl, ?_, rfl⟩
  show edgeLists r2.2 = _
  rw [hl2, hl1, edgeLists_initializeNodeDepth]

/-! ## The collision code only reads the layouts -/

theorem foldl_rel {α σ : Type} (f f' : σ → α → σ) (R : σ → σ → Prop)
    (step : ∀ s s' a, R s s' → R (f s a) (f' s' a)) :
    ∀ (l : List α) (s s' : σ), R s s' → R (l.foldl f s) (l.foldl f' s') := by
  intro l
  induction l with
  | nil => intro s s' h; exact h
  | cons a l ih => intro s s' h; exact ih _ _ (step s s' a h)

theorem nodesEquiv_refl (ns : List Node) : NodesEquiv ns ns :=
  ⟨⟨rfl, fun _ => ⟨List.Perm.refl _, List.Perm.refl _⟩⟩, fun _ => rfl⟩

theorem coordOf_congr (orient : Orient) {ns ns' : List Node}
    (h : ∀ v, nodeLayout ns v = nodeLayout ns' v) (v : Nat) :
    coordOf orient ns v = coordOf orient ns' v := by
  unfold coordOf
  rw [h]

theorem sizeOf_congr (orient : Orient) {ns ns' : List Node}
    (h : ∀ v, nodeLayout ns v = nodeLayout ns' v) (v : Nat) :
    sizeOf orient ns v = sizeOf orient ns' v := by
  unfold sizeOf
  rw [h]

theorem center_congr (orient : Orient) {ns ns' : List Node}
    (h : ∀ v, nodeLayout ns v = nodeLayout ns' v) (v : Nat) :
    center orient ns v = center orient ns' v := by
  unfold center
  rw [h]

theorem nodesEquiv_setNodeLayout {ns ns' : List Node} (h : NodesEquiv ns ns') (v : Nat)
    (f : NodeLayout → NodeLayout) :
    NodesEquiv (setNodeLayout ns v f) (setNodeLayout ns' v f) := by
  obtain ⟨⟨hlen, hl⟩, hlay⟩ := h
  refine ⟨⟨by rw [length_setNodeLayout, length_setNodeLayout, hlen], fun w => ?_⟩, fun w => ?_⟩
  · rw [nodeOutEdges_setNodeLayout, nodeOutEdges_setNodeLayout, nodeInEdges_setNodeLayout,
      nodeInEdges_setNodeLayout]
    exact hl w
  · rw [nodeLayout_setNodeLayout, nodeLayout_setNodeLayout, hlen, hlay]

theorem nodesEquiv_setCoord (orient : Orient) {ns ns' : List Node} (h : NodesEquiv ns ns')
    (v : Nat) (c : JSNum) : NodesEquiv (setCoord orient ns v c) (setCoord orient ns' v c) :=
  nodesEquiv_setNodeLayout h v _

theorem pushDown_congr (orient : Orient) (gap : JSNum) (st st' : List Node × JSNum) (v : Nat)
    (h : NodesEquiv st.1 st'.1 ∧ st.2 = st'.2) :
    NodesEquiv (pushDown orient gap st v).1 (pushDown orient gap st' v).1 ∧
      (pushDown orient gap st v).2 = (pushDown orient gap st' v).2 := by
  obtain ⟨h1, h2⟩ := h
  have hc := coordOf_congr orient h1.2 v
  unfold pushDown
  simp only
  rw [h2, hc]
  by_cases hd : (st'.2.sub (coordOf orient st'.1 v)).gt (JSNum.fin 0) = true
  · simp only [if_pos hd]
    have hn := nodesEquiv_setCoord orient h1 v
      ((coordOf orient st'.1 v).add (st'.2.sub (coordOf orient st'.1 v)))
    exact ⟨hn, by rw [coordOf_congr orient hn.2, sizeOf_congr orient hn.2]⟩
  · simp only [if_neg hd]
    exact ⟨h1, by rw [hc, sizeOf_congr orient h1.2]⟩

theorem pushUp_congr (orient : Orient) (gap : JSNum) (st st' : List Node × JSNum) (v : Nat)
    (h : NodesEquiv st.1 st'.1 ∧ st.2 = st'.2) :
    NodesEquiv (pushUp orient gap st v).1 (pushUp orient gap st' v).1 ∧
      (pushUp orient gap st v).2 = (pushUp orient gap st' v).2 := by
  obtain ⟨h1, h2⟩ := h
  have hc := coordOf_congr orient h1.2 v
  have hs := sizeOf_congr orient h1.2 v
  unfold pushUp
  simp only
  rw [h2, hc, hs]
  by_cases hd : ((((coordOf orient st'.1 v).add (sizeOf orient st'.1 v)).add gap).sub
      st'.2).gt (JSNum.fin 0) = true
  · simp only [if_pos hd]
    have hn := nodesEquiv_setCoord orient h1 v
      ((coordOf orient st'.1 v).sub
        ((((coordOf orient st'.1 v).add (sizeOf orient st'.1 v)).add gap).sub st'.2))
    exact ⟨hn, coordOf_congr orient hn.2 v⟩
  · simp only [if_neg hd]
    exact ⟨h1, hc⟩

theorem resolveGroup_congr (orient : Orient) (gap secExtent : JSNum) {ns ns' : List Node}
    (h : NodesEquiv ns ns') (grp : List Nat) :
    ResEquiv (resolveGroup orient gap secExtent ns grp)
      (resolveGroup orient gap secExtent ns' grp) := by
  have hcmp : (fun a b => (coordOf orient ns a).sub (coordOf orient ns b)) =
      (fun a b => (coordOf orient ns' a).sub (coordOf orient ns' b)) := by
    funext a b
    rw [coordOf_congr orient h.2 a, coordOf_congr orient h.2 b]
  have hfwd := foldl_rel (pushDown orient gap) (pushDown orient gap)
    (fun st st' => NodesEquiv st.1 st'.1 ∧ st.2 = st'.2) (pushDown_congr orient gap)
    (jsSort (fun a b => (coordOf orient ns' a).sub (coordOf orient ns' b)) grp)
    (ns, JSNum.fin 0) (ns', JSNum.fin 0) ⟨h, rfl⟩
  obtain ⟨hf1, hf2⟩ := hfwd
  unfold resolveGroup
  simp only
  rw [hcmp, hf2]
  split_ifs with hd
  · cases hrev : (jsSort (fun a b => (coordOf orient ns' a).sub (coordOf orient ns' b))
        grp).reverse with
    | nil => exact True.intro
    | cons last rest =>
      simp only
      rw [coordOf_congr orient hf1.2 last]
      have hb := fun c => foldl_rel (pushUp orient gap) (pushUp orient gap)
        (fun st st' => NodesEquiv st.1 st'.1 ∧ st.2 = st'.2) (pushUp_congr orient gap)
        rest (_, c) (_, c) ⟨nodesEquiv_setCoord orient hf1 last c, rfl⟩
      exact ⟨rfl, (hb _).1⟩
  · exact ⟨rfl, hf1⟩

theorem resolveGroups_congr (orient : Orient) (gap secExtent : JSNum)
    (groups : List (List Nat)) :
    ∀ {ns ns' : List Node}, NodesEquiv ns ns' →
      ResEquiv (resolveGroups orient gap secExtent groups ns)
        (resolveGroups orient gap secExtent groups ns') := by
  induction groups with
  | nil => intro ns ns' h; exact ⟨rfl, h⟩
  | cons grp rest ih =>
    intro ns ns' h
    have h1 := resolveGroup_congr orient gap secExtent h grp
    unfold resolveGroups
    cases hr : resolveGroup orient gap secExtent ns grp with
    | none =>
      cases hr' : resolveGroup orient gap secExtent ns' grp with
      | none => exact True.intro
      | some r' => rw [hr, hr'] at h1; exact h1.elim
    | some r =>
      cases hr' : resolveGroup orient gap secExtent ns' grp with
      | none => rw [hr, hr'] at h1; exact h1.elim
      | some r' =>
        rw [hr, hr'] at h1
        obtain ⟨hs, hn⟩ := h1
        have h2 := ih hn
        simp only
        cases hq : resolveGroups orient gap secExtent rest r.2 with
        | none =>
          cases hq' : resolveGroups orient gap secExtent rest r'.2 with
          | none => exact True.intro
          | some q' => rw [hq, hq'] at h2; exact h2.elim
        | some q =>
          cases hq' : resolveGroups orient gap secExtent rest r'.2 with
          | none => rw [hq, hq'] at h2; exact h2.elim
          | some q' =>
            rw [hq, hq'] at h2
            exact ⟨by show r.1 :: q.1 = r'.1 :: q'.1; rw [hs, h2.1], h2.2⟩

/-! ## The relaxation does not depend on the order of the edge lists -/

theorem weightedTarget_congr (orient : Orient) {ns ns' : List Node} {es es' : List Edge}
    (hn : ∀ v, nodeLayout ns v = nodeLayout ns' v) (he : edgeEnds es = edgeEnds es')
    (e : Nat) : weightedTarget orient ns es e = weightedTarget orient ns' es' e := by
  have := edgeEnds_getElem? he e
  unfold weightedTarget
  cases h1 : es[e]? <;> cases h2 : es'[e]? <;> simp [h1, h2] at this ⊢
  rw [this.2.1, this.2.2, center_congr orient hn]

theorem weightedSource_congr (orient : Orient) {ns ns' : List Node} {es es' : List Edge}
    (hn : ∀ v, nodeLayout ns v = nodeLayout ns' v) (he : edgeEnds es = edgeEnds es')
    (e : Nat) : weightedSource orient ns es e = weightedSource orient ns' es' e := by
  have := edgeEnds_getElem? he e
  unfold weightedSource
  cases h1 : es[e]? <;> cases h2 : es'[e]? <;> simp [h1, h2] at this ⊢
  rw [this.1, this.2.2, center_congr orient hn]

theorem relaxNodeRight_congr (orient : Orient) {es es' : List Edge}
    (he : edgeEnds es = edgeEnds es') (alpha : JSNum) (ns ns' : List Node) (v : Nat)
    (h : NodesEquiv ns ns') :
    NodesEquiv (relaxNodeRight orient es alpha ns v) (relaxNodeRight orient es' alpha ns' v) := by
  have hp := (h.1.2 v).1
  unfold relaxNodeRight
  rw [hp.length_eq]
  split_ifs with h0
  · simp only
    rw [sum_perm _ hp, sum_perm (getEdgeValue es) hp,
      funext (weightedTarget_congr orient h.2 he), funext (getEdgeValue_congr he),
      coordOf_congr orient h.2, center_congr orient h.2]
    exact nodesEquiv_setCoord orient h v _
  · exact h

theorem relaxNodeLeft_congr (orient : Orient) {es es' : List Edge}
    (he : edgeEnds es = edgeEnds es') (alpha : JSNum) (ns ns' : List Node) (v : Nat)
    (h : NodesEquiv ns ns') :
    NodesEquiv (relaxNodeLeft orient es alpha ns v) (relaxNodeLeft orient es' alpha ns' v) := by
  have hp := (h.1.2 v).2
  unfold relaxNodeLeft
  rw [hp.length_eq]
  split_ifs with h0
  · simp only
    rw [sum_perm _ hp, sum_perm (getEdgeValue es) hp,
      funext (weightedSource_congr orient h.2 he), funext (getEdgeValue_congr he),
      coordOf_congr orient h.2, center_congr orient h.2]
    exact nodesEquiv_setCoord orient h v _
  · exact h

theorem relaxRightToLeft_congr (orient : Orient) {es es' : List Edge}
    (he : edgeEnds es = edgeEnds es') (alpha : JSNum) (groups : List (List Nat))
    {ns ns' : List Node} (h : NodesEquiv ns ns') :
    NodesEquiv (relaxRightToLeft groups ns es alpha orient)
      (relaxRightToLeft groups ns' es' alpha orient) := by
  unfold relaxRightToLeft
  refine foldl_rel _ _ NodesEquiv ?_ _ _ _ h
  intro s s' grp hs
  exact foldl_rel _ _ NodesEquiv (fun a b v hab => relaxNodeRight_congr orient he alpha a b v hab)
    grp s s' hs

theorem relaxLeftToRight_congr (orient : Orient) {es es' : List Edge}
    (he : edgeEnds es = edgeEnds es') (alpha : JSNum) (groups : List (List Nat))
    {ns ns' : List Node} (h : NodesEquiv ns ns') :
    NodesEquiv (relaxLeftToRight groups ns es alpha orient)
      (relaxLeftToRight groups ns' es' alpha orient) := by
  unfold relaxLeftToRight
  refine foldl_rel _ _ NodesEquiv ?_ _ _ _ h
  intro s s' grp hs
  exact foldl_rel _ _ NodesEquiv (fun a b v hab => relaxNodeLeft_congr orient he alpha a b v hab)
    grp s s' hs

theorem resEquiv_some {α : Type} {r r' : Option (α × List Node)} (h : ResEquiv r r')
    {a : α × List Node} (ha : r = some a) :
    ∃ b, r' = some b ∧ a.1 = b.1 ∧ NodesEquiv a.2 b.2 := by
  subst ha
  cases r' with
  | none => exact h.elim
  | some b => exact ⟨b, rfl, h⟩

theorem relaxLoop_congr (orient : Orient) {es es' : List Edge}
    (he : edgeEnds es = edgeEnds es') (nodeGap height width : JSNum) (iterations : Nat) :
    ∀ (alpha : JSNum) (groups : List (List Nat)) {ns ns' : List Node}, NodesEquiv ns ns' →
      ∀ r, relaxLoop es nodeGap height width orient iterations alpha groups ns = some r →
      ∃ r', relaxLoop es' nodeGap height width orient iterations alpha groups ns' = some r' ∧
        NodesEquiv r.2 r'.2 := by
  induction iterations with
  | zero =>
    intro alpha groups ns ns' h r hr
    simp only [relaxLoop, Option.some.injEq] at hr
    subst hr
    exact ⟨_, rfl, h⟩
  | succ k ih =>
    intro alpha groups ns ns' h r hr
    unfold relaxLoop at hr ⊢
    simp only at hr ⊢
    have h1 := relaxRightToLeft_congr orient he (alpha.mul (JSNum.fin (99 / 100))) groups h
    unfold resolveCollisions at hr ⊢
    cases hq1 : resolveGroups orient nodeGap (secondaryExtent orient width height) groups
        (relaxRightToLeft groups ns es (alpha.mul (JSNum.fin (99 / 100))) orient) with
    | none => rw [hq1] at hr; cases hr
    | some q1 =>
      rw [hq1] at hr
      simp only at hr
      obtain ⟨q1', hq1', hg1, hn1⟩ := resEquiv_some (resolveGroups_congr orient nodeGap
        (secondaryExtent orient width height) groups h1) hq1
      rw [hq1']
      simp only
      have h2 := relaxLeftToRight_congr orient he (alpha.mul (JSNum.fin (99 / 100))) q1.1 hn1
      cases hq2 : resolveGroups orient nodeGap (secondaryExtent orient width height) q1.1
          (relaxLeftToRight q1.1 q1.2 es (alpha.mul (JSNum.fin (99 / 100))) orient) with
      | none => rw [hq2] at hr; cases hr
      | some q2 =>
        rw [hq2] at hr
        simp only at hr
        obtain ⟨q2', hq2', hg2, hn2⟩ := resEquiv_some (resolveGroups_congr orient nodeGap
          (secondaryExtent orient width height) q1.1 h2) hq2
        rw [← hg1, hq2']
        simp only
        rw [← hg2]
        exact ih _ _ hn2 r hr

/-! ## The first placement overwrites the depth fields of every node -/

theorem layout_ext (orient : Orient) (l l' : NodeLayout)
    (h1 : primaryCoord orient l = primaryCoord orient l')
    (h2 : primarySize orient l = primarySize orient l')
    (h3 : secondaryCoord orient l = secondaryCoord orient l')
    (h4 : secondarySize orient l = secondarySize orient l')
    (h5 : l.value = l'.value) : l = l' := by
  cases orient <;> cases l <;> cases l' <;>
    simp_all [primaryCoord, primarySize, secondaryCoord, secondarySize]

theorem nodeLayout_of_le (ns : List Node) (v : Nat) (h : ns.length ≤ v) :
    nodeLayout ns v = NodeLayout.blank := by
  unfold nodeLayout
  rw [List.getElem?_eq_none h]

theorem listsEquiv_of_edgeLists {a a' b b' : List Node} (ha : edgeLists a' = edgeLists a)
    (hb : edgeLists b' = edgeLists b) (h : ListsEquiv a b) : ListsEquiv a' b' := by
  refine ⟨by rw [edgeLists_length ha, edgeLists_length hb]; exact h.1, fun v => ?_⟩
  rw [nodeOutEdges_of_edgeLists ha, nodeOutEdges_of_edgeLists hb,
    nodeInEdges_of_edgeLists ha, nodeInEdges_of_edgeLists hb]
  exact h.2 v

theorem groupKy_congr {ns ns' : List Node}
    (h : ∀ v, (nodeLayout ns v).value = (nodeLayout ns' v).value) (secExtent nodeGap : JSNum)
    (grp : List Nat) : groupKy ns secExtent nodeGap grp = groupKy ns' secExtent nodeGap grp := by
  unfold groupKy
  simp only [h]

theorem sharedKy_congr {ns ns' : List Node}
    (h : ∀ v, (nodeLayout ns v).value = (nodeLayout ns' v).value) (groups : List (List Nat))
    (secExtent nodeGap : JSNum) :
    sharedKy ns groups secExtent nodeGap = sharedKy ns' groups secExtent nodeGap := by
  unfold sharedKy
  rw [funext (groupKy_congr h secExtent nodeGap)]

theorem initRel_mono (orient : Orient) {P Q : Nat → Prop} (hPQ : ∀ v, Q v → P v)
    {ns ns' : List Node} (h : InitRel orient P ns ns') : InitRel orient Q ns ns' :=
  ⟨h.1, h.2.1, fun v hv => h.2.2 v (hPQ v hv)⟩

theorem placeNode_rel (orient : Orient) (ky0 : JSNum) (P : Nat → Prop) (ns ns' : List Node)
    (iv : Nat × Nat) (h : InitRel orient P ns ns') :
    InitRel orient (fun v => P v ∨ v = iv.2) (placeNode orient ky0 ns iv)
      (placeNode orient ky0 ns' iv) := by
  obtain ⟨hl, hp, hP⟩ := h
  have hnew : ∀ w, iv.2 = w ∧ w < ns.length →
      nodeLayout (placeNode orient ky0 ns iv) w = nodeLayout (placeNode orient ky0 ns' iv) w := by
    intro w hw
    have hw' : iv.2 = w ∧ w < ns'.length := ⟨hw.1, hl.1 ▸ hw.2⟩
    rw [nodeLayout_placeNode, nodeLayout_placeNode, if_pos hw, if_pos hw']
    obtain ⟨p1, p2, p3⟩ := hp w
    apply layout_ext orient
    · rw [primaryCoord_setSecondary, primaryCoord_setSecondary, p1]
    · rw [primarySize_setSecondary, primarySize_setSecondary, p2]
    · rw [secondaryCoord_setSecondary, secondaryCoord_setSecondary]
    · rw [secondarySize_setSecondary, secondarySize_setSecondary, p3]
    · rw [value_setSecondary, value_setSecondary, p3]
  have hold : ∀ w, ¬ (iv.2 = w ∧ w < ns.length) →
      nodeLayout (placeNode orient ky0 ns iv) w = nodeLayout ns w ∧
      nodeLayout (placeNode orient ky0 ns' iv) w = nodeLayout ns' w := by
    intro w hw
    have hw' : ¬ (iv.2 = w ∧ w < ns'.length) := fun hc => hw ⟨hc.1, hl.1.symm ▸ hc.2⟩
    rw [nodeLayout_placeNode, nodeLayout_placeNode, if_neg hw, if_neg hw']
    exact ⟨rfl, rfl⟩
  refine ⟨listsEquiv_of_edgeLists (edgeLists_placeNode _ _ _ _) (edgeLists_placeNode _ _ _ _) hl,
    ?_, ?_⟩
  · intro w
    by_cases hw : iv.2 = w ∧ w < ns.length
    · rw [hnew w hw]
      exact ⟨rfl, rfl, rfl⟩
    · rw [(hold w hw).1, (hold w hw).2]
      exact hp w
  · intro w hPw
    by_cases hw : iv.2 = w ∧ w < ns.length
    · exact hnew w hw
    · rw [(hold w hw).1, (hold w hw).2]
      rcases hPw with hPw | hPw
      · exact hP w hPw
      · have hge : ns.length ≤ w := Nat.le_of_not_lt (fun hlt => hw ⟨hPw.symm, hlt⟩)
        rw [nodeLayout_of_le ns w hge, nodeLayout_of_le ns' w (hl.1 ▸ hge)]

theorem placeNodes_rel (orient : Orient) (ky0 : JSNum) (l : List (Nat × Nat)) :
    ∀ (P : Nat → Prop) (ns ns' : List Node), InitRel orient P ns ns' →
      InitRel orient (fun v => P v ∨ v ∈ l.map Prod.snd) (l.foldl (placeNode orient ky0) ns)
        (l.foldl (placeNode orient ky0) ns') := by
  induction l with
  | nil =>
    intro P ns ns' h
    exact initRel_mono orient (fun v hv => by simpa using hv) h
  | cons iv l ih =>
    intro P ns ns' h
    have := ih _ _ _ (placeNode_rel orient ky0 P ns ns' iv h)
    refine initRel_mono orient ?_ this
    intro v hv
    simp only [List.map_cons, List.mem_cons] at hv
    tauto

theorem placeGroups_rel (orient : Orient) (ky0 : JSNum) (groups : List (List Nat)) :
    ∀ (P : Nat → Prop) (ns ns' : List Node), InitRel orient P ns ns' →
      InitRel orient (fun v => P v ∨ ∃ grp ∈ groups, v ∈ grp)
        (groups.foldl (placeGroup orient ky0) ns) (groups.foldl (placeGroup orient ky0) ns') := by
  induction groups with
  | nil =>
    intro P ns ns' h
    exact initRel_mono orient (fun v hv => by simpa using hv) h
  | cons grp groups ih =>
    intro P ns ns' h
    have h1 := placeNodes_rel orient ky0 grp.enum P ns ns' h
    rw [List.enum_map_snd] at h1
    have := ih _ _ _ h1
    refine initRel_mono orient ?_ this
    intro v hv
    simp only [List.mem_cons, exists_eq_or_imp] at hv
    tauto

theorem edgeDy_initializeNodeDepth (g : Graph) (groups : List (List Nat))
    (height width nodeGap : JSNum) (orient : Orient) (e : Nat) :
    edgeDy (initializeNodeDepth g groups height width nodeGap orient).edges e =
      match g.edges[e]? with
      | some ed => ed.value.mul
          (sharedKy g.nodes groups (secondaryExtent orient width height) nodeGap)
      | none => JSNum.nan := by
  unfold edgeDy initializeNodeDepth
  simp only [List.getElem?_map]
  cases g.edges[e]? <;> rfl

/-- The function `initializeNodeDepth` on two graphs that agree on the breadth fields and on
the values: the results agree on every layout, when the groups cover the nodes. -/
theorem initializeNodeDepth_congr (b b' : Graph) (groups : List (List Nat))
    (height width nodeGap : JSNum) (orient : Orient)
    (hl : ListsEquiv b.nodes b'.nodes) (hp : PrimaryAgree orient b.nodes b'.nodes)
    (he : edgeEnds b.edges = edgeEnds b'.edges)
    (hcover : ∀ v, v < b.nodes.length → ∃ grp ∈ groups, v ∈ grp) :
    NodesEquiv (initializeNodeDepth b groups height width nodeGap orient).nodes
      (initializeNodeDepth b' groups height width nodeGap orient).nodes ∧
    ∀ e, edgeDy (initializeNodeDepth b groups height width nodeGap orient).edges e =
      edgeDy (initializeNodeDepth b' groups height width nodeGap orient).edges e := by
  have hky := sharedKy_congr (fun v => (hp v).2.2) groups (secondaryExtent orient width height)
    nodeGap
  constructor
  · have h0 : InitRel orient (fun _ => False) b.nodes b'.nodes :=
      ⟨hl, hp, fun v hv => hv.elim⟩
    have h1 := placeGroups_rel orient
      (sharedKy b.nodes groups (secondaryExtent orient width height) nodeGap) groups _ _ _ h0
    have hn : (initializeNodeDepth b groups height width nodeGap orient).nodes =
        groups.foldl (placeGroup orient
          (sharedKy b.nodes groups (secondaryExtent orient width height) nodeGap)) b.nodes := rfl
    have hn' : (initializeNodeDepth b' groups height width nodeGap orient).nodes =
        groups.foldl (placeGroup orient
          (sharedKy b.nodes groups (secondaryExtent orient width height) nodeGap)) b'.nodes := by
      rw [hky]
      rfl
    rw [hn, hn']
    refine ⟨h1.1, fun v => ?_⟩
    by_cases hv : v < b.nodes.length
    · exact h1.2.2 v (Or.inr (hcover v hv))
    · have hlen : (groups.foldl (placeGroup orient
          (sharedKy b.nodes groups (secondaryExtent orient width height) nodeGap))
          b.nodes).length = b.nodes.length :=
        edgeLists_length (edgeLists_placeGroups orient _ groups b.nodes)
      have hge := Nat.le_of_not_lt hv
      rw [nodeLayout_of_le _ v (hlen.symm ▸ hge),
        nodeLayout_of_le _ v (h1.1.1 ▸ hlen.symm ▸ hge)]
  · intro e
    rw [edgeDy_initializeNodeDepth, edgeDy_initializeNodeDepth, hky]
    have := edgeEnds_getElem? he e
    cases h1 : b.edges[e]? <;> cases h2 : b'.edges[e]? <;> simp [h1, h2] at this ⊢
    rw [this.2.2]

/-! ## The depth stage on two graphs that agree on the breadth fields -/

/-- The function `computeNodeDepths` on two graphs with the same edges, whose edge lists are
permutations of each other and which agree on the breadth fields and on the values: both
calls return, the results agree on every layout and on the thickness of every edge. -/
theorem computeNodeDepths_congr (b b' : Graph) (height width nodeGap : JSNum)
    (iterations : Nat) (orient : Orient)
    (hl : ListsEquiv b.nodes b'.nodes) (hp : PrimaryAgree orient b.nodes b'.nodes)
    (he : edgeEnds b.edges = edgeEnds b'.edges) :
    ∃ d d', computeNodeDepths b height width nodeGap iterations orient = some d ∧
      computeNodeDepths b' height width nodeGap iterations orient = some d' ∧
      NodesEquiv d.nodes d'.nodes ∧
      edgeLists d.nodes = edgeLists b.nodes ∧ edgeLists d'.nodes = edgeLists b'.nodes ∧
      edgeEnds d.edges = edgeEnds b.edges ∧ edgeEnds d'.edges = edgeEnds b'.edges ∧
      ∀ e, edgeDy d.edges e = edgeDy d'.edges e := by
  have hg : prepareNodesByBreadth b'.nodes orient = prepareNodesByBreadth b.nodes orient :=
    (prepareNodesByBreadth_congr orient hl.1 (fun v => (hp v).1)).symm
  obtain ⟨hI, hdy⟩ := initializeNodeDepth_congr b b' (prepareNodesByBreadth b.nodes orient)
    height width nodeGap orient hl hp he (exists_group_of_lt b.nodes orient)
  have hIe : edgeEnds (initializeNodeDepth b (prepareNodesByBreadth b.nodes orient) height width
      nodeGap orient).edges = edgeEnds (initializeNodeDepth b'
        (prepareNodesByBreadth b.nodes orient) height width nodeGap orient).edges := by
    rw [edgeEnds_initializeNodeDepth, edgeEnds_initializeNodeDepth, he]
  obtain ⟨d, hd, hdl, hde⟩ := computeNodeDepths_frame b height width nodeGap iterations orient
  obtain ⟨d', hd', hdl', hde'⟩ := computeNodeDepths_frame b' height width nodeGap iterations
    orient
  rw [hg] at hde'
  refine ⟨d, d', hd, hd', ?_, hdl, hdl', ?_, ?_, ?_⟩
  · unfold computeNodeDepths resolveCollisions at hd hd'
    simp only at hd hd'
    rw [hg] at hd'
    cases hq : resolveGroups orient nodeGap (secondaryExtent orient width height)
        (prepareNodesByBreadth b.nodes orient)
        (initializeNodeDepth b (prepareNodesByBreadth b.nodes orient) height width nodeGap
          orient).nodes with
    | none => rw [hq] at hd; cases hd
    | some q =>
      rw [hq] at hd
      simp only at hd
      obtain ⟨q', hq', hg1, hn1⟩ := resEquiv_some (resolveGroups_congr orient nodeGap
        (secondaryExtent orient width height) (prepareNodesByBreadth b.nodes orient) hI) hq
      rw [hq'] at hd'
      simp only at hd'
      rw [← hg1] at hd'
      cases hr : relaxLoop (initializeNodeDepth b (prepareNodesByBreadth b.nodes orient) height
          width nodeGap orient).edges nodeGap height width orient iterations (JSNum.fin 1) q.1
          q.2 with
      | none => rw [hr] at hd; cases hd
      | some r =>
        rw [hr] at hd
        simp only [Option.some.injEq] at hd
        obtain ⟨r', hr', hn2⟩ := relaxLoop_congr orient hIe nodeGap height width iterations
          (JSNum.fin 1) q.1 hn1 r hr
        rw [hr'] at hd'
        simp only [Option.some.injEq] at hd'
        rw [← hd, ← hd']
        exact hn2
  · rw [hde, edgeEnds_initializeNodeDepth]
  · rw [hde', edgeEnds_initializeNodeDepth]
  · intro e
    rw [hde, hde']
    exact hdy e

/-! ## The levels only depend on the end points of the edges -/

theorem residual_edgeEnds {es es' : List Edge} (he : edgeEnds es = edgeEnds es')
    (done : List Nat) (t : Nat) : residual es done t = residual es' done t := by
  have key : ∀ l : List Edge, residual l done t =
      (edgeEnds l).countP (fun q => decide (q.2.1 = t ∧ q.1 ∉ done)) := by
    intro l
    unfold residual edgeEnds
    rw [List.countP_map]
    rfl
  rw [key, key, he]

theorem specFrontier_edgeEnds {es es' : List Edge} (he : edgeEnds es = edgeEnds es') (n : Nat)
    (done : List Nat) : specFrontier n es done = specFrontier n es' done := by
  unfold specFrontier
  simp only [residual_edgeEnds he]

theorem specDone_edgeEnds {es es' : List Edge} (he : edgeEnds es = edgeEnds es') (n : Nat)
    (k : Nat) : specDone n es k = specDone n es' k := by
  induction k with
  | zero => rfl
  | succ k ih => rw [specDone, specDone, ih, specFrontier_edgeEnds he]

theorem edgeRel_of_edgeEnds {g g' : Graph} (he : edgeEnds g.edges = edgeEnds g'.edges)
    {u v : Nat} (h : edgeRel g' u v) : edgeRel g u v := by
  obtain ⟨ed', hmem, h1, h2⟩ := h
  obtain ⟨e, hlt, hget⟩ := List.getElem_of_mem hmem
  have hq := edgeEnds_getElem? he e
  have hlt' : e < g.edges.length := by rw [edgeEnds_length he]; exact hlt
  rw [List.getElem?_eq_getElem hlt, List.getElem?_eq_getElem hlt', hget] at hq
  simp only [Option.map_some', Option.some.injEq, Prod.mk.injEq] at hq
  exact ⟨g.edges[e], List.getElem_mem _, by rw [hq.1, h1], by rw [hq.2.1, h2]⟩

theorem acyclic_of_edgeEnds {g g' : Graph} (he : edgeEnds g.edges = edgeEnds g'.edges)
    (hac : Acyclic g) : Acyclic g' := by
  intro v hv
  exact hac v (Relation.TransGen.mono (fun _ _ h => edgeRel_of_edgeEnds he h) hv)

theorem edgesFrom_edgeEnds {es es' : List Edge} (he : edgeEnds es = edgeEnds es') (v : Nat) :
    edgesFrom es v = edgesFrom es' v := by
  unfold edgesFrom
  rw [edgeEnds_length he]
  apply List.filter_congr
  intro e _
  have hq := edgeEnds_getElem? he e
  cases h1 : es[e]? <;> cases h2 : es'[e]? <;> simp [h1, h2] at hq ⊢
  rw [hq.1]

theorem edgesInto_edgeEnds {es es' : List Edge} (he : edgeEnds es = edgeEnds es') (v : Nat) :
    edgesInto es v = edgesInto es' v := by
  unfold edgesInto
  rw [edgeEnds_length he]
  apply List.filter_congr
  intro e _
  have hq := edgeEnds_getElem? he e
  cases h1 : es[e]? <;> cases h2 : es'[e]? <;> simp [h1, h2] at hq ⊢
  rw [hq.2.1]

/-- Well-formedness only depends on the end points of the edges and on the edge lists up to
their order. -/
theorem wellFormed_of_equiv {g g' : Graph} (hwf : WellFormed g) (h : GraphEquiv g g') :
    WellFormed g' := by
  obtain ⟨he, hlen, hl⟩ := h
  have hends : ∀ ed' ∈ g'.edges, ∃ ed ∈ g.edges, ed.node1 = ed'.node1 ∧
      ed.node2 = ed'.node2 := by
    intro ed' hmem
    obtain ⟨e, hlt, hget⟩ := List.getElem_of_mem hmem
    have hq := edgeEnds_getElem? he e
    have hlt' : e < g.edges.length := by rw [edgeEnds_length he]; exact hlt
    rw [List.getElem?_eq_getElem hlt, List.getElem?_eq_getElem hlt', hget] at hq
    simp only [Option.map_some', Option.some.injEq, Prod.mk.injEq] at hq
    exact ⟨g.edges[e], List.getElem_mem _, hq.1, hq.2.1⟩
  refine ⟨?_, ?_, ?_, ?_⟩
  · intro ed' hmem
    obtain ⟨ed, hed, h1, _⟩ := hends ed' hmem
    rw [← h1, ← hlen]
    exact hwf.node1_lt ed hed
  · intro ed' hmem
    obtain ⟨ed, hed, _, h2⟩ := hends ed' hmem
    rw [← h2, ← hlen]
    exact hwf.node2_lt ed hed
  · intro v hv
    rw [← edgesFrom_edgeEnds he]
    exact (hl v).1.symm.trans (hwf.outEdges_perm v (hlen ▸ hv))
  · intro v hv
    rw [← edgesInto_edgeEnds he]
    exact (hl v).2.symm.trans (hwf.inEdges_perm v (hlen ▸ hv))

theorem listsEquiv_refl (ns : List Node) : ListsEquiv ns ns :=
  ⟨rfl, fun _ => ⟨List.Perm.refl _, List.Perm.refl _⟩⟩

theorem listsEquiv_symm {a b : List Node} (h : ListsEquiv a b) : ListsEquiv b a :=
  ⟨h.1.symm, fun v => ⟨(h.2 v).1.symm, (h.2 v).2.symm⟩⟩

theorem listsEquiv_trans {a b c : List Node} (h : ListsEquiv a b) (h' : ListsEquiv b c) :
    ListsEquiv a c :=
  ⟨h.1.trans h'.1, fun v => ⟨(h.2 v).1.trans (h'.2 v).1, (h.2 v).2.trans (h'.2 v).2⟩⟩

/-! ## The breadth stage on two graphs with the same edges -/

theorem agree_setPrimaryCoord (orient : Orient) (c : JSNum) {l l' : NodeLayout}
    (h2 : primarySize orient l = primarySize orient l') (h3 : l.value = l'.value) :
    primaryCoord orient (setPrimaryCoord orient c l) =
        primaryCoord orient (setPrimaryCoord orient c l') ∧
      primarySize orient (setPrimaryCoord orient c l) =
        primarySize orient (setPrimaryCoord orient c l') ∧
      (setPrimaryCoord orient c l).value = (setPrimaryCoord orient c l').value := by
  rw [primaryCoord_setPrimaryCoord, primaryCoord_setPrimaryCoord, primarySize_setPrimaryCoord,
    primarySize_setPrimaryCoord, value_setPrimaryCoord, value_setPrimaryCoord]
  exact ⟨rfl, h2, h3⟩

theorem agree_levelField (orient : Orient) (nodeWidth : JSNum) (j : Nat) {l l' : NodeLayout}
    (h3 : l.value = l'.value) :
    primaryCoord orient (levelField orient nodeWidth j l) =
        primaryCoord orient (levelField orient nodeWidth j l') ∧
      primarySize orient (levelField orient nodeWidth j l) =
        primarySize orient (levelField orient nodeWidth j l') ∧
      (levelField orient nodeWidth j l).value = (levelField orient nodeWidth j l').value := by
  rw [primaryCoord_levelField, primaryCoord_levelField, primarySize_levelField,
    primarySize_levelField, value_levelField, value_levelField]
  exact ⟨rfl, rfl, h3⟩

/-- The function `computeNodeBreadths` on two acyclic well-formed graphs with the same edges
and the same values, whose edge lists are permutations of each other: both calls return, and
the results agree on the breadth coordinate, the breadth size and the value of every node. -/
theorem computeNodeBreadths_congr (g g' : Graph) (hwf : WellFormed g) (hac : Acyclic g)
    (hg : GraphEquiv g g')
    (hval : ∀ v, (nodeLayout g.nodes v).value = (nodeLayout g'.nodes v).value)
    (nodeWidth width height : JSNum) (orient : Orient) :
    ∃ b b', computeNodeBreadths g nodeWidth width height orient = some b ∧
      computeNodeBreadths g' nodeWidth width height orient = some b' ∧
      b.edges = g.edges ∧ b'.edges = g'.edges ∧
      edgeLists b.nodes = edgeLists g.nodes ∧ edgeLists b'.nodes = edgeLists g'.nodes ∧
      PrimaryAgree orient b.nodes b'.nodes := by
  have hwf' := wellFormed_of_equiv hwf hg
  have hac' := acyclic_of_edgeEnds hg.1 hac
  obtain ⟨L, st, _, hlev, hlists, hempty, hne, hall⟩ :=
    kahnLoop_acyclic g hwf hac orient nodeWidth
  obtain ⟨L', st', _, hlev', hlists', hempty', hne', hall'⟩ :=
    kahnLoop_acyclic g' hwf' hac' orient nodeWidth
  have hn : g'.nodes.length = g.nodes.length := hg.2.1.symm
  have hF : ∀ k, specFrontier g'.nodes.length g'.edges
      (specDone g'.nodes.length g'.edges k) =
      specFrontier g.nodes.length g.edges (specDone g.nodes.length g.edges k) := by
    intro k
    rw [hn, ← specDone_edgeEnds hg.1, ← specFrontier_edgeEnds hg.1]
  simp only [hF] at hempty' hne' hall'
  have hL : L' = L := by
    rcases Nat.lt_trichotomy L' L with h | h | h
    · exact absurd hempty' (hne L' h)
    · exact h
    · exact absurd hempty (hne' L h)
  subst hL
  have hlen : (moveSinksRight st.nodes L' orient).length = g.nodes.length := by
    rw [edgeLists_length (edgeLists_moveSinksRight _ _ _), edgeLists_length hlists]
  have hlen' : (moveSinksRight st'.nodes L' orient).length = g.nodes.length := by
    rw [edgeLists_length (edgeLists_moveSinksRight _ _ _), edgeLists_length hlists', hn]
  refine ⟨_, _, computeNodeBreadths_eq g _ _ _ _ hlev, computeNodeBreadths_eq g' _ _ _ _ hlev',
    rfl, rfl, ?_, ?_, ?_⟩
  · show edgeLists (scaleNodeBreadths _ _ _) = _
    rw [edgeLists_scaleNodeBreadths, edgeLists_moveSinksRight, hlists]
  · show edgeLists (scaleNodeBreadths _ _ _) = _
    rw [edgeLists_scaleNodeBreadths, edgeLists_moveSinksRight, hlists']
  · intro v
    show primaryCoord orient (nodeLayout (scaleNodeBreadths _ _ _) v) =
        primaryCoord orient (nodeLayout (scaleNodeBreadths _ _ _) v) ∧
      primarySize orient (nodeLayout (scaleNodeBreadths _ _ _) v) =
        primarySize orient (nodeLayout (scaleNodeBreadths _ _ _) v) ∧
      (nodeLayout (scaleNodeBreadths _ _ _) v).value =
        (nodeLayout (scaleNodeBreadths _ _ _) v).value
    by_cases hv : v < g.nodes.length
    · have key : primaryCoord orient (nodeLayout (moveSinksRight st.nodes L' orient) v) =
            primaryCoord orient (nodeLayout (moveSinksRight st'.nodes L' orient) v) ∧
          primarySize orient (nodeLayout (moveSinksRight st.nodes L' orient) v) =
            primarySize orient (nodeLayout (moveSinksRight st'.nodes L' orient) v) ∧
          (nodeLayout (moveSinksRight st.nodes L' orient) v).value =
            (nodeLayout (moveSinksRight st'.nodes L' orient) v).value := by
        obtain ⟨j, _, hvj, hlay⟩ := hall v hv
        obtain ⟨j', _, hvj', hlay'⟩ := hall' v (hn ▸ hv)
        have hjj : j' = j := specFrontier_round_unique _ _ hvj' hvj
        subst hjj
        have hA := agree_levelField orient nodeWidth j' (hval v)
        rw [nodeLayout_moveSinksRight, nodeLayout_moveSinksRight,
          nodeOutEdges_of_edgeLists hlists, nodeOutEdges_of_edgeLists hlists',
          edgeLists_length hlists, edgeLists_length hlists', hn, ← (hg.2.2 v).1.length_eq,
          hlay, hlay']
        split_ifs
        · exact agree_setPrimaryCoord orient _ hA.2.1 hA.2.2
        · exact hA
      rw [nodeLayout_scaleNodeBreadths _ _ _ v (hlen.symm ▸ hv),
        nodeLayout_scaleNodeBreadths _ _ _ v (hlen'.symm ▸ hv), key.1]
      exact agree_setPrimaryCoord orient _ key.2.1 key.2.2
    · have hge := Nat.le_of_not_lt hv
      have e1 : (scaleNodeBreadths (moveSinksRight st.nodes L' orient)
          (breadthScale nodeWidth width height orient L') orient).length = g.nodes.length := by
        rw [edgeLists_length (edgeLists_scaleNodeBreadths _ _ _), hlen]
      have e2 : (scaleNodeBreadths (moveSinksRight st'.nodes L' orient)
          (breadthScale nodeWidth width height orient L') orient).length = g.nodes.length := by
        rw [edgeLists_length (edgeLists_scaleNodeBreadths _ _ _), hlen']
      rw [nodeLayout_of_le _ v (e1.symm ▸ hge), nodeLayout_of_le _ v (e2.symm ▸ hge)]
      exact ⟨rfl, rfl, rfl⟩

/-! ## Running the pipeline on its own result -/

theorem edgeLists_computeNodeValues (g : Graph) :
    edgeLists (computeNodeValues g).nodes = edgeLists g.nodes := by
  unfold edgeLists computeNodeValues
  simp only [List.map_map]
  rfl

theorem value_computeNodeValues (g : Graph) (v : Nat) :
    (nodeLayout (computeNodeValues g).nodes v).value =
      if v < g.nodes.length then
        JSNum.max (sum (nodeOutEdges g.nodes v) (getEdgeValue g.edges))
          (sum (nodeInEdges g.nodes v) (getEdgeValue g.edges))
      else JSNum.nan := by
  unfold nodeLayout nodeOutEdges nodeInEdges computeNodeValues
  simp only [List.getElem?_map]
  by_cases hv : v < g.nodes.length
  · rw [if_pos hv, List.getElem?_eq_getElem hv]
    rfl
  · rw [if_neg hv, List.getElem?_eq_none (Nat.le_of_not_lt hv)]
    rfl

theorem listsEquiv_of_eq {a b : List Node} (h : edgeLists a = edgeLists b) : ListsEquiv a b :=
  listsEquiv_of_edgeLists h rfl (listsEquiv_refl b)

theorem listsEquiv_sortEdgeLists (g : Graph) (orient : Orient) :
    ListsEquiv (sortEdgeLists g orient) g.nodes := by
  refine ⟨length_sortEdgeLists g orient, fun v => ?_⟩
  rw [nodeOutEdges_sortEdgeLists, nodeInEdges_sortEdgeLists]
  exact ⟨jsSort_perm _ _, jsSort_perm _ _⟩

/-- The values written by `computeNodeValues` only depend on the weights of the edges and on
the edge lists up to their order. -/
theorem value_computeNodeValues_congr {g g' : Graph} (h : GraphEquiv g g') (v : Nat) :
    (nodeLayout (computeNodeValues g).nodes v).value =
      (nodeLayout (computeNodeValues g').nodes v).value := by
  rw [value_computeNodeValues, value_computeNodeValues, h.2.1,
    sum_perm _ (h.2.2 v).1, sum_perm _ (h.2.2 v).2, funext (getEdgeValue_congr h.1)]

theorem nodes_ext {a b : List Node} (hlen : a.length = b.length)
    (h : ∀ v, nodeLayout a v = nodeLayout b v ∧ nodeOutEdges a v = nodeOutEdges b v ∧
      nodeInEdges a v = nodeInEdges b v) : a = b := by
  apply List.ext_getElem hlen
  intro v h1 h2
  obtain ⟨e1, e2, e3⟩ := h v
  unfold nodeLayout at e1
  unfold nodeOutEdges at e2
  unfold nodeInEdges at e3
  rw [List.getElem?_eq_getElem h1, List.getElem?_eq_getElem h2] at e1 e2 e3
  simp only at e1 e2 e3
  cases ha : a[v] with
  | mk i o l =>
    cases hb : b[v] with
    | mk i' o' l' =>
      rw [ha, hb] at e1 e2 e3
      simp only at e1 e2 e3
      rw [e1, e2, e3]

theorem edges_ext {a b : List Edge} (he : edgeEnds a = edgeEnds b)
    (h : ∀ e, e < a.length → edgeDy a e = edgeDy b e ∧ edgeSy a e = edgeSy b e ∧
      edgeTy a e = edgeTy b e) : a = b := by
  have hlen := edgeEnds_length he
  apply List.ext_getElem hlen
  intro e h1 h2
  obtain ⟨e1, e2, e3⟩ := h e h1
  have e4 := edgeEnds_getElem? he e
  unfold edgeDy at e1
  unfold edgeSy at e2
  unfold edgeTy at e3
  rw [List.getElem?_eq_getElem h1, List.getElem?_eq_getElem h2] at e1 e2 e3 e4
  simp only [Option.map_some', Option.some.injEq, Prod.mk.injEq] at e1 e2 e3 e4
  cases ha : a[e] with
  | mk n1 n2 val lay =>
    cases hb : b[e] with
    | mk n1' n2' val' lay' =>
      rw [ha, hb] at e1 e2 e3 e4
      simp only at e1 e2 e3 e4
      cases lay
      cases lay'
      simp only at e1 e2 e3
      rw [e1, e2, e3, e4.1, e4.2.1, e4.2.2]

theorem graph_ext {a b : Graph} (h1 : a.nodes = b.nodes) (h2 : a.edges = b.edges) : a = b := by
  cases a
  cases b
  simp only at h1 h2
  rw [h1, h2]

theorem exists_index_out (g : Graph) (hwf : WellFormed g) (orient : Orient) (e : Nat)
    (he : e < g.edges.length) :
    ∃ (v k : Nat), (nodeOutEdges (sortEdgeLists g orient) v)[k]? = some e := by
  have hmem : g.edges[e] ∈ g.edges := List.getElem_mem _
  have h1 : e ∈ edgesFrom g.edges (g.edges[e]).node1 := by
    rw [mem_edgesFrom, List.getElem?_eq_getElem he]
    exact ⟨he, rfl⟩
  have h2 := (hwf.outEdges_perm _ (hwf.node1_lt _ hmem)).mem_iff.mpr h1
  rw [← mem_nodeOutEdges_sortEdgeLists g orient] at h2
  obtain ⟨k, hk⟩ := List.mem_iff_getElem?.mp h2
  exact ⟨_, k, hk⟩

theorem exists_index_in (g : Graph) (hwf : WellFormed g) (orient : Orient) (e : Nat)
    (he : e < g.edges.length) :
    ∃ (v k : Nat), (nodeInEdges (sortEdgeLists g orient) v)[k]? = some e := by
  have hmem : g.edges[e] ∈ g.edges := List.getElem_mem _
  have h1 : e ∈ edgesInto g.edges (g.edges[e]).node2 := by
    rw [mem_edgesInto, List.getElem?_eq_getElem he]
    exact ⟨he, rfl⟩
  have h2 := (hwf.inEdges_perm _ (hwf.node2_lt _ hmem)).mem_iff.mpr h1
  rw [← mem_nodeInEdges_sortEdgeLists g orient] at h2
  obtain ⟨k, hk⟩ := List.mem_iff_getElem?.mp h2
  exact ⟨_, k, hk⟩

/-- The function `computeEdgeDepths` on a graph `d2` whose edge lists are already in the order
that `computeEdgeDepths` gives to the lists of `d`, and which agrees with `d` on the layouts of
the nodes and on the thickness of the edges: the result is the result for `d`. -/
theorem computeEdgeDepths_congr (d d2 : Graph) (orient : Orient) (hwf : WellFormed d)
    (hwf2 : WellFormed d2)
    (hlay : ∀ v, nodeLayout d.nodes v = nodeLayout d2.nodes v)
    (he : edgeEnds d.edges = edgeEnds d2.edges)
    (hdy : ∀ e, edgeDy d.edges e = edgeDy d2.edges e)
    (hlists : edgeLists d2.nodes = edgeLists (sortEdgeLists d orient)) :
    computeEdgeDepths d2 orient = computeEdgeDepths d orient := by
  have hkt : targetCoord orient d2.nodes d2.edges = targetCoord orient d.nodes d.edges :=
    (funext (targetCoord_congr orient hlay he)).symm
  have hks : sourceCoord orient d2.nodes d2.edges = sourceCoord orient d.nodes d.edges :=
    (funext (sourceCoord_congr orient hlay he)).symm
  have hnodes : sortEdgeLists d2 orient = sortEdgeLists d orient := by
    apply nodes_ext
    · rw [length_sortEdgeLists, edgeLists_length hlists]
    · intro v
      refine ⟨?_, ?_, ?_⟩
      · rw [nodeLayout_sortEdgeLists, nodeLayout_sortEdgeLists, hlay]
      · rw [nodeOutEdges_sortEdgeLists, nodeOutEdges_of_edgeLists hlists,
          nodeOutEdges_sortEdgeLists, hkt]
        exact jsSort_idem (targetCoord orient d.nodes d.edges) _
      · rw [nodeInEdges_sortEdgeLists, nodeInEdges_of_edgeLists hlists,
          nodeInEdges_sortEdgeLists, hks]
        exact jsSort_idem (sourceCoord orient d.nodes d.edges) _
  obtain ⟨_, s2, s3, s4, s5⟩ := computeEdgeDepths_spec d hwf orient
  obtain ⟨_, t2, t3, t4, t5⟩ := computeEdgeDepths_spec d2 hwf2 orient
  have hfun : edgeDy d2.edges = edgeDy d.edges := (funext hdy).symm
  apply graph_ext
  · exact hnodes
  · apply edges_ext (by rw [t2, s2, he])
    intro e hlt
    have hlt2 : e < d2.edges.length := by
      rw [← edgeEnds_length t2]
      exact hlt
    have hlt1 : e < d.edges.length := by
      rw [edgeEnds_length he]
      exact hlt2
    refine ⟨by rw [t3, s3, hdy], ?_, ?_⟩
    · obtain ⟨v, k, hk⟩ := exists_index_out d hwf orient e hlt1
      rw [s4 v k e hk, t4 v k e (by rw [hnodes]; exact hk), hnodes, hfun]
    · obtain ⟨v, k, hk⟩ := exists_index_in d hwf orient e hlt1
      rw [s5 v k e hk, t5 v k e (by rw [hnodes]; exact hk), hnodes, hfun]

theorem layoutSankey_eq (g b d : Graph) (nodeWidth nodeGap width height : JSNum)
    (iterations : Nat) (orient : Orient)
    (hb : computeNodeBreadths g nodeWidth width height orient = some b)
    (hd : computeNodeDepths b height width nodeGap iterations orient = some d) :
    layoutSankey g nodeWidth nodeGap width height iterations orient =
      some (computeEdgeDepths d orient) := by
  unfold layoutSankey
  rw [hb]
  simp only
  rw [hd]

/-- The pipeline run on its own result: the first run returns a graph, and the second run, on
that graph, returns the same graph. -/
theorem layoutSankey_fixed (g : Graph) (hwf : WellFormed g) (hac : Acyclic g)
    (nodeWidth nodeGap width height : JSNum) (iterations : Nat) (orient : Orient) :
    ∃ g1, layoutSankey (computeNodeValues g) nodeWidth nodeGap width height iterations orient =
        some g1 ∧
      layoutSankey (computeNodeValues g1) nodeWidth nodeGap width height iterations orient =
        some g1 ∧ GraphEquiv g g1 := by
  have hv0 : GraphEquiv g (computeNodeValues g) :=
    ⟨rfl, listsEquiv_of_eq (edgeLists_computeNodeValues g).symm⟩
  have hwf0 := wellFormed_of_equiv hwf hv0
  have hac0 := acyclic_of_edgeEnds hv0.1 hac
  -- the first run
  obtain ⟨b, _, hb, _, hbe, _, hbl, _, _⟩ := computeNodeBreadths_congr (computeNodeValues g)
    (computeNodeValues g) hwf0 hac0 ⟨rfl, listsEquiv_refl _⟩ (fun _ => rfl) nodeWidth width
    height orient
  obtain ⟨d, hd, hdl, hde⟩ := computeNodeDepths_frame b height width nodeGap iterations orient
  have hde2 : edgeEnds d.edges = edgeEnds g.edges := by
    rw [hde, edgeEnds_initializeNodeDepth, hbe]
    rfl
  have hdl2 : edgeLists d.nodes = edgeLists g.nodes := by
    rw [hdl, hbl, edgeLists_computeNodeValues]
  have hgd : GraphEquiv g d := ⟨hde2.symm, listsEquiv_of_eq hdl2.symm⟩
  have hwfd := wellFormed_of_equiv hwf hgd
  obtain ⟨s1, s2, _, _, _⟩ := computeEdgeDepths_spec d hwfd orient
  have hg1 : GraphEquiv g (computeEdgeDepths d orient) := by
    refine ⟨by rw [s2, hde2], ?_⟩
    rw [s1]
    exact listsEquiv_trans hgd.2 (listsEquiv_symm (listsEquiv_sortEdgeLists d orient))
  refine ⟨computeEdgeDepths d orient,
    layoutSankey_eq _ b d nodeWidth nodeGap width height iterations orient hb hd, ?_, hg1⟩
  -- the second run
  have hv1 : GraphEquiv (computeEdgeDepths d orient)
      (computeNodeValues (computeEdgeDepths d orient)) :=
    ⟨rfl, listsEquiv_of_eq (edgeLists_computeNodeValues _).symm⟩
  have h01 : GraphEquiv (computeNodeValues g)
      (computeNodeValues (computeEdgeDepths d orient)) :=
    ⟨hg1.1.trans hv1.1, listsEquiv_trans (listsEquiv_symm hv0.2)
      (listsEquiv_trans hg1.2 hv1.2)⟩
  obtain ⟨b0, b2, hb0, hb2, hbe0, hbe2, hbl0, hbl2, hpa⟩ := computeNodeBreadths_congr
    (computeNodeValues g) (computeNodeValues (computeEdgeDepths d orient)) hwf0 hac0 h01
    (value_computeNodeValues_congr hg1) nodeWidth width height orient
  rw [hb] at hb0
  cases hb0
  have hbb : ListsEquiv b.nodes b2.nodes := listsEquiv_of_edgeLists hbl0 hbl2 h01.2
  have hbee : edgeEnds b.edges = edgeEnds b2.edges := by
    rw [hbe0, hbe2]
    exact h01.1
  obtain ⟨d0, d2, hd0, hd2, hne, _, hdl2b, _, hde2b, hdy⟩ := computeNodeDepths_congr b b2 height
    width nodeGap iterations orient hbb hpa hbee
  rw [hd] at hd0
  cases hd0
  have hl2 : edgeLists d2.nodes = edgeLists (sortEdgeLists d orient) := by
    rw [hdl2b, hbl2, edgeLists_computeNodeValues, s1]
  have hdd : edgeEnds d.edges = edgeEnds d2.edges := by
    rw [hde2b, ← hbee, hbe0, hde2]
    rfl
  have hwfd2 : WellFormed d2 :=
    wellFormed_of_equiv hwfd ⟨hdd, hne.1⟩
  rw [layoutSankey_eq _ b2 d2 nodeWidth nodeGap width height iterations orient hb2 hd2,
    computeEdgeDepths_congr d d2 orient hwfd hwfd2 hne.2 hdd hdy hl2]

/-! ## Idempotence of the pipeline -/

theorem wellFormed_crossGraph : WellFormed crossGraph :=
  ⟨by decide, by decide, by decide, by decide⟩

theorem acyclic_crossGraph : Acyclic crossGraph :=
  acyclic_of_rank crossGraph id (by decide)

/-- C10: for every acyclic well-formed graph and every configuration, the layout
(`computeNodeValues`, then `layoutSankey`) returns a graph `g1`, and the layout run a second
time, on `g1` as the first run left it (edge lists reordered, layout fields written), returns
`g1` again: the same node fields `value`, `x`, `y`, `dx`, `dy`, the same edge fields `dy`,
`sy`, `ty`, and the same order of the edge lists.  The arithmetic is exact and the sort is
stable. -/
theorem layoutSankey_idempotent (g : Graph) (hwf : WellFormed g) (hac : Acyclic g)
    (nodeWidth nodeGap width height : JSNum) (iterations : Nat) (orient : Orient) :
    ∃ g1, layoutSankey (computeNodeValues g) nodeWidth nodeGap width height iterations orient =
        some g1 ∧
      layoutSankey (computeNodeValues g1) nodeWidth nodeGap width height iterations orient =
        some g1 := by
  obtain ⟨g1, h1, h2, _⟩ := layoutSankey_fixed g hwf hac nodeWidth nodeGap width height
    iterations orient
  exact ⟨g1, h1, h2⟩

theorem layoutSankey_idempotent_witness :
    WellFormed crossGraph ∧ Acyclic crossGraph ∧
      ∃ g1, layoutSankey (computeNodeValues crossGraph) (JSNum.fin 20) (JSNum.fin 8)
          (JSNum.fin 300) (JSNum.fin 200) 2 Orient.horizontal = some g1 ∧
        layoutSankey (computeNodeValues g1) (JSNum.fin 20) (JSNum.fin 8) (JSNum.fin 300)
          (JSNum.fin 200) 2 Orient.horizontal = some g1 :=
  ⟨wellFormed_crossGraph, acyclic_crossGraph,
    layoutSankey_idempotent crossGraph wellFormed_crossGraph acyclic_crossGraph (JSNum.fin 20)
      (JSNum.fin 8) (JSNum.fin 300) (JSNum.fin 200) 2 Orient.horizontal⟩

/-- The first run on `crossGraph` does reorder an edge list: node A lists its edges as
`[0, 1]` before the run and as `[1, 0]` after it. -/
theorem crossGraph_reordered :
    (layoutSankey (computeNodeValues crossGraph) (JSNum.fin 20) (JSNum.fin 8) (JSNum.fin 300)
      (JSNum.fin 200) 2 Orient.horizontal).map (fun g => g.nodes.map (fun nd => nd.outEdges)) =
      some [[1, 0], [], []] := by
  decide!

/-- The default export run on its own result: the iteration count chosen by the second run is
the one chosen by the first, and the second run returns the graph it is given. -/
theorem sankeyLayout_fixed (g : Graph) (hwf : WellFormed g) (hac : Acyclic g)
    (nodeWidth nodeGap width height : JSNum) (layoutIterations : Nat) (orient : Orient) :
    ∃ g1, sankeyLayout g nodeWidth nodeGap width height layoutIterations orient = some g1 ∧
      sankeyLayout g1 nodeWidth nodeGap width height layoutIterations orient = some g1 := by
  obtain ⟨g1, h1, h2, hg⟩ := layoutSankey_fixed g hwf hac nodeWidth nodeGap width height
    (if ((computeNodeValues g).nodes.filter
      (fun node => node.layout.value = JSNum.fin 0)).length ≠ 0 then 0 else layoutIterations)
    orient
  have hnodes : (computeNodeValues g1).nodes.map (fun nd => nd.layout.value) =
      (computeNodeValues g).nodes.map (fun nd => nd.layout.value) := by
    apply List.ext_getElem?
    intro v
    have hv := value_computeNodeValues_congr hg v
    have hlen : (computeNodeValues g).nodes.length = (computeNodeValues g1).nodes.length := by
      rw [edgeLists_length (edgeLists_computeNodeValues g),
        edgeLists_length (edgeLists_computeNodeValues g1)]
      exact hg.2.1
    unfold nodeLayout at hv
    rw [List.getElem?_map, List.getElem?_map]
    by_cases hlt : v < (computeNodeValues g).nodes.length
    · rw [List.getElem?_eq_getElem hlt, List.getElem?_eq_getElem (hlen ▸ hlt)] at hv ⊢
      simp only at hv
      simp only [Option.map_some', hv]
    · rw [List.getElem?_eq_none (Nat.le_of_not_lt hlt),
        List.getElem?_eq_none (hlen ▸ Nat.le_of_not_lt hlt)]
  have hcount : ∀ l : List Node, (l.filter
      (fun node => node.layout.value = JSNum.fin 0)).length =
      (l.map (fun nd => nd.layout.value)).countP (fun a => decide (a = JSNum.fin 0)) := by
    intro l
    rw [List.countP_map, List.countP_eq_length_filter]
    rfl
  refine ⟨g1, h1, ?_⟩
  unfold sankeyLayout
  simp only
  rw [hcount, hnodes, ← hcount]
  exact h2

/-! ## Independence from the layout fields the graph carries -/

/-- The function `computeEdgeDepths` on two graphs that agree on the layouts of the nodes, on
the edges up to their offsets, and on the edge lists: the results are the same graph. -/
theorem computeEdgeDepths_congr_lists (d d2 : Graph) (orient : Orient) (hwf : WellFormed d)
    (hwf2 : WellFormed d2)
    (hlay : ∀ v, nodeLayout d.nodes v = nodeLayout d2.nodes v)
    (he : edgeEnds d.edges = edgeEnds d2.edges)
    (hdy : ∀ e, edgeDy d.edges e = edgeDy d2.edges e)
    (hlists : edgeLists d2.nodes = edgeLists d.nodes) :
    computeEdgeDepths d2 orient = computeEdgeDepths d orient := by
  have hkt : targetCoord orient d2.nodes d2.edges = targetCoord orient d.nodes d.edges :=
    (funext (targetCoord_congr orient hlay he)).symm
  have hks : sourceCoord orient d2.nodes d2.edges = sourceCoord orient d.nodes d.edges :=
    (funext (sourceCoord_congr orient hlay he)).symm
  have hnodes : sortEdgeLists d2 orient = sortEdgeLists d orient := by
    apply nodes_ext
    · rw [length_sortEdgeLists, length_sortEdgeLists, edgeLists_length hlists]
    · intro v
      refine ⟨?_, ?_, ?_⟩
      · rw [nodeLayout_sortEdgeLists, nodeLayout_sortEdgeLists, hlay]
      · rw [nodeOutEdges_sortEdgeLists, nodeOutEdges_of_edgeLists hlists,
          nodeOutEdges_sortEdgeLists, hkt]
      · rw [nodeInEdges_sortEdgeLists, nodeInEdges_of_edgeLists hlists,
          nodeInEdges_sortEdgeLists, hks]
  obtain ⟨_, s2, s3, s4, s5⟩ := computeEdgeDepths_spec d hwf orient
  obtain ⟨_, t2, t3, t4, t5⟩ := computeEdgeDepths_spec d2 hwf2 orient
  have hfun : edgeDy d2.edges = edgeDy d.edges := (funext hdy).symm
  apply graph_ext
  · exact hnodes
  · apply edges_ext (by rw [t2, s2, he])
    intro e hlt
    have hlt2 : e < d2.edges.length := by
      rw [← edgeEnds_length t2]
      exact hlt
    have hlt1 : e < d.edges.length := by
      rw [edgeEnds_length he]
      exact hlt2
    refine ⟨by rw [t3, s3, hdy], ?_, ?_⟩
    · obtain ⟨v, k, hk⟩ := exists_index_out d hwf orient e hlt1
      rw [s4 v k e hk, t4 v k e (by rw [hnodes]; exact hk), hnodes, hfun]
    · obtain ⟨v, k, hk⟩ := exists_index_in d hwf orient e hlt1
      rw [s5 v k e hk, t5 v k e (by rw [hnodes]; exact hk), hnodes, hfun]

/-- The function `layoutSankey` on two graphs with the same edge lists, the same edges (end
points and weights) and the same node values, whatever other layout fields they carry: both
runs return the same graph. -/
theorem layoutSankey_congr_values (g g' : Graph) (hwf : WellFormed g) (hac : Acyclic g)
    (hlists : edgeLists g'.nodes = edgeLists g.nodes)
    (hends : edgeEnds g'.edges = edgeEnds g.edges)
    (hval : ∀ v, (nodeLayout g.nodes v).value = (nodeLayout g'.nodes v).value)
    (nodeWidth nodeGap width height : JSNum) (iterations : Nat) (orient : Orient) :
    ∃ o, layoutSankey g nodeWidth nodeGap width height iterations orient = some o ∧
      layoutSankey g' nodeWidth nodeGap width height iterations orient = some o := by
  have h01 : GraphEquiv g g' := ⟨hends.symm, listsEquiv_of_eq hlists.symm⟩
  obtain ⟨b, b2, hb, hb2, hbe, hbe2, hbl, hbl2, hpa⟩ := computeNodeBreadths_congr g g' hwf hac
    h01 hval nodeWidth width height orient
  have hbb : ListsEquiv b.nodes b2.nodes := listsEquiv_of_edgeLists hbl hbl2 h01.2
  have hbee : edgeEnds b.edges = edgeEnds b2.edges := by
    rw [hbe, hbe2]
    exact h01.1
  obtain ⟨d, d2, hd, hd2, hne, hdl, hdl2, hde, hde2, hdy⟩ := computeNodeDepths_congr b b2 height
    width nodeGap iterations orient hbb hpa hbee
  have hl2 : edgeLists d2.nodes = edgeLists d.nodes := by
    rw [hdl2, hbl2, hlists, hdl, hbl]
  have hdd : edgeEnds d.edges = edgeEnds d2.edges := by
    rw [hde, hde2, hbee]
  have hgd : GraphEquiv g d := by
    refine ⟨?_, listsEquiv_of_eq ?_⟩
    · rw [hde, hbe]
    · rw [hdl, hbl]
  have hwfd := wellFormed_of_equiv hwf hgd
  have hwfd2 : WellFormed d2 := wellFormed_of_equiv hwfd ⟨hdd, hne.1⟩
  refine ⟨computeEdgeDepths d orient,
    layoutSankey_eq _ b d nodeWidth nodeGap width height iterations orient hb hd, ?_⟩
  rw [layoutSankey_eq _ b2 d2 nodeWidth nodeGap width height iterations orient hb2 hd2,
    computeEdgeDepths_congr_lists d d2 orient hwfd hwfd2 hne.2 hdd hdy hl2]

/-- The pipeline on two graphs with the same edge lists and the same edges (end points and
weights), whatever layout fields they carry: both runs return the same graph. -/
theorem layoutSankey_leftover (g g' : Graph) (hwf : WellFormed g) (hac : Acyclic g)
    (hlists : edgeLists g'.nodes = edgeLists g.nodes)
    (hends : edgeEnds g'.edges = edgeEnds g.edges)
    (nodeWidth nodeGap width height : JSNum) (iterations : Nat) (orient : Orient) :
    ∃ o, layoutSankey (computeNodeValues g) nodeWidth nodeGap width height iterations orient =
        some o ∧
      layoutSankey (computeNodeValues g') nodeWidth nodeGap width height iterations orient =
        some o := by
  have hgg : GraphEquiv g g' := ⟨hends.symm, listsEquiv_of_eq hlists.symm⟩
  have hv0 : GraphEquiv g (computeNodeValues g) :=
    ⟨rfl, listsEquiv_of_eq (edgeLists_computeNodeValues g).symm⟩
  exact layoutSankey_congr_values (computeNodeValues g) (computeNodeValues g')
    (wellFormed_of_equiv hwf hv0) (acyclic_of_edgeEnds hv0.1 hac)
    (by rw [edgeLists_computeNodeValues, edgeLists_computeNodeValues, hlists]) hends
    (value_computeNodeValues_congr hgg) nodeWidth nodeGap width height iterations orient

/-- The number of nodes of value `0`, which decides the iteration count in the default export,
only depends on the weights of the edges and on the edge lists up to their order. -/
theorem zeroValues_congr {g g' : Graph} (hg : GraphEquiv g g') :
    ((computeNodeValues g').nodes.filter
      (fun node => node.layout.value = JSNum.fin 0)).length =
    ((computeNodeValues g).nodes.filter
      (fun node => node.layout.value = JSNum.fin 0)).length := by
  have hnodes : (computeNodeValues g').nodes.map (fun nd => nd.layout.value) =
      (computeNodeValues g).nodes.map (fun nd => nd.layout.value) := by
    apply List.ext_getElem?
    intro v
    have hv := value_computeNodeValues_congr hg v
    have hlen : (computeNodeValues g).nodes.length = (computeNodeValues g').nodes.length := by
      rw [edgeLists_length (edgeLists_computeNodeValues g),
        edgeLists_length (edgeLists_computeNodeValues g')]
      exact hg.2.1
    unfold nodeLayout at hv
    rw [List.getElem?_map, List.getElem?_map]
    by_cases hlt : v < (computeNodeValues g).nodes.length
    · rw [List.getElem?_eq_getElem hlt, List.getElem?_eq_getElem (hlen ▸ hlt)] at hv ⊢
      simp only at hv
      simp only [Option.map_some', hv]
    · rw [List.getElem?_eq_none (Nat.le_of_not_lt hlt),
        List.getElem?_eq_none (hlen ▸ Nat.le_of_not_lt hlt)]
  have hcount : ∀ l : List Node, (l.filter
      (fun node => node.layout.value = JSNum.fin 0)).length =
      (l.map (fun nd => nd.layout.value)).countP (fun a => decide (a = JSNum.fin 0)) := by
    intro l
    rw [List.countP_map, List.countP_eq_length_filter]
    rfl
  rw [hcount, hnodes, ← hcount]

/-- C11: for every acyclic well-formed graph and every configuration, two runs of the pipeline
on graphs that differ only in the layout fields they carry before the call (the same edge
lists, the same end points and weights of the edges) return the same graph, hence the same
layout fields of every node and of every edge; this holds for `computeNodeValues` followed by
`layoutSankey` with any iteration count, and for the default export, which chooses the
iteration count itself. -/
theorem layout_independent_of_leftover (g g' : Graph) (hwf : WellFormed g) (hac : Acyclic g)
    (hlists : edgeLists g'.nodes = edgeLists g.nodes)
    (hends : edgeEnds g'.edges = edgeEnds g.edges)
    (nodeWidth nodeGap width height : JSNum) (iterations : Nat) (orient : Orient) :
    (∃ o, layoutSankey (computeNodeValues g) nodeWidth nodeGap width height iterations orient =
        some o ∧
      layoutSankey (computeNodeValues g') nodeWidth nodeGap width height iterations orient =
        some o) ∧
    ∃ o, sankeyLayout g nodeWidth nodeGap width height iterations orient = some o ∧
      sankeyLayout g' nodeWidth nodeGap width height iterations orient = some o := by
  refine ⟨layoutSankey_leftover g g' hwf hac hlists hends nodeWidth nodeGap width height
    iterations orient, ?_⟩
  have hgg : GraphEquiv g g' := ⟨hends.symm, listsEquiv_of_eq hlists.symm⟩
  obtain ⟨o, h1, h2⟩ := layoutSankey_leftover g g' hwf hac hlists hends nodeWidth nodeGap width
    height (if ((computeNodeValues g).nodes.filter
      (fun node => node.layout.value = JSNum.fin 0)).length ≠ 0 then 0 else iterations) orient
  refine ⟨o, h1, ?_⟩
  unfold sankeyLayout
  simp only
  rw [zeroValues_congr hgg]
  exact h2

theorem layout_independent_of_leftover_witness :
    WellFormed crossGraph ∧ Acyclic crossGraph ∧
    edgeLists crossGraphStale.nodes = edgeLists crossGraph.nodes ∧
    edgeEnds crossGraphStale.edges = edgeEnds crossGraph.edges ∧
    (∃ o, layoutSankey (computeNodeValues crossGraph) (JSNum.fin 20) (JSNum.fin 8)
        (JSNum.fin 300) (JSNum.fin 200) 2 Orient.horizontal = some o ∧
      layoutSankey (computeNodeValues crossGraphStale) (JSNum.fin 20) (JSNum.fin 8)
        (JSNum.fin 300) (JSNum.fin 200) 2 Orient.horizontal = some o) ∧
    ∃ o, sankeyLayout crossGraph (JSNum.fin 20) (JSNum.fin 8) (JSNum.fin 300) (JSNum.fin 200) 2
        Orient.horizontal = some o ∧
      sankeyLayout crossGraphStale (JSNum.fin 20) (JSNum.fin 8) (JSNum.fin 300) (JSNum.fin 200)
        2 Orient.horizontal = some o :=
  ⟨wellFormed_crossGraph, acyclic_crossGraph, rfl, rfl,
    layout_independent_of_leftover crossGraph crossGraphStale wellFormed_crossGraph
      acyclic_crossGraph rfl rfl (JSNum.fin 20) (JSNum.fin 8) (JSNum.fin 300) (JSNum.fin 200) 2
      Orient.horizontal⟩

/-- The hypothesis of acyclicity is needed: on a cyclic graph the nodes of the cycle are never
given a level, `scaleNodeBreadths` multiplies the breadth coordinate they carry from before,
and two runs that differ in that coordinate differ in their results. -/
theorem cycle_leftover_kept :
    (layoutSankey (computeNodeValues (cycleGraph ⟨JSNum.fin 1, JSNum.fin 2, JSNum.fin 3,
        JSNum.fin 4, JSNum.fin 5⟩)) (JSNum.fin 20) (JSNum.fin 8) (JSNum.fin 300) (JSNum.fin 200)
        2 Orient.horizontal).map (fun o => o.nodes.map (fun nd => nd.layout.x)) =
      some [JSNum.fin (-280), JSNum.fin (-280)] ∧
    (layoutSankey (computeNodeValues (cycleGraph ⟨JSNum.fin 3, JSNum.fin 2, JSNum.fin 3,
        JSNum.fin 4, JSNum.fin 5⟩)) (JSNum.fin 20) (JSNum.fin 8) (JSNum.fin 300) (JSNum.fin 200)
        2 Orient.horizontal).map (fun o => o.nodes.map (fun nd => nd.layout.x)) =
      some [JSNum.fin (-840), JSNum.fin (-840)] := by
  constructor <;> decide!

/-! ## Exchanging the axes: layouts -/

theorem foldl_comm {α σ τ : Type} (f : σ → α → σ) (f' : τ → α → τ) (φ : σ → τ)
    (h : ∀ s a, f' (φ s) a = φ (f s a)) :
    ∀ (l : List α) (s : σ), l.foldl f' (φ s) = φ (l.foldl f s) := by
  intro l
  induction l with
  | nil => intro s; rfl
  | cons a l ih => intro s; rw [List.foldl_cons, List.foldl_cons, h, ih]

theorem transposeLayout_transposeLayout (l : NodeLayout) :
    transposeLayout (transposeLayout l) = l := rfl

theorem primaryCoord_flip (o : Orient) (l : NodeLayout) :
    primaryCoord o.flip (transposeLayout l) = primaryCoord o l := by
  cases o <;> rfl

theorem primarySize_flip (o : Orient) (l : NodeLayout) :
    primarySize o.flip (transposeLayout l) = primarySize o l := by
  cases o <;> rfl

theorem secondaryCoord_flip (o : Orient) (l : NodeLayout) :
    secondaryCoord o.flip (transposeLayout l) = secondaryCoord o l := by
  cases o <;> rfl

theorem secondarySize_flip (o : Orient) (l : NodeLayout) :
    secondarySize o.flip (transposeLayout l) = secondarySize o l := by
  cases o <;> rfl

theorem setPrimaryCoord_flip (o : Orient) (c : JSNum) (l : NodeLayout) :
    setPrimaryCoord o.flip c (transposeLayout l) = transposeLayout (setPrimaryCoord o c l) := by
  cases o <;> rfl

theorem setPrimarySize_flip (o : Orient) (c : JSNum) (l : NodeLayout) :
    setPrimarySize o.flip c (transposeLayout l) = transposeLayout (setPrimarySize o c l) := by
  cases o <;> rfl

theorem setSecondaryCoord_flip (o : Orient) (c : JSNum) (l : NodeLayout) :
    setSecondaryCoord o.flip c (transposeLayout l) =
      transposeLayout (setSecondaryCoord o c l) := by
  cases o <;> rfl

theorem setSecondarySize_flip (o : Orient) (c : JSNum) (l : NodeLayout) :
    setSecondarySize o.flip c (transposeLayout l) =
      transposeLayout (setSecondarySize o c l) := by
  cases o <;> rfl

theorem primaryExtent_flip (o : Orient) (w h : JSNum) :
    primaryExtent o.flip w h = primaryExtent o h w := by
  cases o <;> rfl

theorem secondaryExtent_flip (o : Orient) (w h : JSNum) :
    secondaryExtent o.flip w h = secondaryExtent o h w := by
  cases o <;> rfl

theorem length_transposeNodes (ns : List Node) : (transposeNodes ns).length = ns.length := by
  simp [transposeNodes]

theorem getElem?_transposeNodes (ns : List Node) (v : Nat) :
    (transposeNodes ns)[v]? =
      (ns[v]?).map (fun nd => { nd with layout := transposeLayout nd.layout }) := by
  simp [transposeNodes]

theorem nodeLayout_transposeNodes (ns : List Node) (v : Nat) :
    nodeLayout (transposeNodes ns) v = transposeLayout (nodeLayout ns v) := by
  unfold nodeLayout
  rw [getElem?_transposeNodes]
  cases ns[v]? <;> rfl

theorem nodeOutEdges_transposeNodes (ns : List Node) (v : Nat) :
    nodeOutEdges (transposeNodes ns) v = nodeOutEdges ns v := by
  unfold nodeOutEdges
  rw [getElem?_transposeNodes]
  cases ns[v]? <;> rfl

theorem nodeInEdges_transposeNodes (ns : List Node) (v : Nat) :
    nodeInEdges (transposeNodes ns) v = nodeInEdges ns v := by
  unfold nodeInEdges
  rw [getElem?_transposeNodes]
  cases ns[v]? <;> rfl

theorem setNodeLayout_transposeNodes (ns : List Node) (v : Nat)
    (f f' : NodeLayout → NodeLayout) (h : ∀ l, f' (transposeLayout l) = transposeLayout (f l)) :
    setNodeLayout (transposeNodes ns) v f' = transposeNodes (setNodeLayout ns v f) := by
  apply List.ext_getElem?
  intro w
  rw [getElem?_setNodeLayout, getElem?_transposeNodes, getElem?_transposeNodes,
    getElem?_setNodeLayout]
  cases ns[w]? with
  | none => rfl
  | some nd =>
    by_cases hv : v = w
    · simp [hv, h]
    · simp [hv]

theorem coordOf_flip (o : Orient) (ns : List Node) (v : Nat) :
    coordOf o.flip (transposeNodes ns) v = coordOf o ns v := by
  unfold coordOf
  rw [nodeLayout_transposeNodes, secondaryCoord_flip]

theorem sizeOf_flip (o : Orient) (ns : List Node) (v : Nat) :
    sizeOf o.flip (transposeNodes ns) v = sizeOf o ns v := by
  unfold sizeOf
  rw [nodeLayout_transposeNodes, secondarySize_flip]

theorem center_flip (o : Orient) (ns : List Node) (v : Nat) :
    center o.flip (transposeNodes ns) v = center o ns v := by
  unfold center
  rw [nodeLayout_transposeNodes, secondaryCoord_flip, secondarySize_flip]

theorem setCoord_flip (o : Orient) (ns : List Node) (v : Nat) (c : JSNum) :
    setCoord o.flip (transposeNodes ns) v c = transposeNodes (setCoord o ns v c) :=
  setNodeLayout_transposeNodes ns v _ _ (setSecondaryCoord_flip o c)

/-! ## Exchanging the axes: the breadth stage -/

theorem kahnEdge_flip (edges : List Edge) (st : KahnState) (e : Nat) :
    kahnEdge edges (transposeState st) e = transposeState (kahnEdge edges st e) := by
  unfold kahnEdge
  cases edges[e]? with
  | none => rfl
  | some edge =>
    simp only [transposeState]
    cases (st.indegreeArr)[edge.node2]? with
    | none => rfl
    | some d =>
      simp only
      split_ifs <;> rfl

theorem kahnNode_flip (edges : List Edge) (o : Orient) (nodeWidth : JSNum) (x : Nat)
    (st : KahnState) (v : Nat) :
    kahnNode edges o.flip nodeWidth x (transposeState st) v =
      transposeState (kahnNode edges o nodeWidth x st v) := by
  unfold kahnNode
  simp only
  have hset := setNodeLayout_transposeNodes st.nodes v
    (fun l => setPrimarySize o nodeWidth (setPrimaryCoord o (JSNum.fin x) l))
    (fun l => setPrimarySize o.flip nodeWidth (setPrimaryCoord o.flip (JSNum.fin x) l))
    (fun l => by
      show setPrimarySize o.flip nodeWidth (setPrimaryCoord o.flip (JSNum.fin x)
        (transposeLayout l)) = _
      rw [setPrimaryCoord_flip, setPrimarySize_flip])
  have h1 : ({ transposeState st with
      nodes := setNodeLayout (transposeState st).nodes v (fun l =>
        setPrimarySize o.flip nodeWidth (setPrimaryCoord o.flip (JSNum.fin x) l)) } :
        KahnState) =
      transposeState { st with
        nodes := setNodeLayout st.nodes v (fun l =>
          setPrimarySize o nodeWidth (setPrimaryCoord o (JSNum.fin x) l)) } := by
    simp only [transposeState]
    rw [hset]
  have h2 : nodeOutEdges (transposeState st).nodes v = nodeOutEdges st.nodes v :=
    nodeOutEdges_transposeNodes st.nodes v
  rw [h1, h2]
  exact foldl_comm (kahnEdge edges) (kahnEdge edges) transposeState (kahnEdge_flip edges) _ _

theorem kahnLoop_flip (edges : List Edge) (o : Orient) (nodeWidth : JSNum) :
    ∀ (fuel x : Nat) (zs : List Nat) (st : KahnState),
      kahnLoop edges o.flip nodeWidth fuel x zs (transposeState st) =
        (kahnLoop edges o nodeWidth fuel x zs st).map
          (fun r => (r.1, transposeState r.2)) := by
  intro fuel
  induction fuel with
  | zero =>
    intro x zs st
    cases zs with
    | nil => rfl
    | cons v vs => rfl
  | succ fuel ih =>
    intro x zs st
    cases zs with
    | nil => rfl
    | cons v vs =>
      simp only [kahnLoop]
      have h := foldl_comm (kahnNode edges o nodeWidth x) (kahnNode edges o.flip nodeWidth x)
        transposeState (kahnNode_flip edges o nodeWidth x) (v :: vs) { st with nextNode := [] }
      have h0 : ({ transposeState st with nextNode := [] } : KahnState) =
          transposeState { st with nextNode := [] } := rfl
      rw [h0, h]
      generalize List.foldl (kahnNode edges o nodeWidth x) { st with nextNode := [] }
        (v :: vs) = st1
      exact ih (x + 1) st1.nextNode { st1 with nextNode := [] }

theorem moveSinksRight_flip (ns : List Node) (x : Nat) (o : Orient) :
    moveSinksRight (transposeNodes ns) x o.flip = transposeNodes (moveSinksRight ns x o) := by
  unfold moveSinksRight transposeNodes
  rw [List.map_map, List.map_map]
  apply List.map_congr_left
  intro nd _
  simp only [Function.comp_apply]
  split_ifs
  · simp only [setPrimaryCoord_flip]
  · rfl

theorem scaleNodeBreadths_flip (ns : List Node) (kx : JSNum) (o : Orient) :
    scaleNodeBreadths (transposeNodes ns) kx o.flip =
      transposeNodes (scaleNodeBreadths ns kx o) := by
  unfold scaleNodeBreadths transposeNodes
  rw [List.map_map, List.map_map]
  apply List.map_congr_left
  intro nd _
  simp only [Function.comp_apply, primaryCoord_flip, setPrimaryCoord_flip]

theorem breadthScale_flip (nodeWidth w h : JSNum) (o : Orient) (x : Nat) :
    breadthScale nodeWidth w h o.flip x = breadthScale nodeWidth h w o x := by
  unfold breadthScale
  rw [primaryExtent_flip]

theorem initialZeroIndegrees_flip (g : Graph) :
    initialZeroIndegrees (transposeGraph g) = initialZeroIndegrees g := by
  unfold initialZeroIndegrees
  show (List.range (transposeNodes g.nodes).length).filter _ = _
  rw [length_transposeNodes]
  apply List.filter_congr
  intro v _
  show decide ((nodeInEdges (transposeNodes g.nodes) v).length = 0) = _
  rw [nodeInEdges_transposeNodes]

theorem kahnInit_flip (g : Graph) : kahnInit (transposeGraph g) = transposeState (kahnInit g) := by
  unfold kahnInit transposeState transposeGraph transposeNodes
  simp only [List.map_map]
  rfl

theorem computeNodeLevels_flip (g : Graph) (nodeWidth : JSNum) (o : Orient) :
    computeNodeLevels (transposeGraph g) nodeWidth o.flip =
      (computeNodeLevels g nodeWidth o).map (fun r => (r.1, transposeNodes r.2)) := by
  unfold computeNodeLevels
  rw [initialZeroIndegrees_flip, kahnInit_flip]
  have hlen : (transposeGraph g).nodes.length = g.nodes.length := length_transposeNodes _
  have hed : (transposeGraph g).edges = g.edges := rfl
  rw [hlen, hed, kahnLoop_flip]
  cases kahnLoop g.edges o nodeWidth (g.nodes.length + 1) 0 (initialZeroIndegrees g)
      (kahnInit g) with
  | none => rfl
  | some r =>
    show some (r.1, moveSinksRight (transposeNodes r.2.nodes) r.1 o.flip) = _
    rw [moveSinksRight_flip]
    rfl

theorem computeNodeBreadths_flip (g : Graph) (nodeWidth w h : JSNum) (o : Orient) :
    computeNodeBreadths (transposeGraph g) nodeWidth w h o.flip =
      (computeNodeBreadths g nodeWidth h w o).map transposeGraph := by
  unfold computeNodeBreadths
  rw [computeNodeLevels_flip]
  cases computeNodeLevels g nodeWidth o with
  | none => rfl
  | some r =>
    simp only [Option.map_some']
    rw [scaleNodeBreadths_flip, breadthScale_flip]
    rfl

/-! ## Exchanging the axes: the depth stage -/

theorem prepareNodesByBreadth_flip (ns : List Node) (o : Orient) :
    prepareNodesByBreadth (transposeNodes ns) o.flip = prepareNodesByBreadth ns o := by
  unfold prepareNodesByBreadth
  simp only [length_transposeNodes, nodeLayout_transposeNodes, primaryCoord_flip]

theorem groupKy_flip (ns : List Node) (secExtent nodeGap : JSNum) (grp : List Nat) :
    groupKy (transposeNodes ns) secExtent nodeGap grp = groupKy ns secExtent nodeGap grp := by
  unfold groupKy
  simp only [nodeLayout_transposeNodes]
  rfl

theorem sharedKy_flip (ns : List Node) (groups : List (List Nat)) (secExtent nodeGap : JSNum) :
    sharedKy (transposeNodes ns) groups secExtent nodeGap =
      sharedKy ns groups secExtent nodeGap := by
  unfold sharedKy
  rw [funext (groupKy_flip ns secExtent nodeGap)]

theorem placeNode_flip (o : Orient) (ky0 : JSNum) (ns : List Node) (iv : Nat × Nat) :
    placeNode o.flip ky0 (transposeNodes ns) iv = transposeNodes (placeNode o ky0 ns iv) := by
  unfold placeNode
  simp only [nodeLayout_transposeNodes]
  apply setNodeLayout_transposeNodes
  intro l
  show setSecondarySize o.flip _ (setSecondaryCoord o.flip _ (transposeLayout l)) = _
  rw [setSecondaryCoord_flip, setSecondarySize_flip]
  rfl

theorem placeGroup_flip (o : Orient) (ky0 : JSNum) (ns : List Node) (grp : List Nat) :
    placeGroup o.flip ky0 (transposeNodes ns) grp = transposeNodes (placeGroup o ky0 ns grp) :=
  foldl_comm (placeNode o ky0) (placeNode o.flip ky0) transposeNodes (placeNode_flip o ky0) _ _

theorem initializeNodeDepth_flip (g : Graph) (groups : List (List Nat))
    (height width nodeGap : JSNum) (o : Orient) :
    initializeNodeDepth (transposeGraph g) groups height width nodeGap o.flip =
      transposeGraph (initializeNodeDepth g groups width height nodeGap o) := by
  unfold initializeNodeDepth
  simp only [secondaryExtent_flip]
  have h1 : (transposeGraph g).nodes = transposeNodes g.nodes := rfl
  have h2 : (transposeGraph g).edges = g.edges := rfl
  rw [h1, h2, sharedKy_flip]
  have h3 := foldl_comm (placeGroup o (sharedKy g.nodes groups (secondaryExtent o height width)
    nodeGap)) (placeGroup o.flip (sharedKy g.nodes groups (secondaryExtent o height width)
    nodeGap)) transposeNodes (placeGroup_flip o _) groups g.nodes
  rw [h3]
  rfl

theorem pushDown_flip (o : Orient) (gap : JSNum) (st : List Node × JSNum) (v : Nat) :
    pushDown o.flip gap (transposeNodes st.1, st.2) v =
      (transposeNodes (pushDown o gap st v).1, (pushDown o gap st v).2) := by
  unfold pushDown
  simp only [coordOf_flip]
  split_ifs
  · simp only [setCoord_flip, coordOf_flip, sizeOf_flip]
  · simp only [coordOf_flip, sizeOf_flip]

theorem pushUp_flip (o : Orient) (gap : JSNum) (st : List Node × JSNum) (v : Nat) :
    pushUp o.flip gap (transposeNodes st.1, st.2) v =
      (transposeNodes (pushUp o gap st v).1, (pushUp o gap st v).2) := by
  unfold pushUp
  simp only [coordOf_flip, sizeOf_flip]
  split_ifs
  · simp only [setCoord_flip, coordOf_flip]
  · simp only [coordOf_flip]

theorem resolveGroup_flip (o : Orient) (gap secExtent : JSNum) (ns : List Node)
    (grp : List Nat) :
    resolveGroup o.flip gap secExtent (transposeNodes ns) grp =
      (resolveGroup o gap secExtent ns grp).map (fun r => (r.1, transposeNodes r.2)) := by
  have hfwd := fun l => foldl_comm (pushDown o gap) (pushDown o.flip gap)
    (fun st => (transposeNodes st.1, st.2)) (pushDown_flip o gap) l (ns, JSNum.fin 0)
  have hbwd := fun l s => foldl_comm (pushUp o gap) (pushUp o.flip gap)
    (fun st => (transposeNodes st.1, st.2)) (pushUp_flip o gap) l s
  simp only at hfwd hbwd
  unfold resolveGroup
  simp only [coordOf_flip, hfwd]
  split_ifs
  · cases (jsSort (fun a b => (coordOf o ns a).sub (coordOf o ns b)) grp).reverse with
    | nil => rfl
    | cons last rest =>
      simp only [coordOf_flip, setCoord_flip, Option.map_some']
      rw [hbwd rest (_, _)]
  · rfl

theorem resolveGroups_flip (o : Orient) (gap secExtent : JSNum) (groups : List (List Nat)) :
    ∀ ns : List Node, resolveGroups o.flip gap secExtent groups (transposeNodes ns) =
      (resolveGroups o gap secExtent groups ns).map (fun r => (r.1, transposeNodes r.2)) := by
  induction groups with
  | nil => intro ns; rfl
  | cons grp rest ih =>
    intro ns
    unfold resolveGroups
    rw [resolveGroup_flip]
    cases resolveGroup o gap secExtent ns grp with
    | none => rfl
    | some r =>
      simp only [Option.map_some']
      rw [ih]
      cases resolveGroups o gap secExtent rest r.2 with
      | none => rfl
      | some q => rfl

theorem resolveCollisions_flip (groups : List (List Nat)) (ns : List Node)
    (nodeGap height width : JSNum) (o : Orient) :
    resolveCollisions groups (transposeNodes ns) nodeGap height width o.flip =
      (resolveCollisions groups ns nodeGap width height o).map
        (fun r => (r.1, transposeNodes r.2)) := by
  unfold resolveCollisions
  rw [secondaryExtent_flip, resolveGroups_flip]

/-! ## Exchanging the axes: relaxation, edge offsets and the pipeline -/

theorem weightedTarget_flip (o : Orient) (ns : List Node) (edges : List Edge) (e : Nat) :
    weightedTarget o.flip (transposeNodes ns) edges e = weightedTarget o ns edges e := by
  unfold weightedTarget
  cases edges[e]? with
  | none => rfl
  | some ed => simp only [center_flip]

theorem weightedSource_flip (o : Orient) (ns : List Node) (edges : List Edge) (e : Nat) :
    weightedSource o.flip (transposeNodes ns) edges e = weightedSource o ns edges e := by
  unfold weightedSource
  cases edges[e]? with
  | none => rfl
  | some ed => simp only [center_flip]

theorem relaxNodeRight_flip (o : Orient) (edges : List Edge) (alpha : JSNum) (ns : List Node)
    (v : Nat) :
    relaxNodeRight o.flip edges alpha (transposeNodes ns) v =
      transposeNodes (relaxNodeRight o edges alpha ns v) := by
  unfold relaxNodeRight
  rw [nodeOutEdges_transposeNodes, funext (weightedTarget_flip o ns edges)]
  split_ifs
  · simp only [coordOf_flip, center_flip, setCoord_flip]
  · rfl

theorem relaxNodeLeft_flip (o : Orient) (edges : List Edge) (alpha : JSNum) (ns : List Node)
    (v : Nat) :
    relaxNodeLeft o.flip edges alpha (transposeNodes ns) v =
      transposeNodes (relaxNodeLeft o edges alpha ns v) := by
  unfold relaxNodeLeft
  rw [nodeInEdges_transposeNodes, funext (weightedSource_flip o ns edges)]
  split_ifs
  · simp only [coordOf_flip, center_flip, setCoord_flip]
  · rfl

theorem relaxRightToLeft_flip (groups : List (List Nat)) (ns : List Node) (edges : List Edge)
    (alpha : JSNum) (o : Orient) :
    relaxRightToLeft groups (transposeNodes ns) edges alpha o.flip =
      transposeNodes (relaxRightToLeft groups ns edges alpha o) := by
  unfold relaxRightToLeft
  apply foldl_comm
  intro s grp
  exact foldl_comm _ _ transposeNodes (relaxNodeRight_flip o edges alpha) grp s

theorem relaxLeftToRight_flip (groups : List (List Nat)) (ns : List Node) (edges : List Edge)
    (alpha : JSNum) (o : Orient) :
    relaxLeftToRight groups (transposeNodes ns) edges alpha o.flip =
      transposeNodes (relaxLeftToRight groups ns edges alpha o) := by
  unfold relaxLeftToRight
  apply foldl_comm
  intro s grp
  exact foldl_comm _ _ transposeNodes (relaxNodeLeft_flip o edges alpha) grp s

theorem relaxLoop_flip (edges : List Edge) (nodeGap height width : JSNum) (o : Orient)
    (iterations : Nat) :
    ∀ (alpha : JSNum) (groups : List (List Nat)) (ns : List Node),
      relaxLoop edges nodeGap height width o.flip iterations alpha groups (transposeNodes ns) =
        (relaxLoop edges nodeGap width height o iterations alpha groups ns).map
          (fun r => (r.1, transposeNodes r.2)) := by
  induction iterations with
  | zero => intro alpha groups ns; rfl
  | succ k ih =>
    intro alpha groups ns
    unfold relaxLoop
    simp only
    rw [relaxRightToLeft_flip, resolveCollisions_flip]
    cases resolveCollisions groups
        (relaxRightToLeft groups ns edges (alpha.mul (JSNum.fin (99 / 100))) o) nodeGap width
        height o with
    | none => rfl
    | some q =>
      simp only [Option.map_some']
      rw [relaxLeftToRight_flip, resolveCollisions_flip]
      cases resolveCollisions q.1
          (relaxLeftToRight q.1 q.2 edges (alpha.mul (JSNum.fin (99 / 100))) o) nodeGap width
          height o with
      | none => rfl
      | some q2 =>
        simp only [Option.map_some']
        exact ih _ _ _

theorem computeNodeDepths_flip (g : Graph) (height width nodeGap : JSNum) (iterations : Nat)
    (o : Orient) :
    computeNodeDepths (transposeGraph g) height width nodeGap iterations o.flip =
      (computeNodeDepths g width height nodeGap iterations o).map transposeGraph := by
  unfold computeNodeDepths
  simp only
  have h1 : (transposeGraph g).nodes = transposeNodes g.nodes := rfl
  rw [h1, prepareNodesByBreadth_flip, initializeNodeDepth_flip]
  have h2 : ∀ g0 : Graph, (transposeGraph g0).nodes = transposeNodes g0.nodes := fun _ => rfl
  have h3 : ∀ g0 : Graph, (transposeGraph g0).edges = g0.edges := fun _ => rfl
  rw [h2, h3, resolveCollisions_flip]
  cases resolveCollisions (prepareNodesByBreadth g.nodes o)
      (initializeNodeDepth g (prepareNodesByBreadth g.nodes o) width height nodeGap o).nodes
      nodeGap width height o with
  | none => rfl
  | some q =>
    simp only [Option.map_some']
    rw [relaxLoop_flip]
    cases relaxLoop (initializeNodeDepth g (prepareNodesByBreadth g.nodes o) width height
        nodeGap o).edges nodeGap width height o iterations (JSNum.fin 1) q.1 q.2 with
    | none => rfl
    | some r => rfl

theorem targetCoord_flip (o : Orient) (ns : List Node) (edges : List Edge) (e : Nat) :
    targetCoord o.flip (transposeNodes ns) edges e = targetCoord o ns edges e := by
  unfold targetCoord
  cases edges[e]? with
  | none => rfl
  | some ed => simp only [coordOf_flip]

theorem sourceCoord_flip (o : Orient) (ns : List Node) (edges : List Edge) (e : Nat) :
    sourceCoord o.flip (transposeNodes ns) edges e = sourceCoord o ns edges e := by
  unfold sourceCoord
  cases edges[e]? with
  | none => rfl
  | some ed => simp only [coordOf_flip]

theorem sortEdgeLists_flip (g : Graph) (o : Orient) :
    sortEdgeLists (transposeGraph g) o.flip = transposeNodes (sortEdgeLists g o) := by
  unfold sortEdgeLists
  have h1 : (transposeGraph g).nodes = transposeNodes g.nodes := rfl
  have h2 : (transposeGraph g).edges = g.edges := rfl
  rw [h1, h2, funext (targetCoord_flip o g.nodes g.edges),
    funext (sourceCoord_flip o g.nodes g.edges)]
  unfold transposeNodes
  rw [List.map_map, List.map_map]
  rfl

theorem foldl_stackNode_transposeNodes (ns : List Node) (edges : List Edge) :
    (transposeNodes ns).foldl stackNode edges = ns.foldl stackNode edges := by
  unfold transposeNodes
  rw [List.foldl_map]
  rfl

theorem computeEdgeDepths_flip (g : Graph) (o : Orient) :
    computeEdgeDepths (transposeGraph g) o.flip = transposeGraph (computeEdgeDepths g o) := by
  unfold computeEdgeDepths
  simp only
  rw [sortEdgeLists_flip, foldl_stackNode_transposeNodes]
  rfl

/-- The function `layoutSankey` with the two axes exchanged: the run in the other orientation,
with width and height exchanged, on the graph with the axes of every node layout exchanged,
returns the result with the axes of every node layout exchanged; the edges and the edge lists
are the same. -/
theorem layoutSankey_flip (g : Graph) (nodeWidth nodeGap width height : JSNum)
    (iterations : Nat) (o : Orient) :
    layoutSankey (transposeGraph g) nodeWidth nodeGap width height iterations o.flip =
      (layoutSankey g nodeWidth nodeGap height width iterations o).map transposeGraph := by
  unfold layoutSankey
  rw [computeNodeBreadths_flip]
  cases computeNodeBreadths g nodeWidth height width o with
  | none => rfl
  | some b =>
    simp only [Option.map_some']
    rw [computeNodeDepths_flip]
    cases computeNodeDepths b width height nodeGap iterations o with
    | none => rfl
    | some d =>
      simp only [Option.map_some']
      rw [computeEdgeDepths_flip]

/-! ## Orientation symmetry -/

theorem edgeLists_transposeNodes (ns : List Node) :
    edgeLists (transposeNodes ns) = edgeLists ns := by
  unfold edgeLists transposeNodes
  rw [List.map_map]
  rfl

/-- C12, as it is written, fails on a graph that keeps a field from before the call: on the
cyclic graph `cycleGraph` carrying `x = 1`, `y = 2`, `dx = 3`, `dy = 4` no node is given a
level, so the vertical run (width 200, height 300) scales the `y` it finds to `-560` and keeps
`dy = 4`, while the horizontal run (width 300, height 200) scales the `x` it finds to `-280`
and keeps `dx = 3`. -/
theorem orientation_asymmetric_leftover :
    (layoutSankey (cycleGraph ⟨JSNum.fin 1, JSNum.fin 2, JSNum.fin 3, JSNum.fin 4, JSNum.fin 5⟩)
        (JSNum.fin 20) (JSNum.fin 8) (JSNum.fin 200) (JSNum.fin 300) 2 Orient.vertical).map
        (fun o => o.nodes.map (fun nd => (nd.layout.y, nd.layout.dy))) =
      some [(JSNum.fin (-560), JSNum.fin 4), (JSNum.fin (-560), JSNum.fin 4)] ∧
    (layoutSankey (cycleGraph ⟨JSNum.fin 1, JSNum.fin 2, JSNum.fin 3, JSNum.fin 4, JSNum.fin 5⟩)
        (JSNum.fin 20) (JSNum.fin 8) (JSNum.fin 300) (JSNum.fin 200) 2 Orient.horizontal).map
        (fun o => o.nodes.map (fun nd => (nd.layout.x, nd.layout.dx))) =
      some [(JSNum.fin (-280), JSNum.fin 3), (JSNum.fin (-280), JSNum.fin 3)] ∧
    layoutSankey (cycleGraph ⟨JSNum.fin 1, JSNum.fin 2, JSNum.fin 3, JSNum.fin 4, JSNum.fin 5⟩)
        (JSNum.fin 20) (JSNum.fin 8) (JSNum.fin 200) (JSNum.fin 300) 2 Orient.vertical ≠
      (layoutSankey (cycleGraph ⟨JSNum.fin 1, JSNum.fin 2, JSNum.fin 3, JSNum.fin 4,
        JSNum.fin 5⟩) (JSNum.fin 20) (JSNum.fin 8) (JSNum.fin 300) (JSNum.fin 200) 2
        Orient.horizontal).map transposeGraph := by
  refine ⟨by decide!, by decide!, by decide!⟩

/-- C12 (amended): for every configuration and every graph that is acyclic and well-formed, or
whose nodes carry layout fields that the exchange of `x` with `y` and of `dx` with `dy` leaves
as they are (in particular no layout fields), `layoutSankey` with `orient = 'vertical'` and
`(width, height) = (W, H)` gives the result of the run with `orient = 'horizontal'` and
`(width, height) = (H, W)` with `x`/`y` and `dx`/`dy` of every node exchanged, and the same
edges (`dy`, `sy`, `ty`) and edge lists. -/
theorem orientation_symmetry (g : Graph)
    (h : transposeGraph g = g ∨ (WellFormed g ∧ Acyclic g))
    (nodeWidth nodeGap W H : JSNum) (iterations : Nat) :
    layoutSankey g nodeWidth nodeGap W H iterations Orient.vertical =
      (layoutSankey g nodeWidth nodeGap H W iterations Orient.horizontal).map
        transposeGraph := by
  have hflip := layoutSankey_flip g nodeWidth nodeGap W H iterations Orient.horizontal
  have hv : Orient.horizontal.flip = Orient.vertical := rfl
  rw [hv] at hflip
  rcases h with h | ⟨hwf, hac⟩
  · rw [h] at hflip
    exact hflip
  · obtain ⟨o, h1, h2⟩ := layoutSankey_congr_values g (transposeGraph g) hwf hac
      (edgeLists_transposeNodes g.nodes) rfl
      (fun v => by
        show _ = (nodeLayout (transposeNodes g.nodes) v).value
        rw [nodeLayout_transposeNodes]
        rfl)
      nodeWidth nodeGap W H iterations Orient.vertical
    rw [h1, ← h2]
    exact hflip

theorem orientation_symmetry_witness :
    (transposeGraph crossGraph = crossGraph ∨ (WellFormed crossGraph ∧ Acyclic crossGraph)) ∧
    (transposeGraph crossGraphStale = crossGraphStale ∨
      (WellFormed crossGraphStale ∧ Acyclic crossGraphStale)) ∧
    layoutSankey crossGraph (JSNum.fin 20) (JSNum.fin 8) (JSNum.fin 200) (JSNum.fin 300) 2
        Orient.vertical =
      (layoutSankey crossGraph (JSNum.fin 20) (JSNum.fin 8) (JSNum.fin 300) (JSNum.fin 200) 2
        Orient.horizontal).map transposeGraph ∧
    layoutSankey crossGraphStale (JSNum.fin 20) (JSNum.fin 8) (JSNum.fin 200) (JSNum.fin 300) 2
        Orient.vertical =
      (layoutSankey crossGraphStale (JSNum.fin 20) (JSNum.fin 8) (JSNum.fin 300) (JSNum.fin 200)
        2 Orient.horizontal).map transposeGraph :=
  ⟨Or.inl rfl,
    Or.inr ⟨⟨by decide, by decide, by decide, by decide⟩,
      acyclic_of_rank crossGraphStale id (by decide)⟩,
    orientation_symmetry crossGraph (Or.inl rfl) (JSNum.fin 20) (JSNum.fin 8) (JSNum.fin 200)
      (JSNum.fin 300) 2,
    orientation_symmetry crossGraphStale
      (Or.inr ⟨⟨by decide, by decide, by decide, by decide⟩,
        acyclic_of_rank crossGraphStale id (by decide)⟩)
      (JSNum.fin 20) (JSNum.fin 8) (JSNum.fin 200) (JSNum.fin 300) 2⟩

/-- The vertical run on `crossGraph` evaluated: node A at `y = 0`, the sinks B and C at
`y = 280`, with the breadth sizes in `dy` and the depth fields in `x` and `dx`. -/
theorem orientation_example :
    (layoutSankey (computeNodeValues crossGraph) (JSNum.fin 20) (JSNum.fin 8) (JSNum.fin 200)
        (JSNum.fin 300) 0 Orient.vertical).map
        (fun o => o.nodes.map (fun nd => (nd.layout.x, nd.layout.y, nd.layout.dx, nd.layout.dy))) =
      some [(JSNum.fin 0, JSNum.fin 0, JSNum.fin 192, JSNum.fin 20),
        (JSNum.fin 0, JSNum.fin 280, JSNum.fin 128, JSNum.fin 20),
        (JSNum.fin 136, JSNum.fin 280, JSNum.fin 64, JSNum.fin 20)] := by
  decide!

/-! ## What `resolveCollisions` does to one group among the others -/

theorem pushDown_frame (orient : Orient) (gap : JSNum) (st : List Node × JSNum) (v : Nat) :
    (pushDown orient gap st v).1.length = st.1.length ∧
      (∀ w, sizeOf orient (pushDown orient gap st v).1 w = sizeOf orient st.1 w) ∧
      ∀ w, w ≠ v → coordOf orient (pushDown orient gap st v).1 w = coordOf orient st.1 w := by
  unfold pushDown
  simp only
  split_ifs
  · refine ⟨length_setCoord _ _ _ _, fun w => sizeOf_setCoord _ _ _ _ _, fun w hw => ?_⟩
    rw [coordOf_setCoord, if_neg (fun hc => hw hc.1.symm)]
  · exact ⟨rfl, fun _ => rfl, fun _ _ => rfl⟩

theorem pushUp_frame (orient : Orient) (gap : JSNum) (st : List Node × JSNum) (v : Nat) :
    (pushUp orient gap st v).1.length = st.1.length ∧
      (∀ w, sizeOf orient (pushUp orient gap st v).1 w = sizeOf orient st.1 w) ∧
      ∀ w, w ≠ v → coordOf orient (pushUp orient gap st v).1 w = coordOf orient st.1 w := by
  unfold pushUp
  simp only
  split_ifs
  · refine ⟨length_setCoord _ _ _ _, fun w => sizeOf_setCoord _ _ _ _ _, fun w hw => ?_⟩
    rw [coordOf_setCoord, if_neg (fun hc => hw hc.1.symm)]
  · exact ⟨rfl, fun _ => rfl, fun _ _ => rfl⟩

theorem foldl_pushDown_frame (orient : Orient) (gap : JSNum) (l : List Nat) :
    ∀ st : List Node × JSNum,
      (l.foldl (pushDown orient gap) st).1.length = st.1.length ∧
      (∀ w, sizeOf orient (l.foldl (pushDown orient gap) st).1 w = sizeOf orient st.1 w) ∧
      ∀ w, w ∉ l → coordOf orient (l.foldl (pushDown orient gap) st).1 w =
        coordOf orient st.1 w := by
  induction l with
  | nil => intro st; exact ⟨rfl, fun _ => rfl, fun _ _ => rfl⟩
  | cons v l ih =>
    intro st
    obtain ⟨h1, h2, h3⟩ := ih (pushDown orient gap st v)
    obtain ⟨k1, k2, k3⟩ := pushDown_frame orient gap st v
    rw [List.foldl_cons]
    refine ⟨by rw [h1, k1], fun w => by rw [h2, k2], fun w hw => ?_⟩
    rw [h3 w (fun h => hw (List.mem_cons_of_mem _ h)),
      k3 w (fun h => hw (h ▸ List.mem_cons_self _ _))]

theorem foldl_pushUp_frame (orient : Orient) (gap : JSNum) (l : List Nat) :
    ∀ st : List Node × JSNum,
      (l.foldl (pushUp orient gap) st).1.length = st.1.length ∧
      (∀ w, sizeOf orient (l.foldl (pushUp orient gap) st).1 w = sizeOf orient st.1 w) ∧
      ∀ w, w ∉ l → coordOf orient (l.foldl (pushUp orient gap) st).1 w =
        coordOf orient st.1 w := by
  induction l with
  | nil => intro st; exact ⟨rfl, fun _ => rfl, fun _ _ => rfl⟩
  | cons v l ih =>
    intro st
    obtain ⟨h1, h2, h3⟩ := ih (pushUp orient gap st v)
    obtain ⟨k1, k2, k3⟩ := pushUp_frame orient gap st v
    rw [List.foldl_cons]
    refine ⟨by rw [h1, k1], fun w => by rw [h2, k2], fun w hw => ?_⟩
    rw [h3 w (fun h => hw (List.mem_cons_of_mem _ h)),
      k3 w (fun h => hw (h ▸ List.mem_cons_self _ _))]

/-- The body of `resolveCollisions` for one group keeps the sizes of all nodes and the depth
coordinates of the nodes outside the group. -/
theorem resolveGroup_keeps (orient : Orient) (gap secExtent : JSNum) (nodes : List Node)
    (grp : List Nat) (r : List Nat × List Node)
    (h : resolveGroup orient gap secExtent nodes grp = some r) :
    r.2.length = nodes.length ∧ (∀ w, sizeOf orient r.2 w = sizeOf orient nodes w) ∧
      ∀ w, w ∉ grp → coordOf orient r.2 w = coordOf orient nodes w := by
  have hmem : ∀ w, w ∈ jsSort (fun a b => (coordOf orient nodes a).sub (coordOf orient nodes b))
      grp ↔ w ∈ grp := mem_jsSort _ _
  obtain ⟨f1, f2, f3⟩ := foldl_pushDown_frame orient gap
    (jsSort (fun a b => (coordOf orient nodes a).sub (coordOf orient nodes b)) grp)
    (nodes, JSNum.fin 0)
  unfold resolveGroup at h
  simp only at h
  split_ifs at h
  · split at h
    · cases h
    · rename_i last rest hrev
      cases h
      have hmem' : ∀ w, w ∈ last :: rest ↔ w ∈ grp := by
        intro w
        rw [← hrev, List.mem_reverse]
        exact hmem w
      obtain ⟨b1, b2, b3⟩ := foldl_pushUp_frame orient gap rest
        (setCoord orient (List.foldl (pushDown orient gap) (nodes, JSNum.fin 0)
          (jsSort (fun a b => (coordOf orient nodes a).sub (coordOf orient nodes b)) grp)).1
          last ((coordOf orient (List.foldl (pushDown orient gap) (nodes, JSNum.fin 0)
            (jsSort (fun a b => (coordOf orient nodes a).sub (coordOf orient nodes b))
              grp)).1 last).sub
            (((List.foldl (pushDown orient gap) (nodes, JSNum.fin 0)
              (jsSort (fun a b => (coordOf orient nodes a).sub (coordOf orient nodes b))
                grp)).2.sub gap).sub secExtent)),
          (coordOf orient (List.foldl (pushDown orient gap) (nodes, JSNum.fin 0)
            (jsSort (fun a b => (coordOf orient nodes a).sub (coordOf orient nodes b))
              grp)).1 last).sub
            (((List.foldl (pushDown orient gap) (nodes, JSNum.fin 0)
              (jsSort (fun a b => (coordOf orient nodes a).sub (coordOf orient nodes b))
                grp)).2.sub gap).sub secExtent))
      simp only at b1 b2 b3 ⊢
      refine ⟨by rw [b1, length_setCoord, f1], fun w => by rw [b2, sizeOf_setCoord, f2],
        fun w hw => ?_⟩
      have hwl : w ≠ last := fun hc => hw ((hmem' w).mp (hc ▸ List.mem_cons_self _ _))
      have hwr : w ∉ rest := fun hc => hw ((hmem' w).mp (List.mem_cons_of_mem _ hc))
      rw [b3 w hwr, coordOf_setCoord, if_neg (fun hc => hwl hc.1.symm),
        f3 w (fun hc => hw ((hmem w).mp hc))]
  · cases h
    exact ⟨f1, f2, fun w hw => f3 w (fun hc => hw ((hmem w).mp hc))⟩

/-- The loop of `resolveCollisions` keeps the sizes of all nodes and the depth coordinates of
the nodes outside the groups. -/
theorem resolveGroups_keeps (orient : Orient) (gap secExtent : JSNum)
    (groups : List (List Nat)) :
    ∀ (nodes : List Node) (r : List (List Nat) × List Node),
      resolveGroups orient gap secExtent groups nodes = some r →
      r.2.length = nodes.length ∧ (∀ w, sizeOf orient r.2 w = sizeOf orient nodes w) ∧
        ∀ w, (∀ g ∈ groups, w ∉ g) → coordOf orient r.2 w = coordOf orient nodes w := by
  induction groups with
  | nil =>
    intro nodes r h
    simp only [resolveGroups, Option.some.injEq] at h
    subst h
    exact ⟨rfl, fun _ => rfl, fun _ _ => rfl⟩
  | cons grp rest ih =>
    intro nodes r h
    unfold resolveGroups at h
    cases h1 : resolveGroup orient gap secExtent nodes grp with
    | none => rw [h1] at h; cases h
    | some r1 =>
      rw [h1] at h
      simp only at h
      cases h2 : resolveGroups orient gap secExtent rest r1.2 with
      | none => rw [h2] at h; cases h
      | some r2 =>
        rw [h2] at h
        simp only [Option.some.injEq] at h
        subst h
        obtain ⟨a1, a2, a3⟩ := resolveGroup_keeps orient gap secExtent nodes grp r1 h1
        obtain ⟨b1, b2, b3⟩ := ih r1.2 r2 h2
        refine ⟨by rw [b1, a1], fun w => by rw [b2, a2], fun w hw => ?_⟩
        rw [b3 w (fun g hg => hw g (List.mem_cons_of_mem _ hg)),
          a3 w (hw grp (List.mem_cons_self _ _))]

/-- The loop of `resolveCollisions` seen from one group: when no group is empty and the nodes
of group `i` are in no other group, the loop returns, and it treats group `i` by one call of
the body on nodes `nodesA` that have the sizes and, for the nodes of the group, the depth
coordinates of the start; the result has the sizes and, for the nodes of the group, the depth
coordinates that this call leaves. -/
theorem resolveGroups_at (orient : Orient) (gap secExtent : JSNum) (groups : List (List Nat)) :
    ∀ (nodes : List Node) (i : Nat) (grp : List Nat), groups[i]? = some grp →
      (∀ g ∈ groups, g ≠ []) →
      (∀ j g, j ≠ i → groups[j]? = some g → ∀ v ∈ grp, v ∉ g) →
      ∃ (r : List (List Nat) × List Node) (nodesA : List Node) (rB : List Nat × List Node),
        resolveGroups orient gap secExtent groups nodes = some r ∧
        nodesA.length = nodes.length ∧
        (∀ w, sizeOf orient nodesA w = sizeOf orient nodes w) ∧
        (∀ v ∈ grp, coordOf orient nodesA v = coordOf orient nodes v) ∧
        resolveGroup orient gap secExtent nodesA grp = some rB ∧
        r.1[i]? = some rB.1 ∧
        r.2.length = nodes.length ∧
        (∀ w, sizeOf orient r.2 w = sizeOf orient nodes w) ∧
        ∀ v ∈ grp, coordOf orient r.2 v = coordOf orient rB.2 v := by
  induction groups with
  | nil => intro nodes i grp hi; cases hi
  | cons g0 rest ih =>
    intro nodes i grp hi hne hdisj
    obtain ⟨r0, h0⟩ := resolveGroup_isSome orient gap secExtent nodes g0
      (hne g0 (List.mem_cons_self _ _))
    obtain ⟨a1, a2, a3⟩ := resolveGroup_keeps orient gap secExtent nodes g0 r0 h0
    have hne' : ∀ g ∈ rest, g ≠ [] := fun g hg => hne g (List.mem_cons_of_mem _ hg)
    cases i with
    | zero =>
      simp only [List.getElem?_cons_zero, Option.some.injEq] at hi
      subst hi
      obtain ⟨r1, h1⟩ := resolveGroups_isSome orient gap secExtent rest r0.2 hne'
      obtain ⟨b1, b2, b3⟩ := resolveGroups_keeps orient gap secExtent rest r0.2 r1 h1
      refine ⟨(r0.1 :: r1.1, r1.2), nodes, r0, ?_, rfl, fun _ => rfl, fun _ _ => rfl, h0,
        List.getElem?_cons_zero, by rw [b1, a1], fun w => by rw [b2, a2], ?_⟩
      · unfold resolveGroups
        rw [h0]
        simp only
        rw [h1]
      · intro v hv
        apply b3
        intro g hg hvg
        obtain ⟨j, hj⟩ := List.mem_iff_getElem?.mp hg
        exact hdisj (j + 1) g (Nat.succ_ne_zero j) (by simpa using hj) v hv hvg
    | succ k =>
      simp only [List.getElem?_cons_succ] at hi
      have hdisj' : ∀ j g, j ≠ k → rest[j]? = some g → ∀ v ∈ grp, v ∉ g := by
        intro j g hj hg
        exact hdisj (j + 1) g (fun h => hj (Nat.succ_injective h)) (by simpa using hg)
      obtain ⟨r, nodesA, rB, hr, c1, c2, c3, c4, c5, c6, c7, c8⟩ :=
        ih r0.2 k grp hi hne' hdisj'
      have hout : ∀ v ∈ grp, v ∉ g0 := hdisj 0 g0 (Nat.succ_ne_zero k).symm
        List.getElem?_cons_zero
      refine ⟨(r0.1 :: r.1, r.2), nodesA, rB, ?_, by rw [c1, a1], fun w => by rw [c2, a2],
        fun v hv => by rw [c3 v hv, a3 v (hout v hv)], c4, by simpa using c5, by rw [c6, a1],
        fun w => by rw [c7, a2], c8⟩
      unfold resolveGroups
      rw [h0]
      simp only
      rw [hr]

/-! ## Groups of one node -/

/-- The body of `resolveCollisions` for a group of one node with finite coordinate `c` and
size `s`: a negative coordinate is first raised to `0`, and when the node then ends beyond the
extent `E` it is set to `E - s`. -/
theorem resolveGroup_single (orient : Orient) (γ E c s : ℚ) (nodes : List Node) (v : Nat)
    (hv : v < nodes.length) (hc : coordOf orient nodes v = JSNum.fin c)
    (hs : sizeOf orient nodes v = JSNum.fin s) :
    ∃ nodes', resolveGroup orient (JSNum.fin γ) (JSNum.fin E) nodes [v] = some ([v], nodes') ∧
      coordOf orient nodes' v = JSNum.fin (if E < max c 0 + s then E - s else max c 0) := by
  obtain ⟨nodes1, hstep, hlen1, _, _, hcv1⟩ := pushDown_eq orient γ 0 c s nodes v hv hc hs
  have hsort : jsSort (fun a b => (coordOf orient nodes a).sub (coordOf orient nodes b)) [v] =
      [v] := rfl
  unfold resolveGroup
  simp only
  rw [hsort, List.foldl_cons, List.foldl_nil, hstep]
  simp only [jsSub_fin, jsGt_fin, List.reverse_singleton, List.foldl_nil, hcv1]
  by_cases h : E < max c 0 + s
  · rw [if_pos h, if_pos (by simpa using (by linarith : 0 < max c 0 + s + γ - γ - E))]
    refine ⟨_, rfl, ?_⟩
    rw [coordOf_setCoord, if_pos ⟨rfl, by rw [hlen1]; exact hv⟩]
    congr 1
    ring
  · rw [if_neg h, if_neg (by simpa using (by linarith : ¬ 0 < max c 0 + s + γ - γ - E))]
    exact ⟨_, rfl, hcv1⟩

/-- C13, as it is written, fails for a node that starts above the axis: a group of one node
with depth coordinate `-1` and depth size `10` on an axis of extent `100` does not exceed the
extent (`-1 + 10 <= 100`), and `resolveCollisions` moves the node to `0`. -/
theorem single_node_raised :
    coordOf Orient.horizontal aboveAxisNodes 0 = JSNum.fin (-1) ∧
    sizeOf Orient.horizontal aboveAxisNodes 0 = JSNum.fin 10 ∧
    (resolveCollisions [[0]] aboveAxisNodes (JSNum.fin 8) (JSNum.fin 100) (JSNum.fin 300)
      Orient.horizontal).map (fun r => coordOf Orient.horizontal r.2 0) =
      some (JSNum.fin 0) := by
  refine ⟨by decide!, by decide!, by decide!⟩

/-- The same in the pipeline: on `unevenChain` (extent 300 by 200, node width 20, gap 8), after
the first sweep from left to right the middle node, alone in its group, has depth coordinate
`-99/125` and depth size `200`, so it ends inside the extent `200`; the collision resolution of
the pipeline then moves it to `0`. -/
theorem single_node_raised_in_pipeline :
    ((computeNodeBreadths (computeNodeValues unevenChain) (JSNum.fin 20) (JSNum.fin 300)
        (JSNum.fin 200) Orient.horizontal).bind (fun b =>
      let g1 := initializeNodeDepth b (prepareNodesByBreadth b.nodes Orient.horizontal)
        (JSNum.fin 200) (JSNum.fin 300) (JSNum.fin 8) Orient.horizontal
      (resolveCollisions (prepareNodesByBreadth b.nodes Orient.horizontal) g1.nodes (JSNum.fin 8)
        (JSNum.fin 200) (JSNum.fin 300) Orient.horizontal).bind (fun r1 =>
      (resolveCollisions r1.1
        (relaxRightToLeft r1.1 r1.2 g1.edges (JSNum.fin (99 / 100)) Orient.horizontal)
        (JSNum.fin 8) (JSNum.fin 200) (JSNum.fin 300) Orient.horizontal).map (fun r2 =>
      (coordOf Orient.horizontal
        (relaxLeftToRight r2.1 r2.2 g1.edges (JSNum.fin (99 / 100)) Orient.horizontal) 1,
        sizeOf Orient.horizontal
        (relaxLeftToRight r2.1 r2.2 g1.edges (JSNum.fin (99 / 100)) Orient.horizontal) 1))))) =
      some (JSNum.fin (-99 / 125), JSNum.fin 200) ∧
    (layoutSankey (computeNodeValues unevenChain) (JSNum.fin 20) (JSNum.fin 8) (JSNum.fin 300)
      (JSNum.fin 200) 1 Orient.horizontal).map (fun o => coordOf Orient.horizontal o.nodes 1) =
      some (JSNum.fin 0) := by
  refine ⟨by decide!, by decide!⟩

/-- C13 (amended): for every level group that contains exactly one node, with finite depth
coordinate `c`, depth size `s`, gap and extent `E`, among groups none of which is empty and
none of which holds the node, `resolveCollisions` returns, keeps the group, and sets the depth
coordinate of the node to `max c 0`, or to `E - s` when `max c 0 + s` exceeds `E`.  So the
coordinate is unchanged whenever `0 <= c` and `c + s <= E`; a node with `c < 0` that fits the
extent is moved to `0`; and a node that exceeds the extent ends with `coord + size = E`. -/
theorem resolveCollisions_single (nodesByBreadth : List (List Nat)) (nodes : List Node)
    (height width : JSNum) (orient : Orient) (γ E c s : ℚ) (i v : Nat)
    (hE : secondaryExtent orient width height = JSNum.fin E)
    (hi : nodesByBreadth[i]? = some [v])
    (hne : ∀ g ∈ nodesByBreadth, g ≠ [])
    (hdisj : ∀ j g, j ≠ i → nodesByBreadth[j]? = some g → v ∉ g)
    (hv : v < nodes.length) (hc : coordOf orient nodes v = JSNum.fin c)
    (hs : sizeOf orient nodes v = JSNum.fin s) :
    ∃ (groups' : List (List Nat)) (nodes' : List Node),
      resolveCollisions nodesByBreadth nodes (JSNum.fin γ) height width orient =
        some (groups', nodes') ∧
      groups'[i]? = some [v] ∧
      sizeOf orient nodes' v = JSNum.fin s ∧
      coordOf orient nodes' v = JSNum.fin (if E < max c 0 + s then E - s else max c 0) ∧
      (0 ≤ c → c + s ≤ E → coordOf orient nodes' v = JSNum.fin c) ∧
      (c < 0 → s ≤ E → coordOf orient nodes' v = JSNum.fin 0) ∧
      (E < max c 0 + s →
        (coordOf orient nodes' v).add (sizeOf orient nodes' v) = JSNum.fin E) := by
  obtain ⟨r, nodesA, rB, hr, a1, a2, a3, a4, a5, a6, a7, a8⟩ :=
    resolveGroups_at orient (JSNum.fin γ) (JSNum.fin E) nodesByBreadth nodes i [v] hi hne
      (fun j g hj hg w hw => by
        rw [List.mem_singleton.mp hw]
        exact hdisj j g hj hg)
  have hvm : v ∈ [v] := List.mem_singleton.mpr rfl
  obtain ⟨nodes', hres, hco⟩ := resolveGroup_single orient γ E c s nodesA v (by rw [a1]; exact hv)
    (by rw [a3 v hvm]; exact hc) (by rw [a2]; exact hs)
  rw [a4] at hres
  cases hres
  have hfin : coordOf orient r.2 v =
      JSNum.fin (if E < max c 0 + s then E - s else max c 0) := by
    rw [a8 v hvm]
    exact hco
  have hsz : sizeOf orient r.2 v = JSNum.fin s := by rw [a7]; exact hs
  refine ⟨r.1, r.2, ?_, a5, hsz, hfin, ?_, ?_, ?_⟩
  · unfold resolveCollisions
    rw [hE]
    exact hr
  · intro h0 h1
    rw [hfin, max_eq_left h0, if_neg (by linarith)]
  · intro h0 h1
    rw [hfin, max_eq_right (le_of_lt h0), if_neg (by linarith)]
  · intro h0
    rw [hfin, hsz, if_pos h0, jsAdd_fin]
    congr 1
    ring

theorem resolveCollisions_single_witness :
    ∃ (groups' : List (List Nat)) (nodes' : List Node),
      resolveCollisions [[0]] aboveAxisNodes (JSNum.fin 8) (JSNum.fin 100) (JSNum.fin 300)
        Orient.horizontal = some (groups', nodes') ∧
      groups'[0]? = some [0] ∧
      sizeOf Orient.horizontal nodes' 0 = JSNum.fin 10 ∧
      coordOf Orient.horizontal nodes' 0 =
        JSNum.fin (if (100 : ℚ) < max (-1) 0 + 10 then 100 - 10 else max (-1) 0) ∧
      ((0 : ℚ) ≤ -1 → (-1 : ℚ) + 10 ≤ 100 →
        coordOf Orient.horizontal nodes' 0 = JSNum.fin (-1)) ∧
      ((-1 : ℚ) < 0 → (10 : ℚ) ≤ 100 → coordOf Orient.horizontal nodes' 0 = JSNum.fin 0) ∧
      ((100 : ℚ) < max (-1) 0 + 10 →
        (coordOf Orient.horizontal nodes' 0).add (sizeOf Orient.horizontal nodes' 0) =
          JSNum.fin 100) :=
  resolveCollisions_single [[0]] aboveAxisNodes (JSNum.fin 100) (JSNum.fin 300)
    Orient.horizontal 8 100 (-1) 10 0 0 rfl rfl (by decide)
    (fun j g hj hg => by
      cases j with
      | zero => exact absurd rfl hj
      | succ k => simp at hg)
    (by decide) (by decide!) (by decide!)

/-! ## The relaxation sweeps -/

theorem sum_fin {α : Type} (f : α → JSNum) (q : α → ℚ) (l : List α)
    (h : ∀ a ∈ l, f a = JSNum.fin (q a)) : sum l f = JSNum.fin (l.map q).sum := by
  have key : ∀ (l : List α) (s : ℚ), (∀ a ∈ l, f a = JSNum.fin (q a)) →
      l.foldl (fun s a => if (f a).isNaN then s else s.add (f a)) (JSNum.fin s) =
        JSNum.fin (s + (l.map q).sum) := by
    intro l
    induction l with
    | nil => intro s _; simp
    | cons a l ih =>
      intro s hl
      rw [List.foldl_cons, hl a (List.mem_cons_self _ _)]
      have hnan : (JSNum.fin (q a)).isNaN = false := rfl
      rw [hnan]
      simp only [Bool.false_eq_true, if_false, jsAdd_fin]
      rw [ih (s + q a) (fun b hb => hl b (List.mem_cons_of_mem _ hb)), List.map_cons,
        List.sum_cons, add_assoc]
  have := key l 0 h
  rw [zero_add] at this
  exact this

theorem relaxNodeRight_keeps (orient : Orient) (edges : List Edge) (alpha : JSNum)
    (ns : List Node) (u : Nat) :
    (relaxNodeRight orient edges alpha ns u).length = ns.length ∧
      (∀ w, sizeOf orient (relaxNodeRight orient edges alpha ns u) w = sizeOf orient ns w) ∧
      ∀ w, w ≠ u → coordOf orient (relaxNodeRight orient edges alpha ns u) w =
        coordOf orient ns w := by
  refine ⟨?_, ?_, fun w hw => coordOf_relaxNodeRight_of_ne orient edges alpha ns hw.symm⟩
  · exact edgeLists_length (edgeLists_relaxNodeRight orient edges alpha ns u)
  · intro w
    unfold relaxNodeRight
    split_ifs
    · exact sizeOf_setCoord _ _ _ _ _
    · rfl

theorem relaxNodeLeft_keeps (orient : Orient) (edges : List Edge) (alpha : JSNum)
    (ns : List Node) (u : Nat) :
    (relaxNodeLeft orient edges alpha ns u).length = ns.length ∧
      (∀ w, sizeOf orient (relaxNodeLeft orient edges alpha ns u) w = sizeOf orient ns w) ∧
      ∀ w, w ≠ u → coordOf orient (relaxNodeLeft orient edges alpha ns u) w =
        coordOf orient ns w := by
  refine ⟨?_, ?_, fun w hw => coordOf_relaxNodeLeft_of_ne orient edges alpha ns hw.symm⟩
  · exact edgeLists_length (edgeLists_relaxNodeLeft orient edges alpha ns u)
  · intro w
    unfold relaxNodeLeft
    split_ifs
    · exact sizeOf_setCoord _ _ _ _ _
    · rfl

/-- A loop whose steps keep the length, the sizes and, for the nodes other than the one they
visit, the depth coordinates: the loop keeps the length, the sizes, and the depth coordinates
of the nodes it does not visit. -/
theorem foldl_keeps (orient : Orient) (f : List Node → Nat → List Node)
    (hf : ∀ ns u, (f ns u).length = ns.length ∧
      (∀ w, sizeOf orient (f ns u) w = sizeOf orient ns w) ∧
      ∀ w, w ≠ u → coordOf orient (f ns u) w = coordOf orient ns w) (l : List Nat) :
    ∀ ns : List Node, (l.foldl f ns).length = ns.length ∧
      (∀ w, sizeOf orient (l.foldl f ns) w = sizeOf orient ns w) ∧
      ∀ w, w ∉ l → coordOf orient (l.foldl f ns) w = coordOf orient ns w := by
  induction l with
  | nil => intro ns; exact ⟨rfl, fun _ => rfl, fun _ _ => rfl⟩
  | cons u l ih =>
    intro ns
    obtain ⟨h1, h2, h3⟩ := ih (f ns u)
    obtain ⟨k1, k2, k3⟩ := hf ns u
    rw [List.foldl_cons]
    refine ⟨by rw [h1, k1], fun w => by rw [h2, k2], fun w hw => ?_⟩
    rw [h3 w (fun h => hw (List.mem_cons_of_mem _ h)),
      k3 w (fun h => hw (h ▸ List.mem_cons_self _ _))]

/-- The sweep `relaxRightToLeft` is one loop over the nodes, the groups taken last to first
and each group in its order. -/
theorem relaxRightToLeft_eq_foldl (groups : List (List Nat)) (nodes : List Node)
    (edges : List Edge) (alpha : JSNum) (orient : Orient) :
    relaxRightToLeft groups nodes edges alpha orient =
      groups.reverse.flatten.foldl (relaxNodeRight orient edges alpha) nodes := by
  unfold relaxRightToLeft
  rw [List.foldl_flatten]

/-- The sweep `relaxLeftToRight` is one loop over the nodes, the groups taken first to last
and each group in its order. -/
theorem relaxLeftToRight_eq_foldl (groups : List (List Nat)) (nodes : List Node)
    (edges : List Edge) (alpha : JSNum) (orient : Orient) :
    relaxLeftToRight groups nodes edges alpha orient =
      groups.flatten.foldl (relaxNodeLeft orient edges alpha) nodes := by
  unfold relaxLeftToRight
  rw [List.foldl_flatten]

/-- One step of a sweep on a node with edges, finite numbers and a weight sum that is not
zero: the new coordinate is `c + (A - (c + s/2)) * a` and the new centre is
`(1 - a) * (c + s/2) + a * A`, with `A` the weighted average centre. -/
theorem relax_step_fin (c s a S T : ℚ) (hS : S ≠ 0) :
    (JSNum.fin c).add
        ((((JSNum.fin T).div (JSNum.fin S)).sub
          ((JSNum.fin c).add ((JSNum.fin s).div (JSNum.fin 2)))).mul (JSNum.fin a)) =
      JSNum.fin (c + (T / S - (c + s / 2)) * a) ∧
    (JSNum.fin (c + (T / S - (c + s / 2)) * a)).add ((JSNum.fin s).div (JSNum.fin 2)) =
      JSNum.fin ((1 - a) * (c + s / 2) + a * (T / S)) := by
  rw [jsDiv_fin T S hS, jsDiv_fin s 2 (by norm_num), jsAdd_fin, jsSub_fin, jsMul_fin, jsAdd_fin,
    jsAdd_fin]
  refine ⟨rfl, ?_⟩
  congr 1
  ring

theorem center_eq (orient : Orient) (ns : List Node) (v : Nat) :
    center orient ns v = (coordOf orient ns v).add ((sizeOf orient ns v).div (JSNum.fin 2)) :=
  rfl

theorem nodeLayout_setCoord_of_ne (orient : Orient) (ns : List Node) {u w : Nat} (h : u ≠ w)
    (c : JSNum) : nodeLayout (setCoord orient ns w c) u = nodeLayout ns u := by
  unfold setCoord
  rw [nodeLayout_setNodeLayout, if_neg (fun hc => h hc.1.symm)]

/-- A sweep from right to left at the only visit of node `v`: the coordinate of `v` after the
sweep is the one written by the step on `v`, and that step starts from the nodes as the
visits before it left them, where `v` still has the coordinate of the start. -/
theorem relaxRightToLeft_visit (groups : List (List Nat)) (nodes : List Node)
    (edges : List Edge) (alpha : JSNum) (orient : Orient) (pre post : List Nat) (v : Nat)
    (hL : groups.reverse.flatten = pre ++ v :: post) (hpre : v ∉ pre) (hpost : v ∉ post) :
    coordOf orient (relaxRightToLeft groups nodes edges alpha orient) v =
        coordOf orient (relaxNodeRight orient edges alpha
          (pre.foldl (relaxNodeRight orient edges alpha) nodes) v) v ∧
      (∀ w, sizeOf orient (relaxRightToLeft groups nodes edges alpha orient) w =
        sizeOf orient nodes w) ∧
      (pre.foldl (relaxNodeRight orient edges alpha) nodes).length = nodes.length ∧
      (∀ w, sizeOf orient (pre.foldl (relaxNodeRight orient edges alpha) nodes) w =
        sizeOf orient nodes w) ∧
      coordOf orient (pre.foldl (relaxNodeRight orient edges alpha) nodes) v =
        coordOf orient nodes v ∧
      nodeOutEdges (pre.foldl (relaxNodeRight orient edges alpha) nodes) v =
        nodeOutEdges nodes v := by
  obtain ⟨p1, p2, p3⟩ := foldl_keeps orient (relaxNodeRight orient edges alpha)
    (relaxNodeRight_keeps orient edges alpha) pre nodes
  obtain ⟨q1, q2, q3⟩ := foldl_keeps orient (relaxNodeRight orient edges alpha)
    (relaxNodeRight_keeps orient edges alpha) post
    (relaxNodeRight orient edges alpha (pre.foldl (relaxNodeRight orient edges alpha) nodes) v)
  obtain ⟨k1, k2, k3⟩ := relaxNodeRight_keeps orient edges alpha
    (pre.foldl (relaxNodeRight orient edges alpha) nodes) v
  rw [relaxRightToLeft_eq_foldl, hL, List.foldl_append, List.foldl_cons]
  refine ⟨q3 v hpost, fun w => by rw [q2, k2, p2], p1, p2, p3 v hpre, ?_⟩
  exact nodeOutEdges_of_edgeLists (edgeLists_foldl_relaxNodeRight orient edges alpha pre nodes) v

/-- A sweep from left to right at the only visit of node `v`. -/
theorem relaxLeftToRight_visit (groups : List (List Nat)) (nodes : List Node)
    (edges : List Edge) (alpha : JSNum) (orient : Orient) (pre post : List Nat) (v : Nat)
    (hL : groups.flatten = pre ++ v :: post) (hpre : v ∉ pre) (hpost : v ∉ post) :
    coordOf orient (relaxLeftToRight groups nodes edges alpha orient) v =
        coordOf orient (relaxNodeLeft orient edges alpha
          (pre.foldl (relaxNodeLeft orient edges alpha) nodes) v) v ∧
      (∀ w, sizeOf orient (relaxLeftToRight groups nodes edges alpha orient) w =
        sizeOf orient nodes w) ∧
      (pre.foldl (relaxNodeLeft orient edges alpha) nodes).length = nodes.length ∧
      (∀ w, sizeOf orient (pre.foldl (relaxNodeLeft orient edges alpha) nodes) w =
        sizeOf orient nodes w) ∧
      coordOf orient (pre.foldl (relaxNodeLeft orient edges alpha) nodes) v =
        coordOf orient nodes v ∧
      nodeInEdges (pre.foldl (relaxNodeLeft orient edges alpha) nodes) v =
        nodeInEdges nodes v := by
  obtain ⟨p1, p2, p3⟩ := foldl_keeps orient (relaxNodeLeft orient edges alpha)
    (relaxNodeLeft_keeps orient edges alpha) pre nodes
  obtain ⟨q1, q2, q3⟩ := foldl_keeps orient (relaxNodeLeft orient edges alpha)
    (relaxNodeLeft_keeps orient edges alpha) post
    (relaxNodeLeft orient edges alpha (pre.foldl (relaxNodeLeft orient edges alpha) nodes) v)
  obtain ⟨k1, k2, k3⟩ := relaxNodeLeft_keeps orient edges alpha
    (pre.foldl (relaxNodeLeft orient edges alpha) nodes) v
  rw [relaxLeftToRight_eq_foldl, hL, List.foldl_append, List.foldl_cons]
  refine ⟨q3 v hpost, fun w => by rw [q2, k2, p2], p1, p2, p3 v hpre, ?_⟩
  exact nodeInEdges_of_edgeLists (edgeLists_foldl_relaxNodeLeft orient edges alpha pre nodes) v

/-- The step of `relaxRightToLeft` on a node with outgoing edges, finite numbers and a weight
sum that is not zero. -/
theorem relaxNodeRight_fin (orient : Orient) (edges : List Edge) (ns : List Node) (v : Nat)
    (a c s : ℚ) (w ct : Nat → ℚ) (hv : v < ns.length)
    (hc : coordOf orient ns v = JSNum.fin c) (hs : sizeOf orient ns v = JSNum.fin s)
    (hout : nodeOutEdges ns v ≠ [])
    (hed : ∀ e ∈ nodeOutEdges ns v, ∃ ed, edges[e]? = some ed ∧ ed.value = JSNum.fin (w e) ∧
      center orient ns ed.node2 = JSNum.fin (ct e))
    (hS : ((nodeOutEdges ns v).map w).sum ≠ 0) :
    coordOf orient (relaxNodeRight orient edges (JSNum.fin a) ns v) v =
      JSNum.fin (c + (weightedCenter w ct (nodeOutEdges ns v) - (c + s / 2)) * a) := by
  have h1 : sum (nodeOutEdges ns v) (weightedTarget orient ns edges) =
      JSNum.fin ((nodeOutEdges ns v).map (fun e => ct e * w e)).sum := by
    apply sum_fin
    intro e he
    obtain ⟨ed, h1, h2, h3⟩ := hed e he
    unfold weightedTarget
    rw [h1]
    simp only
    rw [h2, h3, jsMul_fin]
  have h2 : sum (nodeOutEdges ns v) (getEdgeValue edges) =
      JSNum.fin ((nodeOutEdges ns v).map w).sum := by
    apply sum_fin
    intro e he
    obtain ⟨ed, h1, h2, _⟩ := hed e he
    unfold getEdgeValue
    rw [h1]
    exact h2
  unfold relaxNodeRight
  rw [if_pos (fun h0 => hout (List.length_eq_zero.mp h0))]
  simp only
  rw [coordOf_setCoord, if_pos ⟨rfl, hv⟩, h1, h2, center_eq, hc, hs]
  exact (relax_step_fin c s a _ _ hS).1

/-- The step of `relaxLeftToRight` on a node with incoming edges, finite numbers and a weight
sum that is not zero. -/
theorem relaxNodeLeft_fin (orient : Orient) (edges : List Edge) (ns : List Node) (v : Nat)
    (a c s : ℚ) (w ct : Nat → ℚ) (hv : v < ns.length)
    (hc : coordOf orient ns v = JSNum.fin c) (hs : sizeOf orient ns v = JSNum.fin s)
    (hin : nodeInEdges ns v ≠ [])
    (hed : ∀ e ∈ nodeInEdges ns v, ∃ ed, edges[e]? = some ed ∧ ed.value = JSNum.fin (w e) ∧
      center orient ns ed.node1 = JSNum.fin (ct e))
    (hS : ((nodeInEdges ns v).map w).sum ≠ 0) :
    coordOf orient (relaxNodeLeft orient edges (JSNum.fin a) ns v) v =
      JSNum.fin (c + (weightedCenter w ct (nodeInEdges ns v) - (c + s / 2)) * a) := by
  have h1 : sum (nodeInEdges ns v) (weightedSource orient ns edges) =
      JSNum.fin ((nodeInEdges ns v).map (fun e => ct e * w e)).sum := by
    apply sum_fin
    intro e he
    obtain ⟨ed, h1, h2, h3⟩ := hed e he
    unfold weightedSource
    rw [h1]
    simp only
    rw [h2, h3, jsMul_fin]
  have h2 : sum (nodeInEdges ns v) (getEdgeValue edges) =
      JSNum.fin ((nodeInEdges ns v).map w).sum := by
    apply sum_fin
    intro e he
    obtain ⟨ed, h1, h2, _⟩ := hed e he
    unfold getEdgeValue
    rw [h1]
    exact h2
  unfold relaxNodeLeft
  rw [if_pos (fun h0 => hin (List.length_eq_zero.mp h0))]
  simp only
  rw [coordOf_setCoord, if_pos ⟨rfl, hv⟩, h1, h2, center_eq, hc, hs]
  exact (relax_step_fin c s a _ _ hS).1

/-- A sweep from right to left leaves the layout of a node without outgoing edges as it
is. -/
theorem relaxRightToLeft_sink (groups : List (List Nat)) (nodes : List Node)
    (edges : List Edge) (alpha : JSNum) (orient : Orient) (u : Nat)
    (hu : nodeOutEdges nodes u = []) :
    nodeLayout (relaxRightToLeft groups nodes edges alpha orient) u = nodeLayout nodes u := by
  rw [relaxRightToLeft_eq_foldl]
  refine (foldl_invariant (relaxNodeRight orient edges alpha)
    (fun s => nodeLayout s u = nodeLayout nodes u ∧ nodeOutEdges s u = [])
    (fun s b hsb => ?_) groups.reverse.flatten nodes ⟨rfl, hu⟩).1
  obtain ⟨h1, h2⟩ := hsb
  refine ⟨?_, by
    rw [nodeOutEdges_of_edgeLists (edgeLists_relaxNodeRight orient edges alpha s b)]
    exact h2⟩
  unfold relaxNodeRight
  split_ifs with h0
  · have hne : u ≠ b := by
      intro hc
      rw [← hc, h2] at h0
      exact h0 rfl
    rw [nodeLayout_setCoord_of_ne orient s hne]
    exact h1
  · exact h1

/-- A sweep from left to right leaves the layout of a node without incoming edges as it
is. -/
theorem relaxLeftToRight_source (groups : List (List Nat)) (nodes : List Node)
    (edges : List Edge) (alpha : JSNum) (orient : Orient) (u : Nat)
    (hu : nodeInEdges nodes u = []) :
    nodeLayout (relaxLeftToRight groups nodes edges alpha orient) u = nodeLayout nodes u := by
  rw [relaxLeftToRight_eq_foldl]
  refine (foldl_invariant (relaxNodeLeft orient edges alpha)
    (fun s => nodeLayout s u = nodeLayout nodes u ∧ nodeInEdges s u = [])
    (fun s b hsb => ?_) groups.flatten nodes ⟨rfl, hu⟩).1
  obtain ⟨h1, h2⟩ := hsb
  refine ⟨?_, by
    rw [nodeInEdges_of_edgeLists (edgeLists_relaxNodeLeft orient edges alpha s b)]
    exact h2⟩
  unfold relaxNodeLeft
  split_ifs with h0
  · have hne : u ≠ b := by
      intro hc
      rw [← hc, h2] at h0
      exact h0 rfl
    rw [nodeLayout_setCoord_of_ne orient s hne]
    exact h1
  · exact h1

/-- C14: in `relaxRightToLeft` with coefficient `a`, a node `v` with outgoing edges whose
weights sum to a total that is not zero gets `coord' = coord + (A - center) * a`, where
`center = coord + size/2` and `A` is the sum over its outgoing edges of `center(target) *
weight` divided by the sum of the weights, the centres of the targets being read from the
nodes as the visits before `v` in the same sweep left them (the groups are visited last to
first); its new centre is `(1 - a) * center + a * A`; a node without outgoing edges keeps its
layout.  `relaxLeftToRight` is the mirror image over the incoming edges and the centres of the
sources, the groups visited first to last.  The numbers are finite and `v` is visited once. -/
theorem relax_sweeps (nodesByBreadth : List (List Nat)) (nodes : List Node) (edges : List Edge)
    (orient : Orient) (a : ℚ) :
    (∀ (pre post : List Nat) (v : Nat) (c s : ℚ) (w ct : Nat → ℚ),
      nodesByBreadth.reverse.flatten = pre ++ v :: post → v ∉ pre → v ∉ post →
      v < nodes.length → coordOf orient nodes v = JSNum.fin c →
      sizeOf orient nodes v = JSNum.fin s → nodeOutEdges nodes v ≠ [] →
      (∀ e ∈ nodeOutEdges nodes v, ∃ ed, edges[e]? = some ed ∧ ed.value = JSNum.fin (w e) ∧
        center orient (pre.foldl (relaxNodeRight orient edges (JSNum.fin a)) nodes) ed.node2 =
          JSNum.fin (ct e)) →
      ((nodeOutEdges nodes v).map w).sum ≠ 0 →
      coordOf orient (relaxRightToLeft nodesByBreadth nodes edges (JSNum.fin a) orient) v =
          JSNum.fin (c + (weightedCenter w ct (nodeOutEdges nodes v) - (c + s / 2)) * a) ∧
        center orient (relaxRightToLeft nodesByBreadth nodes edges (JSNum.fin a) orient) v =
          JSNum.fin ((1 - a) * (c + s / 2) + a * weightedCenter w ct (nodeOutEdges nodes v))) ∧
    (∀ u, nodeOutEdges nodes u = [] →
      nodeLayout (relaxRightToLeft nodesByBreadth nodes edges (JSNum.fin a) orient) u =
        nodeLayout nodes u) ∧
    (∀ (pre post : List Nat) (v : Nat) (c s : ℚ) (w ct : Nat → ℚ),
      nodesByBreadth.flatten = pre ++ v :: post → v ∉ pre → v ∉ post →
      v < nodes.length → coordOf orient nodes v = JSNum.fin c →
      sizeOf orient nodes v = JSNum.fin s → nodeInEdges nodes v ≠ [] →
      (∀ e ∈ nodeInEdges nodes v, ∃ ed, edges[e]? = some ed ∧ ed.value = JSNum.fin (w e) ∧
        center orient (pre.foldl (relaxNodeLeft orient edges (JSNum.fin a)) nodes) ed.node1 =
          JSNum.fin (ct e)) →
      ((nodeInEdges nodes v).map w).sum ≠ 0 →
      coordOf orient (relaxLeftToRight nodesByBreadth nodes edges (JSNum.fin a) orient) v =
          JSNum.fin (c + (weightedCenter w ct (nodeInEdges nodes v) - (c + s / 2)) * a) ∧
        center orient (relaxLeftToRight nodesByBreadth nodes edges (JSNum.fin a) orient) v =
          JSNum.fin ((1 - a) * (c + s / 2) + a * weightedCenter w ct (nodeInEdges nodes v))) ∧
    ∀ u, nodeInEdges nodes u = [] →
      nodeLayout (relaxLeftToRight nodesByBreadth nodes edges (JSNum.fin a) orient) u =
        nodeLayout nodes u := by
  refine ⟨?_, fun u hu => relaxRightToLeft_sink nodesByBreadth nodes edges _ orient u hu, ?_,
    fun u hu => relaxLeftToRight_source nodesByBreadth nodes edges _ orient u hu⟩
  · intro pre post v c s w ct hL hpre hpost hv hc hs hout hed hS
    obtain ⟨h1, h2, h3, h4, h5, h6⟩ := relaxRightToLeft_visit nodesByBreadth nodes edges
      (JSNum.fin a) orient pre post v hL hpre hpost
    have hstep := relaxNodeRight_fin orient edges
      (pre.foldl (relaxNodeRight orient edges (JSNum.fin a)) nodes) v a c s w ct
      (by rw [h3]; exact hv) (by rw [h5]; exact hc) (by rw [h4]; exact hs)
      (by rw [h6]; exact hout) (by rw [h6]; exact hed) (by rw [h6]; exact hS)
    rw [h6] at hstep
    have hco : coordOf orient (relaxRightToLeft nodesByBreadth nodes edges (JSNum.fin a)
        orient) v =
        JSNum.fin (c + (weightedCenter w ct (nodeOutEdges nodes v) - (c + s / 2)) * a) := by
      rw [h1]
      exact hstep
    refine ⟨hco, ?_⟩
    rw [center_eq, hco, h2, hs]
    exact (relax_step_fin c s a _ _ hS).2
  · intro pre post v c s w ct hL hpre hpost hv hc hs hin hed hS
    obtain ⟨h1, h2, h3, h4, h5, h6⟩ := relaxLeftToRight_visit nodesByBreadth nodes edges
      (JSNum.fin a) orient pre post v hL hpre hpost
    have hstep := relaxNodeLeft_fin orient edges
      (pre.foldl (relaxNodeLeft orient edges (JSNum.fin a)) nodes) v a c s w ct
      (by rw [h3]; exact hv) (by rw [h5]; exact hc) (by rw [h4]; exact hs)
      (by rw [h6]; exact hin) (by rw [h6]; exact hed) (by rw [h6]; exact hS)
    rw [h6] at hstep
    have hco : coordOf orient (relaxLeftToRight nodesByBreadth nodes edges (JSNum.fin a)
        orient) v =
        JSNum.fin (c + (weightedCenter w ct (nodeInEdges nodes v) - (c + s / 2)) * a) := by
      rw [h1]
      exact hstep
    refine ⟨hco, ?_⟩
    rw [center_eq, hco, h2, hs]
    exact (relax_step_fin c s a _ _ hS).2

/-- The claim on scenario B after the first placement (A at 0 with size 48, B at 56 with size
144, C at 0 with size 192) and coefficient 0.99: the sweep from right to left moves A towards
the centre 96 of C, and the sweep from left to right moves C towards the weighted average 102
of the centres 24 and 128 of A and B. -/
theorem relax_sweeps_witness :
    (coordOf Orient.horizontal (relaxRightToLeft [[0, 1], [2]] mergeLaidOut.nodes
        mergeLaidOut.edges (JSNum.fin (99 / 100)) Orient.horizontal) 0 =
        JSNum.fin (0 + (weightedCenter (fun e => if e = 0 then 1 else 3) (fun _ => 96)
          (nodeOutEdges mergeLaidOut.nodes 0) - (0 + 48 / 2)) * (99 / 100)) ∧
      center Orient.horizontal (relaxRightToLeft [[0, 1], [2]] mergeLaidOut.nodes
        mergeLaidOut.edges (JSNum.fin (99 / 100)) Orient.horizontal) 0 =
        JSNum.fin ((1 - 99 / 100) * (0 + 48 / 2) + 99 / 100 *
          weightedCenter (fun e => if e = 0 then 1 else 3) (fun _ => 96)
            (nodeOutEdges mergeLaidOut.nodes 0))) ∧
    (coordOf Orient.horizontal (relaxLeftToRight [[0, 1], [2]] mergeLaidOut.nodes
        mergeLaidOut.edges (JSNum.fin (99 / 100)) Orient.horizontal) 2 =
        JSNum.fin (0 + (weightedCenter (fun e => if e = 0 then 1 else 3)
          (fun e => if e = 0 then 24 else 128) (nodeInEdges mergeLaidOut.nodes 2) -
            (0 + 192 / 2)) * (99 / 100)) ∧
      center Orient.horizontal (relaxLeftToRight [[0, 1], [2]] mergeLaidOut.nodes
        mergeLaidOut.edges (JSNum.fin (99 / 100)) Orient.horizontal) 2 =
        JSNum.fin ((1 - 99 / 100) * (0 + 192 / 2) + 99 / 100 *
          weightedCenter (fun e => if e = 0 then 1 else 3)
            (fun e => if e = 0 then 24 else 128) (nodeInEdges mergeLaidOut.nodes 2))) :=
  ⟨(relax_sweeps [[0, 1], [2]] mergeLaidOut.nodes mergeLaidOut.edges Orient.horizontal
      (99 / 100)).1 [2] [1] 0 0 48 (fun e => if e = 0 then 1 else 3) (fun _ => 96) rfl
      (by decide) (by decide) (by decide) (by decide!) (by decide!) (by decide)
      (fun e he => by
        have h0 : e = 0 := by simpa [nodeOutEdges, mergeLaidOut] using he
        subst h0
        exact ⟨_, rfl, rfl, by decide!⟩)
      (by
        show ((([0] : List Nat).map (fun e => if e = 0 then (1 : ℚ) else 3)).sum) ≠ 0
        norm_num),
    (relax_sweeps [[0, 1], [2]] mergeLaidOut.nodes mergeLaidOut.edges Orient.horizontal
      (99 / 100)).2.2.1 [0, 1] [] 2 0 192 (fun e => if e = 0 then 1 else 3)
      (fun e => if e = 0 then 24 else 128) rfl (by decide) (by decide) (by decide)
      (by decide!) (by decide!) (by decide)
      (fun e he => by
        have h0 : e = 0 ∨ e = 1 := by simpa [nodeInEdges, mergeLaidOut] using he
        rcases h0 with h0 | h0
        · subst h0
          exact ⟨_, rfl, rfl, by decide!⟩
        · subst h0
          exact ⟨_, rfl, rfl, by decide!⟩)
      (by
        show ((([0, 1] : List Nat).map (fun e => if e = 0 then (1 : ℚ) else 3)).sum) ≠ 0
        norm_num)⟩

/-- The numbers of the example: A moves from 0 to 71.28 and C from 0 to 5.94. -/
theorem relax_sweeps_example :
    coordOf Orient.horizontal (relaxRightToLeft [[0, 1], [2]] mergeLaidOut.nodes
      mergeLaidOut.edges (JSNum.fin (99 / 100)) Orient.horizontal) 0 = JSNum.fin (1782 / 25) ∧
    coordOf Orient.horizontal (relaxLeftToRight [[0, 1], [2]] mergeLaidOut.nodes
      mergeLaidOut.edges (JSNum.fin (99 / 100)) Orient.horizontal) 2 = JSNum.fin (297 / 50) := by
  refine ⟨by decide!, by decide!⟩

/-! ## The groups of `prepareNodesByBreadth` are the levels -/

theorem keysFold_map {α β γ : Type} [DecidableEq β] [DecidableEq γ] (g : α → β) (K : β → γ)
    (S : β → Prop) (hinj : ∀ x y, S x → S y → K x = K y → x = y) (array : List α) :
    ∀ (acc : List β), (∀ a ∈ array, S (g a)) → (∀ k ∈ acc, S k) →
      array.foldl (fun keys a => if K (g a) ∈ keys then keys else keys ++ [K (g a)])
          (acc.map K) =
        (array.foldl (fun keys a => if g a ∈ keys then keys else keys ++ [g a]) acc).map K ∧
      ∀ k ∈ array.foldl (fun keys a => if g a ∈ keys then keys else keys ++ [g a]) acc,
        S k := by
  induction array with
  | nil => intro acc _ hacc; exact ⟨rfl, hacc⟩
  | cons a array ih =>
    intro acc hS hacc
    have hSa := hS a (List.mem_cons_self _ _)
    have hiff : K (g a) ∈ acc.map K ↔ g a ∈ acc := by
      constructor
      · intro h
        obtain ⟨k, hk, hkk⟩ := List.mem_map.mp h
        rw [← hinj k (g a) (hacc k hk) hSa hkk]
        exact hk
      · exact fun h => List.mem_map_of_mem K h
    rw [List.foldl_cons, List.foldl_cons]
    by_cases h : g a ∈ acc
    · rw [if_pos (hiff.mpr h), if_pos h]
      exact ih acc (fun b hb => hS b (List.mem_cons_of_mem _ hb)) hacc
    · rw [if_neg (fun hc => h (hiff.mp hc)), if_neg h]
      have := ih (acc ++ [g a]) (fun b hb => hS b (List.mem_cons_of_mem _ hb))
        (fun k hk => by
          rcases List.mem_append.mp hk with hk | hk
          · exact hacc k hk
          · rw [List.mem_singleton.mp hk]; exact hSa)
      rw [List.map_append, List.map_singleton] at this
      exact this

theorem keysFold_nodup {α β : Type} [DecidableEq β] (g : α → β) (array : List α) :
    ∀ (acc : List β), acc.Nodup →
      (array.foldl (fun keys a => if g a ∈ keys then keys else keys ++ [g a]) acc).Nodup := by
  induction array with
  | nil => intro acc h; exact h
  | cons a array ih =>
    intro acc h
    rw [List.foldl_cons]
    by_cases hm : g a ∈ acc
    · rw [if_pos hm]
      exact ih acc h
    · rw [if_neg hm]
      apply ih
      rw [List.nodup_append]
      refine ⟨h, List.nodup_singleton _, ?_⟩
      intro x hx hx'
      rw [List.mem_singleton.mp hx'] at hx
      exact hm hx

theorem mem_keysFold {α β : Type} [DecidableEq β] (g : α → β) (array : List α) (k : β) :
    ∀ (acc : List β),
      k ∈ array.foldl (fun keys a => if g a ∈ keys then keys else keys ++ [g a]) acc ↔
        k ∈ acc ∨ ∃ a ∈ array, g a = k := by
  induction array with
  | nil => intro acc; simp
  | cons a array ih =>
    intro acc
    rw [List.foldl_cons, ih]
    by_cases hm : g a ∈ acc
    · rw [if_pos hm]
      constructor
      · rintro (h | ⟨b, hb, hk⟩)
        · exact Or.inl h
        · exact Or.inr ⟨b, List.mem_cons_of_mem _ hb, hk⟩
      · rintro (h | ⟨b, hb, hk⟩)
        · exact Or.inl h
        · rcases List.mem_cons.mp hb with hb | hb
          · subst hb
            exact Or.inl (hk ▸ hm)
          · exact Or.inr ⟨b, hb, hk⟩
    · rw [if_neg hm]
      constructor
      · rintro (h | ⟨b, hb, hk⟩)
        · rcases List.mem_append.mp h with h | h
          · exact Or.inl h
          · exact Or.inr ⟨a, List.mem_cons_self _ _, (List.mem_singleton.mp h).symm⟩
        · exact Or.inr ⟨b, List.mem_cons_of_mem _ hb, hk⟩
      · rintro (h | ⟨b, hb, hk⟩)
        · exact Or.inl (List.mem_append_left _ h)
        · rcases List.mem_cons.mp hb with hb | hb
          · subst hb
            exact Or.inl (List.mem_append_right _ (List.mem_singleton.mpr hk.symm))
          · exact Or.inr ⟨b, hb, hk⟩

theorem jsSub_self_gt (x : JSNum) : (x.sub x).gt (JSNum.fin 0) = false := by
  cases x <;> simp [JSNum.sub, JSNum.add, JSNum.neg, JSNum.gt]

/-- Grouping nodes by a key that is an injective and monotone function `K` of the level:
the groups are the levels that occur, in ascending order, each with its nodes in the order of
the node list. -/
theorem groups_of_levels (n L : Nat) (lvl : Nat → Nat) (K : Nat → JSNum) (key : Nat → JSNum)
    (hkey : ∀ v, v < n → key v = K (lvl v)) (hlvl : ∀ v, v < n → lvl v < L)
    (hinj : ∀ a b, a < L → b < L → K a = K b → a = b)
    (hmono : ∀ a b, a < L → b < L → (((K a).sub (K b)).gt (JSNum.fin 0) = false ↔ a ≤ b)) :
    ∃ levels : List Nat, levels.Sorted (fun a b => a < b) ∧
      (∀ l, l ∈ levels ↔ ∃ v, v < n ∧ lvl v = l) ∧
      (jsSort (fun a b => a.sub b) (groupData (List.range n) key).1).map
          (groupData (List.range n) key).2 =
        levels.map (fun l => (List.range n).filter (fun v => decide (lvl v = l))) := by
  have hfold : (groupData (List.range n) key).1 =
      ((List.range n).foldl (fun keys a => if lvl a ∈ keys then keys else keys ++ [lvl a])
        []).map K := by
    unfold groupData
    simp only
    have h1 : (List.range n).foldl (fun keys a => if key a ∈ keys then keys else
        keys ++ [key a]) [] =
        (List.range n).foldl (fun keys a => if K (lvl a) ∈ keys then keys else
          keys ++ [K (lvl a)]) [] := by
      apply List.foldl_ext
      intro keys a ha
      rw [hkey a (List.mem_range.mp ha)]
    rw [h1]
    exact (keysFold_map lvl K (fun l => l < L) hinj (List.range n) []
      (fun a ha => hlvl a (List.mem_range.mp ha)) (fun k hk => by cases hk)).1
  have hS : ∀ k ∈ (List.range n).foldl (fun keys a => if lvl a ∈ keys then keys else
      keys ++ [lvl a]) [], k < L :=
    (keysFold_map lvl K (fun l => l < L) hinj (List.range n) []
      (fun a ha => hlvl a (List.mem_range.mp ha)) (fun k hk => by cases hk)).2
  have hnd := keysFold_nodup lvl (List.range n) [] List.nodup_nil
  have hmem := fun k => mem_keysFold lvl (List.range n) k []
  generalize (List.range n).foldl (fun keys a => if lvl a ∈ keys then keys else
      keys ++ [lvl a]) [] = levels0 at hfold hS hnd hmem
  have hsort : jsSort (fun a b => a.sub b) (levels0.map K) =
      (levels0.insertionSort (fun a b => a ≤ b)).map K := by
    unfold jsSort
    exact (List.map_insertionSort (fun a b => a ≤ b)
      (fun a b : JSNum => (a.sub b).gt (JSNum.fin 0) = false) K levels0
      (fun a ha b hb => (hmono a b (hS a ha) (hS b hb)).symm)).symm
  have hperm := List.perm_insertionSort (fun a b : Nat => a ≤ b) levels0
  refine ⟨levels0.insertionSort (fun a b => a ≤ b), ?_, ?_, ?_⟩
  · exact (List.sorted_insertionSort (fun a b : Nat => a ≤ b) levels0).lt_of_le
      (hperm.nodup_iff.mpr hnd)
  · intro l
    rw [hperm.mem_iff, hmem]
    simp only [List.not_mem_nil, false_or, List.mem_range]
  · rw [hfold, hsort, List.map_map]
    apply List.map_congr_left
    intro l hl
    have hlL : l < L := hS l (hperm.mem_iff.mp hl)
    show (List.range n).filter (fun a => decide (key a = K l)) = _
    apply List.filter_congr
    intro v hv
    have hvn := List.mem_range.mp hv
    rw [hkey v hvn]
    by_cases h : lvl v = l
    · simp [h]
    · have : K (lvl v) ≠ K l := fun hc => h (hinj _ _ (hlvl v hvn) hlL hc)
      simp [h, this]

/-- C15, as it is written, fails for a breadth extent that is not above the node thickness:
the chain A -> B -> C has the levels 0, 1, 2; with extent 20 and thickness 20 the breadth scale
is 0, every breadth coordinate is 0 and `prepareNodesByBreadth` returns the single group
`[A, B, C]`; with extent 10 the scale is negative and the groups come in descending level
order. -/
theorem groups_not_levels :
    (computeNodeLevels chainGraph (JSNum.fin 20) Orient.horizontal).map
        (fun r => (r.1, r.2.map (fun nd => nd.layout.x))) =
      some (3, [JSNum.fin 0, JSNum.fin 1, JSNum.fin 2]) ∧
    (computeNodeBreadths chainGraph (JSNum.fin 20) (JSNum.fin 20) (JSNum.fin 200)
        Orient.horizontal).map (fun b => prepareNodesByBreadth b.nodes Orient.horizontal) =
      some [[0, 1, 2]] ∧
    (computeNodeBreadths chainGraph (JSNum.fin 20) (JSNum.fin 10) (JSNum.fin 200)
        Orient.horizontal).map (fun b => prepareNodesByBreadth b.nodes Orient.horizontal) =
      some [[2], [1], [0]] := by
  refine ⟨by decide!, by decide!, by decide!⟩

/-- C15 (amended): for every acyclic well-formed graph and every configuration with a finite
breadth extent above the finite node thickness, `prepareNodesByBreadth` after
`computeNodeBreadths` partitions the nodes by level: the groups are the levels (after sink
correction) that occur, in ascending order, each group holding the nodes of its level in their
order in the node list; so two nodes are in the same group if and only if they have the same
level. -/
theorem prepareNodesByBreadth_levels (g : Graph) (hwf : WellFormed g) (hac : Acyclic g)
    (nodeWidth width height : JSNum) (orient : Orient) (E ω : ℚ)
    (hE : primaryExtent orient width height = JSNum.fin E) (hω : nodeWidth = JSNum.fin ω)
    (hlt : ω < E) :
    ∃ (L : Nat) (nodes : List Node) (lvl : Nat → Nat) (b : Graph) (levels : List Nat),
      computeNodeLevels g nodeWidth orient = some (L, nodes) ∧
      (∀ v, v < g.nodes.length →
        primaryCoord orient (nodeLayout nodes v) = JSNum.fin (lvl v)) ∧
      computeNodeBreadths g nodeWidth width height orient = some b ∧
      levels.Sorted (fun a b => a < b) ∧
      (∀ l, l ∈ levels ↔ ∃ v, v < g.nodes.length ∧ lvl v = l) ∧
      prepareNodesByBreadth b.nodes orient =
        levels.map (fun l => (List.range g.nodes.length).filter
          (fun v => decide (lvl v = l))) ∧
      ∀ u v, u < g.nodes.length → v < g.nodes.length →
        ((∃ grp ∈ prepareNodesByBreadth b.nodes orient, u ∈ grp ∧ v ∈ grp) ↔
          lvl u = lvl v) := by
  obtain ⟨L, nodes, lvl, hlev, hlists, hall, _⟩ :=
    computeNodeLevels_acyclic g hwf hac orient nodeWidth
  have hn : nodes.length = g.nodes.length := edgeLists_length hlists
  have hb := computeNodeBreadths_eq g nodeWidth width height orient hlev
  have hkey : ∀ v, v < g.nodes.length →
      primaryCoord orient (nodeLayout (scaleNodeBreadths nodes
        (breadthScale nodeWidth width height orient L) orient) v) =
      (JSNum.fin (lvl v)).mul (breadthScale nodeWidth width height orient L) := by
    intro v hv
    rw [primaryCoord_scaled nodes _ orient v (hn.symm ▸ hv), (hall v hv).2.1]
  have hinjmono : (∀ a b, a < L → b < L →
      (JSNum.fin (a : ℚ)).mul (breadthScale nodeWidth width height orient L) =
        (JSNum.fin (b : ℚ)).mul (breadthScale nodeWidth width height orient L) → a = b) ∧
      ∀ a b, a < L → b < L →
        ((((JSNum.fin (a : ℚ)).mul (breadthScale nodeWidth width height orient L)).sub
          ((JSNum.fin (b : ℚ)).mul (breadthScale nodeWidth width height orient L))).gt
            (JSNum.fin 0) = false ↔ a ≤ b) := by
    by_cases hL : L ≤ 1
    · constructor
      · intro a b ha hb _
        omega
      · intro a b ha hb
        have h1 : a = 0 := by omega
        have h2 : b = 0 := by omega
        subst h1
        subst h2
        simp only [le_refl, iff_true]
        exact jsSub_self_gt _
    · have hL1 : ((L : ℚ) - 1) ≠ 0 := by
        have : (2 : ℚ) ≤ (L : ℚ) := by exact_mod_cast (by omega : 2 ≤ L)
        linarith
      have hpos : 0 < (E - ω) / ((L : ℚ) - 1) := by
        apply div_pos (by linarith)
        have : (2 : ℚ) ≤ (L : ℚ) := by exact_mod_cast (by omega : 2 ≤ L)
        linarith
      have hkx : breadthScale nodeWidth width height orient L =
          JSNum.fin ((E - ω) / ((L : ℚ) - 1)) := by
        unfold breadthScale
        rw [hE, hω, jsSub_fin, jsDiv_fin _ _ hL1]
      rw [hkx]
      constructor
      · intro a b _ _ h
        rw [jsMul_fin, jsMul_fin] at h
        have h' : (a : ℚ) * ((E - ω) / ((L : ℚ) - 1)) = (b : ℚ) * ((E - ω) / ((L : ℚ) - 1)) := by
          injection h
        have := mul_right_cancel₀ (ne_of_gt hpos) h'
        exact_mod_cast this
      · intro a b _ _
        rw [jsMul_fin, jsMul_fin, jsSub_fin, jsGt_fin]
        simp only [decide_eq_false_iff_not, not_lt]
        rw [← sub_mul]
        constructor
        · intro h
          have h2 : (a : ℚ) - b ≤ 0 := by
            by_contra hc
            push_neg at hc
            have := mul_pos hc hpos
            linarith
          have : (a : ℚ) ≤ b := by linarith
          exact_mod_cast this
        · intro h
          have h2 : (a : ℚ) - b ≤ 0 := by
            have : (a : ℚ) ≤ b := by exact_mod_cast h
            linarith
          exact mul_nonpos_of_nonpos_of_nonneg h2 (le_of_lt hpos)
  obtain ⟨levels, hsorted, hmem, hgroups⟩ := groups_of_levels g.nodes.length L lvl
    (fun l => (JSNum.fin (l : ℚ)).mul (breadthScale nodeWidth width height orient L))
    (fun v => primaryCoord orient (nodeLayout (scaleNodeBreadths nodes
      (breadthScale nodeWidth width height orient L) orient) v))
    hkey (fun v hv => (hall v hv).1) hinjmono.1 hinjmono.2
  have hprep : prepareNodesByBreadth (scaleNodeBreadths nodes
      (breadthScale nodeWidth width height orient L) orient) orient =
      levels.map (fun l => (List.range g.nodes.length).filter
        (fun v => decide (lvl v = l))) := by
    unfold prepareNodesByBreadth
    simp only
    rw [edgeLists_length (edgeLists_scaleNodeBreadths _ _ _), hn]
    exact hgroups
  refine ⟨L, nodes, lvl, _, levels, hlev, fun v hv => (hall v hv).2.1, hb, hsorted, hmem,
    hprep, ?_⟩
  intro u v hu hv
  show (∃ grp ∈ prepareNodesByBreadth (scaleNodeBreadths nodes
      (breadthScale nodeWidth width height orient L) orient) orient, u ∈ grp ∧ v ∈ grp) ↔ _
  rw [hprep]
  constructor
  · rintro ⟨grp, hgrp, hug, hvg⟩
    obtain ⟨l, _, rfl⟩ := List.mem_map.mp hgrp
    simp only [List.mem_filter, decide_eq_true_eq] at hug hvg
    rw [hug.2, hvg.2]
  · intro h
    refine ⟨_, List.mem_map.mpr ⟨lvl u, (hmem _).mpr ⟨u, hu, rfl⟩, rfl⟩, ?_, ?_⟩
    · simp [List.mem_filter, hu]
    · simp [List.mem_filter, hv, h]

theorem prepareNodesByBreadth_levels_witness :
    ∃ (L : Nat) (nodes : List Node) (lvl : Nat → Nat) (b : Graph) (levels : List Nat),
      computeNodeLevels crossGraph (JSNum.fin 20) Orient.horizontal = some (L, nodes) ∧
      (∀ v, v < crossGraph.nodes.length →
        primaryCoord Orient.horizontal (nodeLayout nodes v) = JSNum.fin (lvl v)) ∧
      computeNodeBreadths crossGraph (JSNum.fin 20) (JSNum.fin 300) (JSNum.fin 200)
        Orient.horizontal = some b ∧
      levels.Sorted (fun a b => a < b) ∧
      (∀ l, l ∈ levels ↔ ∃ v, v < crossGraph.nodes.length ∧ lvl v = l) ∧
      prepareNodesByBreadth b.nodes Orient.horizontal =
        levels.map (fun l => (List.range crossGraph.nodes.length).filter
          (fun v => decide (lvl v = l))) ∧
      ∀ u v, u < crossGraph.nodes.length → v < crossGraph.nodes.length →
        ((∃ grp ∈ prepareNodesByBreadth b.nodes Orient.horizontal, u ∈ grp ∧ v ∈ grp) ↔
          lvl u = lvl v) :=
  prepareNodesByBreadth_levels crossGraph wellFormed_crossGraph acyclic_crossGraph
    (JSNum.fin 20) (JSNum.fin 300) (JSNum.fin 200) Orient.horizontal 300 20 rfl rfl
    (by norm_num)

/-- The groups of `crossGraph` evaluated: A alone at level 0, then B and C at level 1. -/
theorem prepareNodesByBreadth_example :
    (computeNodeBreadths crossGraph (JSNum.fin 20) (JSNum.fin 300) (JSNum.fin 200)
        Orient.horizontal).map (fun b => prepareNodesByBreadth b.nodes Orient.horizontal) =
      some [[0], [1, 2]] := by
  decide!

/-! ## The Kahn loop on graphs with cycles -/

theorem round_lt_of_edge (g : Graph) {u v j : Nat} (he : edgeRel g u v)
    (hv : v ∈ specFrontier g.nodes.length g.edges (specDone g.nodes.length g.edges j)) :
    ∃ i, i < j ∧
      u ∈ specFrontier g.nodes.length g.edges (specDone g.nodes.length g.edges i) := by
  obtain ⟨ed, hed, h1, h2⟩ := he
  subst h1
  subst h2
  exact (mem_specDone _ _ _ _).mp (source_mem_specDone _ _ hed hv)

theorem round_lt_of_transGen (g : Graph) {u v : Nat}
    (h : Relation.TransGen (edgeRel g) u v) :
    ∀ j, v ∈ specFrontier g.nodes.length g.edges (specDone g.nodes.length g.edges j) →
      ∃ i, i < j ∧
        u ∈ specFrontier g.nodes.length g.edges (specDone g.nodes.length g.edges i) := by
  induction h with
  | single he => intro j hv; exact round_lt_of_edge g he hv
  | tail _ he ih =>
    intro j hv
    obtain ⟨i, hi, hu⟩ := round_lt_of_edge g he hv
    obtain ⟨i', hi', hu'⟩ := ih i hu
    exact ⟨i', by omega, hu'⟩

theorem mem_specDone_of_reflTransGen (g : Graph) {u v : Nat}
    (h : Relation.ReflTransGen (edgeRel g) u v) (k : Nat)
    (hv : v ∈ specDone g.nodes.length g.edges k) : u ∈ specDone g.nodes.length g.edges k := by
  rcases Relation.reflTransGen_iff_eq_or_transGen.mp h with h | h
  · rw [← h]; exact hv
  · obtain ⟨j, hj, hvj⟩ := (mem_specDone _ _ _ _).mp hv
    obtain ⟨i, hi, hu⟩ := round_lt_of_transGen g h j hvj
    exact (mem_specDone _ _ _ _).mpr ⟨i, by omega, hu⟩

/-- A levelled node is neither on a cycle nor reachable from one. -/
theorem not_belowCycle_of_mem_specDone (g : Graph) (k v : Nat)
    (hv : v ∈ specDone g.nodes.length g.edges k) : ¬ BelowCycle g v := by
  rintro ⟨c, hcyc, hreach⟩
  have hc := mem_specDone_of_reflTransGen g hreach k hv
  obtain ⟨j, _, hcj⟩ := (mem_specDone _ _ _ _).mp hc
  obtain ⟨i, hi, hci⟩ := round_lt_of_transGen g hcyc j hcj
  have := specFrontier_round_unique _ _ hci hcj
  omega

/-- Once a round has an empty frontier, a node of a well-formed graph that is not levelled is
on a cycle or reachable from one. -/
theorem belowCycle_of_not_mem_specDone (g : Graph) (hwf : WellFormed g) (L : Nat)
    (hempty : specFrontier g.nodes.length g.edges (specDone g.nodes.length g.edges L) = [])
    (v : Nat) (hv : v < g.nodes.length) (hnot : v ∉ specDone g.nodes.length g.edges L) :
    BelowCycle g v := by
  by_contra hb
  let R : Fin g.nodes.length → Fin g.nodes.length → Prop :=
    fun a b => Relation.TransGen (edgeRel g) a.val b.val ∧
      Relation.ReflTransGen (edgeRel g) b.val v
  haveI : IsTrans (Fin g.nodes.length) R :=
    ⟨fun a b c hab hbc => ⟨Relation.TransGen.trans hab.1 hbc.1, hbc.2⟩⟩
  haveI : IsIrrefl (Fin g.nodes.length) R := ⟨fun a h => hb ⟨a.val, h.1, h.2⟩⟩
  have hwfR : WellFounded R := Finite.wellFounded_of_trans_of_irrefl R
  let S : Set (Fin g.nodes.length) :=
    {a | a.val ∉ specDone g.nodes.length g.edges L ∧ Relation.ReflTransGen (edgeRel g) a.val v}
  obtain ⟨m, hmS, hmin⟩ := hwfR.has_min S ⟨⟨v, hv⟩, hnot, Relation.ReflTransGen.refl⟩
  have hres : residual g.edges (specDone g.nodes.length g.edges L) m.val = 0 := by
    rw [residual_eq_zero]
    intro ed hed h2
    by_contra h1
    have hlt := hwf.node1_lt ed hed
    have hedge : edgeRel g ed.node1 m.val := ⟨ed, hed, rfl, h2⟩
    exact hmin ⟨ed.node1, hlt⟩ ⟨h1, Relation.ReflTransGen.head hedge hmS.2⟩
      ⟨Relation.TransGen.single hedge, hmS.2⟩
  have : m.val ∈ specFrontier g.nodes.length g.edges (specDone g.nodes.length g.edges L) :=
    (mem_specFrontier _ _ _ _).mpr ⟨m.isLt, hmS.1, hres⟩
  rw [hempty] at this
  cases this

/-- C16: for every well-formed graph, cyclic or not, the Kahn loop of `computeNodeBreadths`
returns, and for every node: the in-degree the loop keeps for the node ends at zero if and only
if the node is neither on a cycle nor reachable from a node on a cycle; such a node has been
written a level `j < L` and the node width; every other node has the layout it had before the
loop (the loop chooses no fallback level for it). -/
theorem kahn_levels_iff_no_cycle (g : Graph) (hwf : WellFormed g) (orient : Orient)
    (nodeWidth : JSNum) :
    ∃ L st, kahnLoop g.edges orient nodeWidth (g.nodes.length + 1) 0 (initialZeroIndegrees g)
        (kahnInit g) = some (L, st) ∧
      ∀ v, v < g.nodes.length →
        (st.indegreeArr[v]? = some 0 ↔ ¬ BelowCycle g v) ∧
        (¬ BelowCycle g v → ∃ j, j < L ∧
          nodeLayout st.nodes v = levelField orient nodeWidth j (nodeLayout g.nodes v)) ∧
        (BelowCycle g v → nodeLayout st.nodes v = nodeLayout g.nodes v) := by
  obtain ⟨L, st, hrun, _, hinv, hempty, _⟩ := kahnLoop_result g hwf orient nodeWidth
  refine ⟨L, st, hrun, ?_⟩
  intro v hv
  have hiff : v ∈ specDone g.nodes.length g.edges L ↔ ¬ BelowCycle g v := by
    constructor
    · exact not_belowCycle_of_mem_specDone g L v
    · intro h
      by_contra hnot
      exact h (belowCycle_of_not_mem_specDone g hwf L hempty v hv hnot)
  refine ⟨?_, ?_, ?_⟩
  · rw [← hiff, hinv.indeg v hv]
    constructor
    · intro h
      have h0 : residual g.edges (specDone g.nodes.length g.edges L) v = 0 := by
        have : ((residual g.edges (specDone g.nodes.length g.edges L) v : Nat) : Int) = 0 := by
          injection h
        exact_mod_cast this
      by_contra hnot
      have : v ∈ specFrontier g.nodes.length g.edges (specDone g.nodes.length g.edges L) :=
        (mem_specFrontier _ _ _ _).mpr ⟨hv, hnot, h0⟩
      rw [hempty] at this
      cases this
    · intro h
      rw [residual_specDone_of_mem _ _ h]
      rfl
  · intro h
    obtain ⟨j, hj, hvj⟩ := (mem_specDone _ _ _ _).mp (hiff.mpr h)
    exact ⟨j, hj, hinv.levelled j hj v hvj⟩
  · intro h
    exact hinv.untouched v (fun hc => hiff.mp hc h)

theorem kahn_levels_iff_no_cycle_witness :
    ∃ L st, kahnLoop tailedCycle.edges Orient.horizontal (JSNum.fin 20)
        (tailedCycle.nodes.length + 1) 0 (initialZeroIndegrees tailedCycle)
        (kahnInit tailedCycle) = some (L, st) ∧
      ∀ v, v < tailedCycle.nodes.length →
        (st.indegreeArr[v]? = some 0 ↔ ¬ BelowCycle tailedCycle v) ∧
        (¬ BelowCycle tailedCycle v → ∃ j, j < L ∧
          nodeLayout st.nodes v =
            levelField Orient.horizontal (JSNum.fin 20) j (nodeLayout tailedCycle.nodes v)) ∧
        (BelowCycle tailedCycle v → nodeLayout st.nodes v = nodeLayout tailedCycle.nodes v) :=
  kahn_levels_iff_no_cycle tailedCycle ⟨by decide, by decide, by decide, by decide⟩
    Orient.horizontal (JSNum.fin 20)

/-- The loop on `tailedCycle` evaluated: one round, in which only the source D is given a level
(0); the nodes A and B of the cycle and the node C below it keep in-degrees 1, 1, 1 and an
unwritten breadth coordinate.  After the loop `moveSinksRight` still writes `L - 1 = 0` to the
sink C. -/
theorem kahn_tailedCycle :
    (kahnLoop tailedCycle.edges Orient.horizontal (JSNum.fin 20)
        (tailedCycle.nodes.length + 1) 0 (initialZeroIndegrees tailedCycle)
        (kahnInit tailedCycle)).map
        (fun r => (r.1, r.2.indegreeArr, r.2.nodes.map (fun nd => nd.layout.x))) =
      some (1, [1, 1, 1, 0], [JSNum.nan, JSNum.nan, JSNum.nan, JSNum.fin 0]) ∧
    (computeNodeLevels tailedCycle (JSNum.fin 20) Orient.horizontal).map
        (fun r => r.2.map (fun nd => nd.layout.x)) =
      some [JSNum.nan, JSNum.nan, JSNum.fin 0, JSNum.fin 0] := by
  refine ⟨by decide!, by decide!⟩

/-! ## After the collision resolution a group that fits lies inside the extent -/

theorem sum_map_add_const (s : Nat → ℚ) (γ : ℚ) (l : List Nat) :
    (l.map (fun v => s v + γ)).sum = (l.map s).sum + (l.length : ℚ) * γ := by
  induction l with
  | nil => simp
  | cons a l ih =>
    simp only [List.map_cons, List.sum_cons, List.length_cons, Nat.cast_add, Nat.cast_one, ih]
    ring

theorem sum_map_add_const_nonneg (s : Nat → ℚ) (γ : ℚ) (hγ : 0 ≤ γ) (l : List Nat)
    (hs : ∀ v ∈ l, 0 ≤ s v) : 0 ≤ (l.map (fun v => s v + γ)).sum := by
  apply List.sum_nonneg
  intro x hx
  obtain ⟨v, hv, rfl⟩ := List.mem_map.mp hx
  linarith [hs v hv]

/-- In a list of nodes stacked from the last to the first with non-negative coordinates, the
first node lies below the room that the nodes after it need. -/
theorem room_le_head (s c : Nat → ℚ) (γ : ℚ) (l : List Nat) :
    ∀ v, (v :: l).Chain' (fun a b => c b + s b + γ ≤ c a) → (∀ u ∈ v :: l, 0 ≤ c u) →
      (l.map (fun u => s u + γ)).sum ≤ c v := by
  induction l with
  | nil =>
    intro v _ hpos
    simpa using hpos v (List.mem_cons_self _ _)
  | cons b l ih =>
    intro v hch hpos
    rw [List.chain'_cons] at hch
    have := ih b hch.2 (fun u hu => hpos u (List.mem_cons_of_mem _ hu))
    simp only [List.map_cons, List.sum_cons]
    linarith [hch.1]

/-- The second loop of `resolveCollisions` on nodes that the first loop has stacked at
non-negative coordinates, with a ceiling that leaves room for all of them: every node ends at
a non-negative coordinate and below the ceiling. -/
theorem pushUp_fold_inside (orient : Orient) (γ : ℚ) (hγ : 0 ≤ γ) (s c : Nat → ℚ)
    (l : List Nat) :
    ∀ (nodes : List Node) (y0 : ℚ), l.Nodup → (∀ v ∈ l, v < nodes.length) →
      (∀ v ∈ l, coordOf orient nodes v = JSNum.fin (c v)) →
      (∀ v ∈ l, sizeOf orient nodes v = JSNum.fin (s v) ∧ 0 ≤ s v) →
      l.Chain' (fun a b => c b + s b + γ ≤ c a) → (∀ v ∈ l, 0 ≤ c v) →
      (l.map (fun v => s v + γ)).sum ≤ y0 →
      ∀ v ∈ l, ∃ c', coordOf orient
          (l.foldl (pushUp orient (JSNum.fin γ)) (nodes, JSNum.fin y0)).1 v = JSNum.fin c' ∧
        0 ≤ c' ∧ c' + s v + γ ≤ y0 := by
  induction l with
  | nil => intro nodes y0 _ _ _ _ _ _ _ v hv; cases hv
  | cons u l ih =>
    intro nodes y0 hnd hlt hco hsz hch hpos hsum v hv
    rw [List.nodup_cons] at hnd
    have hu : u ∈ u :: l := List.mem_cons_self _ _
    obtain ⟨nodes1, hstep, hlen1, hsz1, hco1, hcu1⟩ := pushUp_eq orient γ y0 (c u) (s u) nodes u
      (hlt u hu) (hco u hu) (hsz u hu).1
    have hne : ∀ w ∈ l, w ≠ u := fun w hw hwu => hnd.1 (hwu ▸ hw)
    have hroom := room_le_head s c γ l u hch hpos
    have hsum' : (l.map (fun v => s v + γ)).sum ≤ min (c u) (y0 - s u - γ) := by
      simp only [List.map_cons, List.sum_cons] at hsum
      exact le_min hroom (by linarith)
    have hnn := sum_map_add_const_nonneg s γ hγ l
      (fun w hw => (hsz w (List.mem_cons_of_mem _ hw)).2)
    rw [List.foldl_cons, hstep]
    rcases List.mem_cons.mp hv with h | h
    · subst h
      obtain ⟨_, _, f3⟩ := foldl_pushUp_frame orient (JSNum.fin γ) l
        (nodes1, JSNum.fin (min (c v) (y0 - s v - γ)))
      refine ⟨min (c v) (y0 - s v - γ), ?_, le_trans hnn hsum', ?_⟩
      · rw [f3 v hnd.1]
        exact hcu1
      · have := min_le_right (c v) (y0 - s v - γ)
        linarith
    · obtain ⟨c', h1, h2, h3⟩ := ih nodes1 (min (c u) (y0 - s u - γ)) hnd.2
        (fun w hw => by rw [hlen1]; exact hlt w (List.mem_cons_of_mem _ hw))
        (fun w hw => by rw [hco1 w (hne w hw)]; exact hco w (List.mem_cons_of_mem _ hw))
        (fun w hw => by rw [hsz1]; exact hsz w (List.mem_cons_of_mem _ hw))
        (List.Chain'.tail hch) (fun w hw => hpos w (List.mem_cons_of_mem _ hw)) hsum' v h
      refine ⟨c', h1, h2, ?_⟩
      have := min_le_right (c u) (y0 - s u - γ)
      linarith [(hsz u hu).2]

/-- In a list of nodes stacked from the first to the last, every node ends before the end of
the last one. -/
theorem end_le_last (s c : Nat → ℚ) (γ : ℚ) (hγ : 0 ≤ γ) (l : List Nat)
    (hs : ∀ v ∈ l, 0 ≤ s v) (hch : l.Chain' (fun a b => c a + s a + γ ≤ c b)) (z : Nat)
    (hz : l.getLast? = some z) : ∀ v ∈ l, c v + s v ≤ c z + s z := by
  induction l with
  | nil => intro v hv; cases hv
  | cons a l ih =>
    intro v hv
    cases l with
    | nil =>
      simp only [List.getLast?_singleton, Option.some.injEq] at hz
      rw [List.mem_singleton.mp hv, hz]
    | cons b l =>
      rw [List.chain'_cons] at hch
      have hz' : (b :: l).getLast? = some z := by
        rw [List.getLast?_cons_cons] at hz
        exact hz
      have hb := ih (fun w hw => hs w (List.mem_cons_of_mem _ hw)) hch.2 hz'
      rcases List.mem_cons.mp hv with h | h
      · subst h
        have := hb b (List.mem_cons_self _ _)
        linarith [hch.1, hs b (List.mem_cons_of_mem _ (List.mem_cons_self _ _))]
      · exact hb v h

/-- The body of `resolveCollisions` for one group of distinct nodes with finite coordinates and
non-negative finite sizes that fits the extent: every node of the group ends inside the
extent. -/
theorem resolveGroup_inside (orient : Orient) (γ E : ℚ) (hγ : 0 ≤ γ) (s : Nat → ℚ)
    (nodes : List Node) (grp : List Nat) (hnd : grp.Nodup) (hlt : ∀ v ∈ grp, v < nodes.length)
    (hfin : ∀ v ∈ grp, ∃ y, coordOf orient nodes v = JSNum.fin y)
    (hsz : ∀ v ∈ grp, sizeOf orient nodes v = JSNum.fin (s v) ∧ 0 ≤ s v)
    (hfit : (grp.map s).sum + ((grp.length : ℚ) - 1) * γ ≤ E)
    (r : List Nat × List Node)
    (hr : resolveGroup orient (JSNum.fin γ) (JSNum.fin E) nodes grp = some r) :
    ∀ v ∈ grp, ∃ c, coordOf orient r.2 v = JSNum.fin c ∧ 0 ≤ c ∧ c + s v ≤ E := by
  have hperm := jsSort_perm (fun a b => (coordOf orient nodes a).sub (coordOf orient nodes b)) grp
  unfold resolveGroup at hr
  simp only at hr
  generalize jsSort (fun a b => (coordOf orient nodes a).sub (coordOf orient nodes b)) grp =
    sorted at hperm hr
  have hmem : ∀ v, v ∈ sorted ↔ v ∈ grp := fun v => hperm.mem_iff
  have hsnd : sorted.Nodup := hperm.nodup_iff.mpr hnd
  obtain ⟨nodes1, Y, hfold, hlen1, hsz1, hco1, hnil1, hge1, hlast1, hchain1⟩ :=
    pushDown_fold orient γ hγ s sorted nodes 0 hsnd
      (fun v hv => hlt v ((hmem v).mp hv)) (fun v hv => hfin v ((hmem v).mp hv))
      (fun v hv => hsz v ((hmem v).mp hv))
  have hc1 : ∀ v ∈ sorted, coordOf orient nodes1 v = JSNum.fin (coordOf orient nodes1 v).toRat ∧
      0 ≤ (coordOf orient nodes1 v).toRat := by
    intro v hv
    obtain ⟨c, hc, h0⟩ := hge1 v hv
    rw [hc]
    exact ⟨rfl, h0⟩
  have hchQ : sorted.Chain' (fun a b => (coordOf orient nodes1 a).toRat + s a + γ ≤
      (coordOf orient nodes1 b).toRat) := by
    refine hchain1.imp ?_
    rintro a b ⟨ca, cb, h1, h2, h3⟩
    rw [h1, h2]
    exact h3
  have hs0 : ∀ v ∈ sorted, 0 ≤ s v := fun v hv => (hsz v ((hmem v).mp hv)).2
  rw [hfold] at hr
  simp only [jsSub_fin, jsGt_fin] at hr
  by_cases hdy : 0 < Y - γ - E
  · rw [if_pos (by simpa using hdy)] at hr
    cases hrev : sorted.reverse with
    | nil => rw [hrev] at hr; cases hr
    | cons last rest =>
      rw [hrev] at hr
      simp only [Option.some.injEq] at hr
      have hsorted : sorted = rest.reverse ++ [last] := by
        have := congrArg List.reverse hrev
        rw [List.reverse_reverse] at this
        rw [this, List.reverse_cons]
      have hnd' : (last :: rest).Nodup := by
        rw [← hrev, List.nodup_reverse]
        exact hsnd
      rw [List.nodup_cons] at hnd'
      have hmem' : ∀ v, v ∈ last :: rest ↔ v ∈ sorted := by
        intro v
        rw [← hrev, List.mem_reverse]
      have hlasts : last ∈ sorted := (hmem' last).mp (List.mem_cons_self _ _)
      have hrests : ∀ v ∈ rest, v ∈ sorted := fun v hv =>
        (hmem' v).mp (List.mem_cons_of_mem _ hv)
      have hgl : sorted.getLast? = some last := by
        rw [hsorted]
        simp
      obtain ⟨cl, hcl, hY⟩ := hlast1 last hgl
      rw [hcl, jsSub_fin] at hr
      have hne : ∀ w ∈ rest, w ≠ last := fun w hw hwl => hnd'.1 (hwl ▸ hw)
      have hsumeq : (grp.map s).sum = s last + (rest.map s).sum := by
        rw [← (hperm.map s).sum_eq, hsorted]
        simp only [List.map_append, List.map_reverse, List.sum_append, List.sum_reverse,
          List.map_cons, List.map_nil, List.sum_cons, List.sum_nil]
        ring
      have hleneq : (grp.length : ℚ) = (rest.length : ℚ) + 1 := by
        rw [← hperm.length_eq, hsorted]
        simp
      have hrestsum : (rest.map (fun v => s v + γ)).sum ≤ cl - (Y - γ - E) := by
        rw [sum_map_add_const, hY]
        rw [hsumeq, hleneq] at hfit
        linarith
      have hrevch : (last :: rest).Chain' (fun a b => (coordOf orient nodes1 b).toRat + s b + γ ≤
          (coordOf orient nodes1 a).toRat) := by
        rw [← hrev, List.chain'_reverse]
        exact hchQ
      have hlen2 : (setCoord orient nodes1 last (JSNum.fin (cl - (Y - γ - E)))).length =
          nodes.length := by rw [length_setCoord, hlen1]
      have hinside := pushUp_fold_inside orient γ hγ s
        (fun v => (coordOf orient nodes1 v).toRat) rest
        (setCoord orient nodes1 last (JSNum.fin (cl - (Y - γ - E)))) (cl - (Y - γ - E)) hnd'.2
        (fun v hv => by rw [hlen2]; exact hlt v ((hmem v).mp (hrests v hv)))
        (fun v hv => by
          rw [coordOf_setCoord, if_neg (fun hc => hne v hv hc.1.symm)]
          exact (hc1 v (hrests v hv)).1)
        (fun v hv => by
          rw [sizeOf_setCoord, hsz1]
          exact hsz v ((hmem v).mp (hrests v hv)))
        (List.Chain'.tail hrevch) (fun v hv => (hc1 v (hrests v hv)).2) hrestsum
      obtain ⟨_, _, f3⟩ := foldl_pushUp_frame orient (JSNum.fin γ) rest
        (setCoord orient nodes1 last (JSNum.fin (cl - (Y - γ - E))),
          JSNum.fin (cl - (Y - γ - E)))
      rw [← hr]
      intro v hv
      rcases List.mem_cons.mp ((hmem' v).mpr ((hmem v).mpr hv)) with h | h
      · subst h
        refine ⟨cl - (Y - γ - E), ?_, ?_, ?_⟩
        · rw [f3 v hnd'.1, coordOf_setCoord, if_pos ⟨rfl, by
            rw [hlen1]; exact hlt v hv⟩]
        · have := sum_map_add_const_nonneg s γ hγ rest (fun w hw => hs0 w (hrests w hw))
          linarith
        · rw [hY]
          linarith
      · obtain ⟨c', h1, h2, h3⟩ := hinside v h
        refine ⟨c', h1, h2, ?_⟩
        have := hs0 last hlasts
        rw [hY] at h3
        linarith
  · rw [if_neg (by simpa using hdy)] at hr
    simp only [Option.some.injEq] at hr
    rw [← hr]
    intro v hv
    have hvs := (hmem v).mpr hv
    refine ⟨(coordOf orient nodes1 v).toRat, (hc1 v hvs).1, (hc1 v hvs).2, ?_⟩
    cases hgl : sorted.getLast? with
    | none =>
      rw [List.getLast?_eq_none_iff] at hgl
      rw [hgl] at hvs
      cases hvs
    | some z =>
      obtain ⟨cz, hcz, hY⟩ := hlast1 z hgl
      have := end_le_last s (fun v => (coordOf orient nodes1 v).toRat) γ hγ sorted hs0 hchQ z
        hgl v hvs
      simp only at this
      rw [hcz] at this
      have hz : (JSNum.fin cz).toRat = cz := rfl
      rw [hz] at this
      push_neg at hdy
      linarith

/-- C17: for every group of distinct nodes with non-negative finite sizes, gap `>= 0` and
arbitrary finite starting coordinates, among groups none of which is empty and none of which
holds a node of the group, if the sum of the sizes plus `(n - 1) * gap` does not exceed the
extent, then `resolveCollisions` returns and every node of the group lies inside the extent:
`0 <= coord` and `coord + size <= extent`. -/
theorem resolveCollisions_inside (nodesByBreadth : List (List Nat)) (nodes : List Node)
    (height width : JSNum) (orient : Orient) (γ E : ℚ) (s : Nat → ℚ) (i : Nat)
    (grp : List Nat)
    (hE : secondaryExtent orient width height = JSNum.fin E) (hγ : 0 ≤ γ)
    (hi : nodesByBreadth[i]? = some grp)
    (hne : ∀ g ∈ nodesByBreadth, g ≠ [])
    (hdisj : ∀ j g, j ≠ i → nodesByBreadth[j]? = some g → ∀ v ∈ grp, v ∉ g)
    (hnd : grp.Nodup) (hlt : ∀ v ∈ grp, v < nodes.length)
    (hfin : ∀ v ∈ grp, ∃ y, coordOf orient nodes v = JSNum.fin y)
    (hsz : ∀ v ∈ grp, sizeOf orient nodes v = JSNum.fin (s v) ∧ 0 ≤ s v)
    (hfit : (grp.map s).sum + ((grp.length : ℚ) - 1) * γ ≤ E) :
    ∃ (groups' : List (List Nat)) (nodes' : List Node),
      resolveCollisions nodesByBreadth nodes (JSNum.fin γ) height width orient =
        some (groups', nodes') ∧
      ∀ v ∈ grp, ∃ c, coordOf orient nodes' v = JSNum.fin c ∧
        sizeOf orient nodes' v = JSNum.fin (s v) ∧ 0 ≤ c ∧ c + s v ≤ E := by
  obtain ⟨r, nodesA, rB, hr, a1, a2, a3, a4, _, _, a7, a8⟩ :=
    resolveGroups_at orient (JSNum.fin γ) (JSNum.fin E) nodesByBreadth nodes i grp hi hne hdisj
  have hin := resolveGroup_inside orient γ E hγ s nodesA grp hnd
    (fun v hv => by rw [a1]; exact hlt v hv)
    (fun v hv => by rw [a3 v hv]; exact hfin v hv)
    (fun v hv => by rw [a2]; exact hsz v hv) hfit rB a4
  refine ⟨r.1, r.2, ?_, ?_⟩
  · unfold resolveCollisions
    rw [hE]
    exact hr
  · intro v hv
    obtain ⟨c, h1, h2, h3⟩ := hin v hv
    exact ⟨c, by rw [a8 v hv]; exact h1, by rw [a7]; exact (hsz v hv).1, h2, h3⟩

theorem resolveCollisions_inside_witness :
    ∃ (groups' : List (List Nat)) (nodes' : List Node),
      resolveCollisions [[0, 1, 2]] farNodes (JSNum.fin 8) (JSNum.fin 46) (JSNum.fin 300)
        Orient.horizontal = some (groups', nodes') ∧
      ∀ v ∈ [0, 1, 2], ∃ c, coordOf Orient.horizontal nodes' v = JSNum.fin c ∧
        sizeOf Orient.horizontal nodes' v = JSNum.fin ((fun _ => (10 : ℚ)) v) ∧ 0 ≤ c ∧
        c + (fun _ => (10 : ℚ)) v ≤ 46 :=
  resolveCollisions_inside [[0, 1, 2]] farNodes (JSNum.fin 46) (JSNum.fin 300)
    Orient.horizontal 8 46 (fun _ => 10) 0 [0, 1, 2] rfl (by norm_num) rfl (by decide)
    (fun j g hj hg => by
      cases j with
      | zero => exact absurd rfl hj
      | succ k => simp at hg)
    (by decide) (by decide)
    (fun v hv => by
      have h : v = 0 ∨ v = 1 ∨ v = 2 := by simpa using hv
      rcases h with h | h | h <;> subst h
      · exact ⟨50, by decide!⟩
      · exact ⟨60, by decide!⟩
      · exact ⟨70, by decide!⟩)
    (fun v hv => by
      have h : v = 0 ∨ v = 1 ∨ v = 2 := by simpa using hv
      rcases h with h | h | h <;> subst h <;> exact ⟨by decide!, by norm_num⟩)
    (by norm_num)

/-- The group of `farNodes` on an axis of extent 46 evaluated: the three nodes, which start
beyond the extent, end at 0, 18 and 36, stacked with the gap 8 and filling the extent. -/
theorem resolveCollisions_inside_example :
    (resolveCollisions [[0, 1, 2]] farNodes (JSNum.fin 8) (JSNum.fin 46) (JSNum.fin 300)
        Orient.horizontal).map (fun r => r.2.map (fun nd => nd.layout.y)) =
      some [JSNum.fin 0, JSNum.fin 18, JSNum.fin 36] := by
  decide!

/-! ## After the first placement every group fits the extent -/

/-- The shared scale of `initializeNodeDepth` is the least of the candidate scales of the
groups, when every group has finite values with a positive sum. -/
theorem sharedKy_min (nodes : List Node) (nodesByBreadth : List (List Nat)) (val : Nat → ℚ)
    (E γ : ℚ) (hne : nodesByBreadth ≠ [])
    (hval : ∀ grp ∈ nodesByBreadth, ∀ v ∈ grp, (nodeLayout nodes v).value = JSNum.fin (val v))
    (hpos : ∀ grp ∈ nodesByBreadth, 0 < (grp.map val).sum) :
    ∃ ky : ℚ, sharedKy nodes nodesByBreadth (JSNum.fin E) (JSNum.fin γ) = JSNum.fin ky ∧
      (∃ grp ∈ nodesByBreadth, ky = (E - ((grp.length : ℚ) - 1) * γ) / (grp.map val).sum) ∧
      ∀ grp ∈ nodesByBreadth, ky ≤ (E - ((grp.length : ℚ) - 1) * γ) / (grp.map val).sum := by
  have hky : ∀ grp ∈ nodesByBreadth, groupKy nodes (JSNum.fin E) (JSNum.fin γ) grp =
      JSNum.fin ((E - ((grp.length : ℚ) - 1) * γ) / (grp.map val).sum) :=
    fun grp hg => groupKy_eq nodes val E γ grp (hval grp hg) (hpos grp hg)
  have hfin : ∀ a ∈ nodesByBreadth.map (groupKy nodes (JSNum.fin E) (JSNum.fin γ)),
      a = JSNum.fin a.toRat := by
    intro a ha
    obtain ⟨grp, hg, rfl⟩ := List.mem_map.mp ha
    rw [hky grp hg]
    rfl
  obtain ⟨m, rest, hsort, hm, hmin⟩ := jsSort_head_min _ hfin (by simpa using hne)
  refine ⟨m.toRat, ?_, ?_, ?_⟩
  · unfold sharedKy
    rw [hsort]
    exact hfin m hm
  · obtain ⟨grp, hg, hgm⟩ := List.mem_map.mp hm
    refine ⟨grp, hg, ?_⟩
    rw [← hgm, hky grp hg]
    rfl
  · intro grp hg
    have := hmin _ (List.mem_map.mpr ⟨grp, hg, rfl⟩)
    rw [hky grp hg] at this
    exact this

theorem sizeOf_relaxRightToLeft (groups : List (List Nat)) (nodes : List Node)
    (edges : List Edge) (alpha : JSNum) (orient : Orient) (w : Nat) :
    sizeOf orient (relaxRightToLeft groups nodes edges alpha orient) w = sizeOf orient nodes w := by
  rw [relaxRightToLeft_eq_foldl]
  exact (foldl_keeps orient (relaxNodeRight orient edges alpha)
    (relaxNodeRight_keeps orient edges alpha) _ nodes).2.1 w

theorem sizeOf_relaxLeftToRight (groups : List (List Nat)) (nodes : List Node)
    (edges : List Edge) (alpha : JSNum) (orient : Orient) (w : Nat) :
    sizeOf orient (relaxLeftToRight groups nodes edges alpha orient) w = sizeOf orient nodes w := by
  rw [relaxLeftToRight_eq_foldl]
  exact (foldl_keeps orient (relaxNodeLeft orient edges alpha)
    (relaxNodeLeft_keeps orient edges alpha) _ nodes).2.1 w

theorem sizeOf_relaxLoop (edges : List Edge) (nodeGap height width : JSNum) (orient : Orient)
    (iterations : Nat) :
    ∀ (alpha : JSNum) (groups : List (List Nat)) (nodes : List Node)
      (r : List (List Nat) × List Node),
      relaxLoop edges nodeGap height width orient iterations alpha groups nodes = some r →
      ∀ w, sizeOf orient r.2 w = sizeOf orient nodes w := by
  induction iterations with
  | zero =>
    intro alpha groups nodes r hr w
    simp only [relaxLoop, Option.some.injEq] at hr
    rw [← hr]
  | succ k ih =>
    intro alpha groups nodes r hr w
    unfold relaxLoop resolveCollisions at hr
    simp only at hr
    cases h1 : resolveGroups orient nodeGap (secondaryExtent orient width height) groups
        (relaxRightToLeft groups nodes edges (alpha.mul (JSNum.fin (99 / 100))) orient) with
    | none => rw [h1] at hr; cases hr
    | some q1 =>
      rw [h1] at hr
      simp only at hr
      cases h2 : resolveGroups orient nodeGap (secondaryExtent orient width height) q1.1
          (relaxLeftToRight q1.1 q1.2 edges (alpha.mul (JSNum.fin (99 / 100))) orient) with
      | none => rw [h2] at hr; cases hr
      | some q2 =>
        rw [h2] at hr
        simp only at hr
        rw [ih _ _ _ r hr w, (resolveGroups_keeps _ _ _ _ _ _ h2).2.1 w,
          sizeOf_relaxLeftToRight, (resolveGroups_keeps _ _ _ _ _ _ h1).2.1 w,
          sizeOf_relaxRightToLeft]

/-- The sizes that `initializeNodeDepth` writes are the sizes at the end of
`computeNodeDepths`: the collision resolutions and the sweeps only move nodes. -/
theorem sizeOf_computeNodeDepths (g : Graph) (height width nodeGap : JSNum) (iterations : Nat)
    (orient : Orient) (d : Graph)
    (hd : computeNodeDepths g height width nodeGap iterations orient = some d) (w : Nat) :
    sizeOf orient d.nodes w = sizeOf orient (initializeNodeDepth g
      (prepareNodesByBreadth g.nodes orient) height width nodeGap orient).nodes w := by
  unfold computeNodeDepths resolveCollisions at hd
  simp only at hd
  cases h1 : resolveGroups orient nodeGap (secondaryExtent orient width height)
      (prepareNodesByBreadth g.nodes orient)
      (initializeNodeDepth g (prepareNodesByBreadth g.nodes orient) height width nodeGap
        orient).nodes with
  | none => rw [h1] at hd; cases hd
  | some q1 =>
    rw [h1] at hd
    simp only at hd
    cases h2 : relaxLoop (initializeNodeDepth g (prepareNodesByBreadth g.nodes orient) height
        width nodeGap orient).edges nodeGap height width orient iterations (JSNum.fin 1) q1.1
        q1.2 with
    | none => rw [h2] at hd; cases hd
    | some q2 =>
      rw [h2] at hd
      simp only [Option.some.injEq] at hd
      rw [← hd]
      show sizeOf orient q2.2 w = _
      rw [sizeOf_relaxLoop _ _ _ _ _ _ _ _ _ _ h2 w, (resolveGroups_keeps _ _ _ _ _ _ h1).2.1 w]

/-- C18: after `initializeNodeDepth`, provided every group has finite values with a positive
sum and the extent is at least `(size(g) - 1) * gap` for every group `g`, the shared scale is
not negative, every node of a group has the depth size `value * scale`, and every group fits
the axis: the sum of the depth sizes of its nodes plus `(size(g) - 1) * gap` is at most the
extent, with equality for the group that attains the minimum scale.  In the pipeline the sizes
stay as they are until the end of `computeNodeDepths`, so the groups fit the axis at every
collision resolution. -/
theorem initializeNodeDepth_fits (g : Graph) (nodesByBreadth : List (List Nat))
    (height width : JSNum) (orient : Orient) (val : Nat → ℚ) (E γ : ℚ)
    (hne : nodesByBreadth ≠ [])
    (hE : secondaryExtent orient width height = JSNum.fin E)
    (hlt : ∀ grp ∈ nodesByBreadth, ∀ v ∈ grp, v < g.nodes.length)
    (hval : ∀ grp ∈ nodesByBreadth, ∀ v ∈ grp, (nodeLayout g.nodes v).value = JSNum.fin (val v))
    (hpos : ∀ grp ∈ nodesByBreadth, 0 < (grp.map val).sum)
    (hroom : ∀ grp ∈ nodesByBreadth, ((grp.length : ℚ) - 1) * γ ≤ E) :
    ∃ ky : ℚ, 0 ≤ ky ∧
      (∀ grp ∈ nodesByBreadth, ∀ v ∈ grp,
        sizeOf orient (initializeNodeDepth g nodesByBreadth height width (JSNum.fin γ)
          orient).nodes v = JSNum.fin (val v * ky)) ∧
      (∀ grp ∈ nodesByBreadth,
        (grp.map (fun v => val v * ky)).sum + ((grp.length : ℚ) - 1) * γ ≤ E) ∧
      (∃ grp ∈ nodesByBreadth,
        (grp.map (fun v => val v * ky)).sum + ((grp.length : ℚ) - 1) * γ = E) ∧
      (nodesByBreadth = prepareNodesByBreadth g.nodes orient →
        ∀ (iterations : Nat) (d : Graph),
          computeNodeDepths g height width (JSNum.fin γ) iterations orient = some d →
          ∀ grp ∈ nodesByBreadth, ∀ v ∈ grp,
            sizeOf orient d.nodes v = JSNum.fin (val v * ky)) := by
  obtain ⟨ky, hky, ⟨g0, hg0, hkyeq⟩, hkymin⟩ := sharedKy_min g.nodes nodesByBreadth val E γ hne
    hval hpos
  have hsize : ∀ grp ∈ nodesByBreadth, ∀ v ∈ grp,
      sizeOf orient (initializeNodeDepth g nodesByBreadth height width (JSNum.fin γ)
        orient).nodes v = JSNum.fin (val v * ky) := by
    intro grp hg v hv
    unfold sizeOf initializeNodeDepth
    simp only
    rw [secondarySize_placeGroups orient _ g.nodes nodesByBreadth v (hlt grp hg v hv)
      ⟨grp, hg, hv⟩, hE, hky, hval grp hg v hv, jsMul_fin]
  have hsum : ∀ grp : List Nat, (grp.map (fun v => val v * ky)).sum = (grp.map val).sum * ky :=
    fun grp => List.sum_map_mul_right grp val ky
  refine ⟨ky, ?_, hsize, ?_, ?_, ?_⟩
  · rw [hkyeq]
    exact div_nonneg (by linarith [hroom g0 hg0]) (le_of_lt (hpos g0 hg0))
  · intro grp hg
    rw [hsum]
    have h1 := hkymin grp hg
    have hp := hpos grp hg
    rw [le_div_iff₀ hp] at h1
    linarith
  · refine ⟨g0, hg0, ?_⟩
    rw [hsum, hkyeq, mul_div_cancel₀ _ (ne_of_gt (hpos g0 hg0))]
    ring
  · intro hprep iterations d hd grp hg v hv
    rw [sizeOf_computeNodeDepths g height width (JSNum.fin γ) iterations orient d hd v, ← hprep]
    exact hsize grp hg v hv

theorem initializeNodeDepth_fits_witness :
    ∃ ky : ℚ, 0 ≤ ky ∧
      (∀ grp ∈ prepareNodesByBreadth mergeLaidOut.nodes Orient.horizontal, ∀ v ∈ grp,
        sizeOf Orient.horizontal (initializeNodeDepth mergeLaidOut
          (prepareNodesByBreadth mergeLaidOut.nodes Orient.horizontal) (JSNum.fin 200)
          (JSNum.fin 300) (JSNum.fin 8) Orient.horizontal).nodes v =
          JSNum.fin ((fun v => if v = 2 then (4 : ℚ) else if v = 1 then 3 else 1) v * ky)) ∧
      (∀ grp ∈ prepareNodesByBreadth mergeLaidOut.nodes Orient.horizontal,
        (grp.map (fun v => (fun v => if v = 2 then (4 : ℚ) else if v = 1 then 3 else 1) v *
          ky)).sum + ((grp.length : ℚ) - 1) * 8 ≤ 200) ∧
      (∃ grp ∈ prepareNodesByBreadth mergeLaidOut.nodes Orient.horizontal,
        (grp.map (fun v => (fun v => if v = 2 then (4 : ℚ) else if v = 1 then 3 else 1) v *
          ky)).sum + ((grp.length : ℚ) - 1) * 8 = 200) ∧
      (prepareNodesByBreadth mergeLaidOut.nodes Orient.horizontal =
          prepareNodesByBreadth mergeLaidOut.nodes Orient.horizontal →
        ∀ (iterations : Nat) (d : Graph),
          computeNodeDepths mergeLaidOut (JSNum.fin 200) (JSNum.fin 300) (JSNum.fin 8)
            iterations Orient.horizontal = some d →
          ∀ grp ∈ prepareNodesByBreadth mergeLaidOut.nodes Orient.horizontal, ∀ v ∈ grp,
            sizeOf Orient.horizontal d.nodes v =
              JSNum.fin ((fun v => if v = 2 then (4 : ℚ) else if v = 1 then 3 else 1) v *
                ky)) :=
  initializeNodeDepth_fits mergeLaidOut
    (prepareNodesByBreadth mergeLaidOut.nodes Orient.horizontal) (JSNum.fin 200)
    (JSNum.fin 300) Orient.horizontal (fun v => if v = 2 then (4 : ℚ) else if v = 1 then 3 else 1)
    200 8 (by decide!) rfl (by decide!) (by decide!) (by decide!) (by decide!)

/-- Scenario B evaluated: the groups are `[A, B]` and `[C]`, the sizes after the first
placement are 48, 144 and 192, so the first group needs `48 + 144 + 8 = 200` and the second
`192`, on an axis of extent 200. -/
theorem initializeNodeDepth_fits_example :
    prepareNodesByBreadth mergeLaidOut.nodes Orient.horizontal = [[0, 1], [2]] ∧
    (initializeNodeDepth mergeLaidOut [[0, 1], [2]] (JSNum.fin 200) (JSNum.fin 300)
        (JSNum.fin 8) Orient.horizontal).nodes.map (fun nd => nd.layout.dy) =
      [JSNum.fin 48, JSNum.fin 144, JSNum.fin 192] := by
  refine ⟨by decide!, by decide!⟩

/-! ## The level of a node is the length of the longest path that ends at it -/

theorem pathTo_lt (g : Graph) (hwf : WellFormed g) {v k : Nat} (h : PathTo g v k) :
    v < g.nodes.length := by
  cases h with
  | start _ hv => exact hv
  | step u _ k _ he =>
    obtain ⟨ed, hed, _, h2⟩ := he
    rw [← h2]
    exact hwf.node2_lt ed hed

/-- A node of the frontier of round `j` ends a path with `j` edges. -/
theorem pathTo_of_mem_specFrontier (g : Graph) :
    ∀ (j v : Nat),
      v ∈ specFrontier g.nodes.length g.edges (specDone g.nodes.length g.edges j) →
      PathTo g v j := by
  intro j
  induction j with
  | zero =>
    intro v hv
    exact PathTo.start v ((mem_specFrontier _ _ _ _).mp hv).1
  | succ j ih =>
    intro v hv
    obtain ⟨hlt, hnot, hres⟩ := (mem_specFrontier _ _ _ _).mp hv
    have hnotj : v ∉ specDone g.nodes.length g.edges j := fun hc =>
      hnot (specDone_mono _ _ (Nat.le_succ j) hc)
    have hnf : v ∉ specFrontier g.nodes.length g.edges (specDone g.nodes.length g.edges j) := by
      intro hc
      apply hnot
      rw [specDone_succ]
      exact List.mem_append_right _ hc
    have hresj : residual g.edges (specDone g.nodes.length g.edges j) v ≠ 0 := fun hc =>
      hnf ((mem_specFrontier _ _ _ _).mpr ⟨hlt, hnotj, hc⟩)
    rw [Ne, residual_eq_zero] at hresj
    push_neg at hresj
    obtain ⟨ed, hed, h2, h1⟩ := hresj
    have hdone := (residual_eq_zero _ _ _).mp hres ed hed h2
    rw [specDone_succ, List.mem_append] at hdone
    rcases hdone with hdone | hdone
    · exact absurd hdone h1
    · exact PathTo.step ed.node1 v j (ih ed.node1 hdone) ⟨ed, hed, rfl, h2⟩

/-- C19: for every acyclic well-formed graph, the level that the Kahn loop of
`computeNodeBreadths` writes to a node (before sink correction) is the number of edges of the
longest directed path that ends at the node, and for a graph with at least one node the number
of levels `L` is `1 +` the number of edges of the longest directed path of the graph. -/
theorem kahn_level_longest_path (g : Graph) (hwf : WellFormed g) (hac : Acyclic g)
    (orient : Orient) (nodeWidth : JSNum) :
    ∃ (L : Nat) (st : KahnState) (lvl : Nat → Nat),
      kahnLoop g.edges orient nodeWidth (g.nodes.length + 1) 0 (initialZeroIndegrees g)
        (kahnInit g) = some (L, st) ∧
      (∀ v, v < g.nodes.length →
        nodeLayout st.nodes v = levelField orient nodeWidth (lvl v) (nodeLayout g.nodes v) ∧
        PathTo g v (lvl v) ∧ ∀ k, PathTo g v k → k ≤ lvl v) ∧
      (g.nodes ≠ [] →
        1 ≤ L ∧ (∃ v, PathTo g v (L - 1)) ∧ ∀ v k, PathTo g v k → k ≤ L - 1) := by
  obtain ⟨L, st, hrun, _, _, _, hne, hall⟩ := kahnLoop_acyclic g hwf hac orient nodeWidth
  choose! lvl hlvl using hall
  have hmax : ∀ v k, PathTo g v k → k ≤ lvl v := by
    intro v k hp
    induction hp with
    | start v hv => exact Nat.zero_le _
    | step u v k hp he ih =>
      have hu := pathTo_lt g hwf hp
      have hv : v < g.nodes.length := by
        obtain ⟨ed, hed, _, h2⟩ := he
        rw [← h2]
        exact hwf.node2_lt ed hed
      obtain ⟨i, hi, hui⟩ := round_lt_of_edge g he (hlvl v hv).2.1
      have := specFrontier_round_unique _ _ hui (hlvl u hu).2.1
      omega
  refine ⟨L, st, lvl, hrun, ?_, ?_⟩
  · intro v hv
    exact ⟨(hlvl v hv).2.2, pathTo_of_mem_specFrontier g (lvl v) v (hlvl v hv).2.1, hmax v⟩
  · intro hnodes
    have h0 : 0 < g.nodes.length := List.length_pos.mpr hnodes
    have hL : 1 ≤ L := by
      have := (hlvl 0 h0).1
      omega
    refine ⟨hL, ?_, ?_⟩
    · have hfr := hne (L - 1) (by omega)
      obtain ⟨v, hv⟩ := List.exists_mem_of_ne_nil _ hfr
      exact ⟨v, pathTo_of_mem_specFrontier g (L - 1) v hv⟩
    · intro v k hp
      have := hmax v k hp
      have := (hlvl v (pathTo_lt g hwf hp)).1
      omega

theorem kahn_level_longest_path_witness :
    ∃ (L : Nat) (st : KahnState) (lvl : Nat → Nat),
      kahnLoop chainGraph.edges Orient.horizontal (JSNum.fin 20) (chainGraph.nodes.length + 1) 0
        (initialZeroIndegrees chainGraph) (kahnInit chainGraph) = some (L, st) ∧
      (∀ v, v < chainGraph.nodes.length →
        nodeLayout st.nodes v =
          levelField Orient.horizontal (JSNum.fin 20) (lvl v) (nodeLayout chainGraph.nodes v) ∧
        PathTo chainGraph v (lvl v) ∧ ∀ k, PathTo chainGraph v k → k ≤ lvl v) ∧
      (chainGraph.nodes ≠ [] →
        1 ≤ L ∧ (∃ v, PathTo chainGraph v (L - 1)) ∧
          ∀ v k, PathTo chainGraph v k → k ≤ L - 1) :=
  kahn_level_longest_path chainGraph wellFormed_chainGraph acyclic_chainGraph Orient.horizontal
    (JSNum.fin 20)

/-- The loop on the chain A -> B -> C evaluated: three rounds, the levels 0, 1 and 2; the
longest path, A -> B -> C, has two edges. -/
theorem kahn_chainGraph :
    (kahnLoop chainGraph.edges Orient.horizontal (JSNum.fin 20) (chainGraph.nodes.length + 1) 0
        (initialZeroIndegrees chainGraph) (kahnInit chainGraph)).map
        (fun r => (r.1, r.2.nodes.map (fun nd => nd.layout.x))) =
      some (3, [JSNum.fin 0, JSNum.fin 1, JSNum.fin 2]) ∧
    PathTo chainGraph 2 2 := by
  refine ⟨by decide!, ?_⟩
  exact PathTo.step 1 2 1
    (PathTo.step 0 1 0 (PathTo.start 0 (by decide)) ⟨_, List.mem_cons_self _ _, rfl, rfl⟩)
    ⟨_, List.mem_cons_of_mem _ (List.mem_cons_self _ _), rfl, rfl⟩

/-! ## Termination of the Kahn loop -/

theorem kahnFrontiers_nil (edges : List Edge) (orient : Orient) (nodeWidth : JSNum)
    (fuel x : Nat) (st : KahnState) : kahnFrontiers edges orient nodeWidth fuel x [] st = [] := by
  cases fuel <;> rfl

/-- More rounds than the loop needs change nothing. -/
theorem kahnLoop_fuel_mono (edges : List Edge) (orient : Orient) (nodeWidth : JSNum) :
    ∀ (fuel x : Nat) (zs : List Nat) (st : KahnState) (r : Nat × KahnState),
      kahnLoop edges orient nodeWidth fuel x zs st = some r →
      ∀ fuel', fuel ≤ fuel' → kahnLoop edges orient nodeWidth fuel' x zs st = some r := by
  intro fuel
  induction fuel with
  | zero =>
    intro x zs st r h fuel' _
    cases zs with
    | nil =>
      rw [kahnLoop_nil] at h ⊢
      exact h
    | cons v vs => simp [kahnLoop] at h
  | succ fuel ih =>
    intro x zs st r h fuel' hle
    cases zs with
    | nil =>
      rw [kahnLoop_nil] at h ⊢
      exact h
    | cons v vs =>
      obtain ⟨f, rfl⟩ : ∃ f, fuel' = f + 1 := ⟨fuel' - 1, by omega⟩
      simp only [kahnLoop] at h ⊢
      exact ih _ _ _ r h f (by omega)

/-- The rounds of the Kahn loop of a well-formed graph: their number is the number of levels,
no node is in two of them or twice in one, and they hold nodes of the graph. -/
theorem kahnFrontiers_inv (g : Graph) (hwf : WellFormed g) (orient : Orient)
    (nodeWidth : JSNum) :
    ∀ (fuel k : Nat) (zs : List Nat) (st : KahnState) (L : Nat) (st' : KahnState),
      KahnInv g orient nodeWidth k zs st →
      kahnLoop g.edges orient nodeWidth fuel k zs st = some (L, st') →
      (kahnFrontiers g.edges orient nodeWidth fuel k zs st).length + k = L ∧
        (∀ l ∈ kahnFrontiers g.edges orient nodeWidth fuel k zs st, l ≠ []) ∧
        (kahnFrontiers g.edges orient nodeWidth fuel k zs st).flatten.Nodup ∧
        ∀ v ∈ (kahnFrontiers g.edges orient nodeWidth fuel k zs st).flatten, ∃ j, k ≤ j ∧
          v ∈ specFrontier g.nodes.length g.edges (specDone g.nodes.length g.edges j) := by
  intro fuel
  induction fuel with
  | zero =>
    intro k zs st L st' hinv hrun
    cases zs with
    | nil =>
      rw [kahnLoop_nil] at hrun
      cases hrun
      rw [kahnFrontiers_nil]
      refine ⟨by simp, (fun l hl => by cases hl), by simp, (fun v hv => by simp at hv)⟩
    | cons v vs => simp [kahnLoop] at hrun
  | succ fuel ih =>
    intro k zs st L st' hinv hrun
    cases zs with
    | nil =>
      rw [kahnLoop_nil] at hrun
      cases hrun
      rw [kahnFrontiers_nil]
      refine ⟨by simp, (fun l hl => by cases hl), by simp, (fun v hv => by simp at hv)⟩
    | cons v vs =>
      simp only [kahnLoop] at hrun
      have hstep := kahnInv_step g hwf orient nodeWidth k (v :: vs) st hinv
      obtain ⟨h1, h2, h3, h4⟩ := ih _ _ _ _ _ hstep hrun
      simp only [kahnFrontiers]
      refine ⟨?_, ?_, ?_, ?_⟩
      · rw [List.length_cons]
        exact (by omega : ∀ a : Nat, a + (k + 1) = L → a + 1 + k = L) _ h1
      · intro l hl
        rcases List.mem_cons.mp hl with hl | hl
        · rw [hl]
          exact List.cons_ne_nil _ _
        · exact h2 l hl
      · rw [List.flatten_cons, List.nodup_append]
        refine ⟨hinv.nodup, h3, ?_⟩
        intro w hw hw'
        obtain ⟨j, hj, hwj⟩ := h4 w hw'
        have := specFrontier_round_unique _ _ ((hinv.frontier w).mp hw) hwj
        omega
      · intro w hw
        rw [List.flatten_cons, List.mem_append] at hw
        rcases hw with hw | hw
        · exact ⟨k, le_rfl, (hinv.frontier w).mp hw⟩
        · obtain ⟨j, hj, hwj⟩ := h4 w hw
          exact ⟨j, by omega, hwj⟩

theorem length_le_flatten {α : Type} (ls : List (List α)) (h : ∀ l ∈ ls, l ≠ []) :
    ls.length ≤ ls.flatten.length := by
  induction ls with
  | nil => simp
  | cons l ls ih =>
    have hl : 0 < l.length := List.length_pos.mpr (h l (List.mem_cons_self _ _))
    have := ih (fun l' hl' => h l' (List.mem_cons_of_mem _ hl'))
    rw [List.flatten_cons, List.length_append, List.length_cons]
    omega

theorem length_le_of_nodup_lt (l : List Nat) (n : Nat) (hnd : l.Nodup) (hlt : ∀ v ∈ l, v < n) :
    l.length ≤ n := by
  have hsub : l ⊆ List.range n := fun v hv => List.mem_range.mpr (hlt v hv)
  have := (List.subperm_of_subset hnd hsub).length_le
  rwa [List.length_range] at this

/-- C20: for every well-formed graph, cyclic or not, the levelling loop of
`computeNodeBreadths` terminates: it returns within `n + 1` rounds (and more rounds change
nothing), no node enters the frontier twice, and the number of levels `L`, which is the number
of rounds with a frontier that is not empty, is at most the number `n` of nodes. -/
theorem kahn_terminates (g : Graph) (hwf : WellFormed g) (orient : Orient) (nodeWidth : JSNum) :
    ∃ L st, (∀ fuel, g.nodes.length + 1 ≤ fuel →
        kahnLoop g.edges orient nodeWidth fuel 0 (initialZeroIndegrees g) (kahnInit g) =
          some (L, st)) ∧
      (kahnFrontiers g.edges orient nodeWidth (g.nodes.length + 1) 0 (initialZeroIndegrees g)
        (kahnInit g)).length = L ∧
      (kahnFrontiers g.edges orient nodeWidth (g.nodes.length + 1) 0 (initialZeroIndegrees g)
        (kahnInit g)).flatten.Nodup ∧
      (∀ v ∈ (kahnFrontiers g.edges orient nodeWidth (g.nodes.length + 1) 0
        (initialZeroIndegrees g) (kahnInit g)).flatten, v < g.nodes.length) ∧
      L ≤ g.nodes.length := by
  obtain ⟨L, st, hrun, _⟩ := computeNodeLevels_isSome g nodeWidth orient
  obtain ⟨h1, h2, h3, h4⟩ := kahnFrontiers_inv g hwf orient nodeWidth _ 0 _ _ L st
    (kahnInv_init g hwf orient nodeWidth) hrun
  have hlt : ∀ v ∈ (kahnFrontiers g.edges orient nodeWidth (g.nodes.length + 1) 0
      (initialZeroIndegrees g) (kahnInit g)).flatten, v < g.nodes.length := by
    intro v hv
    obtain ⟨j, _, hvj⟩ := h4 v hv
    exact ((mem_specFrontier _ _ _ _).mp hvj).1
  refine ⟨L, st, fun fuel hf => kahnLoop_fuel_mono _ _ _ _ _ _ _ _ hrun fuel hf, by omega, h3,
    hlt, ?_⟩
  have := length_le_flatten _ h2
  have := length_le_of_nodup_lt _ _ h3 hlt
  omega

theorem kahn_terminates_witness :
    ∃ L st, (∀ fuel, tailedCycle.nodes.length + 1 ≤ fuel →
        kahnLoop tailedCycle.edges Orient.horizontal (JSNum.fin 20) fuel 0
          (initialZeroIndegrees tailedCycle) (kahnInit tailedCycle) = some (L, st)) ∧
      (kahnFrontiers tailedCycle.edges Orient.horizontal (JSNum.fin 20)
        (tailedCycle.nodes.length + 1) 0 (initialZeroIndegrees tailedCycle)
        (kahnInit tailedCycle)).length = L ∧
      (kahnFrontiers tailedCycle.edges Orient.horizontal (JSNum.fin 20)
        (tailedCycle.nodes.length + 1) 0 (initialZeroIndegrees tailedCycle)
        (kahnInit tailedCycle)).flatten.Nodup ∧
      (∀ v ∈ (kahnFrontiers tailedCycle.edges Orient.horizontal (JSNum.fin 20)
        (tailedCycle.nodes.length + 1) 0 (initialZeroIndegrees tailedCycle)
        (kahnInit tailedCycle)).flatten, v < tailedCycle.nodes.length) ∧
      L ≤ tailedCycle.nodes.length :=
  kahn_terminates tailedCycle ⟨by decide, by decide, by decide, by decide⟩ Orient.horizontal
    (JSNum.fin 20)

/-- The rounds evaluated: the chain A -> B -> C is levelled in the three rounds `[A]`, `[B]`,
`[C]`; the cyclic graph `tailedCycle` in the single round `[D]`. -/
theorem kahnFrontiers_example :
    kahnFrontiers chainGraph.edges Orient.horizontal (JSNum.fin 20)
        (chainGraph.nodes.length + 1) 0 (initialZeroIndegrees chainGraph)
        (kahnInit chainGraph) = [[0], [1], [2]] ∧
    kahnFrontiers tailedCycle.edges Orient.horizontal (JSNum.fin 20)
        (tailedCycle.nodes.length + 1) 0 (initialZeroIndegrees tailedCycle)
        (kahnInit tailedCycle) = [[3]] := by
  refine ⟨by decide!, by decide!⟩

end Sankey
